import Mathlib

/-! A verification development for `lib/btree.hh`.

The B+-tree of `btree.hh` is a pointer structure: nodes live on the C++ heap and refer
to each other through `parent_`, `next_` and the child references `e_[i].v_`.  The
embedding keeps this shape.  The heap is a list of cells, an address is an index into
it, `NULL` is `none`, `new` appends a cell and `delete` empties one.  Every member
function of the source is a function over the machine state `btree_type` (the fields
of the tree together with the heap and three call counters for the external hooks).

Undefined behaviour of the C++ program (a null or dangling dereference, a downcast to
the wrong node kind, an array index outside `0 .. fanout-1`) and a failing `assert`
are results of type `Fault`; the recursion of `insert_internal`, the `while` loops over
the leaf chain and the recursion of `delete_level` take a fuel argument and report
`Fault.out_of_fuel` when it runs out.

Integers: `nk_` of a node is a `short` and stays in `0 .. 8`; `nk_` of the tree is a
`size_t` that grows by one for each stored key.  Neither can wrap on a machine that
holds the tree in memory, so both are natural numbers.

Keys are natural numbers ordered by `<`; this stands for the key type of `PAIR` ordered
by the application comparator `static_appbase::pair_comp`.
-/

namespace Btree

/-! ## Results of running the code -/

/-- The ways a call can fail to return. -/
inductive Fault where
  | assert_fail
  | null_deref
  | bad_pointer
  | bad_cast
  | out_of_bounds
  | out_of_fuel
deriving DecidableEq, Repr

/-- `enum { order = 3 }` -/
def order : Nat := 3

/-- `static const int fanout = 2 * order + 2` (the same in both node kinds). -/
def fanout : Nat := 2 * order + 2

/-! ## The external collaborators -/

/-- Modelled from the spec: the `PAIR` template argument (its declaration is in
`appbase.hh`, which is not part of the sources).  The spec asks for a key field, a
mergeable value payload, `initialize()`, `reset()`, `merge(contribution)` and a `size()`
"reporting how many underlying contributions this pair aggregates".  The payload is the
sequence of contributions merged so far; the source also writes a `hash` field. -/
structure PAIR where
  key_ : Nat
  hash : Nat
  vals : List Nat
deriving DecidableEq, Repr

/-- Modelled from the spec: `PAIR::init()`, "establishing an empty/default state". -/
def PAIR.init (_p : PAIR) : PAIR := { key_ := 0, hash := 0, vals := [] }

/-- A default-constructed pair. -/
def PAIR.fresh : PAIR := { key_ := 0, hash := 0, vals := [] }

/-- Modelled from the spec: the merge hook `PAIR::map_value_insert(v)`, "merge one more
contribution". -/
def PAIR.map_value_insert (p : PAIR) (v : Nat) : PAIR := { p with vals := p.vals ++ [v] }

/-- Modelled from the spec: `PAIR::size()`, "how many underlying contributions this pair
aggregates". -/
def PAIR.size (p : PAIR) : Nat := p.vals.length

/-- Modelled from the spec: `xsearch::lower_bound(probe, array, count, comparator)
-> (position, found)` of `bsearch.hh` (not part of the sources), on the keys of the
first `count` entries of a sorted array: the position of the first key not less than the
probe, and whether that key equals the probe. -/
def xsearch_lower_bound (key : Nat) (keys : List Nat) : Nat × Bool :=
  let p := (keys.takeWhile (fun x => decide (x < key))).length
  (p, decide (keys[p]? = some key))

/-- Modelled from the spec: `xsearch::upper_bound(probe, array, count, comparator)
-> position` of `bsearch.hh`: the position of the first key greater than the probe, so
that a probe equal to a separator goes to the right of it (`left < key <= right`). -/
def xsearch_upper_bound (key : Nat) (keys : List Nat) : Nat :=
  (keys.takeWhile (fun x => decide (x ≤ key))).length

/-! ## Fixed-size arrays -/

/-- Read `a[i]`; an index outside the array is a fault. -/
def aget {α : Type} (a : List α) (i : Nat) : Except Fault α :=
  match a[i]? with
  | some x => .ok x
  | none => .error .out_of_bounds

/-- Write `a[i] = x`; an index outside the array is a fault. -/
def aset {α : Type} (a : List α) (i : Nat) (x : α) : Except Fault (List α) :=
  if i < a.length then .ok (a.set i x) else .error .out_of_bounds

/-- The block copies `memcpy(&dst[d], &src[s], n * sizeof(elem))` and `memmove` (the same
with `dst = src`, where the source block is read before the destination is written). -/
def blit {α : Type} (dst : List α) (d : Nat) (src : List α) (s n : Nat) :
    Except Fault (List α) :=
  if s + n ≤ src.length ∧ d + n ≤ dst.length then
    .ok (dst.take d ++ (src.drop s).take n ++ dst.drop (d + n))
  else .error .out_of_bounds

/-! ## Nodes -/

/-- `btnode_leaf<PAIR>`: the fields of `btnode_base` and the entry array with the link
to the next leaf. -/
structure btnode_leaf where
  parent_ : Option Nat
  nk_ : Nat
  e_ : List PAIR
  next_ : Option Nat
deriving DecidableEq, Repr

/-- `btnode_internal<PAIR>::xpair` -/
structure xpair where
  key_ : Nat
  v_ : Option Nat
deriving DecidableEq, Repr

/-- `btnode_internal<PAIR>` -/
structure btnode_internal where
  parent_ : Option Nat
  nk_ : Nat
  e_ : List xpair
deriving DecidableEq, Repr

/-- An object of static type `btnode_base<PAIR>`: one of the two node kinds. -/
inductive btnode_base where
  | leaf (l : btnode_leaf)
  | internal (n : btnode_internal)
deriving DecidableEq, Repr

/-- `node->parent_` through a base pointer. -/
def btnode_base.parent_ : btnode_base → Option Nat
  | .leaf l => l.parent_
  | .internal n => n.parent_

/-- `node->nk_` through a base pointer. -/
def btnode_base.nk_ : btnode_base → Nat
  | .leaf l => l.nk_
  | .internal n => n.nk_

/-- `node->parent_ = p` through a base pointer. -/
def btnode_base.set_parent (p : Option Nat) : btnode_base → btnode_base
  | .leaf l => .leaf { l with parent_ := p }
  | .internal n => .internal { n with parent_ := p }

/-- The constructor `btnode_leaf()`: no parent, no entry, every slot initialised. -/
def btnode_leaf.new : btnode_leaf :=
  { parent_ := none, nk_ := 0, e_ := List.replicate fanout PAIR.fresh, next_ := none }

/-- The constructor `btnode_internal()`: `bzero(e_, sizeof(e_))`. -/
def btnode_internal.new : btnode_internal :=
  { parent_ := none, nk_ := 0, e_ := List.replicate fanout { key_ := 0, v_ := none } }

/-- `btnode_leaf::lower_bound(key, &p)`: the pair `(p, found)`. -/
def btnode_leaf.lower_bound (l : btnode_leaf) (key : Nat) : Except Fault (Nat × Bool) :=
  if l.nk_ ≤ l.e_.length then
    .ok (xsearch_lower_bound key ((l.e_.take l.nk_).map PAIR.key_))
  else .error .out_of_bounds

/-- `btnode_leaf::insert(pos, key, hash)` -/
def btnode_leaf.insert (l : btnode_leaf) (pos key hash : Nat) : Except Fault btnode_leaf := do
  let e ← if pos < l.nk_ then blit l.e_ (pos + 1) l.e_ pos (l.nk_ - pos) else pure l.e_
  let p ← aget e pos
  let e ← aset e pos { p.init with key_ := key, hash := hash }
  pure { l with nk_ := l.nk_ + 1, e_ := e }

/-- `btnode_leaf::need_split()` -/
def btnode_leaf.need_split (l : btnode_leaf) : Bool := l.nk_ == fanout

/-- `btnode_internal::assign(p, left, key, right)` -/
def btnode_internal.assign (n : btnode_internal) (p : Nat) (left : Option Nat) (key : Nat)
    (right : Option Nat) : Except Fault btnode_internal := do
  let e ← aset n.e_ p { key_ := key, v_ := left }
  let y ← aget e (p + 1)
  let e ← aset e (p + 1) { y with v_ := right }
  pure { n with e_ := e }

/-- `btnode_internal::assign_right(p, key, right)` -/
def btnode_internal.assign_right (n : btnode_internal) (p : Nat) (key : Nat)
    (right : Option Nat) : Except Fault btnode_internal := do
  let x ← aget n.e_ p
  let e ← aset n.e_ p { x with key_ := key }
  let y ← aget e (p + 1)
  let e ← aset e (p + 1) { y with v_ := right }
  pure { n with e_ := e }

/-- `btnode_internal::upper_bound_pos(key)` -/
def btnode_internal.upper_bound_pos (n : btnode_internal) (key : Nat) : Except Fault Nat :=
  if n.nk_ ≤ n.e_.length then
    .ok (xsearch_upper_bound key ((n.e_.take n.nk_).map xpair.key_))
  else .error .out_of_bounds

/-- `btnode_internal::upper_bound(key)`: the child `e_[pos].v_`. -/
def btnode_internal.upper_bound (n : btnode_internal) (key : Nat) :
    Except Fault (Option Nat) := do
  let pos ← n.upper_bound_pos key
  let x ← aget n.e_ pos
  pure x.v_

/-- `btnode_internal::need_split()` -/
def btnode_internal.need_split (n : btnode_internal) : Bool := n.nk_ == fanout - 1

/-! ## The tree and its heap -/

/-- `btree_type<PAIR>`: the private fields `nk_`, `nlevel_`, `root_`, with the heap the
pointers refer to and counters of the calls made to the external hooks
`static_appbase::key_copy`, `PAIR::map_value_insert` and `PAIR::reset`. -/
structure btree_type where
  heap : List (Option btnode_base)
  nk_ : Nat
  nlevel_ : Nat
  root_ : Option Nat
  n_key_copy : Nat
  n_merge : Nat
  n_reset : Nat
deriving DecidableEq, Repr

/-- Dereference a node pointer. -/
def rd (t : btree_type) (p : Option Nat) : Except Fault btnode_base :=
  match p with
  | none => .error .null_deref
  | some a =>
    match t.heap[a]? with
    | some (some n) => .ok n
    | _ => .error .bad_pointer

/-- Dereference a pointer used as `btnode_leaf *`. -/
def rd_leaf (t : btree_type) (p : Option Nat) : Except Fault btnode_leaf := do
  match (← rd t p) with
  | .leaf l => pure l
  | .internal _ => .error .bad_cast

/-- Dereference a pointer used as `btnode_internal *`. -/
def rd_internal (t : btree_type) (p : Option Nat) : Except Fault btnode_internal := do
  match (← rd t p) with
  | .internal n => pure n
  | .leaf _ => .error .bad_cast

/-- Store a node through a pointer that was dereferenced before. -/
def wr (t : btree_type) (p : Option Nat) (n : btnode_base) : btree_type :=
  match p with
  | none => t
  | some a => { t with heap := t.heap.set a (some n) }

/-- The expression `new T`: a fresh cell at the end of the heap. -/
def alloc (t : btree_type) (n : btnode_base) : btree_type × Option Nat :=
  ({ t with heap := t.heap ++ [some n] }, some t.heap.length)

/-- The statement `node->parent_ = p`. -/
def set_parent (t : btree_type) (node p : Option Nat) : Except Fault btree_type := do
  let n ← rd t node
  pure (wr t node (n.set_parent p))

/-- `btree_type::init()` on a tree object that owns no node. -/
def init : btree_type :=
  { heap := [], nk_ := 0, nlevel_ := 0, root_ := none,
    n_key_copy := 0, n_merge := 0, n_reset := 0 }

/-- `btree_type::init()`, the three assignments. -/
def btree_type.init (t : btree_type) : btree_type :=
  { t with nk_ := 0, nlevel_ := 0, root_ := none }

/-- `btnode_leaf::split()`, called through the pointer `leaf`: the state afterwards and
the new right sibling. -/
def leaf_split (t : btree_type) (leaf : Option Nat) :
    Except Fault (btree_type × Option Nat) := do
  let l ← rd_leaf t leaf
  let e ← blit btnode_leaf.new.e_ 0 l.e_ (order + 1) (1 + order)
  let (t, right) := alloc t (.leaf { btnode_leaf.new with e_ := e, nk_ := order + 1 })
  let next := l.next_
  let t := wr t leaf (.leaf { l with nk_ := order + 1, next_ := right })
  let r ← rd_leaf t right
  let t := wr t right (.leaf { r with next_ := next })
  pure (t, right)

/-- `btnode_internal::split()`, called through the pointer `node`. -/
def internal_split (t : btree_type) (node : Option Nat) :
    Except Fault (btree_type × Option Nat) := do
  let n ← rd_internal t node
  let e ← blit btnode_internal.new.e_ 0 n.e_ (order + 1) (order + 1)
  let (t, nn) := alloc t (.internal { btnode_internal.new with nk_ := order, e_ := e })
  let t := wr t node (.internal { n with nk_ := order })
  pure (t, nn)

/-! ## Insertion -/

/-- The first loop of `insert_internal`,
`for (int i = parent->nk_ - 1; i >= ikey; i--) e_[i + 1].key_ = e_[i].key_`;
the argument `j` is `i + 1`, so that the loop ends at `j = 0` when `ikey = 0`. -/
def shift_keys (ikey : Nat) : Nat → List xpair → Except Fault (List xpair)
  | 0, e => .ok e
  | i + 1, e =>
    if i ≥ ikey then do
      let src ← aget e i
      let dst ← aget e (i + 1)
      let e ← aset e (i + 1) { dst with key_ := src.key_ }
      shift_keys ikey i e
    else .ok e

/-- The second loop of `insert_internal`,
`for (int i = parent->nk_; i >= ikey + 1; i--) e_[i + 1].v_ = e_[i].v_`;
the argument `j` is `i + 1`. -/
def shift_children (ikey : Nat) : Nat → List xpair → Except Fault (List xpair)
  | 0, e => .ok e
  | i + 1, e =>
    if i ≥ ikey + 1 then do
      let src ← aget e i
      let dst ← aget e (i + 1)
      let e ← aset e (i + 1) { dst with v_ := src.v_ }
      shift_children ikey i e
    else .ok e

/-- The last loop of `insert_internal`,
`for (int i = 0; i < newparent->nk_ + 1; ++i) newparent->e_[i].v_->parent_ = newparent`.
The node is read again in every round, as in the source; `n` bounds the number of rounds
(an index that reaches `fanout` is a fault before that). -/
def fix_parents (newparent : Option Nat) : Nat → Nat → btree_type → Except Fault btree_type
  | 0, _, _ => .error .out_of_bounds
  | n + 1, i, t => do
    let np ← rd_internal t newparent
    if i < np.nk_ + 1 then
      let x ← aget np.e_ i
      let t ← set_parent t x.v_ newparent
      fix_parents newparent n (i + 1) t
    else pure t

/-- `btree_type::insert_internal(key, left, right)`: insert `(key, right)` into the parent
of `left`.  The recursion climbs one level in each call. -/
def insert_internal : Nat → btree_type → Nat → Option Nat → Option Nat →
    Except Fault btree_type
  | 0, _, _, _, _ => .error .out_of_fuel
  | fuel + 1, t, key, left, right => do
    let l ← rd t left
    let parent := l.parent_
    match parent with
    | none =>
      let nr ← ({ btnode_internal.new with nk_ := 1 } : btnode_internal).assign 0 left key right
      let (t, newroot) := alloc t (.internal nr)
      let t := { t with root_ := newroot }
      let t ← set_parent t left newroot
      let t ← set_parent t right newroot
      pure { t with nlevel_ := t.nlevel_ + 1 }
    | some _ =>
      let p ← rd_internal t parent
      let ikey ← p.upper_bound_pos key
      let e ← shift_keys ikey p.nk_ p.e_
      let e ← shift_children ikey (p.nk_ + 1) e
      let p ← ({ p with e_ := e } : btnode_internal).assign_right ikey key right
      let p := { p with nk_ := p.nk_ + 1 }
      let t := wr t parent (.internal p)
      let t ← set_parent t right parent
      let p ← rd_internal t parent
      if p.need_split then
        let x ← aget p.e_ order
        let newkey := x.key_
        let (t, newparent) ← internal_split t parent
        let t ← insert_internal fuel t newkey parent newparent
        fix_parents newparent (fanout + 1) 0 t
      else pure t

/-- The loop of `get_leaf`: `n` times `node = static_cast<internal *>(node)->upper_bound(key)`. -/
def get_leaf_loop (t : btree_type) (key : Nat) : Nat → Option Nat → Except Fault (Option Nat)
  | 0, node => .ok node
  | n + 1, node => do
    let p ← rd_internal t node
    let c ← p.upper_bound key
    get_leaf_loop t key n c

/-- `btree_type::get_leaf(key)` -/
def get_leaf (t : btree_type) (key : Nat) : Except Fault (btree_type × Option Nat) :=
  if t.nlevel_ = 0 then
    let (t, root) := alloc t (.leaf btnode_leaf.new)
    .ok ({ t with root_ := root, nlevel_ := 1, nk_ := 0 }, root)
  else do
    let node ← get_leaf_loop t key (t.nlevel_ - 1) t.root_
    pure (t, node)

/-- Modelled from the spec: `static_appbase::key_copy(k, keylen)`, "copy_key(key, length)
-> owned key handle": the copy compares equal to the original; the call is counted. -/
def key_copy (t : btree_type) (k _keylen : Nat) : btree_type × Nat :=
  ({ t with n_key_copy := t.n_key_copy + 1 }, k)

/-- The statement `leaf->e_[pos].map_value_insert(v)`; the call of the hook is counted. -/
def leaf_merge (t : btree_type) (leaf : Option Nat) (pos v : Nat) : Except Fault btree_type := do
  let l ← rd_leaf t leaf
  let p ← aget l.e_ pos
  let e ← aset l.e_ pos (p.map_value_insert v)
  pure { wr t leaf (.leaf { l with e_ := e }) with n_merge := t.n_merge + 1 }

/-- The common tail of the two insertions:
`if (leaf->need_split()) { right = leaf->split(); insert_internal(right->e_[0].key_, leaf, right); }` -/
def split_if_needed (fuel : Nat) (t : btree_type) (leaf : Option Nat) :
    Except Fault btree_type := do
  let l ← rd_leaf t leaf
  if l.need_split then
    let (t, right) ← leaf_split t leaf
    let r ← rd_leaf t right
    let x ← aget r.e_ 0
    insert_internal fuel t x.key_ leaf right
  else pure t

/-- `btree_type::map_insert_sorted_copy_on_new(k, v, keylen, hash)`: the state afterwards
and the returned `int`, `!found`. -/
def map_insert_sorted_copy_on_new (fuel : Nat) (t : btree_type) (k v keylen hash : Nat) :
    Except Fault (btree_type × Nat) := do
  let (t, leaf) ← get_leaf t k
  let l ← rd_leaf t leaf
  let (pos, found) ← l.lower_bound k
  let t ← if !found then do
      let (t, ik) := key_copy t k keylen
      let l ← l.insert pos ik hash
      let t := wr t leaf (.leaf l)
      pure { t with nk_ := t.nk_ + 1 }
    else pure t
  let t ← leaf_merge t leaf pos v
  let t ← split_if_needed fuel t leaf
  pure (t, if found then 0 else 1)

/-- `btree_type::map_insert_sorted_new_and_raw(p)` -/
def map_insert_sorted_new_and_raw (fuel : Nat) (t : btree_type) (p : PAIR) :
    Except Fault btree_type := do
  let (t, leaf) ← get_leaf t p.key_
  let l ← rd_leaf t leaf
  let (pos, found) ← l.lower_bound p.key_
  if found then .error .assert_fail else
  let l ← l.insert pos p.key_ 0
  let t := wr t leaf (.leaf l)
  let t := { t with nk_ := t.nk_ + 1 }
  let l ← rd_leaf t leaf
  let e ← aset l.e_ pos p
  let t := wr t leaf (.leaf { l with e_ := e })
  split_if_needed fuel t leaf

/-- `btree_type::size()` -/
def btree_type.size (t : btree_type) : Nat := t.nk_

/-! ## Iteration -/

/-- `btree_type::first_leaf()`, the loop: `n` times `node = internal(node)->e_[0].v_`. -/
def first_leaf_loop (t : btree_type) : Nat → Option Nat → Except Fault (Option Nat)
  | 0, node => .ok node
  | n + 1, node => do
    let p ← rd_internal t node
    let x ← aget p.e_ 0
    first_leaf_loop t n x.v_

/-- `btree_type::first_leaf()` -/
def first_leaf (t : btree_type) : Except Fault (Option Nat) :=
  if t.nk_ = 0 then .ok none
  else first_leaf_loop t (t.nlevel_ - 1) t.root_

/-- `btree_type::iterator`: the current leaf `c_` and the index `i_` in it. -/
structure iterator where
  c_ : Option Nat
  i_ : Nat
deriving DecidableEq, Repr

/-- `iterator::operator++()` -/
def iterator.incr (t : btree_type) (it : iterator) : Except Fault iterator :=
  match it.c_ with
  | some _ => do
    let c ← rd_leaf t it.c_
    if it.i_ + 1 = c.nk_ then pure { c_ := c.next_, i_ := 0 }
    else pure { it with i_ := it.i_ + 1 }
  | none => .error .assert_fail

/-- `iterator::operator==(a)` -/
def iterator.eq (it a : iterator) : Bool :=
  (it.c_.isNone && a.c_.isNone) || (it.c_ == a.c_ && it.i_ == a.i_)

/-- `iterator::operator!=(a)` -/
def iterator.ne (it a : iterator) : Bool := !(it.eq a)

/-- `iterator::operator*()` and `operator->()`: the entry `c_->e_[i_]`. -/
def iterator.deref (t : btree_type) (it : iterator) : Except Fault PAIR := do
  let c ← rd_leaf t it.c_
  aget c.e_ it.i_

/-- `btree_type::begin()` -/
def btree_type.begin (t : btree_type) : Except Fault iterator := do
  let c ← first_leaf t
  pure { c_ := c, i_ := 0 }

/-- `btree_type::end()` -/
def btree_type.end_ (_t : btree_type) : iterator := { c_ := none, i_ := 0 }

/-- The loop `while (i != end()) { n += i->size(); ++i; }` of `test_get_nvalue`. -/
def nvalue_loop (t : btree_type) : Nat → iterator → Nat → Except Fault Nat
  | 0, _, _ => .error .out_of_fuel
  | fuel + 1, i, n =>
    if i.ne t.end_ then do
      let p ← i.deref t
      let i ← i.incr t
      nvalue_loop t fuel i (n + p.size)
    else pure n

/-- `btree_type::test_get_nvalue()` -/
def test_get_nvalue (fuel : Nat) (t : btree_type) : Except Fault Nat := do
  let i ← t.begin
  nvalue_loop t fuel i 0

/-- The same loop, `for (i = begin(); i != end(); ++i)`, collecting the entries `*i` it
visits, in the order of the visit. -/
def walk_loop (t : btree_type) : Nat → iterator → List PAIR → Except Fault (List PAIR)
  | 0, _, _ => .error .out_of_fuel
  | fuel + 1, i, acc =>
    if i.ne t.end_ then do
      let p ← i.deref t
      let i ← i.incr t
      walk_loop t fuel i (acc ++ [p])
    else pure acc

/-- The entries visited by walking an iterator from `begin()` to `end()`. -/
def walk (fuel : Nat) (t : btree_type) : Except Fault (List PAIR) := do
  let i ← t.begin
  walk_loop t fuel i []

/-! ## Extraction and teardown -/

/-- Modelled from the spec: the destination `xarray<PAIR>` of `copy` and `transfer`
(declared outside the sources), "a resizable ordered sequence supporting resize to N,
empty beforehand, and positional write": `resize(n)` of an empty array gives `n`
default-constructed slots. -/
def xarray_resize (dst : List PAIR) (n : Nat) : List PAIR :=
  dst.take n ++ List.replicate (n - dst.length) PAIR.fresh

/-- The loop of `copy_traverse`:
`while (leaf) { memcpy(dst->at(n), leaf->e_, sizeof(PAIR) * leaf->nk_); n += leaf->nk_;
if (clear_leaf) leaf->nk_ = 0; leaf = leaf->next_; }` -/
def copy_loop (clear_leaf : Bool) : Nat → btree_type → Option Nat → List PAIR → Nat →
    Except Fault (btree_type × List PAIR × Nat)
  | 0, _, _, _, _ => .error .out_of_fuel
  | fuel + 1, t, leaf, dst, n =>
    match leaf with
    | none => .ok (t, dst, n)
    | some _ => do
      let l ← rd_leaf t leaf
      let dst ← blit dst n l.e_ 0 l.nk_
      let n := n + l.nk_
      let t := if clear_leaf then wr t leaf (.leaf { l with nk_ := 0 }) else t
      let l ← rd_leaf t leaf
      copy_loop clear_leaf fuel t l.next_ dst n

/-- `btree_type::copy_traverse(dst, clear_leaf)`: the state, the destination and the
returned count. -/
def copy_traverse (fuel : Nat) (t : btree_type) (dst : List PAIR) (clear_leaf : Bool) :
    Except Fault (btree_type × List PAIR × Nat) :=
  if dst.length ≠ 0 then .error .assert_fail
  else if t.nlevel_ = 0 then .ok (t, dst, 0)
  else do
    let dst := xarray_resize dst t.size
    let leaf ← first_leaf t
    let (t, dst, n) ← copy_loop clear_leaf fuel t leaf dst 0
    if n = t.nk_ then pure (t, dst, n) else .error .assert_fail

/-- `btree_type::copy(dst)` -/
def copy (fuel : Nat) (t : btree_type) (dst : List PAIR) :
    Except Fault (btree_type × List PAIR × Nat) :=
  copy_traverse fuel t dst false

/-- The statement `delete node` through a base pointer.  The destructor is virtual: for a
leaf `~btnode_leaf` runs and calls `reset()` on each of the `nk_` live entries. -/
def delete_node (t : btree_type) (node : Option Nat) : Except Fault btree_type := do
  let n ← rd t node
  let resets := match n with
    | .leaf l => l.nk_
    | .internal _ => 0
  match node with
  | none => .error .null_deref
  | some a => pure { t with heap := t.heap.set a none, n_reset := t.n_reset + resets }

/-- The loop of `delete_level`,
`for (int i = 0; level > 1 && i <= node->nk_; ++i) delete_level(internal(node)->e_[i].v_, level - 1)`,
over the recursive call `rec`; `n` bounds the number of rounds. -/
def delete_children (rec : btree_type → Option Nat → Except Fault btree_type)
    (node : Option Nat) (level : Nat) : Nat → Nat → btree_type → Except Fault btree_type
  | 0, _, _ => .error .out_of_bounds
  | n + 1, i, t =>
    if level > 1 then do
      let b ← rd t node
      if i ≤ b.nk_ then
        let p ← rd_internal t node
        let x ← aget p.e_ i
        let t ← rec t x.v_
        delete_children rec node level n (i + 1) t
      else pure t
    else pure t

/-- `btree_type::delete_level(node, level)` -/
def delete_level : Nat → btree_type → Option Nat → Nat → Except Fault btree_type
  | 0, _, _, _ => .error .out_of_fuel
  | fuel + 1, t, node, level => do
    let t ← delete_children (fun t c => delete_level fuel t c (level - 1)) node level
      (fanout + 1) 0 t
    delete_node t node

/-- `btree_type::shallow_free()` -/
def shallow_free (fuel : Nat) (t : btree_type) : Except Fault btree_type :=
  if t.nlevel_ = 0 then .ok t
  else do
    let t ← delete_level fuel t t.root_ t.nlevel_
    pure t.init

/-- `btree_type::transfer(dst)` -/
def transfer (fuel : Nat) (t : btree_type) (dst : List PAIR) :
    Except Fault (btree_type × List PAIR × Nat) := do
  let (t, dst, n) ← copy_traverse fuel t dst true
  let t ← shallow_free fuel t
  pure (t, dst, n)

/-! ## Sequences of calls -/

/-- One call of an insertion entry point. -/
inductive Call where
  | merge (k v keylen hash : Nat)
  | raw (p : PAIR)
deriving DecidableEq, Repr

/-- The key a call inserts. -/
def Call.key : Call → Nat
  | .merge k _ _ _ => k
  | .raw p => p.key_

/-- Run one call and keep the state. -/
def apply_call (fuel : Nat) (t : btree_type) : Call → Except Fault btree_type
  | .merge k v keylen hash => do
    let (t, _) ← map_insert_sorted_copy_on_new fuel t k v keylen hash
    pure t
  | .raw p => map_insert_sorted_new_and_raw fuel t p

/-- Run a sequence of calls, first to last. -/
def run_calls (fuel : Nat) : btree_type → List Call → Except Fault btree_type
  | t, [] => .ok t
  | t, c :: cs => do
    let t ← apply_call fuel t c
    run_calls fuel t cs

/-! ## The abstract view: a sorted association list -/

/-- What `map_insert_sorted_copy_on_new(k, v, _, hash)` does to the sorted sequence of
entries: merge `v` into the entry of `k`, or put a new entry with the one contribution `v`
at the sorted position. -/
def abs_merge (k v hash : Nat) : List PAIR → List PAIR
  | [] => [{ key_ := k, hash := hash, vals := [v] }]
  | p :: ps =>
    if k < p.key_ then { key_ := k, hash := hash, vals := [v] } :: p :: ps
    else if k = p.key_ then p.map_value_insert v :: ps
    else p :: abs_merge k v hash ps

/-- What `map_insert_sorted_new_and_raw(p)` does to the sorted sequence of entries when
the key of `p` is new: put `p` at the sorted position. -/
def abs_raw (q : PAIR) : List PAIR → List PAIR
  | [] => [q]
  | p :: ps => if p.key_ < q.key_ then p :: abs_raw q ps else q :: p :: ps

/-- The effect of one call on the sorted sequence of entries. -/
def abs_call (es : List PAIR) : Call → List PAIR
  | .merge k v _ hash => abs_merge k v hash es
  | .raw p => abs_raw p es

/-- The effect of a sequence of calls on the sorted sequence of entries. -/
def abs_calls (es : List PAIR) (cs : List Call) : List PAIR := cs.foldl abs_call es

/-- The merge calls of a list of `(key, contribution, keylen, hash)` tuples. -/
def merge_calls (l : List (Nat × Nat × Nat × Nat)) : List Call :=
  l.map fun c => Call.merge c.1 c.2.1 c.2.2.1 c.2.2.2

/-- The contributions passed with key `k`, in call order. -/
def contributions (k : Nat) (l : List (Nat × Nat × Nat × Nat)) : List Nat :=
  (l.filter fun c => c.1 == k).map fun c => c.2.1

/-! ## The representation invariant -/

/-- The cell at address `a` holds the node `n`. -/
def Live (t : btree_type) (a : Nat) (n : btnode_base) : Prop := t.heap[a]? = some (some n)

/-- The live entries of a leaf. -/
def btnode_leaf.live (l : btnode_leaf) : List PAIR := l.e_.take l.nk_

/-- The live entries of the leaf at address `a` (none when `a` is not a leaf). -/
def live_at (t : btree_type) (a : Nat) : List PAIR :=
  match t.heap[a]? with
  | some (some (.leaf l)) => l.live
  | _ => []

/-- The entries of the leaves of a chain, in chain order. -/
def content (t : btree_type) (chain : List Nat) : List PAIR :=
  chain.flatMap (live_at t)

/-- The key `e[i].key_` of an array of `xpair` (0 outside the array). -/
def keyL (e : List xpair) (i : Nat) : Nat :=
  match e[i]? with
  | some x => x.key_
  | none => 0

/-- The reference `e[i].v_` of an array of `xpair` (`none` outside the array). -/
def kidL (e : List xpair) (i : Nat) : Option Nat :=
  match e[i]? with
  | some x => x.v_
  | none => none

/-- The separator `e_[i].key_` of an internal node. -/
def key_at (n : btnode_internal) (i : Nat) : Nat := keyL n.e_ i

/-- The child reference `e_[i].v_` of an internal node. -/
def kid_at (n : btnode_internal) (i : Nat) : Option Nat := kidL n.e_ i

/-- Bookkeeping that the code does not store: the level of each node (leaves are at level
1), the half-open key range `[lo, hi)` its subtree is responsible for (`hi = none` is
no upper bound), the node that holds it as a child, and the leaves in chain order. -/
structure Ghost where
  lvl : Nat → Nat
  lo : Nat → Nat
  hi : Nat → Option Nat
  par : Nat → Option Nat
  chain : List Nat

/-- `k` is below the upper bound `hi`. -/
def Below (k : Nat) : Option Nat → Prop
  | none => True
  | some b => k < b

/-- The upper bound the parent still assigns to child `c`: while the split of `l` into
`l` and `r` is not yet known to the parent, the slot of `l` spans both halves. -/
def hiE (g : Ghost) (pend : Option (Nat × Nat)) (c : Nat) : Option Nat :=
  match pend with
  | some (l, r) => if c = l then g.hi r else g.hi c
  | none => g.hi c

/-- The lower bound of child slot `i` of the internal node `n` at address `a`. -/
def slotlo (g : Ghost) (a : Nat) (n : btnode_internal) (i : Nat) : Nat :=
  if i = 0 then g.lo a else key_at n (i - 1)

/-- The upper bound of child slot `i` of the internal node `n` at address `a`. -/
def slothi (g : Ghost) (a : Nat) (n : btnode_internal) (i : Nat) : Option Nat :=
  if i < n.nk_ then some (key_at n i) else g.hi a

/-- The leaves of `chain` are linked by `next_`, starting from the pointer `p`. -/
def Linked (t : btree_type) : Option Nat → List Nat → Prop
  | p, [] => p = none
  | p, a :: as => p = some a ∧ ∃ l, Live t a (.leaf l) ∧ Linked t l.next_ as

/-- The least number of keys of a node that is not the root. -/
def min_occ : btnode_base → Nat
  | .leaf _ => order + 1
  | .internal _ => order

/-- `a` is the new right sibling of a split that the parent does not know yet. -/
def IsPendRight (pend : Option (Nat × Nat)) (a : Nat) : Prop := ∃ l, pend = some (l, a)

/-- The representation invariant, with three relaxations for the states inside an
insertion: `parent_` fields are only required to be right from level `L` upwards, the
split `pend = some (left, right)` has not reached the parent of `left`, and the node
`full` may be at capacity (it is about to be split). -/
structure InvG (g : Ghost) (t : btree_type) (L : Nat) (pend : Option (Nat × Nat))
    (full : Option Nat) : Prop where
  root0 : t.nlevel_ = 0 → t.root_ = none ∧ t.nk_ = 0 ∧ g.chain = [] ∧ ∀ a n, ¬ Live t a n
  root1 : 0 < t.nlevel_ → ∃ r n, t.root_ = some r ∧ Live t r n ∧ g.lvl r = t.nlevel_ ∧
    g.par r = none ∧ g.lo r = 0 ∧ hiE g pend r = none
  lvl_le : ∀ a n, Live t a n → 1 ≤ g.lvl a ∧ g.lvl a ≤ t.nlevel_
  lohi : ∀ a n, Live t a n → Below (g.lo a) (g.hi a)
  par_field : ∀ a n, Live t a n → L ≤ g.lvl a → ¬ IsPendRight pend a →
    n.parent_ = g.par a
  has_par : ∀ a n, Live t a n → t.root_ ≠ some a → ¬ IsPendRight pend a →
    ∃ p m i, g.par a = some p ∧ Live t p (.internal m) ∧ i ≤ m.nk_ ∧ kid_at m i = some a
  leaf : ∀ a l, Live t a (.leaf l) →
    g.lvl a = 1 ∧ l.e_.length = fanout ∧ 1 ≤ l.nk_ ∧ l.nk_ ≤ fanout ∧
    (l.nk_ = fanout → full = some a) ∧ (t.root_ ≠ some a → order + 1 ≤ l.nk_) ∧
    (l.live.map PAIR.key_).Pairwise (fun x y => x < y) ∧
    (∀ k ∈ l.live.map PAIR.key_, g.lo a ≤ k ∧ Below k (g.hi a)) ∧ a ∈ g.chain
  internal : ∀ a m, Live t a (.internal m) →
    m.e_.length = fanout ∧ 1 ≤ m.nk_ ∧ m.nk_ ≤ fanout - 1 ∧
    (m.nk_ = fanout - 1 → full = some a) ∧ (t.root_ ≠ some a → order ≤ m.nk_) ∧
    ∀ i, i ≤ m.nk_ → ∃ c cn, kid_at m i = some c ∧ Live t c cn ∧ g.par c = some a ∧
      g.lvl c + 1 = g.lvl a ∧ g.lo c = slotlo g a m i ∧ hiE g pend c = slothi g a m i
  chain_nodup : g.chain.Nodup
  chain_link : Linked t g.chain.head? g.chain
  chain_adj : g.chain.Chain' (fun a b => g.hi a = some (g.lo b))
  chain_first : ∀ a, g.chain.head? = some a → g.lo a = 0
  chain_last : ∀ a, g.chain.getLast? = some a → g.hi a = none
  size_eq : t.nk_ = (content t g.chain).length
  pend_ok : ∀ l r, pend = some (l, r) → ∃ ln rn, Live t l ln ∧ Live t r rn ∧ l ≠ r ∧
    g.lvl r = g.lvl l ∧ L = g.lvl l ∧ g.hi l = some (g.lo r) ∧ g.par r = none ∧
    t.root_ ≠ some r ∧ min_occ ln ≤ ln.nk_ ∧
    ∀ p m i, Live t p (.internal m) → i ≤ m.nk_ → kid_at m i ≠ some r

/-- The counters of the external hooks agree in two states. -/
def SameCnt (t t' : btree_type) : Prop :=
  t'.n_key_copy = t.n_key_copy ∧ t'.n_merge = t.n_merge ∧ t'.n_reset = t.n_reset

/-- What the steps of the upward propagation from level `L` keep: nodes below level `L`
are not touched, no node disappears, and the leaf entries, the chain, the key count and
the hook counters stay as they are; the height grows by at most one. -/
structure Step (L : Nat) (g : Ghost) (t : btree_type) (g' : Ghost) (t' : btree_type) :
    Prop where
  frame : ∀ c n, Live t' c n → g'.lvl c < L →
    Live t c n ∧ g'.par c = g.par c ∧ g'.lvl c = g.lvl c
  keep : ∀ c n, Live t c n → ∃ n', Live t' c n' ∧ g'.lvl c = g.lvl c
  live : ∀ a, live_at t' a = live_at t a
  chain : g'.chain = g.chain
  nk : t'.nk_ = t.nk_
  cnt : SameCnt t t'
  lev : t.nlevel_ ≤ t'.nlevel_ ∧ t'.nlevel_ ≤ t.nlevel_ + 1

/-- The representation invariant of the states between public operations. -/
def Inv (t : btree_type) : Prop := ∃ g, InvG g t 0 none none

/-- A heap cell after `leaf->nk_ = 0`: a leaf forgets its entries, any other cell stays. -/
def clear_cell : Option (Option btnode_base) → Option (Option btnode_base)
  | some (some (.leaf l)) => some (some (.leaf { l with nk_ := 0 }))
  | x => x

/-- The state `t'` is the state `t` after `nk_ = 0` in the leaves at the addresses `S`. -/
def Cleared (S : List Nat) (t t' : btree_type) : Prop :=
  t'.nk_ = t.nk_ ∧ t'.nlevel_ = t.nlevel_ ∧ t'.root_ = t.root_ ∧ SameCnt t t' ∧
  ∀ b : Nat, t'.heap[b]? = if b ∈ S then clear_cell t.heap[b]? else t.heap[b]?

/-- The `d`-th ancestor of node `b` along the ghost parent map. -/
def anc (g : Ghost) : Nat → Nat → Option Nat
  | 0, b => some b
  | d + 1, b => (anc g d b).bind g.par

/-- Node `b` of the tree `t` lies in the subtree of node `a`. -/
def InSub (g : Ghost) (t : btree_type) (a b : Nat) : Prop :=
  (∃ n, Live t b n) ∧ ∃ d, anc g d b = some a

/-- The state `c` has the nodes of `t`: the same internal nodes, and a leaf where `t` has
a leaf (its entry count may differ). -/
def Shape (t c : btree_type) : Prop :=
  c.nlevel_ = t.nlevel_ ∧ c.root_ = t.root_ ∧
  (∀ b m, Live t b (.internal m) → Live c b (.internal m)) ∧
  (∀ b l, Live t b (.leaf l) → ∃ l', Live c b (.leaf l')) ∧
  (∀ b n, Live c b n → ∃ n', Live t b n') ∧ c.nk_ = t.nk_

/-- The state `s'` is the state `s` after `delete` of the nodes in `P`; `z` stands for
the fact that no leaf had a live entry, in which case no `reset()` ran. -/
def Deleted (P : Nat → Prop) (z : Prop) (s s' : btree_type) : Prop :=
  s'.nk_ = s.nk_ ∧ s'.nlevel_ = s.nlevel_ ∧ s'.root_ = s.root_ ∧
  s'.n_key_copy = s.n_key_copy ∧ s'.n_merge = s.n_merge ∧
  s.n_reset ≤ s'.n_reset ∧ (z → s'.n_reset = s.n_reset) ∧
  ∀ b : Nat, (P b → s'.heap[b]? = some none) ∧ (¬ P b → s'.heap[b]? = s.heap[b]?)

/-- The tree `t` represents the sorted sequence of entries `es`. -/
def Rep (t : btree_type) (es : List PAIR) : Prop :=
  ∃ g, InvG g t 0 none none ∧ content t g.chain = es

/-- The trees reachable from the initial tree by insertions that return.  The fuel of
the run is more than the number of calls, hence more than the height of any tree on the
way: the recursion of `insert_internal` never runs out, and the only fault such a run
can meet is a failed assertion. -/
def Reachable (t : btree_type) : Prop :=
  ∃ cs fuel, cs.length < fuel ∧ run_calls fuel init cs = .ok t

/-- The entry `p` is a live entry of some leaf of the tree. -/
def Stored (t : btree_type) (p : PAIR) : Prop := ∃ a l, Live t a (.leaf l) ∧ p ∈ l.live

/-- Some leaf of the tree holds a live entry with key `k`. -/
def HasKey (t : btree_type) (k : Nat) : Prop := ∃ p, Stored t p ∧ p.key_ = k

/-- The tree after a sequence of calls, run with enough fuel (the initial tree if a call
does not return). -/
def tree_of (cs : List Call) : btree_type :=
  match run_calls (cs.length + 1) init cs with
  | .ok t => t
  | .error _ => init

/-- Merge calls for the keys `3, 1, 2, 1`. -/
def sample_merges : List (Nat × Nat × Nat × Nat) :=
  [(3, 30, 1, 7), (1, 10, 1, 5), (2, 20, 1, 6), (1, 11, 1, 5)]

/-- Merge calls for ten keys in mixed order, enough to split the first leaf. -/
def split_merges : List (Nat × Nat × Nat × Nat) :=
  [(5, 50, 1, 0), (3, 30, 1, 0), (9, 90, 1, 0), (1, 10, 1, 0), (7, 70, 1, 0),
   (2, 20, 1, 0), (8, 80, 1, 0), (4, 40, 1, 0), (6, 60, 1, 0), (10, 100, 1, 0)]

/-! ## The shape of the tree, read from the heap -/

/-- The children `e_[0].v_ .. e_[nk_].v_` of the node at address `a` (none for a leaf). -/
def kids (t : btree_type) (a : Nat) : List Nat :=
  match t.heap[a]? with
  | some (some (.internal m)) => (List.range (m.nk_ + 1)).filterMap (kid_at m)
  | _ => []

/-- The nodes reached from the node at address `a` by exactly `d` child steps. -/
def nodes_at (t : btree_type) : Nat → Nat → List Nat
  | 0, a => [a]
  | d + 1, a => (kids t a).flatMap (nodes_at t d)

/-- The number of internal nodes on the heap.  Insertion frees no node, so on a tree built
by insertions this is the number of internal nodes ever made: one for each new root and
one for each `btnode_internal::split()`. -/
def n_internal (t : btree_type) : Nat :=
  t.heap.countP fun c =>
    match c with
    | some (.internal _) => true
    | _ => false

/-- The number of leaves on the heap. -/
def n_leaf (t : btree_type) : Nat :=
  t.heap.countP fun c =>
    match c with
    | some (.leaf _) => true
    | _ => false

/-! ## Sequences of public operations -/

/-- A call of a public member function that can change the tree. -/
inductive Op where
  | insert (c : Call)
  | copy
  | transfer
  | shallow_free
deriving DecidableEq, Repr

/-- Run one public operation and keep the state; `copy` and `transfer` get an empty
destination. -/
def apply_op (fuel : Nat) (t : btree_type) : Op → Except Fault btree_type
  | .insert c => apply_call fuel t c
  | .copy => do
    let (t, _, _) ← copy fuel t []
    pure t
  | .transfer => do
    let (t, _, _) ← transfer fuel t []
    pure t
  | .shallow_free => shallow_free fuel t

/-- Run a sequence of public operations, first to last. -/
def run_ops (fuel : Nat) : btree_type → List Op → Except Fault btree_type
  | t, [] => .ok t
  | t, o :: os => do
    let t ← apply_op fuel t o
    run_ops fuel t os

/-- The trees reachable from the initial tree by public operations that return, run with
more fuel than there are operations (see `Reachable`). -/
def ReachableOps (t : btree_type) : Prop :=
  ∃ os fuel, os.length < fuel ∧ run_ops fuel init os = .ok t

/-- The tree after a sequence of public operations, run with enough fuel (the initial
tree if one of them does not return). -/
def tree_of_ops (os : List Op) : btree_type :=
  match run_ops (os.length + 1) init os with
  | .ok t => t
  | .error _ => init

/-- Raw insertions of the keys `1 .. 40` in ascending order: enough to split the root. -/
def deep_calls : List Call :=
  (List.range 40).map fun i => Call.raw { key_ := i + 1, hash := 0, vals := [i] }

/-- Ten insertions, a `transfer`, forty insertions that build a tree of height 3, and a
`copy`. -/
def sample_ops : List Op :=
  (merge_calls split_merges).map Op.insert ++ [Op.transfer] ++
    deep_calls.map Op.insert ++ [Op.copy]

/-- The internal node at address 2 of `tree_of deep_calls`: the left half of the first
root, with three live separators and the old entries still in the slots behind them. -/
def deep_left_node : btnode_internal :=
  { parent_ := some 10, nk_ := 3,
    e_ := [⟨5, some 0⟩, ⟨9, some 1⟩, ⟨13, some 3⟩, ⟨17, some 4⟩, ⟨21, some 5⟩, ⟨25, some 6⟩,
      ⟨29, some 7⟩, ⟨0, some 8⟩] }

/-- The separators `e_[0].key_ .. e_[nk_-1].key_` of an internal node. -/
def btnode_internal.keys (n : btnode_internal) : List Nat := (n.e_.take n.nk_).map xpair.key_

/-- The child references `e_[0].v_ .. e_[nk_].v_` of an internal node. -/
def btnode_internal.children (n : btnode_internal) : List (Option Nat) :=
  (n.e_.take (n.nk_ + 1)).map xpair.v_

/-- An internal node with 7 keys and 8 children, as it is when `need_split()` holds. -/
def full_node : btnode_internal :=
  { parent_ := none, nk_ := 7,
    e_ := [⟨10, some 1⟩, ⟨20, some 2⟩, ⟨30, some 3⟩, ⟨40, some 4⟩, ⟨50, some 5⟩, ⟨60, some 6⟩,
      ⟨70, some 7⟩, ⟨0, some 8⟩] }

/-- A state whose cell 0 holds `full_node`. -/
def full_node_state : btree_type :=
  { heap := [some (.internal full_node)], nk_ := 0, nlevel_ := 2, root_ := some 0,
    n_key_copy := 0, n_merge := 0, n_reset := 0 }

/-! ## Twenty raw insertions in ascending order -/

/-- A heap cell with a leaf: the parent, `nk_`, the entries in the first slots of
`e_` (every other slot as `btnode_leaf()` left it) and `next_`. -/
def leaf_cell (parent : Option Nat) (nk : Nat) (es : List PAIR) (next : Option Nat) :
    Option btnode_base :=
  some (.leaf ⟨parent, nk, es ++ List.replicate (fanout - es.length) PAIR.fresh, next⟩)

/-- A heap cell with an internal node that has no parent: `nk_` and the first slots of
`e_` (every other slot as `bzero` left it). -/
def root_cell (nk : Nat) (slots : List xpair) : Option btnode_base :=
  some (.internal ⟨none, nk, slots ++ List.replicate (fanout - slots.length) ⟨0, none⟩⟩)

/-- The tree after the first `n` of twenty raw insertions in ascending key order, where
`p i` is the `i`-th pair inserted (`1 <= i <= 20`): one leaf up to 7 entries, from the
eighth on a root over leaves that were split 4 + 4 as they filled; the left halves still
hold the moved entries in their unused slots.  That the code computes these states is
the lemma `asc_step`. -/
def asc_tree (p : Nat → PAIR) : Nat → btree_type
  | 0 => init
  | 1 => ⟨[leaf_cell none 1 [p 1] none], 1, 1, some 0, 0, 0, 0⟩
  | 2 => ⟨[leaf_cell none 2 [p 1, p 2] none], 2, 1, some 0, 0, 0, 0⟩
  | 3 => ⟨[leaf_cell none 3 [p 1, p 2, p 3] none], 3, 1, some 0, 0, 0, 0⟩
  | 4 => ⟨[leaf_cell none 4 [p 1, p 2, p 3, p 4] none], 4, 1, some 0, 0, 0, 0⟩
  | 5 => ⟨[leaf_cell none 5 [p 1, p 2, p 3, p 4, p 5] none], 5, 1, some 0, 0, 0, 0⟩
  | 6 => ⟨[leaf_cell none 6 [p 1, p 2, p 3, p 4, p 5, p 6] none], 6, 1, some 0, 0, 0, 0⟩
  | 7 => ⟨[leaf_cell none 7 [p 1, p 2, p 3, p 4, p 5, p 6, p 7] none], 7, 1, some 0, 0, 0, 0⟩
  | 8 => ⟨[
      leaf_cell (some 2) 4 [p 1, p 2, p 3, p 4, p 5, p 6, p 7, p 8] (some 1),
      leaf_cell (some 2) 4 [p 5, p 6, p 7, p 8] none,
      root_cell 1 [⟨(p 5).key_, some 0⟩, ⟨0, some 1⟩]],
    8, 2, some 2, 0, 0, 0⟩
  | 9 => ⟨[
      leaf_cell (some 2) 4 [p 1, p 2, p 3, p 4, p 5, p 6, p 7, p 8] (some 1),
      leaf_cell (some 2) 5 [p 5, p 6, p 7, p 8, p 9] none,
      root_cell 1 [⟨(p 5).key_, some 0⟩, ⟨0, some 1⟩]],
    9, 2, some 2, 0, 0, 0⟩
  | 10 => ⟨[
      leaf_cell (some 2) 4 [p 1, p 2, p 3, p 4, p 5, p 6, p 7, p 8] (some 1),
      leaf_cell (some 2) 6 [p 5, p 6, p 7, p 8, p 9, p 10] none,
      root_cell 1 [⟨(p 5).key_, some 0⟩, ⟨0, some 1⟩]],
    10, 2, some 2, 0, 0, 0⟩
  | 11 => ⟨[
      leaf_cell (some 2) 4 [p 1, p 2, p 3, p 4, p 5, p 6, p 7, p 8] (some 1),
      leaf_cell (some 2) 7 [p 5, p 6, p 7, p 8, p 9, p 10, p 11] none,
      root_cell 1 [⟨(p 5).key_, some 0⟩, ⟨0, some 1⟩]],
    11, 2, some 2, 0, 0, 0⟩
  | 12 => ⟨[
      leaf_cell (some 2) 4 [p 1, p 2, p 3, p 4, p 5, p 6, p 7, p 8] (some 1),
      leaf_cell (some 2) 4 [p 5, p 6, p 7, p 8, p 9, p 10, p 11, p 12] (some 3),
      root_cell 2 [⟨(p 5).key_, some 0⟩, ⟨(p 9).key_, some 1⟩, ⟨0, some 3⟩],
      leaf_cell (some 2) 4 [p 9, p 10, p 11, p 12] none],
    12, 2, some 2, 0, 0, 0⟩
  | 13 => ⟨[
      leaf_cell (some 2) 4 [p 1, p 2, p 3, p 4, p 5, p 6, p 7, p 8] (some 1),
      leaf_cell (some 2) 4 [p 5, p 6, p 7, p 8, p 9, p 10, p 11, p 12] (some 3),
      root_cell 2 [⟨(p 5).key_, some 0⟩, ⟨(p 9).key_, some 1⟩, ⟨0, some 3⟩],
      leaf_cell (some 2) 5 [p 9, p 10, p 11, p 12, p 13] none],
    13, 2, some 2, 0, 0, 0⟩
  | 14 => ⟨[
      leaf_cell (some 2) 4 [p 1, p 2, p 3, p 4, p 5, p 6, p 7, p 8] (some 1),
      leaf_cell (some 2) 4 [p 5, p 6, p 7, p 8, p 9, p 10, p 11, p 12] (some 3),
      root_cell 2 [⟨(p 5).key_, some 0⟩, ⟨(p 9).key_, some 1⟩, ⟨0, some 3⟩],
      leaf_cell (some 2) 6 [p 9, p 10, p 11, p 12, p 13, p 14] none],
    14, 2, some 2, 0, 0, 0⟩
  | 15 => ⟨[
      leaf_cell (some 2) 4 [p 1, p 2, p 3, p 4, p 5, p 6, p 7, p 8] (some 1),
      leaf_cell (some 2) 4 [p 5, p 6, p 7, p 8, p 9, p 10, p 11, p 12] (some 3),
      root_cell 2 [⟨(p 5).key_, some 0⟩, ⟨(p 9).key_, some 1⟩, ⟨0, some 3⟩],
      leaf_cell (some 2) 7 [p 9, p 10, p 11, p 12, p 13, p 14, p 15] none],
    15, 2, some 2, 0, 0, 0⟩
  | 16 => ⟨[
      leaf_cell (some 2) 4 [p 1, p 2, p 3, p 4, p 5, p 6, p 7, p 8] (some 1),
      leaf_cell (some 2) 4 [p 5, p 6, p 7, p 8, p 9, p 10, p 11, p 12] (some 3),
      root_cell 3 [⟨(p 5).key_, some 0⟩, ⟨(p 9).key_, some 1⟩, ⟨(p 13).key_, some 3⟩, ⟨0, some 4⟩],
      leaf_cell (some 2) 4 [p 9, p 10, p 11, p 12, p 13, p 14, p 15, p 16] (some 4),
      leaf_cell (some 2) 4 [p 13, p 14, p 15, p 16] none],
    16, 2, some 2, 0, 0, 0⟩
  | 17 => ⟨[
      leaf_cell (some 2) 4 [p 1, p 2, p 3, p 4, p 5, p 6, p 7, p 8] (some 1),
      leaf_cell (some 2) 4 [p 5, p 6, p 7, p 8, p 9, p 10, p 11, p 12] (some 3),
      root_cell 3 [⟨(p 5).key_, some 0⟩, ⟨(p 9).key_, some 1⟩, ⟨(p 13).key_, some 3⟩, ⟨0, some 4⟩],
      leaf_cell (some 2) 4 [p 9, p 10, p 11, p 12, p 13, p 14, p 15, p 16] (some 4),
      leaf_cell (some 2) 5 [p 13, p 14, p 15, p 16, p 17] none],
    17, 2, some 2, 0, 0, 0⟩
  | 18 => ⟨[
      leaf_cell (some 2) 4 [p 1, p 2, p 3, p 4, p 5, p 6, p 7, p 8] (some 1),
      leaf_cell (some 2) 4 [p 5, p 6, p 7, p 8, p 9, p 10, p 11, p 12] (some 3),
      root_cell 3 [⟨(p 5).key_, some 0⟩, ⟨(p 9).key_, some 1⟩, ⟨(p 13).key_, some 3⟩, ⟨0, some 4⟩],
      leaf_cell (some 2) 4 [p 9, p 10, p 11, p 12, p 13, p 14, p 15, p 16] (some 4),
      leaf_cell (some 2) 6 [p 13, p 14, p 15, p 16, p 17, p 18] none],
    18, 2, some 2, 0, 0, 0⟩
  | 19 => ⟨[
      leaf_cell (some 2) 4 [p 1, p 2, p 3, p 4, p 5, p 6, p 7, p 8] (some 1),
      leaf_cell (some 2) 4 [p 5, p 6, p 7, p 8, p 9, p 10, p 11, p 12] (some 3),
      root_cell 3 [⟨(p 5).key_, some 0⟩, ⟨(p 9).key_, some 1⟩, ⟨(p 13).key_, some 3⟩, ⟨0, some 4⟩],
      leaf_cell (some 2) 4 [p 9, p 10, p 11, p 12, p 13, p 14, p 15, p 16] (some 4),
      leaf_cell (some 2) 7 [p 13, p 14, p 15, p 16, p 17, p 18, p 19] none],
    19, 2, some 2, 0, 0, 0⟩
  | 20 => ⟨[
      leaf_cell (some 2) 4 [p 1, p 2, p 3, p 4, p 5, p 6, p 7, p 8] (some 1),
      leaf_cell (some 2) 4 [p 5, p 6, p 7, p 8, p 9, p 10, p 11, p 12] (some 3),
      root_cell 4 [⟨(p 5).key_, some 0⟩, ⟨(p 9).key_, some 1⟩, ⟨(p 13).key_, some 3⟩,
        ⟨(p 17).key_, some 4⟩, ⟨0, some 5⟩],
      leaf_cell (some 2) 4 [p 9, p 10, p 11, p 12, p 13, p 14, p 15, p 16] (some 4),
      leaf_cell (some 2) 4 [p 13, p 14, p 15, p 16, p 17, p 18, p 19, p 20] (some 5),
      leaf_cell (some 2) 4 [p 17, p 18, p 19, p 20] none],
    20, 2, some 2, 0, 0, 0⟩
  | _ => init

/-- Twenty pairs with ascending keys `2, 5, 8, ..`. -/
def asc_pairs : List PAIR :=
  (List.range 20).map fun i => { key_ := 3 * i + 2, hash := i, vals := [i, i] }

/-! ## Eight insertions into one leaf -/

/-- A tree that is one root leaf with the entries `es`, after `kc` calls of `key_copy`
and `mg` calls of the merge hook. -/
def leaf_tree (es : List PAIR) (kc mg : Nat) : btree_type :=
  ⟨[leaf_cell none es.length es none], es.length, 1, some 0, kc, mg, 0⟩

/-- The tree that the split of the root leaf with the 8 entries `es` leaves: the old leaf
with the first 4 entries live, the new leaf with the last 4, and a root with the key of
the fifth entry as its one separator. -/
def split_tree (es : List PAIR) (kc mg : Nat) : btree_type :=
  ⟨[leaf_cell (some 2) 4 es (some 1), leaf_cell (some 2) 4 (es.drop 4) none,
      root_cell 1 [⟨(es.getD 4 PAIR.fresh).key_, some 0⟩, ⟨0, some 1⟩]],
    8, 2, some 2, kc, mg, 0⟩

/-- Eight calls with the keys `1 .. 8` in mixed order. -/
def eight_merges : List (Nat × Nat × Nat × Nat) :=
  [(5, 50, 1, 0), (2, 20, 1, 0), (7, 70, 1, 0), (1, 10, 1, 0), (8, 80, 1, 0), (4, 40, 1, 0),
    (3, 30, 1, 0), (6, 60, 1, 0)]

/-! # Proofs -/

theorem rd_some_iff (t : btree_type) (a : Nat) (n : btnode_base) :
    rd t (some a) = .ok n ↔ Live t a n := by
  simp only [rd, Live]
  rcases h : t.heap[a]? with _ | _ | m <;> simp

theorem Live.rd {t : btree_type} {a : Nat} {n : btnode_base} (h : Live t a n) :
    rd t (some a) = .ok n := (rd_some_iff t a n).2 h

theorem Live.rd_leaf {t : btree_type} {a : Nat} {l : btnode_leaf} (h : Live t a (.leaf l)) :
    rd_leaf t (some a) = .ok l := by
  simp [Btree.rd_leaf, h.rd, bind, Except.bind, pure, Except.pure]

theorem Live.rd_internal {t : btree_type} {a : Nat} {m : btnode_internal}
    (h : Live t a (.internal m)) : rd_internal t (some a) = .ok m := by
  simp [Btree.rd_internal, h.rd, bind, Except.bind, pure, Except.pure]

theorem Live.lt {t : btree_type} {a : Nat} {n : btnode_base} (h : Live t a n) :
    a < t.heap.length := by
  unfold Live at h
  by_contra hc
  rw [List.getElem?_eq_none (by omega)] at h
  cases h

theorem Live.inj {t : btree_type} {a : Nat} {n m : btnode_base} (h : Live t a n)
    (h' : Live t a m) : n = m := by
  unfold Live at h h'
  rw [h] at h'
  simpa using h'


theorem Live_wr_iff (t : btree_type) (a b : Nat) (n m : btnode_base) :
    Live (wr t (some a) n) b m ↔
      (b = a ∧ a < t.heap.length ∧ m = n) ∨ (b ≠ a ∧ Live t b m) := by
  simp only [Live, wr, List.getElem?_set]
  by_cases h : a = b
  · subst h
    by_cases h2 : a < t.heap.length
    · simp [h2]; exact eq_comm
    · simp [h2]
  · have h' : b ≠ a := fun e => h e.symm
    simp [h, h']

theorem Live_alloc_iff (t : btree_type) (b : Nat) (n m : btnode_base) :
    Live (alloc t n).1 b m ↔ Live t b m ∨ (b = t.heap.length ∧ m = n) := by
  simp only [Live, alloc, List.getElem?_append]
  by_cases h : b < t.heap.length
  · simp [h]; omega
  · simp only [h, if_false]
    have : t.heap[b]? = none := List.getElem?_eq_none (by omega)
    rw [this]
    by_cases h2 : b = t.heap.length
    · subst h2; simp; exact eq_comm
    · have : b - t.heap.length ≠ 0 := by omega
      obtain ⟨k, hk⟩ := Nat.exists_eq_succ_of_ne_zero this
      simp [hk, h2]

@[simp] theorem wr_nk (t : btree_type) (p : Option Nat) (n : btnode_base) :
    (wr t p n).nk_ = t.nk_ := by cases p <;> rfl
@[simp] theorem wr_nlevel (t : btree_type) (p : Option Nat) (n : btnode_base) :
    (wr t p n).nlevel_ = t.nlevel_ := by cases p <;> rfl
@[simp] theorem wr_root (t : btree_type) (p : Option Nat) (n : btnode_base) :
    (wr t p n).root_ = t.root_ := by cases p <;> rfl
@[simp] theorem wr_key_copy (t : btree_type) (p : Option Nat) (n : btnode_base) :
    (wr t p n).n_key_copy = t.n_key_copy := by cases p <;> rfl
@[simp] theorem wr_merge (t : btree_type) (p : Option Nat) (n : btnode_base) :
    (wr t p n).n_merge = t.n_merge := by cases p <;> rfl
@[simp] theorem wr_reset (t : btree_type) (p : Option Nat) (n : btnode_base) :
    (wr t p n).n_reset = t.n_reset := by cases p <;> rfl
@[simp] theorem wr_heap_length (t : btree_type) (p : Option Nat) (n : btnode_base) :
    (wr t p n).heap.length = t.heap.length := by cases p <;> simp [wr]

theorem set_parent_ok {t : btree_type} {a : Nat} {n : btnode_base} (h : Live t a n)
    (p : Option Nat) : set_parent t (some a) p = .ok (wr t (some a) (n.set_parent p)) := by
  simp [set_parent, h.rd, bind, Except.bind, pure, Except.pure]

/-! ### Arrays -/

theorem aget_ok {α : Type} {a : List α} {i : Nat} {x : α} (h : a[i]? = some x) :
    aget a i = .ok x := by
  simp [aget, h]

theorem aget_lt {α : Type} (a : List α) (i : Nat) (h : i < a.length) :
    aget a i = .ok a[i] := by
  simp [aget, List.getElem?_eq_getElem h]

theorem aset_ok {α : Type} (a : List α) (i : Nat) (x : α) (h : i < a.length) :
    aset a i x = .ok (a.set i x) := by
  simp [aset, h]

theorem blit_ok {α : Type} (dst : List α) (d : Nat) (src : List α) (s n : Nat)
    (h1 : s + n ≤ src.length) (h2 : d + n ≤ dst.length) :
    blit dst d src s n = .ok (dst.take d ++ (src.drop s).take n ++ dst.drop (d + n)) := by
  simp [blit, h1, h2]


theorem take_succ_set {α : Type} (e : List α) (pos : Nat) (x : α) (h : pos < e.length) :
    (e.take (pos + 1)).set pos x = e.take pos ++ [x] := by
  apply List.ext_getElem?
  intro n
  simp only [List.getElem?_set, List.getElem?_take, List.getElem?_append, List.length_take]
  have hm : min pos e.length = pos := by omega
  have hm1 : min (pos + 1) e.length = pos + 1 := by omega
  rw [hm, hm1]
  by_cases h1 : n < pos
  · have : ¬ pos = n := by omega
    have h3 : n < pos + 1 := by omega
    simp [h1, this, h3]
  · by_cases h2 : pos = n
    · subst h2; simp
    · have h3 : ¬ n < pos + 1 := by omega
      simp [h1, h2, h3]
      have : n - pos ≠ 0 := by omega
      obtain ⟨k, hk⟩ := Nat.exists_eq_succ_of_ne_zero this
      simp [hk]

theorem set_take_succ {α : Type} (e : List α) (pos : Nat) (x : α) (h : pos < e.length) :
    (e.set pos x).take (pos + 1) = e.take pos ++ [x] := by
  rw [← take_succ_set e pos x h]
  apply List.ext_getElem?
  intro n
  simp only [List.getElem?_set, List.getElem?_take, List.length_take]
  have hm1 : min (pos + 1) e.length = pos + 1 := by omega
  rw [hm1]
  by_cases h1 : n < pos + 1
  · simp [h1, h]
  · have : ¬ pos = n := by omega
    simp [h1, this]

theorem insert_shift {α : Type} (e : List α) (pos nk : Nat) (x : α) (hp : pos ≤ nk)
    (hn : nk < e.length) :
    ((e.take (pos + 1) ++ (e.drop pos).take (nk - pos) ++
        e.drop (pos + 1 + (nk - pos))).set pos x).take (nk + 1)
      = (e.take nk).take pos ++ [x] ++ (e.take nk).drop pos := by
  have h1 : pos < (e.take (pos + 1)).length := by simp; omega
  rw [List.append_assoc, List.set_append, if_pos h1, take_succ_set e pos x (by omega)]
  rw [List.take_take, List.drop_take, Nat.min_eq_left hp]
  rw [← List.append_assoc, List.take_append_eq_append_take]
  have h2 : (List.take pos e ++ [x] ++ List.take (nk - pos) (List.drop pos e)).length
      = nk + 1 := by
    simp; omega
  rw [List.take_of_length_le (by omega), h2]
  simp

/-- Closed form of `btnode_leaf::insert`. -/
theorem leaf_insert_ok (l : btnode_leaf) (pos key hash : Nat) (hlen : l.e_.length = fanout)
    (hnk : l.nk_ < fanout) (hpos : pos ≤ l.nk_) :
    ∃ l', l.insert pos key hash = .ok l' ∧ l'.parent_ = l.parent_ ∧ l'.next_ = l.next_ ∧
      l'.nk_ = l.nk_ + 1 ∧ l'.e_.length = fanout ∧
      l'.live = l.live.take pos ++ [{ key_ := key, hash := hash, vals := [] }] ++
        l.live.drop pos := by
  have hf : fanout = 8 := rfl
  by_cases hp : pos < l.nk_
  · have hb := blit_ok l.e_ (pos + 1) l.e_ pos (l.nk_ - pos) (by omega) (by omega)
    set e1 := l.e_.take (pos + 1) ++ (l.e_.drop pos).take (l.nk_ - pos) ++
      l.e_.drop (pos + 1 + (l.nk_ - pos)) with he1
    have hl1 : e1.length = fanout := by
      simp [he1]; omega
    refine ⟨{ l with nk_ := l.nk_ + 1, e_ := e1.set pos { key_ := key, hash := hash, vals := [] } },
      ?_, rfl, rfl, rfl, by simp [hl1], ?_⟩
    · simp only [btnode_leaf.insert, hp, if_true, hb, bind, Except.bind]
      rw [aget_lt e1 pos (by omega)]
      simp only [aset, show pos < e1.length by omega, if_true, pure, Except.pure, PAIR.init]
    · simp only [btnode_leaf.live]
      exact insert_shift l.e_ pos l.nk_ _ hpos (by omega)
  · have hpe : pos = l.nk_ := by omega
    subst hpe
    refine ⟨{ l with nk_ := l.nk_ + 1, e_ := l.e_.set l.nk_ { key_ := key, hash := hash, vals := [] } },
      ?_, rfl, rfl, rfl, by simp [hlen], ?_⟩
    · simp only [btnode_leaf.insert, hp, if_false, bind, Except.bind, pure, Except.pure]
      rw [aget_lt l.e_ l.nk_ (by omega)]
      simp only [aset, show l.nk_ < l.e_.length by omega, if_true, PAIR.init]
    · simp only [btnode_leaf.live]
      rw [set_take_succ l.e_ l.nk_ _ (by omega)]
      have hd : List.drop l.nk_ (List.take l.nk_ l.e_) = [] := by
        apply List.drop_eq_nil_of_le; simp
      simp [hd, List.take_take]

/-! ### Searching -/

theorem tw_spec {α : Type} (p : α → Bool) (l : List α) :
    (l.takeWhile p).length ≤ l.length ∧
    (∀ j x, j < (l.takeWhile p).length → l[j]? = some x → p x = true) ∧
    (∀ x, l[(l.takeWhile p).length]? = some x → p x = false) := by
  induction l with
  | nil => simp
  | cons a l ih =>
    by_cases h : p a = true
    · simp only [List.takeWhile_cons, h, if_true, List.length_cons]
      refine ⟨by omega, ?_, ?_⟩
      · intro j x hj hx
        cases j with
        | zero => simp at hx; subst hx; exact h
        | succ j => simp at hx; exact ih.2.1 j x (by omega) hx
      · intro x hx
        simp at hx
        exact ih.2.2 x hx
    · simp only [List.takeWhile_cons, h, List.length_nil]
      refine ⟨by simp, by simp, ?_⟩
      intro x hx
      simp at hx; subst hx
      simpa using h

theorem tw_unique {α : Type} (p : α → Bool) (l : List α) (n : Nat) (hn : n ≤ l.length)
    (h1 : ∀ j x, j < n → l[j]? = some x → p x = true)
    (h2 : ∀ x, l[n]? = some x → p x = false) : (l.takeWhile p).length = n := by
  obtain ⟨a1, a2, a3⟩ := tw_spec p l
  rcases Nat.lt_trichotomy (l.takeWhile p).length n with h | h | h
  · have hlt : (l.takeWhile p).length < l.length := by omega
    have := a3 _ (List.getElem?_eq_getElem hlt)
    have := h1 _ _ h (List.getElem?_eq_getElem hlt)
    simp_all
  · exact h
  · have hlt : n < l.length := by omega
    have := h2 _ (List.getElem?_eq_getElem hlt)
    have := a2 _ _ h (List.getElem?_eq_getElem hlt)
    simp_all

/-- The position a key gets in a sorted list of entries. -/
theorem lb_found_iff (k : Nat) (ks : List Nat) (hs : ks.Pairwise (fun x y => x < y)) :
    (xsearch_lower_bound k ks).2 = true ↔ k ∈ ks := by
  simp only [xsearch_lower_bound, decide_eq_true_eq]
  constructor
  · intro h
    exact List.mem_iff_getElem?.2 ⟨_, h⟩
  · intro h
    obtain ⟨j, hj, rfl⟩ := List.getElem_of_mem h
    have : (ks.takeWhile (fun x => decide (x < ks[j]))).length = j := by
      apply tw_unique
      · omega
      · intro i x hi hx
        have hi' : i < ks.length := by omega
        rw [List.getElem?_eq_getElem hi'] at hx
        simp at hx; subst hx
        simpa using (List.pairwise_iff_getElem.1 hs) i j hi' hj hi
      · intro x hx
        rw [List.getElem?_eq_getElem hj] at hx
        simp at hx; subst hx
        simp
    rw [this]
    exact List.getElem?_eq_getElem hj

theorem lb_pos_le (k : Nat) (ks : List Nat) : (xsearch_lower_bound k ks).1 ≤ ks.length :=
  (tw_spec _ ks).1

theorem abs_merge_eq (k v hash : Nat) (es : List PAIR) :
    abs_merge k v hash es =
      if (xsearch_lower_bound k (es.map PAIR.key_)).2 = true then
        match es[(xsearch_lower_bound k (es.map PAIR.key_)).1]? with
        | some p => es.set (xsearch_lower_bound k (es.map PAIR.key_)).1 (p.map_value_insert v)
        | none => es
      else
        es.take (xsearch_lower_bound k (es.map PAIR.key_)).1 ++
          [{ key_ := k, hash := hash, vals := [v] }] ++
          es.drop (xsearch_lower_bound k (es.map PAIR.key_)).1 := by
  induction es with
  | nil => simp [abs_merge, xsearch_lower_bound]
  | cons p ps ih =>
    simp only [xsearch_lower_bound, decide_eq_true_eq] at ih ⊢
    by_cases h : p.key_ < k
    · have h1 : ¬ k < p.key_ := by omega
      have h2 : ¬ k = p.key_ := by omega
      simp only [abs_merge, h1, h2, if_false, List.map_cons, List.takeWhile_cons,
        decide_eq_true_eq, h, if_true, List.length_cons, List.getElem?_cons_succ,
        List.take_succ_cons, List.drop_succ_cons, List.cons_append, ih, List.set_cons_succ]
      split_ifs with hf
      · cases ps[(List.takeWhile (fun x => decide (x < k)) (List.map PAIR.key_ ps)).length]? <;> rfl
      · rfl
    · by_cases h1 : k < p.key_
      · have h3 : ¬ p.key_ = k := by omega
        simp [abs_merge, h1, h, h3]
      · have h2 : k = p.key_ := by omega
        simp [abs_merge, h1, h2]

theorem abs_raw_eq (q : PAIR) (es : List PAIR) :
    abs_raw q es =
      es.take (xsearch_lower_bound q.key_ (es.map PAIR.key_)).1 ++ [q] ++
        es.drop (xsearch_lower_bound q.key_ (es.map PAIR.key_)).1 := by
  induction es with
  | nil => simp [abs_raw, xsearch_lower_bound]
  | cons p ps ih =>
    simp only [xsearch_lower_bound] at ih ⊢
    by_cases h : p.key_ < q.key_
    · simp [abs_raw, h, ih]
    · simp [abs_raw, h]

/-! ### The shift loops of `insert_internal` -/

theorem keyL_set (e : List xpair) (i n : Nat) (x : xpair) (h : i < e.length) :
    keyL (e.set i x) n = if n = i then x.key_ else keyL e n := by
  unfold keyL
  rw [List.getElem?_set]
  by_cases hn : i = n
  · subst hn; simp [h]
  · have : ¬ n = i := fun e => hn e.symm
    simp [hn, this]

theorem kidL_set (e : List xpair) (i n : Nat) (x : xpair) (h : i < e.length) :
    kidL (e.set i x) n = if n = i then x.v_ else kidL e n := by
  unfold kidL
  rw [List.getElem?_set]
  by_cases hn : i = n
  · subst hn; simp [h]
  · have : ¬ n = i := fun e => hn e.symm
    simp [hn, this]

theorem keyL_getElem (e : List xpair) (i : Nat) (h : i < e.length) : keyL e i = e[i].key_ := by
  unfold keyL; rw [List.getElem?_eq_getElem h]

theorem kidL_getElem (e : List xpair) (i : Nat) (h : i < e.length) : kidL e i = e[i].v_ := by
  unfold kidL; rw [List.getElem?_eq_getElem h]

theorem shift_keys_spec (ikey : Nat) : ∀ (j : Nat) (e : List xpair), j < e.length →
    ∃ e', shift_keys ikey j e = .ok e' ∧ e'.length = e.length ∧
      (∀ n : Nat, kidL e' n = kidL e n) ∧
      (∀ n : Nat, keyL e' n = if ikey < n ∧ n ≤ j then keyL e (n - 1) else keyL e n) := by
  intro j
  induction j with
  | zero =>
    intro e _
    refine ⟨e, rfl, rfl, fun _ => rfl, ?_⟩
    intro n
    have : ¬ (ikey < n ∧ n ≤ 0) := by omega
    rw [if_neg this]
  | succ i ih =>
    intro e he
    by_cases hi : i ≥ ikey
    · have h1 : i < e.length := by omega
      obtain ⟨e', h2, h3, h4, h5⟩ :=
        ih (e.set (i + 1) { e[i + 1] with key_ := e[i].key_ }) (by simp; omega)
      refine ⟨e', ?_, by simpa using h3, ?_, ?_⟩
      · simp only [shift_keys, hi, if_true, aget_lt e i h1, aget_lt e (i + 1) he, bind,
          Except.bind, aset, he]
        exact h2
      · intro n
        rw [h4 n, kidL_set _ _ _ _ he]
        by_cases hn : n = i + 1
        · subst hn; simp [kidL_getElem _ _ he]
        · simp [hn]
      · intro n
        rw [h5 n, keyL_set _ _ n _ he, keyL_set _ _ (n - 1) _ he]
        simp only
        by_cases hn : n = i + 1
        · subst hn
          have c1 : ¬ (ikey < i + 1 ∧ i + 1 ≤ i) := by omega
          have c2 : (ikey < i + 1 ∧ i + 1 ≤ i + 1) := by omega
          rw [if_neg c1, if_pos c2, if_pos rfl]
          simp [keyL_getElem _ _ h1]
        · by_cases hc : ikey < n ∧ n ≤ i
          · have c2 : (ikey < n ∧ n ≤ i + 1) := by omega
            have c3 : ¬ (n - 1 = i + 1) := by omega
            rw [if_pos hc, if_pos c2, if_neg c3]
          · have c2 : ¬ (ikey < n ∧ n ≤ i + 1) := by omega
            rw [if_neg hc, if_neg c2, if_neg hn]
    · refine ⟨e, ?_, rfl, fun _ => rfl, ?_⟩
      · simp [shift_keys, hi]
      · intro n
        have : ¬ (ikey < n ∧ n ≤ i + 1) := by omega
        rw [if_neg this]

theorem shift_children_spec (ikey : Nat) : ∀ (j : Nat) (e : List xpair), j < e.length →
    ∃ e', shift_children ikey j e = .ok e' ∧ e'.length = e.length ∧
      (∀ n : Nat, keyL e' n = keyL e n) ∧
      (∀ n : Nat, kidL e' n = if ikey + 1 < n ∧ n ≤ j then kidL e (n - 1) else kidL e n) := by
  intro j
  induction j with
  | zero =>
    intro e _
    refine ⟨e, rfl, rfl, fun _ => rfl, ?_⟩
    intro n
    have : ¬ (ikey + 1 < n ∧ n ≤ 0) := by omega
    rw [if_neg this]
  | succ i ih =>
    intro e he
    by_cases hi : i ≥ ikey + 1
    · have h1 : i < e.length := by omega
      obtain ⟨e', h2, h3, h4, h5⟩ :=
        ih (e.set (i + 1) { e[i + 1] with v_ := e[i].v_ }) (by simp; omega)
      refine ⟨e', ?_, by simpa using h3, ?_, ?_⟩
      · simp only [shift_children, hi, if_true, aget_lt e i h1, aget_lt e (i + 1) he, bind,
          Except.bind, aset, he]
        exact h2
      · intro n
        rw [h4 n, keyL_set _ _ _ _ he]
        by_cases hn : n = i + 1
        · subst hn; simp [keyL_getElem _ _ he]
        · simp [hn]
      · intro n
        rw [h5 n, kidL_set _ _ n _ he, kidL_set _ _ (n - 1) _ he]
        simp only
        by_cases hn : n = i + 1
        · subst hn
          have c1 : ¬ (ikey + 1 < i + 1 ∧ i + 1 ≤ i) := by omega
          have c2 : (ikey + 1 < i + 1 ∧ i + 1 ≤ i + 1) := by omega
          rw [if_neg c1, if_pos c2, if_pos rfl]
          simp [kidL_getElem _ _ h1]
        · by_cases hc : ikey + 1 < n ∧ n ≤ i
          · have c2 : (ikey + 1 < n ∧ n ≤ i + 1) := by omega
            have c3 : ¬ (n - 1 = i + 1) := by omega
            rw [if_pos hc, if_pos c2, if_neg c3]
          · have c2 : ¬ (ikey + 1 < n ∧ n ≤ i + 1) := by omega
            rw [if_neg hc, if_neg c2, if_neg hn]
    · refine ⟨e, ?_, rfl, fun _ => rfl, ?_⟩
      · simp [shift_children, hi]
      · intro n
        have : ¬ (ikey + 1 < n ∧ n ≤ i + 1) := by omega
        rw [if_neg this]

/-- The effect of the two shift loops and `assign_right` on the parent node. -/
theorem parent_insert_node (m : btnode_internal) (ikey key : Nat) (right : Option Nat)
    (hlen : m.e_.length = fanout) (hnk : m.nk_ + 1 < fanout) (hik : ikey ≤ m.nk_) :
    ∃ e1 e2 m3, shift_keys ikey m.nk_ m.e_ = .ok e1 ∧
      shift_children ikey (m.nk_ + 1) e1 = .ok e2 ∧
      ({ m with e_ := e2 } : btnode_internal).assign_right ikey key right = .ok m3 ∧
      m3.parent_ = m.parent_ ∧ m3.nk_ = m.nk_ ∧ m3.e_.length = fanout ∧
      (∀ n : Nat, key_at m3 n = if n = ikey then key else
        if ikey < n ∧ n ≤ m.nk_ then key_at m (n - 1) else key_at m n) ∧
      (∀ n : Nat, kid_at m3 n = if n = ikey + 1 then right else
        if ikey + 1 < n ∧ n ≤ m.nk_ + 1 then kid_at m (n - 1) else kid_at m n) := by
  have hf : fanout = 8 := rfl
  obtain ⟨e1, a1, a2, a3, a4⟩ := shift_keys_spec ikey m.nk_ m.e_ (by omega)
  obtain ⟨e2, b1, b2, b3, b4⟩ := shift_children_spec ikey (m.nk_ + 1) e1 (by omega)
  have hl2 : e2.length = fanout := by omega
  have i1 : ikey < e2.length := by omega
  have i2 : ikey + 1 < (e2.set ikey (xpair.mk key e2[ikey].v_)).length := by
    simp; omega
  refine ⟨e1, e2, btnode_internal.mk m.parent_ m.nk_
      ((e2.set ikey (xpair.mk key e2[ikey].v_)).set (ikey + 1)
        (xpair.mk (e2.set ikey (xpair.mk key e2[ikey].v_))[ikey + 1].key_ right)),
    a1, b1, ?_, rfl, rfl, by simp [hl2], ?_, ?_⟩
  · simp only [btnode_internal.assign_right, aget_lt e2 ikey i1, bind, Except.bind, aset, i1,
      if_true]
    rw [aget_lt _ (ikey + 1) i2]
    simp only [i2, if_true, pure, Except.pure]
  · intro n
    simp only [key_at]
    rw [keyL_set _ _ _ _ i2]
    by_cases h2 : n = ikey + 1
    · subst h2
      have c0 : ¬ ikey + 1 = ikey := by omega
      rw [if_pos rfl, if_neg c0]
      simp only
      rw [← keyL_getElem _ _ i2, keyL_set _ _ _ _ i1, if_neg c0, b3, a4]
    · rw [if_neg h2, keyL_set _ _ _ _ i1]
      by_cases h1 : n = ikey
      · simp [h1]
      · rw [if_neg h1, if_neg h1, b3, a4]
  · intro n
    simp only [kid_at]
    rw [kidL_set _ _ _ _ i2]
    by_cases h2 : n = ikey + 1
    · simp [h2]
    · rw [if_neg h2, if_neg h2, kidL_set _ _ _ _ i1]
      by_cases h1 : n = ikey
      · subst h1
        have c : ¬ (n + 1 < n ∧ n ≤ m.nk_ + 1) := by omega
        rw [if_pos rfl, if_neg c]
        simp only
        rw [← kidL_getElem _ _ i1, b4, if_neg c, a3]
      · rw [if_neg h1, b4]
        split_ifs
        · rw [a3]
        · rw [a3]

/-! ### Helpers for the invariant -/

theorem live_at_leaf {t : btree_type} {a : Nat} {l : btnode_leaf} (h : Live t a (.leaf l)) :
    live_at t a = l.live := by
  unfold live_at; rw [h]

theorem live_at_internal {t : btree_type} {a : Nat} {m : btnode_internal}
    (h : Live t a (.internal m)) : live_at t a = [] := by
  unfold live_at; rw [h]

theorem live_at_dead {t : btree_type} {a : Nat} (h : ∀ n, ¬ Live t a n) : live_at t a = [] := by
  unfold live_at
  rcases h' : t.heap[a]? with _ | _ | n
  · rfl
  · rfl
  · exact absurd h' (h n)

theorem content_congr {t t' : btree_type} {chain : List Nat}
    (h : ∀ b ∈ chain, live_at t' b = live_at t b) : content t' chain = content t chain := by
  unfold content
  induction chain with
  | nil => rfl
  | cons a as ih =>
    simp only [List.flatMap_cons]
    rw [h a (by simp), ih (fun b hb => h b (by simp [hb]))]

theorem Linked_congr {t t' : btree_type} : ∀ {chain : List Nat} {p : Option Nat},
    (∀ b ∈ chain, ∀ l, Live t b (.leaf l) → ∃ l', Live t' b (.leaf l') ∧ l'.next_ = l.next_) →
    Linked t p chain → Linked t' p chain := by
  intro chain
  induction chain with
  | nil => intro p _ h; exact h
  | cons a as ih =>
    intro p h hl
    obtain ⟨h1, l, h2, h3⟩ := hl
    obtain ⟨l', h4, h5⟩ := h a (by simp) l h2
    refine ⟨h1, l', h4, ?_⟩
    rw [h5]
    exact ih (fun b hb => h b (by simp [hb])) h3

theorem Linked_mem {t : btree_type} : ∀ {chain : List Nat} {p : Option Nat},
    Linked t p chain → ∀ b ∈ chain, ∃ l, Live t b (.leaf l) := by
  intro chain
  induction chain with
  | nil => intro p _ b hb; simp at hb
  | cons a as ih =>
    intro p hl b hb
    obtain ⟨_, l, h2, h3⟩ := hl
    rcases List.mem_cons.1 hb with rfl | hb
    · exact ⟨l, h2⟩
    · exact ih h3 b hb

theorem Below_of_lt {a b : Nat} {h : Option Nat} (hab : a ≤ b) (hb : Below b h) : Below a h := by
  cases h with
  | none => trivial
  | some x => simp only [Below] at hb ⊢; omega

theorem leaf_live_length {l : btnode_leaf} (h : l.nk_ ≤ l.e_.length) : l.live.length = l.nk_ := by
  simp [btnode_leaf.live, h]

theorem hiE_none (g : Ghost) (c : Nat) : hiE g none c = g.hi c := rfl

/-- Replacing the payload of one leaf. -/
theorem leaf_update {g : Ghost} {t t' : btree_type} {a : Nat} {l l' : btnode_leaf}
    (hI : InvG g t 0 none none) (ha : Live t a (.leaf l))
    (hp : l'.parent_ = l.parent_) (hn : l'.next_ = l.next_) (hlen : l'.e_.length = fanout)
    (hnk1 : 1 ≤ l'.nk_) (hnk2 : l'.nk_ ≤ fanout)
    (hmin : t.root_ ≠ some a → order + 1 ≤ l'.nk_)
    (hs : (l'.live.map PAIR.key_).Pairwise (fun x y => x < y))
    (hbd : ∀ k ∈ l'.live.map PAIR.key_, g.lo a ≤ k ∧ Below k (g.hi a))
    (hheap : t'.heap = t.heap.set a (some (.leaf l'))) (hroot : t'.root_ = t.root_)
    (hlev : t'.nlevel_ = t.nlevel_) (hsize : t'.nk_ + l.nk_ = t.nk_ + l'.nk_) :
    InvG g t' 0 none (if l'.nk_ = fanout then some a else none) ∧
      live_at t' a = l'.live ∧ ∀ b, b ≠ a → live_at t' b = live_at t b := by
  have hlt := ha.lt
  have hL : ∀ b n, Live t' b n ↔ (b = a ∧ n = .leaf l') ∨ (b ≠ a ∧ Live t b n) := by
    intro b n
    have := Live_wr_iff t a b (.leaf l') n
    simp only [Live, wr] at this ⊢
    rw [hheap, this]
    simp [hlt]
  have ha' : Live t' a (.leaf l') := (hL a _).2 (Or.inl ⟨rfl, rfl⟩)
  have hint : ∀ b m, Live t b (.internal m) → Live t' b (.internal m) := by
    intro b m hb
    refine (hL b _).2 (Or.inr ⟨?_, hb⟩)
    rintro rfl
    have := ha.inj hb
    cases this
  have hex : ∀ b n, Live t b n → ∃ n', Live t' b n' := by
    intro b n hb
    by_cases h : b = a
    · subst h; exact ⟨_, ha'⟩
    · exact ⟨n, (hL b n).2 (Or.inr ⟨h, hb⟩)⟩
  have hex' : ∀ b n', Live t' b n' → ∃ n, Live t b n ∧ n.parent_ = n'.parent_ := by
    intro b n' hb
    rcases (hL b n').1 hb with ⟨rfl, rfl⟩ | ⟨_, h⟩
    · exact ⟨_, ha, hp.symm⟩
    · exact ⟨n', h, rfl⟩
  have hla : live_at t' a = l'.live := live_at_leaf ha'
  have hlb : ∀ b, b ≠ a → live_at t' b = live_at t b := by
    intro b hb
    unfold live_at
    rw [hheap, List.getElem?_set_ne (fun e => hb e.symm)]
  refine ⟨?_, hla, hlb⟩
  have hne : 0 < t.nlevel_ := by
    by_contra hc
    exact (hI.root0 (by omega)).2.2.2 a _ ha
  obtain ⟨hll, hllen, hlnk1, hlnk2, -, -, -, -, hach⟩ := hI.leaf a l ha
  constructor
  · intro h0; rw [hlev] at h0; omega
  · intro _
    obtain ⟨r, n, h1, h2, h3⟩ := hI.root1 hne
    obtain ⟨n', hn'⟩ := hex r n h2
    exact ⟨r, n', by rw [hroot]; exact h1, hn', by rw [hlev]; exact h3.1, h3.2⟩
  · intro b n hb
    obtain ⟨n0, h0, _⟩ := hex' b n hb
    rw [hlev]; exact hI.lvl_le b n0 h0
  · intro b n hb
    obtain ⟨n0, h0, _⟩ := hex' b n hb
    exact hI.lohi b n0 h0
  · intro b n hb hl hpr
    obtain ⟨n0, h0, h1⟩ := hex' b n hb
    rw [← h1]
    exact hI.par_field b n0 h0 hl hpr
  · intro b n hb hr hpr
    obtain ⟨n0, h0, _⟩ := hex' b n hb
    obtain ⟨p, m, i, h1, h2, h3⟩ := hI.has_par b n0 h0 (by rw [← hroot]; exact hr) hpr
    exact ⟨p, m, i, h1, hint p m h2, h3⟩
  · intro b lb hb
    rcases (hL b _).1 hb with ⟨rfl, h⟩ | ⟨hne', h⟩
    · cases h
      refine ⟨hll, hlen, hnk1, hnk2, ?_, by rw [hroot]; exact hmin, hs, hbd, hach⟩
      intro h; simp [h]
    · obtain ⟨h1, h2, h3, h4, h5, h6, h7, h8, h9⟩ := hI.leaf b lb h
      refine ⟨h1, h2, h3, h4, ?_, by rw [hroot]; exact h6, h7, h8, h9⟩
      intro h; have := h5 h; cases this
  · intro b m hb
    rcases (hL b _).1 hb with ⟨rfl, h⟩ | ⟨hne', h⟩
    · cases h
    · obtain ⟨h1, h2, h3, h4, h5, h6⟩ := hI.internal b m h
      refine ⟨h1, h2, h3, ?_, by rw [hroot]; exact h5, ?_⟩
      · intro h; have := h4 h; cases this
      · intro i hi
        obtain ⟨c, cn, k1, k2, k3⟩ := h6 i hi
        obtain ⟨cn', k4⟩ := hex c cn k2
        exact ⟨c, cn', k1, k4, k3⟩
  · exact hI.chain_nodup
  · apply Linked_congr _ hI.chain_link
    intro b _ lb hb
    by_cases h : b = a
    · subst h
      have := ha.inj hb
      cases this
      exact ⟨l', ha', hn⟩
    · exact ⟨lb, (hL b _).2 (Or.inr ⟨h, hb⟩), rfl⟩
  · exact hI.chain_adj
  · exact hI.chain_first
  · exact hI.chain_last
  · -- size
    obtain ⟨s1, s2, hch⟩ := List.append_of_mem hach
    have hnd := hI.chain_nodup
    rw [hch] at hnd
    have ha1 : a ∉ s1 := by
      intro h
      have := (List.nodup_append.1 hnd).2.2 h (List.mem_cons_self a s2)
      exact this
    have ha2 : a ∉ s2 := by
      have := (List.nodup_append.1 hnd).2.1
      exact (List.nodup_cons.1 this).1
    have e1 : content t' s1 = content t s1 :=
      content_congr (fun b hb => hlb b (fun e => ha1 (e ▸ hb)))
    have e2 : content t' s2 = content t s2 :=
      content_congr (fun b hb => hlb b (fun e => ha2 (e ▸ hb)))
    have hsz := hI.size_eq
    rw [hch] at hsz ⊢
    simp only [content, List.flatMap_append, List.flatMap_cons, List.length_append] at hsz ⊢
    simp only [content] at e1 e2
    rw [e1, e2, hla, leaf_live_length (by omega)]
    rw [live_at_leaf ha, leaf_live_length (by omega)] at hsz
    omega
  · intro l r h; cases h

theorem Chain'_congr_mem {α : Type} {R S : α → α → Prop} : ∀ {l : List α},
    (∀ x ∈ l, ∀ y ∈ l, R x y → S x y) → l.Chain' R → l.Chain' S := by
  intro l
  induction l with
  | nil => intro _ _; exact List.chain'_nil
  | cons a l ih =>
    intro h hc
    cases l with
    | nil => exact List.chain'_singleton a
    | cons b l =>
      rw [List.chain'_cons] at hc ⊢
      exact ⟨h a (by simp) b (by simp) hc.1,
        ih (fun x hx y hy => h x (by simp [hx]) y (by simp [hy])) hc.2⟩

theorem Linked_insert {t t2 : btree_type} {a N : Nat} {l2 r2 : btnode_leaf} {nxt : Option Nat}
    (ha2 : Live t2 a (.leaf l2)) (hN : Live t2 N (.leaf r2)) (hl2 : l2.next_ = some N)
    (hold : ∀ l, Live t a (.leaf l) → l.next_ = nxt) (hr2 : r2.next_ = nxt)
    (hoth : ∀ b lb, b ≠ a → Live t b (.leaf lb) → Live t2 b (.leaf lb)) :
    ∀ (s1 s2 : List Nat) (p : Option Nat), a ∉ s1 → a ∉ s2 →
      Linked t p (s1 ++ a :: s2) → Linked t2 p (s1 ++ a :: N :: s2) := by
  intro s1
  induction s1 with
  | nil =>
    intro s2 p _ h2 hl
    obtain ⟨h1, l, h3, h4⟩ := hl
    refine ⟨h1, l2, ha2, ?_⟩
    rw [hl2]
    refine ⟨rfl, r2, hN, ?_⟩
    rw [hr2, ← hold l h3]
    apply Linked_congr _ h4
    intro b hb lb hlb
    exact ⟨lb, hoth b lb (fun e => h2 (e ▸ hb)) hlb, rfl⟩
  | cons b s1 ih =>
    intro s2 p h1 h2 hl
    obtain ⟨h3, lb, h4, h5⟩ := hl
    have hba : b ≠ a := fun e => h1 (by simp [e])
    refine ⟨h3, lb, hoth b lb hba h4, ?_⟩
    exact ih s2 _ (fun h => h1 (by simp [h])) h2 h5

theorem pairwise_take {l : List Nat} (h : l.Pairwise (fun x y => x < y)) (n : Nat) :
    (l.take n).Pairwise (fun x y => x < y) :=
  h.sublist (List.take_sublist n l)

theorem pairwise_drop {l : List Nat} (h : l.Pairwise (fun x y => x < y)) (n : Nat) :
    (l.drop n).Pairwise (fun x y => x < y) :=
  h.sublist (List.drop_sublist n l)

theorem SameCnt.same_refl (t : btree_type) : SameCnt t t := ⟨rfl, rfl, rfl⟩

theorem SameCnt.same_trans {t t' t'' : btree_type} (h : SameCnt t t') (h' : SameCnt t' t'') :
    SameCnt t t'' := by
  obtain ⟨a, b, c⟩ := h
  obtain ⟨a', b', c'⟩ := h'
  exact ⟨by rw [a', a], by rw [b', b], by rw [c', c]⟩

theorem leaf_keys_lt {l : btnode_leaf}
    (hs : (l.live.map PAIR.key_).Pairwise (fun x y => x < y))
    (hlen : l.nk_ ≤ l.e_.length) {i j : Nat} {x y : PAIR} (hij : i < j) (hj : j < l.nk_)
    (hx : l.e_[i]? = some x) (hy : l.e_[j]? = some y) : x.key_ < y.key_ := by
  have hi' : i < l.e_.length := by omega
  have hj' : j < l.e_.length := by omega
  rw [List.getElem?_eq_getElem hi'] at hx
  rw [List.getElem?_eq_getElem hj'] at hy
  simp only [Option.some.injEq] at hx hy
  have h := (List.pairwise_iff_getElem.1 hs) i j
    (by simp [btnode_leaf.live]; omega) (by simp [btnode_leaf.live]; omega) hij
  simp only [btnode_leaf.live, List.getElem_map, List.getElem_take] at h
  rw [hx, hy] at h
  exact h

theorem leaf_key_mem {l : btnode_leaf} (hlen : l.nk_ ≤ l.e_.length) {i : Nat} {x : PAIR}
    (hi : i < l.nk_) (hx : l.e_[i]? = some x) : x.key_ ∈ l.live.map PAIR.key_ := by
  apply List.mem_iff_getElem?.2
  refine ⟨i, ?_⟩
  simp [btnode_leaf.live, List.getElem?_take, hi, hx]

theorem mem_live_keys {l : btnode_leaf} (hlen : l.nk_ ≤ l.e_.length) {k : Nat}
    (hk : k ∈ l.live.map PAIR.key_) :
    ∃ i x, i < l.nk_ ∧ l.e_[i]? = some x ∧ x.key_ = k := by
  obtain ⟨i, hi⟩ := List.mem_iff_getElem?.1 hk
  simp only [btnode_leaf.live, List.getElem?_map, List.getElem?_take] at hi
  by_cases h : i < l.nk_
  · rw [if_pos h, List.getElem?_eq_getElem (show i < l.e_.length by omega)] at hi
    simp at hi
    exact ⟨i, _, h, List.getElem?_eq_getElem (show i < l.e_.length by omega), hi⟩
  · rw [if_neg h] at hi; simp at hi

theorem getLast?_append_cons {α : Type} (s1 : List α) (y : α) (s2 : List α) :
    (s1 ++ y :: s2).getLast? = (y :: s2).getLast? := by
  rw [List.getLast?_append]
  cases h : (y :: s2).getLast? with
  | none => simp at h
  | some z => rfl

theorem slotlo_congr {g g2 : Ghost} {b : Nat} {m : btnode_internal} {i : Nat}
    (h : g2.lo b = g.lo b) : slotlo g2 b m i = slotlo g b m i := by
  unfold slotlo; rw [h]

theorem slothi_congr {g g2 : Ghost} {b : Nat} {m : btnode_internal} {i : Nat}
    (h : g2.hi b = g.hi b) : slothi g2 b m i = slothi g b m i := by
  unfold slothi; rw [h]

set_option maxHeartbeats 1000000 in
/-- Splitting the full leaf `a`: the state after `btnode_leaf::split` satisfies the invariant
with the split pending. -/
theorem leaf_split_ok {g : Ghost} {t : btree_type} {a : Nat} {l : btnode_leaf}
    (hI : InvG g t 0 none (some a)) (ha : Live t a (.leaf l)) (hfull : l.nk_ = fanout) :
    ∃ t2 g2 N r2 x, leaf_split t (some a) = .ok (t2, some N) ∧
      InvG g2 t2 1 (some (a, N)) none ∧ Live t2 N (.leaf r2) ∧ aget r2.e_ 0 = .ok x ∧
      x.key_ = g2.lo N ∧ content t2 g2.chain = content t g.chain ∧ t2.nk_ = t.nk_ ∧
      t2.nlevel_ = t.nlevel_ ∧ SameCnt t t2 := by
  have hf : fanout = 8 := rfl
  have ho : order = 3 := rfl
  obtain ⟨hll, hllen, hlnk1, hlnk2, -, hlmin, hlsort, hlb, hach⟩ := hI.leaf a l ha
  have hlt := ha.lt
  have hne : 0 < t.nlevel_ := by
    by_contra hc
    exact (hI.root0 (by omega)).2.2.2 a _ ha
  -- the pieces
  obtain ⟨x, hx⟩ : ∃ x, l.e_[4]? = some x :=
    ⟨_, List.getElem?_eq_getElem (show 4 < l.e_.length by omega)⟩
  set e := (btnode_leaf.new.e_.take 0 ++ (l.e_.drop (order + 1)).take (1 + order) ++
    btnode_leaf.new.e_.drop (0 + (1 + order))) with he
  have hblit : blit btnode_leaf.new.e_ 0 l.e_ (order + 1) (1 + order) = .ok e :=
    blit_ok _ _ _ _ _ (by omega) (by simp [btnode_leaf.new]; omega)
  have helen : e.length = fanout := by
    simp [he, btnode_leaf.new]; omega
  have he0 : ∀ i, i < 4 → e[i]? = l.e_[4 + i]? := by
    intro i hi
    simp only [he, ho, List.take_zero, List.nil_append]
    rw [List.getElem?_append_left (by simp; omega), List.getElem?_take_of_lt (by omega),
      List.getElem?_drop]
  set N := t.heap.length with hN
  set l2 : btnode_leaf := { l with nk_ := order + 1, next_ := some N } with hl2
  set r2 : btnode_leaf := { parent_ := none, nk_ := order + 1, e_ := e, next_ := l.next_ }
    with hr2
  set t1 := (alloc t (.leaf { btnode_leaf.new with e_ := e, nk_ := order + 1 })).1 with ht1
  set t2 := wr (wr t1 (some a) (.leaf l2)) (some N) (.leaf r2) with ht2
  have hN1 : Live t1 N (.leaf { btnode_leaf.new with e_ := e, nk_ := order + 1 }) :=
    (Live_alloc_iff _ _ _ _).2 (Or.inr ⟨rfl, rfl⟩)
  have haN : a ≠ N := by omega
  have hN1' : Live (wr t1 (some a) (.leaf l2)) N
      (.leaf { btnode_leaf.new with e_ := e, nk_ := order + 1 }) :=
    (Live_wr_iff _ _ _ _ _).2 (Or.inr ⟨fun e => haN e.symm, hN1⟩)
  have hcode : leaf_split t (some a) = .ok (t2, some N) := by
    simp only [leaf_split, ha.rd_leaf, hblit, bind, Except.bind, alloc, pure, Except.pure]
    have := hN1'.rd_leaf
    simp only [alloc, ht1] at this
    rw [this]
    rfl
  have hL : ∀ b n, Live t2 b n ↔
      (b = N ∧ n = .leaf r2) ∨ (b = a ∧ n = .leaf l2) ∨ (b ≠ N ∧ b ≠ a ∧ Live t b n) := by
    intro b n
    rw [ht2, Live_wr_iff, Live_wr_iff, ht1, Live_alloc_iff]
    simp only [wr_heap_length]
    have h1 : N < (alloc t (.leaf { btnode_leaf.new with e_ := e, nk_ := order + 1 })).1.heap.length := by
      simp [alloc, hN]
    have h2 : a < (alloc t (.leaf { btnode_leaf.new with e_ := e, nk_ := order + 1 })).1.heap.length := by
      simp [alloc]; omega
    constructor
    · rintro (⟨h, -, h'⟩ | ⟨h, ⟨h3, -, h'⟩ | ⟨h3, h4 | ⟨h4, -⟩⟩⟩)
      · exact Or.inl ⟨h, h'⟩
      · exact Or.inr (Or.inl ⟨h3, h'⟩)
      · exact Or.inr (Or.inr ⟨h, h3, h4⟩)
      · exact absurd h4 h
    · rintro (⟨h, h'⟩ | ⟨h, h'⟩ | ⟨h, h3, h4⟩)
      · exact Or.inl ⟨h, h1, h'⟩
      · exact Or.inr ⟨by omega, Or.inl ⟨h, h2, h'⟩⟩
      · exact Or.inr ⟨h, Or.inr ⟨h3, Or.inl h4⟩⟩
  have hdeadN : ∀ n, ¬ Live t N n := fun n h => by have := h.lt; omega
  have hLa : Live t2 a (.leaf l2) := (hL a _).2 (Or.inr (Or.inl ⟨rfl, rfl⟩))
  have hLN : Live t2 N (.leaf r2) := (hL N _).2 (Or.inl ⟨rfl, rfl⟩)
  have hold : ∀ b n, Live t b n → b ≠ a → Live t2 b n := by
    intro b n hb hba
    exact (hL b n).2 (Or.inr (Or.inr ⟨fun e => hdeadN n (e ▸ hb), hba, hb⟩))
  have hint : ∀ b m, Live t b (.internal m) → Live t2 b (.internal m) := by
    intro b m hb
    apply hold b _ hb
    rintro rfl
    cases ha.inj hb
  have hex : ∀ b n, Live t b n → ∃ n', Live t2 b n' := by
    intro b n hb
    by_cases h : b = a
    · subst h; exact ⟨_, hLa⟩
    · exact ⟨n, hold b n hb h⟩
  -- the ghost
  set key := x.key_ with hkey
  obtain ⟨s1, s2, hch⟩ := List.append_of_mem hach
  have hnd := hI.chain_nodup
  rw [hch] at hnd
  have ha1 : a ∉ s1 := fun h => (List.nodup_append.1 hnd).2.2 h (List.mem_cons_self a s2)
  have ha2 : a ∉ s2 := (List.nodup_cons.1 (List.nodup_append.1 hnd).2.1).1
  have hchlive : ∀ b ∈ g.chain, ∃ lb, Live t b (.leaf lb) := Linked_mem hI.chain_link
  have hN1s : N ∉ s1 := fun h => by
    obtain ⟨lb, hb⟩ := hchlive N (by rw [hch]; simp [h])
    exact hdeadN _ hb
  have hN2s : N ∉ s2 := fun h => by
    obtain ⟨lb, hb⟩ := hchlive N (by rw [hch]; simp [h])
    exact hdeadN _ hb
  set g2 : Ghost :=
    { lvl := Function.update g.lvl N 1
      lo := Function.update g.lo N key
      hi := Function.update (Function.update g.hi N (g.hi a)) a (some key)
      par := Function.update g.par N none
      chain := s1 ++ a :: N :: s2 } with hg2
  have glvl : ∀ b, b ≠ N → g2.lvl b = g.lvl b := fun b hb => by
    simp [hg2, Function.update_apply, hb]
  have glo : ∀ b, b ≠ N → g2.lo b = g.lo b := fun b hb => by
    simp [hg2, Function.update_apply, hb]
  have gpar : ∀ b, b ≠ N → g2.par b = g.par b := fun b hb => by
    simp [hg2, Function.update_apply, hb]
  have ghi : ∀ b, b ≠ N → b ≠ a → g2.hi b = g.hi b := fun b hb hb' => by
    show Function.update (Function.update g.hi N (g.hi a)) a (some key) b = g.hi b
    rw [Function.update_noteq hb', Function.update_noteq hb]
  have ghia : g2.hi a = some key := by
    show Function.update (Function.update g.hi N (g.hi a)) a (some key) a = some key
    rw [Function.update_same]
  have ghiN : g2.hi N = g.hi a := by
    show Function.update (Function.update g.hi N (g.hi a)) a (some key) N = g.hi a
    rw [Function.update_noteq (fun e => haN e.symm), Function.update_same]
  have gloN : g2.lo N = key := by
    show Function.update g.lo N key N = key
    rw [Function.update_same]
  have ghiE : ∀ b, b ≠ N → hiE g2 (some (a, N)) b = g.hi b := by
    intro b hb
    show (if b = a then g2.hi N else g2.hi b) = g.hi b
    by_cases h : b = a
    · rw [if_pos h, ghiN, h]
    · rw [if_neg h, ghi b hb h]
  -- keys
  have hx4 : key ∈ l.live.map PAIR.key_ := leaf_key_mem (by omega) (by omega) hx
  obtain ⟨x0, hx0⟩ : ∃ x0, l.e_[0]? = some x0 :=
    ⟨_, List.getElem?_eq_getElem (show 0 < l.e_.length by omega)⟩
  have hlo_key : g.lo a < key := by
    have h1 := (hlb _ (leaf_key_mem (by omega) (by omega) hx0)).1
    have h2 := leaf_keys_lt hlsort (by omega) (show 0 < 4 by omega) (by omega) hx0 hx
    omega
  have hl2live : l2.live = l.live.take 4 := by
    simp [btnode_leaf.live, hl2, ho, List.take_take]
    omega
  have hr2live : r2.live = l.live.drop 4 := by
    simp only [btnode_leaf.live, hr2, ho, hfull, hf]
    apply List.ext_getElem?
    intro n
    rw [List.getElem?_take, List.getElem?_drop, List.getElem?_take]
    by_cases hn : n < 4
    · rw [if_pos hn, he0 n hn, if_pos (by omega)]
    · rw [if_neg hn, if_neg (by omega)]
  have hsplit : l.live = l2.live ++ r2.live := by
    rw [hl2live, hr2live, List.take_append_drop]
  have hxr : r2.e_[0]? = some x := by
    have := he0 0 (by omega)
    simpa [hr2, hx] using this
  refine ⟨t2, g2, N, r2, x, hcode, ?_, hLN, aget_ok hxr, gloN.symm, ?_, rfl, rfl, ⟨rfl, rfl, rfl⟩⟩
  · constructor
    · intro h0; exact absurd h0 (by show ¬ t.nlevel_ = 0; omega)
    · intro _
      obtain ⟨r, n, h1, h2, h3, h4, h5, h6⟩ := hI.root1 hne
      obtain ⟨n', hn'⟩ := hex r n h2
      have hrN : r ≠ N := fun e => hdeadN n (e ▸ h2)
      exact ⟨r, n', h1, hn', by rw [glvl r hrN]; exact h3, by rw [gpar r hrN]; exact h4,
        by rw [glo r hrN]; exact h5, by rw [ghiE r hrN]; exact h6⟩
    · intro b n hb
      rcases (hL b n).1 hb with ⟨rfl, -⟩ | ⟨rfl, -⟩ | ⟨h1, h2, h3⟩
      · show 1 ≤ g2.lvl N ∧ g2.lvl N ≤ t.nlevel_
        simp [hg2]; omega
      · rw [glvl b haN]; exact hI.lvl_le b _ ha
      · rw [glvl b h1]; exact hI.lvl_le b n h3
    · intro b n hb
      rcases (hL b n).1 hb with ⟨rfl, -⟩ | ⟨rfl, -⟩ | ⟨h1, h2, h3⟩
      · rw [gloN, ghiN]; exact (hlb _ hx4).2
      · rw [glo b haN, ghia]; exact hlo_key
      · rw [glo b h1, ghi b h1 h2]; exact hI.lohi b n h3
    · intro b n hb hl hpr
      rcases (hL b n).1 hb with ⟨rfl, -⟩ | ⟨rfl, rfl⟩ | ⟨h1, h2, h3⟩
      · exact absurd ⟨a, rfl⟩ hpr
      · rw [gpar b haN]
        exact hI.par_field b (.leaf l) ha (by omega) (by rintro ⟨_, h⟩; cases h)
      · rw [gpar b h1]
        exact hI.par_field b n h3 (by omega) (by rintro ⟨_, h⟩; cases h)
    · intro b n hb hr hpr
      have hbN : b ≠ N := fun e => hpr ⟨a, by rw [e]⟩
      obtain ⟨n0, hn0⟩ : ∃ n0, Live t b n0 := by
        rcases (hL b n).1 hb with ⟨h, -⟩ | ⟨rfl, -⟩ | ⟨h1, h2, h3⟩
        · exact absurd h hbN
        · exact ⟨_, ha⟩
        · exact ⟨n, h3⟩
      obtain ⟨p, m, i, k1, k2, k3⟩ := hI.has_par b n0 hn0 hr (by rintro ⟨_, h⟩; cases h)
      exact ⟨p, m, i, by rw [gpar b hbN]; exact k1, hint p m k2, k3⟩
    · intro b lb hb
      rcases (hL b _).1 hb with ⟨rfl, h⟩ | ⟨rfl, h⟩ | ⟨h1, h2, h3⟩
      · cases h
        refine ⟨by simp [hg2], helen, by simp [hr2, ho], by simp [hr2, ho, hf], ?_, ?_, ?_, ?_, ?_⟩
        · intro h; simp [hr2, ho, hf] at h
        · intro _; simp [hr2]
        · rw [hr2live, List.map_drop]; exact pairwise_drop hlsort 4
        · intro k hk
          rw [gloN, ghiN]
          have hk' : k ∈ l.live.map PAIR.key_ := by
            rw [hsplit, List.map_append]; exact List.mem_append_right _ hk
          refine ⟨?_, (hlb k hk').2⟩
          obtain ⟨i, y, hi, hy, rfl⟩ := mem_live_keys (by simp [hr2, helen, ho, hf]) hk
          simp only [hr2, ho] at hi hy
          rw [he0 i (by omega)] at hy
          rcases Nat.eq_zero_or_pos i with rfl | hpos
          · rw [hx] at hy; cases hy; exact le_refl _
          · exact le_of_lt (leaf_keys_lt hlsort (by omega) (show 4 < 4 + i by omega)
              (by omega) hx hy)
        · show N ∈ s1 ++ a :: N :: s2
          simp
      · cases h
        refine ⟨by rw [glvl b haN]; exact hll, hllen, by simp [hl2, ho], by simp [hl2, ho, hf],
          ?_, ?_, ?_, ?_, ?_⟩
        · intro h; simp [hl2, ho, hf] at h
        · intro _; simp [hl2]
        · rw [hl2live, List.map_take]; exact pairwise_take hlsort 4
        · intro k hk
          rw [glo b haN, ghia]
          have hk' : k ∈ l.live.map PAIR.key_ := by
            rw [hsplit, List.map_append]; exact List.mem_append_left _ hk
          refine ⟨(hlb k hk').1, ?_⟩
          obtain ⟨i, y, hi, hy, rfl⟩ := mem_live_keys (by simp [hl2, hllen, ho, hf]) hk
          simp only [hl2, ho] at hi hy
          exact leaf_keys_lt hlsort (by omega) (show i < 4 by omega) (by omega) hy hx
        · show b ∈ s1 ++ b :: N :: s2
          simp
      · obtain ⟨k1, k2, k3, k4, k5, k6, k7, k8, k9⟩ := hI.leaf b lb h3
        refine ⟨by rw [glvl b h1]; exact k1, k2, k3, k4, ?_, k6, k7,
          by rw [glo b h1, ghi b h1 h2]; exact k8, ?_⟩
        · intro h; have := k5 h; simp at this; exact absurd this.symm h2
        · show b ∈ s1 ++ a :: N :: s2
          rw [hch] at k9
          simp only [List.mem_append, List.mem_cons] at k9 ⊢
          tauto
    · intro b m hb
      rcases (hL b _).1 hb with ⟨rfl, h⟩ | ⟨rfl, h⟩ | ⟨h1, h2, h3⟩
      · cases h
      · cases h
      · obtain ⟨k1, k2, k3, k4, k5, k6⟩ := hI.internal b m h3
        refine ⟨k1, k2, k3, ?_, k5, ?_⟩
        · intro h; have := k4 h; simp at this; exact absurd this.symm h2
        · intro i hi
          obtain ⟨c, cn, c1, c2, c3, c4, c5, c6⟩ := k6 i hi
          have hcN : c ≠ N := fun e => hdeadN cn (e ▸ c2)
          obtain ⟨cn', c2'⟩ := hex c cn c2
          refine ⟨c, cn', c1, c2', by rw [gpar c hcN]; exact c3,
            by rw [glvl c hcN, glvl b h1]; exact c4, ?_, ?_⟩
          · rw [glo c hcN, c5]
            exact (slotlo_congr (glo b h1)).symm
          · rw [ghiE c hcN]
            rw [hiE_none] at c6
            rw [c6]
            exact (slothi_congr (ghi b h1 h2)).symm
    · show (s1 ++ a :: N :: s2).Nodup
      rw [List.nodup_append] at hnd ⊢
      refine ⟨hnd.1, ?_, ?_⟩
      · rw [List.nodup_cons] at hnd ⊢
        refine ⟨?_, List.nodup_cons.2 ⟨hN2s, hnd.2.1.2⟩⟩
        simp only [List.mem_cons, not_or]
        exact ⟨haN, ha2⟩
      · intro y hy1 hy2
        rcases List.mem_cons.1 hy2 with rfl | hy2
        · exact ha1 hy1
        · rcases List.mem_cons.1 hy2 with rfl | hy2
          · exact hN1s hy1
          · exact hnd.2.2 hy1 (List.mem_cons_of_mem _ hy2)
    · show Linked t2 (s1 ++ a :: N :: s2).head? (s1 ++ a :: N :: s2)
      have hlk := hI.chain_link
      rw [hch] at hlk
      have hh : (s1 ++ a :: N :: s2).head? = (s1 ++ a :: s2).head? := by
        cases s1 <;> rfl
      rw [hh]
      refine Linked_insert hLa hLN rfl (fun l' hl' => ?_) rfl (fun b lb hba hb => hold b _ hb hba)
        s1 s2 _ ha1 ha2 hlk
      cases ha.inj hl'; rfl
    · show (s1 ++ a :: N :: s2).Chain' (fun p q => g2.hi p = some (g2.lo q))
      have hadj := hI.chain_adj
      rw [hch, List.chain'_append] at hadj
      rw [List.chain'_append]
      obtain ⟨d1, d2, d3⟩ := hadj
      refine ⟨?_, ?_, ?_⟩
      · apply Chain'_congr_mem _ d1
        intro p hp q hq hR
        have hp1 : p ≠ N := fun e => hN1s (e ▸ hp)
        have hp2 : p ≠ a := fun e => ha1 (e ▸ hp)
        have hq1 : q ≠ N := fun e => hN1s (e ▸ hq)
        rw [ghi p hp1 hp2, glo q hq1]; exact hR
      · rw [List.chain'_cons]
        refine ⟨by rw [ghia, gloN], ?_⟩
        cases s2 with
        | nil => exact List.chain'_singleton N
        | cons y s2 =>
          rw [List.chain'_cons] at d2 ⊢
          have hyN : y ≠ N := fun e => hN2s (by simp [e])
          refine ⟨by rw [ghiN, glo y hyN]; exact d2.1, ?_⟩
          apply Chain'_congr_mem _ d2.2
          intro p hp q hq hR
          have hp1 : p ≠ N := fun e => hN2s (e ▸ hp)
          have hp2 : p ≠ a := fun e => ha2 (e ▸ hp)
          have hq1 : q ≠ N := fun e => hN2s (e ▸ hq)
          rw [ghi p hp1 hp2, glo q hq1]; exact hR
      · intro p hp q hq
        simp only [List.head?_cons, Option.mem_def, Option.some.injEq] at hq
        subst hq
        have := d3 p hp a (by simp)
        have hps : p ∈ s1 := List.mem_of_mem_getLast? hp
        have hp1 : p ≠ N := fun e => hN1s (e ▸ hps)
        have hp2 : p ≠ a := fun e => ha1 (e ▸ hps)
        rw [ghi p hp1 hp2, glo a haN]; exact this
    · intro b hb
      have hh : (s1 ++ a :: N :: s2).head? = (s1 ++ a :: s2).head? := by
        cases s1 <;> rfl
      have hb' : g.chain.head? = some b := by rw [hch, ← hh]; exact hb
      have hbm : b ∈ g.chain := List.mem_of_mem_head? hb'
      have hbN : b ≠ N := fun e => by
        obtain ⟨lb, hlb'⟩ := hchlive b hbm
        exact hdeadN _ (e ▸ hlb')
      rw [glo b hbN]; exact hI.chain_first b hb'
    · intro b hb
      have hb0 : (s1 ++ a :: N :: s2).getLast? = some b := hb
      cases s2 with
      | nil =>
        have : b = N := by
          simp [List.getLast?_append] at hb0
          exact hb0.symm
        subst this
        rw [ghiN]
        apply hI.chain_last
        rw [hch]; simp [List.getLast?_append]
      | cons y s2 =>
        have e1 : (s1 ++ a :: N :: y :: s2).getLast? = (y :: s2).getLast? := by
          rw [getLast?_append_cons, List.getLast?_cons_cons, List.getLast?_cons_cons]
        have e2 : (s1 ++ a :: y :: s2).getLast? = (y :: s2).getLast? := by
          rw [getLast?_append_cons, List.getLast?_cons_cons]
        rw [e1] at hb0
        have hbm : b ∈ y :: s2 := List.mem_of_mem_getLast? hb0
        have hb1 : b ≠ N := fun e => hN2s (e ▸ hbm)
        have hb2 : b ≠ a := fun e => ha2 (e ▸ hbm)
        rw [ghi b hb1 hb2]
        apply hI.chain_last
        rw [hch, e2]; exact hb0
    · show t.nk_ = (content t2 (s1 ++ a :: N :: s2)).length
      rw [hI.size_eq, hch]
      have e1 : content t2 s1 = content t s1 := content_congr (fun b hb => by
        have h1 : b ≠ a := fun e => ha1 (e ▸ hb)
        have h2 : b ≠ N := fun e => hN1s (e ▸ hb)
        obtain ⟨lb, hlb'⟩ := hchlive b (by rw [hch]; simp [hb])
        rw [live_at_leaf hlb', live_at_leaf (hold b _ hlb' h1)])
      have e2 : content t2 s2 = content t s2 := content_congr (fun b hb => by
        have h1 : b ≠ a := fun e => ha2 (e ▸ hb)
        obtain ⟨lb, hlb'⟩ := hchlive b (by rw [hch]; simp [hb])
        rw [live_at_leaf hlb', live_at_leaf (hold b _ hlb' h1)])
      simp only [content, List.flatMap_append, List.flatMap_cons] at e1 e2 ⊢
      rw [e1, e2, live_at_leaf hLa, live_at_leaf hLN, live_at_leaf ha, hsplit]
      simp
    · intro l' r' h
      cases h
      refine ⟨_, _, hLa, hLN, haN, by simp [hg2, hll, Function.update_apply, haN],
        by rw [glvl a haN, hll], by rw [ghia, gloN], by simp [hg2], ?_, ?_, ?_⟩
      · rw [show t2.root_ = t.root_ from rfl]
        intro h
        obtain ⟨r, n, h1, h2, _⟩ := hI.root1 hne
        rw [h1] at h; cases h
        exact hdeadN _ h2
      · simp [min_occ, btnode_base.nk_, hl2]
      · intro p m i hp hi hk
        have hpl : Live t p (.internal m) := by
          rcases (hL p _).1 hp with ⟨-, h⟩ | ⟨-, h⟩ | ⟨-, -, h⟩
          · cases h
          · cases h
          · exact h
        obtain ⟨c, cn, c1, c2, _⟩ := (hI.internal p m hpl).2.2.2.2.2 i hi
        rw [hk] at c1; cases c1
        exact hdeadN _ c2
  · show content t2 (s1 ++ a :: N :: s2) = content t g.chain
    rw [hch]
    have e1 : content t2 s1 = content t s1 := content_congr (fun b hb => by
      have h1 : b ≠ a := fun e => ha1 (e ▸ hb)
      obtain ⟨lb, hlb'⟩ := hchlive b (by rw [hch]; simp [hb])
      rw [live_at_leaf hlb', live_at_leaf (hold b _ hlb' h1)])
    have e2 : content t2 s2 = content t s2 := content_congr (fun b hb => by
      have h1 : b ≠ a := fun e => ha2 (e ▸ hb)
      obtain ⟨lb, hlb'⟩ := hchlive b (by rw [hch]; simp [hb])
      rw [live_at_leaf hlb', live_at_leaf (hold b _ hlb' h1)])
    simp only [content, List.flatMap_append, List.flatMap_cons] at e1 e2 ⊢
    rw [e1, e2, live_at_leaf hLa, live_at_leaf hLN, live_at_leaf ha, hsplit]
    simp

/-! ### Separators of an internal node -/

section
variable {g : Ghost} {t : btree_type} {L : Nat} {pend : Option (Nat × Nat)} {full : Option Nat}

theorem lo_below_hiE (hI : InvG g t L pend full) {c : Nat} {cn : btnode_base}
    (hc : Live t c cn) : Below (g.lo c) (hiE g pend c) := by
  cases pend with
  | none => exact hI.lohi c cn hc
  | some lr =>
    obtain ⟨l, r⟩ := lr
    show Below (g.lo c) (if c = l then g.hi r else g.hi c)
    by_cases h : c = l
    · rw [if_pos h]
      obtain ⟨ln, rn, h1, h2, _, _, _, h3, _⟩ := hI.pend_ok l r rfl
      have a1 := hI.lohi l ln h1
      have a2 := hI.lohi r rn h2
      rw [h3] at a1
      subst h
      exact Below_of_lt (le_of_lt a1) a2
    · rw [if_neg h]; exact hI.lohi c cn hc

theorem slot_below (hI : InvG g t L pend full) {p : Nat} {m : btnode_internal}
    (hp : Live t p (.internal m)) {i : Nat} (hi : i ≤ m.nk_) :
    Below (slotlo g p m i) (slothi g p m i) := by
  obtain ⟨c, cn, _, c2, _, _, c5, c6⟩ := (hI.internal p m hp).2.2.2.2.2 i hi
  rw [← c5, ← c6]
  exact lo_below_hiE hI c2

theorem key_lt_succ (hI : InvG g t L pend full) {p : Nat} {m : btnode_internal}
    (hp : Live t p (.internal m)) {i : Nat} (hi : i + 1 < m.nk_) :
    key_at m i < key_at m (i + 1) := by
  have := slot_below hI hp (show i + 1 ≤ m.nk_ by omega)
  simpa [slotlo, slothi, hi, Below] using this

theorem keys_mono (hI : InvG g t L pend full) {p : Nat} {m : btnode_internal}
    (hp : Live t p (.internal m)) : ∀ {j i : Nat}, i < j → j < m.nk_ →
    key_at m i < key_at m j := by
  intro j
  induction j with
  | zero => intro i h; omega
  | succ j ih =>
    intro i hij hj
    have h1 := key_lt_succ hI hp hj
    rcases Nat.lt_or_ge i j with h | h
    · have := ih h (by omega); omega
    · have : i = j := by omega
      subst this; exact h1

theorem lo_lt_key (hI : InvG g t L pend full) {p : Nat} {m : btnode_internal}
    (hp : Live t p (.internal m)) {i : Nat} (hi : i < m.nk_) : g.lo p < key_at m i := by
  have h0 : g.lo p < key_at m 0 := by
    have := slot_below hI hp (show 0 ≤ m.nk_ by omega)
    have h : 0 < m.nk_ := by omega
    simpa [slotlo, slothi, h, Below] using this
  rcases Nat.eq_zero_or_pos i with rfl | h
  · exact h0
  · have := keys_mono hI hp h hi; omega

theorem key_below_hi (hI : InvG g t L pend full) {p : Nat} {m : btnode_internal}
    (hp : Live t p (.internal m)) {i : Nat} (hi : i < m.nk_) : Below (key_at m i) (g.hi p) := by
  have hl : Below (key_at m (m.nk_ - 1)) (g.hi p) := by
    have := slot_below hI hp (le_refl m.nk_)
    have h1 : m.nk_ ≠ 0 := by omega
    simpa [slotlo, slothi, h1] using this
  rcases Nat.lt_or_ge i (m.nk_ - 1) with h | h
  · have := keys_mono hI hp h (by omega)
    exact Below_of_lt (le_of_lt this) hl
  · have : i = m.nk_ - 1 := by omega
    rw [this]; exact hl

theorem slotlo_mono (hI : InvG g t L pend full) {p : Nat} {m : btnode_internal}
    (hp : Live t p (.internal m)) {i j : Nat} (hij : i < j) (hj : j ≤ m.nk_) :
    slotlo g p m i < slotlo g p m j := by
  have hj0 : j ≠ 0 := by omega
  simp only [slotlo, hj0, if_false]
  by_cases hi : i = 0
  · simp only [hi, if_true]
    exact lo_lt_key hI hp (by omega)
  · simp only [hi, if_false]
    exact keys_mono hI hp (by omega) (by omega)

theorem kid_inj (hI : InvG g t L pend full) {p : Nat} {m : btnode_internal}
    (hp : Live t p (.internal m)) {i j : Nat} (hi : i ≤ m.nk_) (hj : j ≤ m.nk_)
    (h : kid_at m i = kid_at m j) : i = j := by
  obtain ⟨c, cn, c1, _, _, _, c5, _⟩ := (hI.internal p m hp).2.2.2.2.2 i hi
  obtain ⟨d, dn, d1, _, _, _, d5, _⟩ := (hI.internal p m hp).2.2.2.2.2 j hj
  rw [c1, d1] at h
  cases h
  rcases Nat.lt_trichotomy i j with h | h | h
  · have := slotlo_mono hI hp h hj; omega
  · exact h
  · have := slotlo_mono hI hp h hi; omega

theorem ikeys_getElem? (m : btnode_internal) (hlen : m.nk_ ≤ m.e_.length) {j : Nat}
    (hj : j < m.nk_) : ((m.e_.take m.nk_).map xpair.key_)[j]? = some (key_at m j) := by
  rw [List.getElem?_map, List.getElem?_take_of_lt hj, key_at, keyL,
    List.getElem?_eq_getElem (show j < m.e_.length by omega)]
  rfl

theorem ikeys_length (m : btnode_internal) (hlen : m.nk_ ≤ m.e_.length) :
    ((m.e_.take m.nk_).map xpair.key_).length = m.nk_ := by
  simp [hlen]

/-- The child chosen by `upper_bound_pos` is the one whose key range contains the key. -/
theorem ub_slot (hI : InvG g t L pend full) {p : Nat} {m : btnode_internal}
    (hp : Live t p (.internal m)) {k : Nat} (hlo : g.lo p ≤ k) (hhi : Below k (g.hi p)) :
    ∃ pos, m.upper_bound_pos k = .ok pos ∧ pos ≤ m.nk_ ∧ slotlo g p m pos ≤ k ∧
      Below k (slothi g p m pos) := by
  obtain ⟨k1, k2, k3, _⟩ := hI.internal p m hp
  have hf : fanout = 8 := rfl
  have hlen : m.nk_ ≤ m.e_.length := by omega
  obtain ⟨a1, a2, a3⟩ := tw_spec (fun x => decide (x ≤ k)) ((m.e_.take m.nk_).map xpair.key_)
  rw [ikeys_length m hlen] at a1
  refine ⟨_, by simp only [btnode_internal.upper_bound_pos, hlen, if_true]; rfl, a1, ?_, ?_⟩
  · simp only [slotlo, xsearch_upper_bound]
    split_ifs with h0
    · exact hlo
    · have := a2 ((List.takeWhile (fun x => decide (x ≤ k))
        (List.map xpair.key_ (List.take m.nk_ m.e_))).length - 1) _ (by omega)
        (ikeys_getElem? m hlen (by omega))
      simpa using this
  · simp only [slothi, xsearch_upper_bound]
    split_ifs with h0
    · have := a3 _ (ikeys_getElem? m hlen h0)
      simp only [Below]
      simpa using this
    · exact hhi

/-- `upper_bound_pos` of a key strictly inside the range of child slot `i0` is `i0`. -/
theorem ub_unique (hI : InvG g t L pend full) {p : Nat} {m : btnode_internal}
    (hp : Live t p (.internal m)) {k i0 : Nat} (hi0 : i0 ≤ m.nk_)
    (hlo : slotlo g p m i0 ≤ k) (hhi : Below k (slothi g p m i0)) :
    m.upper_bound_pos k = .ok i0 := by
  obtain ⟨k1, k2, k3, _⟩ := hI.internal p m hp
  have hf : fanout = 8 := rfl
  have hlen : m.nk_ ≤ m.e_.length := by omega
  simp only [btnode_internal.upper_bound_pos, hlen, if_true, xsearch_upper_bound]
  congr 1
  apply tw_unique
  · rw [ikeys_length m hlen]; exact hi0
  · intro j x hj hx
    rw [ikeys_getElem? m hlen (by omega)] at hx
    cases hx
    have h1 : i0 ≠ 0 := by omega
    simp only [slotlo, h1, if_false] at hlo
    rcases Nat.lt_or_ge j (i0 - 1) with h | h
    · have := keys_mono hI hp h (by omega)
      simp; omega
    · have : j = i0 - 1 := by omega
      subst this; simpa using hlo
  · intro x hx
    by_cases h : i0 < m.nk_
    · rw [ikeys_getElem? m hlen h] at hx
      cases hx
      simp only [slothi, h, if_true, Below] at hhi
      simp; omega
    · rw [List.getElem?_eq_none (by rw [ikeys_length m hlen]; omega)] at hx
      cases hx

theorem internal_lvl (hI : InvG g t L pend full) {p : Nat} {m : btnode_internal}
    (hp : Live t p (.internal m)) : 2 ≤ g.lvl p := by
  obtain ⟨c, cn, _, c2, _, c4, _⟩ := (hI.internal p m hp).2.2.2.2.2 0 (by omega)
  have := (hI.lvl_le c cn c2).1
  omega

theorem lvl_one_leaf (hI : InvG g t L pend full) {a : Nat} {n : btnode_base}
    (ha : Live t a n) (h : g.lvl a = 1) : ∃ l, n = .leaf l := by
  cases n with
  | leaf l => exact ⟨l, rfl⟩
  | internal m => have := internal_lvl hI ha; omega

theorem nlevel_pos (hI : InvG g t L pend full) {a : Nat} {n : btnode_base}
    (ha : Live t a n) : 0 < t.nlevel_ := by
  by_contra hc
  exact (hI.root0 (by omega)).2.2.2 a _ ha

end

theorem Step.step_refl (L : Nat) (g : Ghost) (t : btree_type) : Step L g t g t :=
  ⟨fun _ _ h _ => ⟨h, rfl, rfl⟩, fun _ n h => ⟨n, h, rfl⟩, fun _ => rfl, rfl, rfl,
    SameCnt.same_refl t, le_refl _, Nat.le_succ _⟩

theorem Step.weaken {L L' : Nat} {g g' : Ghost} {t t' : btree_type} (h : Step L' g t g' t')
    (hL : L ≤ L') : Step L g t g' t' :=
  ⟨fun c n hc hl => h.frame c n hc (by omega), h.keep, h.live, h.chain, h.nk, h.cnt, h.lev⟩

theorem Step.step_trans {L : Nat} {g g' g'' : Ghost} {t t' t'' : btree_type}
    (h : Step L g t g' t') (h' : Step L g' t' g'' t'')
    (he : t'.nlevel_ = t.nlevel_ ∨ t''.nlevel_ = t'.nlevel_) : Step L g t g'' t'' := by
  refine ⟨?_, ?_, fun a => by rw [h'.live, h.live], by rw [h'.chain, h.chain],
    by rw [h'.nk, h.nk], h.cnt.same_trans h'.cnt, ?_⟩
  · intro c n hc hl
    obtain ⟨a1, a2, a3⟩ := h'.frame c n hc hl
    obtain ⟨b1, b2, b3⟩ := h.frame c n a1 (by omega)
    exact ⟨b1, by rw [a2, b2], by rw [a3, b3]⟩
  · intro c n hc
    obtain ⟨n', a1, a2⟩ := h.keep c n hc
    obtain ⟨n'', b1, b2⟩ := h'.keep c n' a1
    exact ⟨n'', b1, by rw [b2, a2]⟩
  · have := h.lev; have := h'.lev
    omega

theorem set_parent_leaf_iff (n : btnode_base) (x : Option Nat) (l' : btnode_leaf) :
    n.set_parent x = .leaf l' ↔ ∃ l, n = .leaf l ∧ l' = { l with parent_ := x } := by
  cases n with
  | leaf l => simp [btnode_base.set_parent]; exact eq_comm
  | internal m => simp [btnode_base.set_parent]

theorem set_parent_internal_iff (n : btnode_base) (x : Option Nat) (m' : btnode_internal) :
    n.set_parent x = .internal m' ↔ ∃ m, n = .internal m ∧ m' = { m with parent_ := x } := by
  cases n with
  | leaf l => simp [btnode_base.set_parent]
  | internal m => simp [btnode_base.set_parent]; exact eq_comm

theorem set_parent_parent (n : btnode_base) (x : Option Nat) : (n.set_parent x).parent_ = x := by
  cases n <;> rfl

theorem live_at_wr_set_parent {t : btree_type} {a : Nat} {n : btnode_base} (h : Live t a n)
    (x : Option Nat) (b : Nat) :
    live_at (wr t (some a) (n.set_parent x)) b = live_at t b := by
  unfold live_at
  simp only [wr]
  by_cases hb : a = b
  · subst hb
    rw [List.getElem?_set_self h.lt, h]
    cases n <;> rfl
  · rw [List.getElem?_set_ne hb]

theorem live_at_wr_internal {t : btree_type} {a : Nat} {m m' : btnode_internal}
    (h : Live t a (.internal m)) (b : Nat) :
    live_at (wr t (some a) (.internal m')) b = live_at t b := by
  unfold live_at
  simp only [wr]
  by_cases hb : a = b
  · subst hb
    rw [List.getElem?_set_self h.lt, h]
  · rw [List.getElem?_set_ne hb]

set_option maxHeartbeats 2000000 in
/-- Inserting the separator and the new sibling into an existing parent: the first half of
`insert_internal`. -/
theorem parent_insert_ok {g : Ghost} {t : btree_type} {L l r p : Nat} {m : btnode_internal}
    (hI : InvG g t L (some (l, r)) none) (hpl : g.par l = some p)
    (hp : Live t p (.internal m)) :
    ∃ m4 t1 g1,
      (∀ fuel, insert_internal (fuel + 1) t (g.lo r) (some l) (some r) =
        if m4.need_split = true then (do
          let x ← aget m4.e_ order
          let (t2, newparent) ← internal_split t1 (some p)
          let t3 ← insert_internal fuel t2 x.key_ (some p) newparent
          fix_parents newparent (fanout + 1) 0 t3)
        else .ok t1) ∧
      Live t1 p (.internal m4) ∧ m4.nk_ = m.nk_ + 1 ∧ g1.lvl p = L + 1 ∧
      InvG g1 t1 L none (if m4.nk_ = fanout - 1 then some p else none) ∧
      Step L g t g1 t1 ∧ t1.nlevel_ = t.nlevel_ := by
  have hf : fanout = 8 := rfl
  obtain ⟨ln, rn, hl, hr, hlr, hlvr, hLl, hhil, hparr, hrootr, hmin, hnokid⟩ :=
    hI.pend_ok l r rfl
  have hne : 0 < t.nlevel_ := nlevel_pos hI hl
  obtain ⟨rt, rtn, hrt1, hrt2, hrt3, hrt4, hrt5, hrt6⟩ := hI.root1 hne
  have hlroot : t.root_ ≠ some l := by
    rw [hrt1]; intro h; cases h; rw [hrt4] at hpl; cases hpl
  have hnpl : ¬ IsPendRight (some (l, r)) l := by
    rintro ⟨x, h⟩; cases h; exact hlr rfl
  obtain ⟨p', m', i0, q1, q2, hi0, hkid0⟩ := hI.has_par l ln hl hlroot hnpl
  rw [hpl] at q1; cases q1
  cases hp.inj q2
  have hlpar : ln.parent_ = some p := by
    rw [hI.par_field l ln hl (by omega) hnpl, hpl]
  obtain ⟨hmlen, hmnk1, hmnk2, hmfull, hmmin, hslots⟩ := hI.internal p m hp
  have hmnk : m.nk_ + 1 < fanout := by
    have : m.nk_ ≠ fanout - 1 := fun h => by cases hmfull h
    omega
  obtain ⟨c0, c0n, s1, s2, s3, s4, s5, s6⟩ := hslots i0 hi0
  rw [hkid0] at s1; cases s1
  have hlvp : g.lvl p = L + 1 := by omega
  have hpr : p ≠ r := fun e => by rw [e] at hlvp; omega
  have hpl' : p ≠ l := fun e => by rw [e] at hlvp; omega
  have hhiEl : hiE g (some (l, r)) l = g.hi r := by simp [hiE]
  rw [hhiEl] at s6
  have hlo_l := hI.lohi l ln hl
  rw [hhil] at hlo_l
  have hkey1 : slotlo g p m i0 ≤ g.lo r := by rw [← s5]; exact le_of_lt hlo_l
  have hkey2 : Below (g.lo r) (slothi g p m i0) := by rw [← s6]; exact hI.lohi r rn hr
  have hub := ub_unique hI hp hi0 hkey1 hkey2
  obtain ⟨e1, e2, m3, hsk, hsc, har, hm3p, hm3nk, hm3len, hk3, hv3⟩ :=
    parent_insert_node m i0 (g.lo r) (some r) hmlen hmnk hi0
  set m4 : btnode_internal := { m3 with nk_ := m3.nk_ + 1 } with hm4
  have hk4 : ∀ n : Nat, key_at m4 n = if n = i0 then g.lo r else
      if i0 < n ∧ n ≤ m.nk_ then key_at m (n - 1) else key_at m n := hk3
  have hv4 : ∀ n : Nat, kid_at m4 n = if n = i0 + 1 then some r else
      if i0 + 1 < n ∧ n ≤ m.nk_ + 1 then kid_at m (n - 1) else kid_at m n := hv3
  have hm4nk : m4.nk_ = m.nk_ + 1 := by simp [hm4, hm3nk]
  set t0 := wr t (some p) (.internal m4) with ht0
  have hr0 : Live t0 r rn := (Live_wr_iff _ _ _ _ _).2 (Or.inr ⟨fun e => hpr e.symm, hr⟩)
  set t1 := wr t0 (some r) (rn.set_parent (some p)) with ht1
  have hsp : set_parent t0 (some r) (some p) = .ok t1 := set_parent_ok hr0 _
  have hL : ∀ b n, Live t1 b n ↔ (b = r ∧ n = rn.set_parent (some p)) ∨
      (b = p ∧ n = .internal m4) ∨ (b ≠ r ∧ b ≠ p ∧ Live t b n) := by
    intro b n
    rw [ht1, Live_wr_iff, ht0, Live_wr_iff]
    simp only [wr_heap_length]
    have h1 := hr.lt
    have h2 := hp.lt
    constructor
    · rintro (⟨h, -, h'⟩ | ⟨h, ⟨h3, -, h'⟩ | ⟨h3, h4⟩⟩)
      · exact Or.inl ⟨h, h'⟩
      · exact Or.inr (Or.inl ⟨h3, h'⟩)
      · exact Or.inr (Or.inr ⟨h, h3, h4⟩)
    · rintro (⟨h, h'⟩ | ⟨h, h'⟩ | ⟨h, h3, h4⟩)
      · exact Or.inl ⟨h, h1, h'⟩
      · exact Or.inr ⟨by rw [h]; exact hpr, Or.inl ⟨h, h2, h'⟩⟩
      · exact Or.inr ⟨h, Or.inr ⟨h3, h4⟩⟩
  have hLp : Live t1 p (.internal m4) := (hL p _).2 (Or.inr (Or.inl ⟨rfl, rfl⟩))
  have hLr : Live t1 r (rn.set_parent (some p)) := (hL r _).2 (Or.inl ⟨rfl, rfl⟩)
  have hold : ∀ b n, Live t b n → b ≠ r → b ≠ p → Live t1 b n := fun b n hb h1 h2 =>
    (hL b n).2 (Or.inr (Or.inr ⟨h1, h2, hb⟩))
  have hex : ∀ b n, Live t b n → ∃ n', Live t1 b n' := by
    intro b n hb
    by_cases h1 : b = r
    · subst h1; exact ⟨_, hLr⟩
    · by_cases h2 : b = p
      · subst h2; exact ⟨_, hLp⟩
      · exact ⟨n, hold b n hb h1 h2⟩
  have hex' : ∀ b n', Live t1 b n' → ∃ n, Live t b n := by
    intro b n' hb
    rcases (hL b n').1 hb with ⟨rfl, -⟩ | ⟨rfl, -⟩ | ⟨-, -, h⟩
    · exact ⟨_, hr⟩
    · exact ⟨_, hp⟩
    · exact ⟨_, h⟩
  -- internal nodes keep their slots
  have hintr : ∀ b mb, Live t b (.internal mb) → b ≠ p → ∃ mb', Live t1 b (.internal mb') ∧
      mb'.nk_ = mb.nk_ ∧ mb'.e_ = mb.e_ := by
    intro b mb hb hbp
    by_cases h1 : b = r
    · subst h1
      cases hr.inj hb
      exact ⟨{ mb with parent_ := some p }, hLr, rfl, rfl⟩
    · exact ⟨mb, hold b _ hb h1 hbp, rfl, rfl⟩
  set g1 : Ghost := { g with par := Function.update g.par r (some p) } with hg1
  have gpar : ∀ b, b ≠ r → g1.par b = g.par b := fun b hb => by
    show Function.update g.par r (some p) b = g.par b
    rw [Function.update_noteq hb]
  have gparr : g1.par r = some p := by
    show Function.update g.par r (some p) r = some p
    rw [Function.update_same]
  have hlive : ∀ b, live_at t1 b = live_at t b := by
    intro b
    rw [ht1, live_at_wr_set_parent hr0, ht0, live_at_wr_internal hp]
  have hhiEne : ∀ c, c ≠ l → hiE g (some (l, r)) c = g.hi c := by
    intro c hc; simp [hiE, hc]
  refine ⟨m4, t1, g1, ?_, hLp, hm4nk, hlvp, ?_, ?_, rfl⟩
  · intro fuel
    rw [insert_internal]
    simp only [hl.rd, bind, Except.bind, hlpar, hp.rd_internal, hub, hsk, hsc, har]
    rw [show wr t (some p) (.internal { m3 with nk_ := m3.nk_ + 1 }) = t0 from rfl, hsp]
    simp only [hLp.rd_internal]
    rfl
  · constructor
    · intro h0; exact absurd h0 (by show ¬ t.nlevel_ = 0; omega)
    · intro _
      obtain ⟨n', hn'⟩ := hex rt rtn hrt2
      have hrtr : rt ≠ r := fun e => hrootr (by rw [hrt1, e])
      have hrtl : rt ≠ l := fun e => hlroot (by rw [hrt1, e])
      exact ⟨rt, n', hrt1, hn', hrt3, by rw [gpar rt hrtr]; exact hrt4, hrt5,
        by rw [hiE_none, ← hhiEne rt hrtl]; exact hrt6⟩
    · intro b n hb
      obtain ⟨n0, h0⟩ := hex' b n hb
      exact hI.lvl_le b n0 h0
    · intro b n hb
      obtain ⟨n0, h0⟩ := hex' b n hb
      exact hI.lohi b n0 h0
    · intro b n hb hlv _
      rcases (hL b n).1 hb with ⟨rfl, rfl⟩ | ⟨rfl, rfl⟩ | ⟨h1, h2, h3⟩
      · rw [set_parent_parent, gparr]
      · rw [gpar b hpr]
        show m3.parent_ = g.par b
        rw [hm3p]
        exact hI.par_field b _ hp (by omega) (by rintro ⟨x, h⟩; cases h; exact hpr rfl)
      · rw [gpar b h1]
        exact hI.par_field b n h3 hlv (by rintro ⟨x, h⟩; cases h; exact h1 rfl)
    · intro b n hb hroot _
      by_cases hbr : b = r
      · subst hbr
        exact ⟨p, m4, i0 + 1, gparr, hLp, by omega, by rw [hv4]; simp⟩
      · obtain ⟨n0, h0⟩ := hex' b n hb
        obtain ⟨q, mq, iq, k1, k2, k3, k4⟩ := hI.has_par b n0 h0 hroot
          (by rintro ⟨x, h⟩; cases h; exact hbr rfl)
        rw [gpar b hbr]
        by_cases hqp : q = p
        · subst hqp
          cases hp.inj k2
          by_cases hle : iq ≤ i0
          · refine ⟨q, m4, iq, k1, hLp, by omega, ?_⟩
            rw [hv4, if_neg (by omega), if_neg (by omega)]; exact k4
          · refine ⟨q, m4, iq + 1, k1, hLp, by omega, ?_⟩
            rw [hv4, if_neg (by omega), if_pos (by omega)]; exact k4
        · obtain ⟨mq', j1, j2, j3⟩ := hintr q mq k2 hqp
          exact ⟨q, mq', iq, k1, j1, by omega, by rw [kid_at, j3]; exact k4⟩
    · intro b lb hb
      have hbp : b ≠ p := fun e => by
        rw [e] at hb; cases hLp.inj hb
      obtain ⟨lb0, h0, e1, e2⟩ : ∃ lb0, Live t b (.leaf lb0) ∧ lb0.nk_ = lb.nk_ ∧
          lb0.e_ = lb.e_ := by
        rcases (hL b _).1 hb with ⟨rfl, h⟩ | ⟨h, -⟩ | ⟨-, -, h⟩
        · obtain ⟨l0, rfl, rfl⟩ := (set_parent_leaf_iff _ _ _).1 h.symm
          exact ⟨l0, hr, rfl, rfl⟩
        · exact absurd h hbp
        · exact ⟨lb, h, rfl, rfl⟩
      obtain ⟨k1, k2, k3, k4, k5, k6, k7, k8, k9⟩ := hI.leaf b lb0 h0
      have hlv : lb.live = lb0.live := by simp [btnode_leaf.live, e1, e2]
      refine ⟨k1, by rw [← e2]; exact k2, by omega, by omega, ?_, ?_, by rw [hlv]; exact k7,
        by rw [hlv]; exact k8, k9⟩
      · intro h; have := k5 (by omega); cases this
      · intro h; have := k6 h; omega
    · intro b mb hb
      by_cases hbp : b = p
      · subst hbp
        cases hLp.inj hb
        refine ⟨hm3len, by omega, by omega, fun h => by rw [if_pos h], fun h => ?_, ?_⟩
        · have := hmmin h; omega
        · intro n hn
          rw [hm4nk] at hn
          rcases Nat.lt_trichotomy n (i0 + 1) with hlt | heq | hgt
          · -- slots up to the left sibling
            obtain ⟨c, cn, c1, c2, c3, c4, c5, c6⟩ := hslots n (by omega)
            obtain ⟨cn', c2'⟩ := hex c cn c2
            have hcr : c ≠ r := fun e => by rw [e, hparr] at c3; cases c3
            refine ⟨c, cn', ?_, c2', by rw [gpar c hcr]; exact c3, c4, ?_, ?_⟩
            · rw [hv4, if_neg (by omega), if_neg (by omega)]; exact c1
            · rw [c5]
              show slotlo g b m n = slotlo g b m4 n
              unfold slotlo
              split_ifs with h0
              · rfl
              · rw [hk4, if_neg (by omega), if_neg (by omega)]
            · rw [hiE_none]
              show g.hi c = slothi g b m4 n
              unfold slothi
              rw [hm4nk, if_pos (by omega), hk4]
              by_cases hn0 : n = i0
              · rw [if_pos hn0]
                subst hn0
                rw [hkid0] at c1; cases c1
                exact hhil
              · rw [if_neg hn0, if_neg (by omega)]
                have hcl : c ≠ l := fun e => by
                  rw [e, ← hkid0] at c1
                  exact hn0 (kid_inj hI hp (by omega) hi0 c1)
                rw [hhiEne c hcl] at c6
                rw [c6]
                unfold slothi
                rw [if_pos (by omega)]
          · -- the new sibling
            subst heq
            refine ⟨r, _, by rw [hv4]; simp, hLr, gparr,
              by show g.lvl r + 1 = g.lvl b; omega, ?_, ?_⟩
            · show g.lo r = slotlo g b m4 (i0 + 1)
              unfold slotlo
              rw [if_neg (by omega), hk4]
              simp
            · rw [hiE_none, s6]
              show slothi g b m i0 = slothi g b m4 (i0 + 1)
              unfold slothi
              rw [hm4nk]
              by_cases h : i0 < m.nk_
              · rw [if_pos h, if_pos (show i0 + 1 < m.nk_ + 1 by omega), hk4,
                  if_neg (show ¬ i0 + 1 = i0 by omega),
                  if_pos (show i0 < i0 + 1 ∧ i0 + 1 ≤ m.nk_ by omega)]
                rfl
              · rw [if_neg h, if_neg (show ¬ i0 + 1 < m.nk_ + 1 by omega)]
          · -- slots to the right
            obtain ⟨c, cn, c1, c2, c3, c4, c5, c6⟩ := hslots (n - 1) (by omega)
            obtain ⟨cn', c2'⟩ := hex c cn c2
            have hcr : c ≠ r := fun e => by rw [e, hparr] at c3; cases c3
            have hcl : c ≠ l := fun e => by
              rw [e, ← hkid0] at c1
              have := kid_inj hI hp (by omega) hi0 c1
              omega
            refine ⟨c, cn', ?_, c2', by rw [gpar c hcr]; exact c3, c4, ?_, ?_⟩
            · rw [hv4, if_neg (by omega), if_pos (by omega)]; exact c1
            · rw [c5]
              show slotlo g b m (n - 1) = slotlo g b m4 n
              unfold slotlo
              rw [if_neg (show ¬ n - 1 = 0 by omega), if_neg (show ¬ n = 0 by omega), hk4,
                if_neg (show ¬ n - 1 = i0 by omega),
                if_pos (show i0 < n - 1 ∧ n - 1 ≤ m.nk_ by omega)]
            · rw [hiE_none]
              rw [hhiEne c hcl] at c6
              rw [c6]
              show slothi g b m (n - 1) = slothi g b m4 n
              unfold slothi
              rw [hm4nk]
              by_cases h : n - 1 < m.nk_
              · rw [if_pos h, if_pos (show n < m.nk_ + 1 by omega), hk4,
                  if_neg (show ¬ n = i0 by omega), if_pos (show i0 < n ∧ n ≤ m.nk_ by omega)]
              · rw [if_neg h, if_neg (show ¬ n < m.nk_ + 1 by omega)]
      · obtain ⟨mb0, h0, e1, e2⟩ : ∃ mb0, Live t b (.internal mb0) ∧ mb0.nk_ = mb.nk_ ∧
            mb0.e_ = mb.e_ := by
          rcases (hL b _).1 hb with ⟨rfl, h⟩ | ⟨h, -⟩ | ⟨-, -, h⟩
          · obtain ⟨m0, rfl, rfl⟩ := (set_parent_internal_iff _ _ _).1 h.symm
            exact ⟨m0, hr, rfl, rfl⟩
          · exact absurd h hbp
          · exact ⟨mb, h, rfl, rfl⟩
        obtain ⟨k1, k2, k3, k4, k5, k6⟩ := hI.internal b mb0 h0
        refine ⟨by rw [← e2]; exact k1, by omega, by omega, ?_, ?_, ?_⟩
        · intro h; have := k4 (by omega); cases this
        · intro h; have := k5 h; omega
        · intro i hi
          obtain ⟨c, cn, c1, c2, c3, c4, c5, c6⟩ := k6 i (by omega)
          obtain ⟨cn', c2'⟩ := hex c cn c2
          have hcr : c ≠ r := fun e => by rw [e, hparr] at c3; cases c3
          have hcl : c ≠ l := fun e => by
            rw [e, hpl] at c3; cases c3; exact hbp rfl
          refine ⟨c, cn', by rw [kid_at, ← e2]; exact c1, c2', by rw [gpar c hcr]; exact c3,
            c4, ?_, ?_⟩
          · rw [c5]; simp only [slotlo, key_at, e2]
          · rw [hiE_none]
            rw [hhiEne c hcl] at c6
            rw [c6]; simp only [slothi, key_at, e2, e1]
    · exact hI.chain_nodup
    · apply Linked_congr _ hI.chain_link
      intro b _ lb hb
      by_cases h1 : b = r
      · subst h1
        cases hr.inj hb
        exact ⟨{ lb with parent_ := some p }, hLr, rfl⟩
      · have hbp : b ≠ p := fun e => by rw [e] at hb; cases hp.inj hb
        exact ⟨lb, hold b _ hb h1 hbp, rfl⟩
    · exact hI.chain_adj
    · exact hI.chain_first
    · exact hI.chain_last
    · show t.nk_ = (content t1 g.chain).length
      rw [content_congr (fun b _ => hlive b)]
      exact hI.size_eq
    · intro l' r' h; cases h
  · refine ⟨?_, ?_, hlive, rfl, rfl, ⟨rfl, rfl, rfl⟩, le_refl _, Nat.le_succ _⟩
    · intro c n hc hlv
      have hcr : c ≠ r := fun e => by
        rw [e] at hlv
        have : g.lvl r < L := hlv
        omega
      have hcp : c ≠ p := fun e => by
        rw [e] at hlv
        have : g.lvl p < L := hlv
        omega
      rcases (hL c n).1 hc with ⟨h, -⟩ | ⟨h, -⟩ | ⟨-, -, h⟩
      · exact absurd h hcr
      · exact absurd h hcp
      · exact ⟨h, gpar c hcr, rfl⟩
    · intro c n hc
      obtain ⟨n', h⟩ := hex c n hc
      exact ⟨n', h, rfl⟩

theorem live_at_congr_heap {t t' : btree_type} {b : Nat} (h : t'.heap[b]? = t.heap[b]?) :
    live_at t' b = live_at t b := by
  unfold live_at; rw [h]

theorem live_at_alloc_internal (t : btree_type) (m : btnode_internal) (b : Nat)
    {t' : btree_type} (h : t'.heap = t.heap ++ [some (.internal m)]) :
    live_at t' b = live_at t b := by
  by_cases hb : b < t.heap.length
  · apply live_at_congr_heap
    rw [h, List.getElem?_append_left hb]
  · have h2 : live_at t b = [] := by
      unfold live_at
      rw [List.getElem?_eq_none (show t.heap.length ≤ b by omega)]
    rw [h2]
    unfold live_at
    rw [h, List.getElem?_append_right (by omega)]
    rcases Nat.eq_zero_or_pos (b - t.heap.length) with h' | h'
    · rw [h']; rfl
    · rw [List.getElem?_eq_none (by simp; omega)]

theorem new_root_node (left right : Option Nat) (key : Nat) :
    ∃ nr, ({ btnode_internal.new with nk_ := 1 } : btnode_internal).assign 0 left key right
        = .ok nr ∧
      nr.parent_ = none ∧ nr.nk_ = 1 ∧ nr.e_.length = fanout ∧ key_at nr 0 = key ∧
      kid_at nr 0 = left ∧ kid_at nr 1 = right :=
  ⟨_, rfl, rfl, rfl, rfl, rfl, rfl, rfl⟩

set_option maxHeartbeats 2000000 in
/-- The split of the root: `insert_internal` makes a new root above the two halves. -/
theorem new_root_ok {g : Ghost} {t : btree_type} {L l r : Nat}
    (hI : InvG g t L (some (l, r)) none) (hpl : g.par l = none) :
    ∃ t1 g1, (∀ fuel, insert_internal (fuel + 1) t (g.lo r) (some l) (some r) = .ok t1) ∧
      InvG g1 t1 L none none ∧ Step L g t g1 t1 := by
  have hf : fanout = 8 := rfl
  obtain ⟨ln, rn, hl, hr, hlr, hlvr, hLl, hhil, hparr, hrootr, hmin, hnokid⟩ :=
    hI.pend_ok l r rfl
  have hne : 0 < t.nlevel_ := nlevel_pos hI hl
  obtain ⟨rt, rtn, hrt1, hrt2, hrt3, hrt4, hrt5, hrt6⟩ := hI.root1 hne
  have hnpl : ¬ IsPendRight (some (l, r)) l := by
    rintro ⟨x, h⟩; cases h; exact hlr rfl
  have hlroot : t.root_ = some l := by
    by_contra hc
    obtain ⟨p', m', i0, q1, _⟩ := hI.has_par l ln hl hc hnpl
    rw [hpl] at q1; cases q1
  rw [hrt1] at hlroot; cases hlroot
  cases hl.inj hrt2
  have hhiEl : hiE g (some (l, r)) l = g.hi r := by simp [hiE]
  rw [hhiEl] at hrt6
  have hlpar : ln.parent_ = none := by
    rw [hI.par_field l ln hl (by omega) hnpl, hpl]
  obtain ⟨nr, hnr, hnrp, hnrnk, hnrlen, hnrk, hnrv0, hnrv1⟩ :=
    new_root_node (some l) (some r) (g.lo r)
  set N := t.heap.length with hN
  have hdeadN : ∀ n, ¬ Live t N n := fun n h => by have := h.lt; omega
  have hlN : l ≠ N := fun e => hdeadN _ (e ▸ hl)
  have hrN : r ≠ N := fun e => hdeadN _ (e ▸ hr)
  set ta : btree_type := { (alloc t (.internal nr)).1 with root_ := some N } with hta
  have hLa : ∀ b n, Live ta b n ↔ Live t b n ∨ (b = N ∧ n = .internal nr) :=
    fun b n => Live_alloc_iff t b (.internal nr) n
  have hl_a : Live ta l ln := (hLa _ _).2 (Or.inl hl)
  set tb := wr ta (some l) (ln.set_parent (some N)) with htb
  have hr_b : Live tb r rn :=
    (Live_wr_iff _ _ _ _ _).2 (Or.inr ⟨fun e => hlr e.symm, (hLa _ _).2 (Or.inl hr)⟩)
  set tc := wr tb (some r) (rn.set_parent (some N)) with htc
  set t1 : btree_type := { tc with nlevel_ := tc.nlevel_ + 1 } with ht1
  have hL : ∀ b n, Live t1 b n ↔ (b = N ∧ n = .internal nr) ∨
      (b = l ∧ n = ln.set_parent (some N)) ∨ (b = r ∧ n = rn.set_parent (some N)) ∨
      (b ≠ N ∧ b ≠ l ∧ b ≠ r ∧ Live t b n) := by
    intro b n
    have e1 : Live t1 b n ↔ Live tc b n := Iff.rfl
    rw [e1, htc, Live_wr_iff, htb, Live_wr_iff, hLa]
    simp only [wr_heap_length]
    have h1 : r < ta.heap.length := by
      have := hr.lt; simp [hta, alloc]; omega
    have h2 : l < ta.heap.length := by
      have := hl.lt; simp [hta, alloc]; omega
    constructor
    · rintro (⟨h, -, h'⟩ | ⟨h, ⟨h3, -, h'⟩ | ⟨h3, h4 | h4⟩⟩)
      · exact Or.inr (Or.inr (Or.inl ⟨h, h'⟩))
      · exact Or.inr (Or.inl ⟨h3, h'⟩)
      · exact Or.inr (Or.inr (Or.inr ⟨fun e => hdeadN _ (e ▸ h4), h3, h, h4⟩))
      · exact Or.inl h4
    · rintro (⟨h, h'⟩ | ⟨h, h'⟩ | ⟨h, h'⟩ | ⟨h, h3, h4, h5⟩)
      · exact Or.inr ⟨by rw [h]; exact fun e => hrN e.symm,
          Or.inr ⟨by rw [h]; exact fun e => hlN e.symm, Or.inr ⟨h, h'⟩⟩⟩
      · exact Or.inr ⟨by rw [h]; exact hlr, Or.inl ⟨h, h2, h'⟩⟩
      · exact Or.inl ⟨h, h1, h'⟩
      · exact Or.inr ⟨h4, Or.inr ⟨h3, Or.inl h5⟩⟩
  have hLN : Live t1 N (.internal nr) := (hL _ _).2 (Or.inl ⟨rfl, rfl⟩)
  have hLl : Live t1 l (ln.set_parent (some N)) := (hL _ _).2 (Or.inr (Or.inl ⟨rfl, rfl⟩))
  have hLr : Live t1 r (rn.set_parent (some N)) :=
    (hL _ _).2 (Or.inr (Or.inr (Or.inl ⟨rfl, rfl⟩)))
  have hold : ∀ b n, Live t b n → b ≠ l → b ≠ r → Live t1 b n := fun b n hb h1 h2 =>
    (hL b n).2 (Or.inr (Or.inr (Or.inr ⟨fun e => hdeadN _ (e ▸ hb), h1, h2, hb⟩)))
  have hex : ∀ b n, Live t b n → ∃ n', Live t1 b n' := by
    intro b n hb
    by_cases h1 : b = l
    · subst h1; exact ⟨_, hLl⟩
    · by_cases h2 : b = r
      · subst h2; exact ⟨_, hLr⟩
      · exact ⟨n, hold b n hb h1 h2⟩
  have hintr : ∀ b mb, Live t b (.internal mb) → ∃ mb', Live t1 b (.internal mb') ∧
      mb'.nk_ = mb.nk_ ∧ mb'.e_ = mb.e_ := by
    intro b mb hb
    by_cases h1 : b = l
    · subst h1
      cases hl.inj hb
      exact ⟨{ mb with parent_ := some N }, hLl, rfl, rfl⟩
    · by_cases h2 : b = r
      · subst h2
        cases hr.inj hb
        exact ⟨{ mb with parent_ := some N }, hLr, rfl, rfl⟩
      · exact ⟨mb, hold b _ hb h1 h2, rfl, rfl⟩
  -- every node of the new state other than the new root comes from an old node
  have hback : ∀ b n, Live t1 b n → b ≠ N → ∃ n0, Live t b n0 ∧
      (∀ lb, n = .leaf lb → ∃ lb0, n0 = .leaf lb0 ∧ lb0.nk_ = lb.nk_ ∧ lb0.e_ = lb.e_ ∧
        lb0.next_ = lb.next_) ∧
      (∀ mb, n = .internal mb → ∃ mb0, n0 = .internal mb0 ∧ mb0.nk_ = mb.nk_ ∧
        mb0.e_ = mb.e_) ∧
      (b ≠ l → b ≠ r → n = n0) := by
    intro b n hb hbN
    rcases (hL b n).1 hb with ⟨h, -⟩ | ⟨rfl, rfl⟩ | ⟨rfl, rfl⟩ | ⟨-, -, -, h⟩
    · exact absurd h hbN
    · refine ⟨ln, hl, ?_, ?_, fun h => absurd rfl h⟩
      · intro lb h
        obtain ⟨l0, rfl, rfl⟩ := (set_parent_leaf_iff _ _ _).1 h
        exact ⟨l0, rfl, rfl, rfl, rfl⟩
      · intro mb h
        obtain ⟨m0, rfl, rfl⟩ := (set_parent_internal_iff _ _ _).1 h
        exact ⟨m0, rfl, rfl, rfl⟩
    · refine ⟨rn, hr, ?_, ?_, fun _ h => absurd rfl h⟩
      · intro lb h
        obtain ⟨l0, rfl, rfl⟩ := (set_parent_leaf_iff _ _ _).1 h
        exact ⟨l0, rfl, rfl, rfl, rfl⟩
      · intro mb h
        obtain ⟨m0, rfl, rfl⟩ := (set_parent_internal_iff _ _ _).1 h
        exact ⟨m0, rfl, rfl, rfl⟩
    · exact ⟨n, h, fun lb h => ⟨lb, h, rfl, rfl, rfl⟩, fun mb h => ⟨mb, h, rfl, rfl⟩,
        fun _ _ => rfl⟩
  set g1 : Ghost :=
    { g with
      lvl := Function.update g.lvl N (g.lvl l + 1)
      lo := Function.update g.lo N 0
      hi := Function.update g.hi N none
      par := Function.update (Function.update (Function.update g.par N none) l (some N)) r
        (some N) } with hg1
  have glvl : ∀ b, b ≠ N → g1.lvl b = g.lvl b := fun b hb => by
    show Function.update g.lvl N (g.lvl l + 1) b = g.lvl b
    rw [Function.update_noteq hb]
  have glvlN : g1.lvl N = g.lvl l + 1 := by
    show Function.update g.lvl N (g.lvl l + 1) N = _
    rw [Function.update_same]
  have glo : ∀ b, b ≠ N → g1.lo b = g.lo b := fun b hb => by
    show Function.update g.lo N 0 b = g.lo b
    rw [Function.update_noteq hb]
  have gloN : g1.lo N = 0 := by
    show Function.update g.lo N 0 N = _
    rw [Function.update_same]
  have ghi : ∀ b, b ≠ N → g1.hi b = g.hi b := fun b hb => by
    show Function.update g.hi N none b = g.hi b
    rw [Function.update_noteq hb]
  have ghiN : g1.hi N = none := by
    show Function.update g.hi N none N = _
    rw [Function.update_same]
  have gpar : ∀ b, b ≠ N → b ≠ l → b ≠ r → g1.par b = g.par b := fun b h1 h2 h3 => by
    show Function.update (Function.update (Function.update g.par N none) l (some N)) r
      (some N) b = g.par b
    rw [Function.update_noteq h3, Function.update_noteq h2, Function.update_noteq h1]
  have gparN : g1.par N = none := by
    show Function.update (Function.update (Function.update g.par N none) l (some N)) r
      (some N) N = none
    rw [Function.update_noteq (fun e => hrN e.symm), Function.update_noteq (fun e => hlN e.symm),
      Function.update_same]
  have gparl : g1.par l = some N := by
    show Function.update (Function.update (Function.update g.par N none) l (some N)) r
      (some N) l = some N
    rw [Function.update_noteq hlr, Function.update_same]
  have gparr : g1.par r = some N := by
    show Function.update (Function.update (Function.update g.par N none) l (some N)) r
      (some N) r = some N
    rw [Function.update_same]
  have hlive : ∀ b, live_at t1 b = live_at t b := by
    intro b
    have e1 : live_at t1 b = live_at tc b := rfl
    rw [e1, htc, live_at_wr_set_parent hr_b, htb, live_at_wr_set_parent hl_a]
    exact live_at_alloc_internal t nr b rfl
  have hhiEne : ∀ c, c ≠ l → hiE g (some (l, r)) c = g.hi c := by
    intro c hc; simp [hiE, hc]
  have hkidne : ∀ b mb i c cn, Live t b (.internal mb) → kid_at mb i = some c →
      g.par c = some b → Live t c cn → c ≠ N ∧ c ≠ l ∧ c ≠ r := by
    intro b mb i c cn _ _ hc3 hc2
    refine ⟨fun e => hdeadN _ (e ▸ hc2), fun e => ?_, fun e => ?_⟩
    · rw [e, hpl] at hc3; cases hc3
    · rw [e, hparr] at hc3; cases hc3
  refine ⟨t1, g1, ?_, ?_, ?_⟩
  · intro fuel
    rw [insert_internal]
    simp only [hl.rd, bind, Except.bind, hlpar, hnr]
    have e1 : set_parent ta (some l) (some N) = .ok tb := set_parent_ok hl_a _
    have e2 : set_parent tb (some r) (some N) = .ok tc := set_parent_ok hr_b _
    simp only [alloc] at hta
    simp only [alloc, ← hta, e1, e2]
    rfl
  · constructor
    · intro h0; exact absurd h0 (Nat.succ_ne_zero _)
    · intro _
      refine ⟨N, _, rfl, hLN, ?_, gparN, gloN, ghiN⟩
      rw [glvlN, hrt3]; rfl
    · intro b n hb
      show 1 ≤ g1.lvl b ∧ g1.lvl b ≤ t.nlevel_ + 1
      by_cases hbN : b = N
      · subst hbN; rw [glvlN]; omega
      · obtain ⟨n0, h0, _⟩ := hback b n hb hbN
        rw [glvl b hbN]
        have := hI.lvl_le b n0 h0
        omega
    · intro b n hb
      by_cases hbN : b = N
      · subst hbN; rw [ghiN]; trivial
      · obtain ⟨n0, h0, _⟩ := hback b n hb hbN
        rw [glo b hbN, ghi b hbN]
        exact hI.lohi b n0 h0
    · intro b n hb hlv _
      rcases (hL b n).1 hb with ⟨rfl, rfl⟩ | ⟨rfl, rfl⟩ | ⟨rfl, rfl⟩ | ⟨h1, h2, h3, h4⟩
      · rw [gparN]; exact hnrp
      · rw [set_parent_parent, gparl]
      · rw [set_parent_parent, gparr]
      · rw [gpar b h1 h2 h3]
        rw [glvl b h1] at hlv
        exact hI.par_field b n h4 hlv (by rintro ⟨x, h⟩; cases h; exact h3 rfl)
    · intro b n hb hroot _
      have hbN : b ≠ N := fun e => hroot (by rw [e]; rfl)
      by_cases hbl : b = l
      · subst hbl
        exact ⟨N, nr, 0, gparl, hLN, by omega, hnrv0⟩
      · by_cases hbr : b = r
        · subst hbr
          exact ⟨N, nr, 1, gparr, hLN, by omega, hnrv1⟩
        · obtain ⟨n0, h0, _⟩ := hback b n hb hbN
          obtain ⟨q, mq, iq, k1, k2, k3, k4⟩ := hI.has_par b n0 h0
            (by rw [hrt1]; exact fun e => hbl (by cases e; rfl))
            (by rintro ⟨x, h⟩; cases h; exact hbr rfl)
          obtain ⟨mq', j1, j2, j3⟩ := hintr q mq k2
          exact ⟨q, mq', iq, by rw [gpar b hbN hbl hbr]; exact k1, j1, by omega,
            by rw [kid_at, j3]; exact k4⟩
    · intro b lb hb
      have hbN : b ≠ N := fun e => by rw [e] at hb; cases hLN.inj hb
      obtain ⟨n0, h0, hk, -, -⟩ := hback b _ hb hbN
      obtain ⟨lb0, rfl, e1, e2, e3⟩ := hk lb rfl
      obtain ⟨k1, k2, k3, k4, k5, k6, k7, k8, k9⟩ := hI.leaf b lb0 h0
      have hlv : lb.live = lb0.live := by simp [btnode_leaf.live, e1, e2]
      refine ⟨by rw [glvl b hbN]; exact k1, by rw [← e2]; exact k2, by omega, by omega, ?_, ?_,
        by rw [hlv]; exact k7, by rw [hlv, glo b hbN, ghi b hbN]; exact k8, k9⟩
      · intro h; have := k5 (by omega); cases this
      · intro _
        by_cases hbl : b = l
        · subst hbl
          cases hl.inj h0
          simp only [min_occ, btnode_base.nk_] at hmin
          omega
        · have := k6 (by rw [hrt1]; exact fun e => hbl (by cases e; rfl))
          omega
    · intro b mb hb
      by_cases hbN : b = N
      · subst hbN
        cases hLN.inj hb
        refine ⟨hnrlen, by omega, by omega, fun h => by omega, fun h => absurd rfl h, ?_⟩
        intro i hi
        rcases Nat.eq_zero_or_pos i with rfl | hpos
        · refine ⟨l, _, hnrv0, hLl, gparl, by rw [glvl l hlN, glvlN], ?_, ?_⟩
          · rw [glo l hlN, hrt5]; simp [slotlo, gloN]
          · rw [hiE_none, ghi l hlN, hhil]
            simp [slothi, hnrnk, hnrk]
        · have : i = 1 := by omega
          subst this
          refine ⟨r, _, hnrv1, hLr, gparr, by rw [glvl r hrN, glvlN, hlvr], ?_, ?_⟩
          · rw [glo r hrN]; simp [slotlo, hnrk]
          · rw [hiE_none, ghi r hrN, hrt6]
            simp [slothi, hnrnk, ghiN]
      · obtain ⟨n0, h0, -, hk, -⟩ := hback b _ hb hbN
        obtain ⟨mb0, rfl, e1, e2⟩ := hk mb rfl
        obtain ⟨k1, k2, k3, k4, k5, k6⟩ := hI.internal b mb0 h0
        refine ⟨by rw [← e2]; exact k1, by omega, by omega, ?_, ?_, ?_⟩
        · intro h; have := k4 (by omega); cases this
        · intro _
          by_cases hbl : b = l
          · subst hbl
            cases hl.inj h0
            simp only [min_occ, btnode_base.nk_] at hmin
            omega
          · have := k5 (by rw [hrt1]; exact fun e => hbl (by cases e; rfl))
            omega
        · intro i hi
          obtain ⟨c, cn, c1, c2, c3, c4, c5, c6⟩ := k6 i (by omega)
          obtain ⟨cn', c2'⟩ := hex c cn c2
          obtain ⟨hcN, hcl, hcr⟩ := hkidne b mb0 i c cn h0 c1 c3 c2
          refine ⟨c, cn', by rw [kid_at, ← e2]; exact c1, c2',
            by rw [gpar c hcN hcl hcr]; exact c3, by rw [glvl c hcN, glvl b hbN]; exact c4,
            ?_, ?_⟩
          · rw [glo c hcN, c5, ← slotlo_congr (glo b hbN)]
            simp only [slotlo, key_at, e2]
          · rw [hiE_none, ghi c hcN]
            rw [hhiEne c hcl] at c6
            rw [c6, ← slothi_congr (ghi b hbN)]
            simp only [slothi, key_at, e2, e1]
    · exact hI.chain_nodup
    · apply Linked_congr _ hI.chain_link
      intro b _ lb hb
      by_cases h1 : b = l
      · subst h1
        cases hl.inj hb
        exact ⟨{ lb with parent_ := some N }, hLl, rfl⟩
      · by_cases h2 : b = r
        · subst h2
          cases hr.inj hb
          exact ⟨{ lb with parent_ := some N }, hLr, rfl⟩
        · exact ⟨lb, hold b _ hb h1 h2, rfl⟩
    · have hchlive : ∀ b ∈ g.chain, ∃ lb, Live t b (.leaf lb) := Linked_mem hI.chain_link
      apply Chain'_congr_mem _ hI.chain_adj
      intro x hx y hy hR
      obtain ⟨_, hx'⟩ := hchlive x hx
      obtain ⟨_, hy'⟩ := hchlive y hy
      rw [ghi x (fun e => hdeadN _ (e ▸ hx')), glo y (fun e => hdeadN _ (e ▸ hy'))]
      exact hR
    · intro b hb
      have hchlive : ∀ b ∈ g.chain, ∃ lb, Live t b (.leaf lb) := Linked_mem hI.chain_link
      obtain ⟨_, hb'⟩ := hchlive b (List.mem_of_mem_head? hb)
      rw [glo b (fun e => hdeadN _ (e ▸ hb'))]
      exact hI.chain_first b hb
    · intro b hb
      have hchlive : ∀ b ∈ g.chain, ∃ lb, Live t b (.leaf lb) := Linked_mem hI.chain_link
      obtain ⟨_, hb'⟩ := hchlive b (List.mem_of_mem_getLast? hb)
      rw [ghi b (fun e => hdeadN _ (e ▸ hb'))]
      exact hI.chain_last b hb
    · show t.nk_ = (content t1 g.chain).length
      rw [content_congr (fun b _ => hlive b)]
      exact hI.size_eq
    · intro l' r' h; cases h
  · refine ⟨?_, ?_, hlive, rfl, rfl, ⟨rfl, rfl, rfl⟩, Nat.le_succ _, le_refl _⟩
    · intro c n hc hlv
      by_cases hcN : c = N
      · rw [hcN, glvlN] at hlv; omega
      · rw [glvl c hcN] at hlv
        have hcl : c ≠ l := fun e => by rw [e] at hlv; omega
        have hcr : c ≠ r := fun e => by rw [e] at hlv; omega
        obtain ⟨n0, h0, -, -, h3⟩ := hback c n hc hcN
        rw [h3 hcl hcr]
        exact ⟨h0, gpar c hcN hcl hcr, glvl c hcN⟩
    · intro c n hc
      obtain ⟨n', h⟩ := hex c n hc
      exact ⟨n', h, glvl c (fun e => hdeadN _ (e ▸ hc))⟩

theorem keyL_split (e : List xpair) (he : e.length = fanout) (i : Nat) (hi : i < 4) :
    keyL (List.take 0 btnode_internal.new.e_ ++ (e.drop (order + 1)).take (order + 1) ++
      btnode_internal.new.e_.drop (0 + (order + 1))) i = keyL e (i + 4) := by
  have hf : fanout = 8 := rfl
  have ho : order = 3 := rfl
  unfold keyL
  simp only [ho, List.take_zero, List.nil_append]
  rw [List.getElem?_append_left (by simp; omega), List.getElem?_take_of_lt (by omega),
    List.getElem?_drop, Nat.add_comm]

theorem kidL_split (e : List xpair) (he : e.length = fanout) (i : Nat) (hi : i < 4) :
    kidL (List.take 0 btnode_internal.new.e_ ++ (e.drop (order + 1)).take (order + 1) ++
      btnode_internal.new.e_.drop (0 + (order + 1))) i = kidL e (i + 4) := by
  have hf : fanout = 8 := rfl
  have ho : order = 3 := rfl
  unfold kidL
  simp only [ho, List.take_zero, List.nil_append]
  rw [List.getElem?_append_left (by simp; omega), List.getElem?_take_of_lt (by omega),
    List.getElem?_drop, Nat.add_comm]

set_option maxHeartbeats 2000000 in
/-- Splitting the full internal node `p`: the state after `btnode_internal::split`
satisfies the invariant one level up, with the split pending. -/
theorem internal_split_ok {g : Ghost} {t : btree_type} {L p : Nat} {m : btnode_internal}
    (hI : InvG g t L none (some p)) (hp : Live t p (.internal m))
    (hfull : m.nk_ = fanout - 1) (hlv : g.lvl p = L + 1) :
    ∃ x t2 g2 N, aget m.e_ order = .ok x ∧ internal_split t (some p) = .ok (t2, some N) ∧
      x.key_ = g2.lo N ∧ InvG g2 t2 (L + 1) (some (p, N)) none ∧ Step L g t g2 t2 ∧
      t2.nlevel_ = t.nlevel_ ∧ g2.lvl N = L + 1 ∧
      (∀ c n, Live t2 c n → g2.lvl c = L → g2.par c ≠ some N → n.parent_ = g2.par c) := by
  have hf : fanout = 8 := rfl
  have ho : order = 3 := rfl
  obtain ⟨hmlen, hmnk1, hmnk2, -, hmmin, hslots⟩ := hI.internal p m hp
  have hne : 0 < t.nlevel_ := nlevel_pos hI hp
  obtain ⟨rt, rtn, hrt1, hrt2, hrt3, hrt4, hrt5, hrt6⟩ := hI.root1 hne
  obtain ⟨x, hx⟩ : ∃ x, m.e_[order]? = some x :=
    ⟨_, List.getElem?_eq_getElem (show order < m.e_.length by omega)⟩
  have hxk : x.key_ = key_at m 3 := by
    simp only [key_at, keyL]
    rw [ho] at hx
    rw [hx]
  set med := key_at m 3 with hmed
  set e := (List.take 0 btnode_internal.new.e_ ++ (m.e_.drop (order + 1)).take (order + 1) ++
    btnode_internal.new.e_.drop (0 + (order + 1))) with he
  have hblit : blit btnode_internal.new.e_ 0 m.e_ (order + 1) (order + 1) = .ok e :=
    blit_ok _ _ _ _ _ (by omega) (by simp [btnode_internal.new]; omega)
  have helen : e.length = fanout := by
    simp [he, btnode_internal.new]; omega
  set N := t.heap.length with hN
  have hdeadN : ∀ n, ¬ Live t N n := fun n h => by have := h.lt; omega
  have hpN : p ≠ N := fun e => hdeadN _ (e ▸ hp)
  set nn : btnode_internal := { btnode_internal.new with nk_ := order, e_ := e } with hnn
  set m2 : btnode_internal := { m with nk_ := order } with hm2
  set t2 := wr (alloc t (.internal nn)).1 (some p) (.internal m2) with ht2
  have hcode : internal_split t (some p) = .ok (t2, some N) := by
    simp only [internal_split, hp.rd_internal, hblit, bind, Except.bind, alloc, pure,
      Except.pure]
    rfl
  have hknn : ∀ i, i < 4 → key_at nn i = key_at m (i + 4) := fun i hi =>
    keyL_split m.e_ hmlen i hi
  have hvnn : ∀ i, i < 4 → kid_at nn i = kid_at m (i + 4) := fun i hi =>
    kidL_split m.e_ hmlen i hi
  have hL : ∀ b n, Live t2 b n ↔ (b = N ∧ n = .internal nn) ∨ (b = p ∧ n = .internal m2) ∨
      (b ≠ N ∧ b ≠ p ∧ Live t b n) := by
    intro b n
    rw [ht2, Live_wr_iff, Live_alloc_iff]
    have h2 : p < (alloc t (.internal nn)).1.heap.length := by
      have := hp.lt; simp [alloc]; omega
    constructor
    · rintro (⟨h3, -, h'⟩ | ⟨h3, h4 | h4⟩)
      · exact Or.inr (Or.inl ⟨h3, h'⟩)
      · exact Or.inr (Or.inr ⟨fun e => hdeadN _ (e ▸ h4), h3, h4⟩)
      · exact Or.inl h4
    · rintro (⟨h, h'⟩ | ⟨h, h'⟩ | ⟨h, h3, h4⟩)
      · exact Or.inr ⟨by rw [h]; exact fun e => hpN e.symm, Or.inr ⟨h, h'⟩⟩
      · exact Or.inl ⟨h, h2, h'⟩
      · exact Or.inr ⟨h3, Or.inl h4⟩
  have hLN : Live t2 N (.internal nn) := (hL _ _).2 (Or.inl ⟨rfl, rfl⟩)
  have hLp : Live t2 p (.internal m2) := (hL _ _).2 (Or.inr (Or.inl ⟨rfl, rfl⟩))
  have hold : ∀ b n, Live t b n → b ≠ p → Live t2 b n := fun b n hb h1 =>
    (hL b n).2 (Or.inr (Or.inr ⟨fun e => hdeadN _ (e ▸ hb), h1, hb⟩))
  have hex : ∀ b n, Live t b n → ∃ n', Live t2 b n' := by
    intro b n hb
    by_cases h1 : b = p
    · subst h1; exact ⟨_, hLp⟩
    · exact ⟨n, hold b n hb h1⟩
  have hback : ∀ b n, Live t2 b n → b ≠ N → ∃ n0, Live t b n0 ∧ n0.parent_ = n.parent_ ∧
      (b ≠ p → n = n0) := by
    intro b n hb hbN
    rcases (hL b n).1 hb with ⟨h, -⟩ | ⟨rfl, rfl⟩ | ⟨-, -, h⟩
    · exact absurd h hbN
    · exact ⟨_, hp, rfl, fun h => absurd rfl h⟩
    · exact ⟨n, h, rfl, fun _ => rfl⟩
  -- the children of `p`
  have hchild : ∀ b n, Live t b n → g.par b = some p →
      ∃ i, i ≤ m.nk_ ∧ kid_at m i = some b ∧ g.lvl b = L ∧ g.lo b = slotlo g p m i := by
    intro b n hb hpar
    have hroot : t.root_ ≠ some b := by
      rw [hrt1]; intro h; cases h; rw [hrt4] at hpar; cases hpar
    obtain ⟨q, mq, iq, k1, k2, k3, k4⟩ := hI.has_par b n hb hroot
      (by rintro ⟨_, h⟩; cases h)
    rw [hpar] at k1; cases k1
    cases hp.inj k2
    obtain ⟨c, cn, c1, c2, c3, c4, c5, c6⟩ := hslots iq k3
    rw [k4] at c1; cases c1
    exact ⟨iq, k3, k4, by omega, c5⟩
  have hslot4 : slotlo g p m 4 = med := by simp [slotlo, hmed]
  have hlow : ∀ i, i ≤ 3 → slotlo g p m i < med := fun i hi => by
    rw [← hslot4]; exact slotlo_mono hI hp (by omega) (by omega)
  have hhigh : ∀ i, 4 ≤ i → i ≤ m.nk_ → med ≤ slotlo g p m i := fun i hi hi' => by
    rcases Nat.eq_or_lt_of_le hi with h | h
    · rw [← h, hslot4]
    · rw [← hslot4]; exact le_of_lt (slotlo_mono hI hp h hi')
  set g2 : Ghost :=
    { g with
      lvl := Function.update g.lvl N (g.lvl p)
      lo := Function.update g.lo N med
      hi := Function.update (Function.update g.hi N (g.hi p)) p (some med)
      par := fun c => if c = N then none
        else if g.par c = some p ∧ med ≤ g.lo c then some N else g.par c } with hg2
  have glvl : ∀ b, b ≠ N → g2.lvl b = g.lvl b := fun b hb => by
    show Function.update g.lvl N (g.lvl p) b = g.lvl b
    rw [Function.update_noteq hb]
  have glvlN : g2.lvl N = g.lvl p := by
    show Function.update g.lvl N (g.lvl p) N = _
    rw [Function.update_same]
  have glo : ∀ b, b ≠ N → g2.lo b = g.lo b := fun b hb => by
    show Function.update g.lo N med b = g.lo b
    rw [Function.update_noteq hb]
  have gloN : g2.lo N = med := by
    show Function.update g.lo N med N = _
    rw [Function.update_same]
  have ghi : ∀ b, b ≠ N → b ≠ p → g2.hi b = g.hi b := fun b hb hb' => by
    show Function.update (Function.update g.hi N (g.hi p)) p (some med) b = g.hi b
    rw [Function.update_noteq hb', Function.update_noteq hb]
  have ghip : g2.hi p = some med := by
    show Function.update (Function.update g.hi N (g.hi p)) p (some med) p = some med
    rw [Function.update_same]
  have ghiN : g2.hi N = g.hi p := by
    show Function.update (Function.update g.hi N (g.hi p)) p (some med) N = g.hi p
    rw [Function.update_noteq (fun e => hpN e.symm), Function.update_same]
  have gparN : g2.par N = none := by
    show (if N = N then none else _) = none
    rw [if_pos rfl]
  have gpar_keep : ∀ b, b ≠ N → ¬ (g.par b = some p ∧ med ≤ g.lo b) → g2.par b = g.par b :=
    fun b hb h => by
      show (if b = N then none else if g.par b = some p ∧ med ≤ g.lo b then some N
        else g.par b) = g.par b
      rw [if_neg hb, if_neg h]
  have gpar_move : ∀ b, b ≠ N → g.par b = some p → med ≤ g.lo b → g2.par b = some N :=
    fun b hb h h' => by
      show (if b = N then none else if g.par b = some p ∧ med ≤ g.lo b then some N
        else g.par b) = some N
      rw [if_neg hb, if_pos ⟨h, h'⟩]
  have ghiE : ∀ b, b ≠ N → hiE g2 (some (p, N)) b = g.hi b := by
    intro b hb
    show (if b = p then g2.hi N else g2.hi b) = g.hi b
    by_cases h : b = p
    · rw [if_pos h, ghiN, h]
    · rw [if_neg h, ghi b hb h]
  have hlive : ∀ b, live_at t2 b = live_at t b := by
    intro b
    have hpa : Live (alloc t (.internal nn)).1 p (.internal m) :=
      (Live_alloc_iff _ _ _ _).2 (Or.inl hp)
    rw [ht2, live_at_wr_internal hpa]
    exact live_at_alloc_internal t nn b rfl
  have hchlive : ∀ b ∈ g.chain, ∃ lb, Live t b (.leaf lb) := Linked_mem hI.chain_link
  have hleafne : ∀ b lb, Live t b (.leaf lb) → b ≠ N ∧ b ≠ p := fun b lb hb =>
    ⟨fun e => hdeadN _ (e ▸ hb), fun e => by rw [e] at hb; cases hp.inj hb⟩
  refine ⟨x, t2, g2, N, aget_ok hx, hcode, by rw [hxk, gloN], ?_, ?_, rfl,
    by rw [glvlN, hlv], ?_⟩
  · constructor
    · intro h0; exact absurd h0 (by show ¬ t.nlevel_ = 0; omega)
    · intro _
      obtain ⟨n', hn'⟩ := hex rt rtn hrt2
      have hrtN : rt ≠ N := fun e => hdeadN _ (e ▸ hrt2)
      refine ⟨rt, n', hrt1, hn', by rw [glvl rt hrtN]; exact hrt3, ?_,
        by rw [glo rt hrtN]; exact hrt5, by rw [ghiE rt hrtN]; exact hrt6⟩
      rw [gpar_keep rt hrtN (fun h => by rw [hrt4] at h; cases h.1)]; exact hrt4
    · intro b n hb
      show 1 ≤ g2.lvl b ∧ g2.lvl b ≤ t.nlevel_
      by_cases hbN : b = N
      · subst hbN; rw [glvlN]; exact hI.lvl_le p _ hp
      · obtain ⟨n0, h0, _⟩ := hback b n hb hbN
        rw [glvl b hbN]; exact hI.lvl_le b n0 h0
    · intro b n hb
      by_cases hbN : b = N
      · subst hbN; rw [gloN, ghiN]; exact key_below_hi hI hp (by omega)
      · by_cases hbp : b = p
        · subst hbp; rw [glo b hbN, ghip]; exact lo_lt_key hI hp (by omega)
        · obtain ⟨n0, h0, _⟩ := hback b n hb hbN
          rw [glo b hbN, ghi b hbN hbp]; exact hI.lohi b n0 h0
    · intro b n hb hlvb hpr
      have hbN : b ≠ N := fun e => hpr ⟨p, by rw [e]⟩
      obtain ⟨n0, h0, h1, _⟩ := hback b n hb hbN
      rw [glvl b hbN] at hlvb
      rw [← h1, gpar_keep b hbN (fun h => by
        obtain ⟨i, _, _, h3, _⟩ := hchild b n0 h0 h.1
        omega)]
      exact hI.par_field b n0 h0 (by omega) (by rintro ⟨_, h⟩; cases h)
    · intro b n hb hroot hpr
      have hbN : b ≠ N := fun e => hpr ⟨p, by rw [e]⟩
      obtain ⟨n0, h0, _⟩ := hback b n hb hbN
      obtain ⟨q, mq, iq, k1, k2, k3, k4⟩ := hI.has_par b n0 h0 hroot
        (by rintro ⟨_, h⟩; cases h)
      by_cases hqp : q = p
      · subst hqp
        cases hp.inj k2
        obtain ⟨i, hi1, hi2, hi3, hi4⟩ := hchild b n0 h0 k1
        have : i = iq := kid_inj hI hp hi1 k3 (by rw [hi2, k4])
        subst this
        by_cases hle : i ≤ 3
        · refine ⟨q, m2, i, ?_, hLp, by simp [hm2, ho]; exact hle, k4⟩
          rw [gpar_keep b hbN (fun h => by have := hlow i hle; omega)]; exact k1
        · refine ⟨N, nn, i - 4, gpar_move b hbN k1 (by rw [hi4]; exact hhigh i (by omega) hi1),
            hLN, by simp [hnn, ho]; omega, ?_⟩
          rw [hvnn (i - 4) (by omega), show i - 4 + 4 = i by omega]; exact k4
      · refine ⟨q, mq, iq, ?_, hold q _ k2 hqp, k3, k4⟩
        rw [gpar_keep b hbN (fun h => by rw [k1] at h; cases h.1; exact hqp rfl)]; exact k1
    · intro b lb hb
      have hbN : b ≠ N := fun e => by rw [e] at hb; cases hLN.inj hb
      have hbp : b ≠ p := fun e => by rw [e] at hb; cases hLp.inj hb
      obtain ⟨n0, h0, _, h2⟩ := hback b _ hb hbN
      rw [← h2 hbp] at h0
      obtain ⟨k1, k2, k3, k4, k5, k6, k7, k8, k9⟩ := hI.leaf b lb h0
      refine ⟨by rw [glvl b hbN]; exact k1, k2, k3, k4, ?_, k6, k7,
        by rw [glo b hbN, ghi b hbN hbp]; exact k8, k9⟩
      intro h; have := k5 h; simp at this; exact absurd this.symm hbp
    · intro b mb hb
      by_cases hbN : b = N
      · subst hbN
        cases hLN.inj hb
        refine ⟨helen, by simp [hnn, ho], by simp [hnn, ho, hf], fun h => ?_, fun _ => le_refl _,
          ?_⟩
        · simp [hnn, ho, hf] at h
        · intro i hi
          have hi' : i ≤ 3 := hi
          obtain ⟨c, cn, c1, c2, c3, c4, c5, c6⟩ := hslots (i + 4) (by omega)
          have hcN : c ≠ N := fun e => hdeadN _ (e ▸ c2)
          have hcp : c ≠ p := fun e => by rw [e] at c4; omega
          refine ⟨c, cn, by rw [hvnn i (by omega)]; exact c1, hold c cn c2 hcp,
            gpar_move c hcN c3 (by rw [c5]; exact hhigh _ (by omega) (by omega)),
            by rw [glvl c hcN, glvlN]; exact c4, ?_, ?_⟩
          · rw [glo c hcN, c5]
            unfold slotlo
            rw [if_neg (show ¬ i + 4 = 0 by omega)]
            split_ifs with h0
            · rw [gloN, h0]
            · rw [hknn (i - 1) (by omega)]; congr 1; omega
          · rw [ghiE c hcN]
            rw [hiE_none] at c6
            rw [c6]
            unfold slothi
            show _ = if i < order then some (key_at nn i) else g2.hi N
            by_cases h : i < 3
            · rw [if_pos (show i + 4 < m.nk_ by omega), if_pos (by rw [ho]; exact h),
                hknn i (by omega)]
            · rw [if_neg (show ¬ i + 4 < m.nk_ by omega), if_neg (by rw [ho]; exact h), ghiN]
      · by_cases hbp : b = p
        · subst hbp
          cases hLp.inj hb
          refine ⟨hmlen, by simp [hm2, ho], by simp [hm2, ho, hf], fun h => ?_,
            fun _ => le_refl _, ?_⟩
          · simp [hm2, ho, hf] at h
          · intro i hi
            have hi' : i ≤ 3 := hi
            obtain ⟨c, cn, c1, c2, c3, c4, c5, c6⟩ := hslots i (by omega)
            have hcN : c ≠ N := fun e => hdeadN _ (e ▸ c2)
            have hcp : c ≠ b := fun e => by rw [e] at c4; omega
            refine ⟨c, cn, c1, hold c cn c2 hcp, ?_,
              by rw [glvl c hcN, glvl b hbN]; exact c4, ?_, ?_⟩
            · rw [gpar_keep c hcN (fun h => by have := hlow i hi'; omega)]; exact c3
            · rw [glo c hcN, c5]
              exact (slotlo_congr (glo b hbN)).symm
            · rw [ghiE c hcN]
              rw [hiE_none] at c6
              rw [c6]
              unfold slothi
              show _ = if i < order then some (key_at m i) else g2.hi b
              by_cases h : i < 3
              · rw [if_pos (show i < m.nk_ by omega), if_pos (by rw [ho]; exact h)]
              · have : i = 3 := by omega
                subst this
                rw [if_pos (show 3 < m.nk_ by omega), if_neg (by rw [ho]; exact h), ghip]
        · obtain ⟨n0, h0, _, h2⟩ := hback b _ hb hbN
          rw [← h2 hbp] at h0
          obtain ⟨k1, k2, k3, k4, k5, k6⟩ := hI.internal b mb h0
          refine ⟨k1, k2, k3, ?_, k5, ?_⟩
          · intro h; have := k4 h; simp at this; exact absurd this.symm hbp
          · intro i hi
            obtain ⟨c, cn, c1, c2, c3, c4, c5, c6⟩ := k6 i hi
            obtain ⟨cn', c2'⟩ := hex c cn c2
            have hcN : c ≠ N := fun e => hdeadN _ (e ▸ c2)
            refine ⟨c, cn', c1, c2', ?_, by rw [glvl c hcN, glvl b hbN]; exact c4, ?_, ?_⟩
            · rw [gpar_keep c hcN (fun h => by rw [c3] at h; cases h.1; exact hbp rfl)]
              exact c3
            · rw [glo c hcN, c5]
              exact (slotlo_congr (glo b hbN)).symm
            · rw [ghiE c hcN]
              rw [hiE_none] at c6
              rw [c6]
              exact (slothi_congr (ghi b hbN hbp)).symm
    · exact hI.chain_nodup
    · apply Linked_congr _ hI.chain_link
      intro b _ lb hb
      exact ⟨lb, hold b _ hb (hleafne b lb hb).2, rfl⟩
    · apply Chain'_congr_mem _ hI.chain_adj
      intro y hy z hz hR
      obtain ⟨_, hy'⟩ := hchlive y hy
      obtain ⟨_, hz'⟩ := hchlive z hz
      rw [ghi y (hleafne _ _ hy').1 (hleafne _ _ hy').2, glo z (hleafne _ _ hz').1]
      exact hR
    · intro b hb
      obtain ⟨_, hb'⟩ := hchlive b (List.mem_of_mem_head? hb)
      rw [glo b (hleafne _ _ hb').1]
      exact hI.chain_first b hb
    · intro b hb
      obtain ⟨_, hb'⟩ := hchlive b (List.mem_of_mem_getLast? hb)
      rw [ghi b (hleafne _ _ hb').1 (hleafne _ _ hb').2]
      exact hI.chain_last b hb
    · show t.nk_ = (content t2 g.chain).length
      rw [content_congr (fun b _ => hlive b)]
      exact hI.size_eq
    · intro l' r' h
      cases h
      refine ⟨_, _, hLp, hLN, hpN, by rw [glvlN, glvl p hpN], by rw [glvl p hpN, hlv],
        by rw [ghip, gloN], gparN, ?_, ?_, ?_⟩
      · rw [show t2.root_ = t.root_ from rfl, hrt1]
        intro h
        have h' : rt = N := Option.some.inj h
        exact hdeadN _ (h' ▸ hrt2)
      · simp [min_occ, btnode_base.nk_, hm2]
      · intro q mq i hq hi hk
        have hkid : ∃ q0 mq0 i0, Live t q0 (.internal mq0) ∧ i0 ≤ mq0.nk_ ∧
            kid_at mq0 i0 = some N := by
          rcases (hL q _).1 hq with ⟨-, h⟩ | ⟨-, h⟩ | ⟨-, -, h⟩
          · cases h
            have hi' : i ≤ 3 := hi
            exact ⟨p, m, i + 4, hp, by omega, by rw [← hvnn i (by omega)]; exact hk⟩
          · cases h
            have hi' : i ≤ 3 := hi
            exact ⟨p, m, i, hp, by omega, hk⟩
          · exact ⟨q, mq, i, h, hi, hk⟩
        obtain ⟨q0, mq0, i0, h1, h2, h3⟩ := hkid
        obtain ⟨c, cn, c1, c2, _⟩ := (hI.internal q0 mq0 h1).2.2.2.2.2 i0 h2
        rw [h3] at c1; cases c1
        exact hdeadN _ c2
  · refine ⟨?_, ?_, hlive, rfl, rfl, ⟨rfl, rfl, rfl⟩, le_refl _, Nat.le_succ _⟩
    · intro c n hc hlvc
      by_cases hcN : c = N
      · rw [hcN, glvlN] at hlvc; omega
      · rw [glvl c hcN] at hlvc
        have hcp : c ≠ p := fun e => by rw [e] at hlvc; omega
        obtain ⟨n0, h0, _, h2⟩ := hback c n hc hcN
        rw [h2 hcp]
        refine ⟨h0, gpar_keep c hcN (fun h => ?_), glvl c hcN⟩
        obtain ⟨i, _, _, h3, _⟩ := hchild c n0 h0 h.1
        omega
    · intro c n hc
      obtain ⟨n', h⟩ := hex c n hc
      exact ⟨n', h, glvl c (fun e => hdeadN _ (e ▸ hc))⟩
  · intro c n hc hlvc hparc
    by_cases hcN : c = N
    · rw [hcN, glvlN] at hlvc; omega
    · rw [glvl c hcN] at hlvc
      have hcp : c ≠ p := fun e => by rw [e] at hlvc; omega
      obtain ⟨n0, h0, _, h2⟩ := hback c n hc hcN
      rw [h2 hcp]
      have hkeep : ¬ (g.par c = some p ∧ med ≤ g.lo c) := fun h =>
        hparc (gpar_move c hcN h.1 h.2)
      rw [gpar_keep c hcN hkeep]
      exact hI.par_field c n0 h0 (by omega) (by rintro ⟨_, h⟩; cases h)

theorem body_leaf {n n' : btnode_base} (h : n.set_parent none = n'.set_parent none)
    {l' : btnode_leaf} (hn : n' = .leaf l') :
    ∃ l, n = .leaf l ∧ l.nk_ = l'.nk_ ∧ l.e_ = l'.e_ ∧ l.next_ = l'.next_ := by
  subst hn
  cases n with
  | leaf l =>
    simp only [btnode_base.set_parent, btnode_base.leaf.injEq, btnode_leaf.mk.injEq] at h
    exact ⟨l, rfl, h.2.1, h.2.2.1, h.2.2.2⟩
  | internal m => simp [btnode_base.set_parent] at h

theorem body_internal {n n' : btnode_base} (h : n.set_parent none = n'.set_parent none)
    {m' : btnode_internal} (hn : n' = .internal m') :
    ∃ m, n = .internal m ∧ m.nk_ = m'.nk_ ∧ m.e_ = m'.e_ := by
  subst hn
  cases n with
  | leaf l => simp [btnode_base.set_parent] at h
  | internal m =>
    simp only [btnode_base.set_parent, btnode_base.internal.injEq,
      btnode_internal.mk.injEq] at h
    exact ⟨m, rfl, h.2.1, h.2.2⟩

theorem body_set_parent (n : btnode_base) (x : Option Nat) :
    n.set_parent none = (n.set_parent x).set_parent none := by
  cases n <;> rfl

/-- The invariant only looks at `parent_` fields where it says so. -/
theorem InvG_body {g : Ghost} {t t' : btree_type} {L0 L' : Nat} {full : Option Nat}
    (hI : InvG g t L0 none full) (hroot : t'.root_ = t.root_)
    (hlev : t'.nlevel_ = t.nlevel_) (hnk : t'.nk_ = t.nk_)
    (hL : ∀ b n', Live t' b n' → ∃ n, Live t b n ∧ n.set_parent none = n'.set_parent none)
    (hL' : ∀ b n, Live t b n → ∃ n', Live t' b n' ∧ n.set_parent none = n'.set_parent none)
    (hpar : ∀ b n', Live t' b n' → L' ≤ g.lvl b → n'.parent_ = g.par b) :
    InvG g t' L' none full := by
  have hlive : ∀ b, live_at t' b = live_at t b := by
    intro b
    unfold live_at
    rcases h : t'.heap[b]? with _ | _ | n'
    · rcases h0 : t.heap[b]? with _ | _ | n
      · rfl
      · rfl
      · obtain ⟨n', h1, _⟩ := hL' b n h0
        rw [Live, h] at h1; cases h1
    · rcases h0 : t.heap[b]? with _ | _ | n
      · rfl
      · rfl
      · obtain ⟨n', h1, _⟩ := hL' b n h0
        rw [Live, h] at h1; cases h1
    · obtain ⟨n, h1, h2⟩ := hL b n' h
      rw [h1]
      cases n' with
      | leaf l' =>
        obtain ⟨l, rfl, e1, e2, _⟩ := body_leaf h2 rfl
        simp [btnode_leaf.live, e1, e2]
      | internal m' =>
        obtain ⟨m, rfl, _⟩ := body_internal h2 rfl
        rfl
  constructor
  · intro h0
    obtain ⟨a1, a2, a3, a4⟩ := hI.root0 (by rw [← hlev]; exact h0)
    refine ⟨by rw [hroot]; exact a1, by rw [hnk]; exact a2, a3, ?_⟩
    intro a n ha
    obtain ⟨n0, h1, _⟩ := hL a n ha
    exact a4 a n0 h1
  · intro h0
    obtain ⟨r, n, h1, h2, h3⟩ := hI.root1 (by rw [← hlev]; exact h0)
    obtain ⟨n', h4, _⟩ := hL' r n h2
    exact ⟨r, n', by rw [hroot]; exact h1, h4, by rw [hlev]; exact h3.1, h3.2⟩
  · intro b n hb
    obtain ⟨n0, h0, _⟩ := hL b n hb
    rw [hlev]; exact hI.lvl_le b n0 h0
  · intro b n hb
    obtain ⟨n0, h0, _⟩ := hL b n hb
    exact hI.lohi b n0 h0
  · intro b n hb hl _
    exact hpar b n hb hl
  · intro b n hb hr hpr
    obtain ⟨n0, h0, _⟩ := hL b n hb
    obtain ⟨p, m, i, h1, h2, h3, h4⟩ := hI.has_par b n0 h0 (by rw [← hroot]; exact hr) hpr
    obtain ⟨n', h5, h6⟩ := hL' p _ h2
    cases n' with
    | leaf l' =>
      obtain ⟨l, hl, _⟩ := body_leaf h6 rfl
      cases hl
    | internal m' =>
      obtain ⟨m0, hm0, e1, e2⟩ := body_internal h6 rfl
      cases hm0
      exact ⟨p, m', i, h1, h5, by omega, by rw [kid_at, ← e2]; exact h4⟩
  · intro b lb hb
    obtain ⟨n0, h0, h1⟩ := hL b _ hb
    obtain ⟨l0, rfl, e1, e2, e3⟩ := body_leaf h1 rfl
    obtain ⟨k1, k2, k3, k4, k5, k6, k7, k8, k9⟩ := hI.leaf b l0 h0
    have hlv : lb.live = l0.live := by simp [btnode_leaf.live, e1, e2]
    exact ⟨k1, by rw [← e2]; exact k2, by omega, by omega, fun h => k5 (by omega),
      fun h => by have := k6 (by rw [← hroot]; exact h); omega, by rw [hlv]; exact k7,
      by rw [hlv]; exact k8, k9⟩
  · intro b mb hb
    obtain ⟨n0, h0, h1⟩ := hL b _ hb
    obtain ⟨m0, rfl, e1, e2⟩ := body_internal h1 rfl
    obtain ⟨k1, k2, k3, k4, k5, k6⟩ := hI.internal b m0 h0
    refine ⟨by rw [← e2]; exact k1, by omega, by omega, fun h => k4 (by omega),
      fun h => by have := k5 (by rw [← hroot]; exact h); omega, ?_⟩
    intro i hi
    obtain ⟨c, cn, c1, c2, c3, c4, c5, c6⟩ := k6 i (by omega)
    obtain ⟨cn', c2', _⟩ := hL' c cn c2
    refine ⟨c, cn', by rw [kid_at, ← e2]; exact c1, c2', c3, c4, ?_, ?_⟩
    · rw [c5]; simp only [slotlo, key_at, e2]
    · rw [c6]; simp only [slothi, key_at, e2, e1]
  · exact hI.chain_nodup
  · apply Linked_congr _ hI.chain_link
    intro b _ lb hb
    obtain ⟨n', h1, h2⟩ := hL' b _ hb
    cases n' with
    | leaf l' =>
      obtain ⟨l0, hl0, _, _, e3⟩ := body_leaf h2 rfl
      cases hl0
      exact ⟨l', h1, e3.symm⟩
    | internal m' =>
      obtain ⟨m0, hm0, _⟩ := body_internal h2 rfl
      cases hm0
  · exact hI.chain_adj
  · exact hI.chain_first
  · exact hI.chain_last
  · rw [hnk, content_congr (fun b _ => hlive b)]
    exact hI.size_eq
  · intro l r h; cases h

set_option maxHeartbeats 1000000 in
theorem fix_parents_loop {g : Ghost} {t : btree_type} {L N : Nat} {nn : btnode_internal}
    (hlvN : g.lvl N = L + 1) :
    ∀ (k i cnt : Nat) (ti : btree_type), k + i = nn.nk_ + 1 → k < cnt →
      InvG g ti (L + 1) none none → Live ti N (.internal nn) →
      (∀ c n, Live ti c n → g.lvl c = L →
        (g.par c ≠ some N ∨ ∃ j, j < i ∧ kid_at nn j = some c) → n.parent_ = g.par c) →
      Step L g t g ti → ti.nlevel_ = t.nlevel_ →
      ∃ t', fix_parents (some N) cnt i ti = .ok t' ∧ InvG g t' (L + 1) none none ∧
        Live t' N (.internal nn) ∧
        (∀ c n, Live t' c n → g.lvl c = L →
          (g.par c ≠ some N ∨ ∃ j, j < nn.nk_ + 1 ∧ kid_at nn j = some c) →
          n.parent_ = g.par c) ∧
        Step L g t g t' ∧ t'.nlevel_ = t.nlevel_ := by
  intro k
  induction k with
  | zero =>
    intro i cnt ti hk hcnt hI hN hst hstep hlev
    obtain ⟨cnt', rfl⟩ : ∃ c', cnt = c' + 1 := ⟨cnt - 1, by omega⟩
    refine ⟨ti, ?_, hI, hN, ?_, hstep, hlev⟩
    · rw [fix_parents]
      simp only [hN.rd_internal, bind, Except.bind]
      rw [if_neg (by omega)]
      rfl
    · have : i = nn.nk_ + 1 := by omega
      rw [← this]; exact hst
  | succ k ih =>
    intro i cnt ti hk hcnt hI hN hst hstep hlev
    obtain ⟨cnt', rfl⟩ : ∃ c', cnt = c' + 1 := ⟨cnt - 1, by omega⟩
    have hi : i ≤ nn.nk_ := by omega
    obtain ⟨hlen, _, hnk2, _, _, hslots⟩ := hI.internal N nn hN
    obtain ⟨c, cn, c1, c2, c3, c4, c5, c6⟩ := hslots i hi
    have hlvc : g.lvl c = L := by omega
    have hcN : c ≠ N := fun e => by rw [e] at hlvc; omega
    have hf : fanout = 8 := rfl
    obtain ⟨x, hx⟩ : ∃ x, nn.e_[i]? = some x :=
      ⟨_, List.getElem?_eq_getElem (show i < nn.e_.length by omega)⟩
    have hxv : x.v_ = some c := by
      simp only [kid_at, kidL, hx] at c1; exact c1
    set t1 := wr ti (some c) (cn.set_parent (some N)) with ht1
    have hL : ∀ b n, Live t1 b n ↔
        (b = c ∧ n = cn.set_parent (some N)) ∨ (b ≠ c ∧ Live ti b n) := by
      intro b n
      rw [ht1, Live_wr_iff]
      have := c2.lt
      constructor
      · rintro (⟨h, -, h'⟩ | h)
        · exact Or.inl ⟨h, h'⟩
        · exact Or.inr h
      · rintro (⟨h, h'⟩ | h)
        · exact Or.inl ⟨h, this, h'⟩
        · exact Or.inr h
    have hN1 : Live t1 N (.internal nn) := (hL _ _).2 (Or.inr ⟨fun e => hcN e.symm, hN⟩)
    have hI1 : InvG g t1 (L + 1) none none := by
      refine InvG_body hI rfl rfl rfl ?_ ?_ ?_
      · intro b n' hb
        rcases (hL b n').1 hb with ⟨rfl, rfl⟩ | ⟨_, h⟩
        · exact ⟨cn, c2, body_set_parent cn _⟩
        · exact ⟨n', h, rfl⟩
      · intro b n hb
        by_cases hbc : b = c
        · subst hbc
          cases c2.inj hb
          exact ⟨_, (hL _ _).2 (Or.inl ⟨rfl, rfl⟩), body_set_parent _ _⟩
        · exact ⟨n, (hL _ _).2 (Or.inr ⟨hbc, hb⟩), rfl⟩
      · intro b n' hb hlvb
        rcases (hL b n').1 hb with ⟨rfl, rfl⟩ | ⟨_, h⟩
        · omega
        · exact hI.par_field b n' h hlvb (by rintro ⟨_, h⟩; cases h)
    have hstep1 : Step L g ti g t1 := by
      refine ⟨?_, ?_, fun b => live_at_wr_set_parent c2 _ b, rfl, rfl, ⟨rfl, rfl, rfl⟩,
        le_refl _, Nat.le_succ _⟩
      · intro b n hb hlvb
        rcases (hL b n).1 hb with ⟨rfl, rfl⟩ | ⟨_, h⟩
        · omega
        · exact ⟨h, rfl, rfl⟩
      · intro b n hb
        by_cases hbc : b = c
        · subst hbc; exact ⟨_, (hL _ _).2 (Or.inl ⟨rfl, rfl⟩), rfl⟩
        · exact ⟨n, (hL _ _).2 (Or.inr ⟨hbc, hb⟩), rfl⟩
    have hst1 : ∀ b n, Live t1 b n → g.lvl b = L →
        (g.par b ≠ some N ∨ ∃ j, j < i + 1 ∧ kid_at nn j = some b) → n.parent_ = g.par b := by
      intro b n hb hlvb hcase
      rcases (hL b n).1 hb with ⟨rfl, rfl⟩ | ⟨hbc, h⟩
      · rw [set_parent_parent, c3]
      · apply hst b n h hlvb
        rcases hcase with h1 | ⟨j, hj, hkj⟩
        · exact Or.inl h1
        · refine Or.inr ⟨j, ?_, hkj⟩
          rcases Nat.lt_or_ge j i with h2 | h2
          · exact h2
          · have : j = i := by omega
            subst this
            rw [c1] at hkj; cases hkj
            exact absurd rfl hbc
    obtain ⟨t', e1, e2, e0, e3, e4, e5⟩ := ih (i + 1) cnt' t1 (by omega) (by omega) hI1 hN1
      hst1 (hstep.step_trans hstep1 (Or.inr rfl)) hlev
    refine ⟨t', ?_, e2, e0, e3, e4, e5⟩
    rw [fix_parents]
    simp only [hN.rd_internal, bind, Except.bind]
    rw [if_pos (by omega), aget_ok hx]
    simp only [hxv, set_parent_ok c2]
    exact e1

/-- The last loop of `insert_internal` repairs the `parent_` fields of the children that
moved to the new sibling `N`. -/
theorem fix_parents_ok {g : Ghost} {t : btree_type} {L N : Nat} {nn : btnode_internal}
    (hI : InvG g t (L + 1) none none) (hN : Live t N (.internal nn))
    (hlvN : g.lvl N = L + 1)
    (hst : ∀ c n, Live t c n → g.lvl c = L → g.par c ≠ some N → n.parent_ = g.par c) :
    ∃ t', fix_parents (some N) (fanout + 1) 0 t = .ok t' ∧ InvG g t' L none none ∧
      Step L g t g t' ∧ t'.nlevel_ = t.nlevel_ := by
  have hf : fanout = 8 := rfl
  obtain ⟨hlen, _, hnk2, _, _, hslots⟩ := hI.internal N nn hN
  obtain ⟨t', e1, e2, e0, e3, e4, e5⟩ := @fix_parents_loop g t L N nn hlvN (nn.nk_ + 1) 0
    (fanout + 1) t (by omega) (by omega) hI hN
    (fun c n hc hl h => by
      rcases h with h | ⟨j, hj, _⟩
      · exact hst c n hc hl h
      · omega)
    (Step.step_refl L g t) rfl
  refine ⟨t', e1, ?_, e4, e5⟩
  have hne : 0 < t'.nlevel_ := by
    obtain ⟨n', h, _⟩ := e4.keep N _ hN
    exact nlevel_pos e2 h
  obtain ⟨rt, rtn, hrt1, hrt2, hrt3, hrt4, _⟩ := e2.root1 hne
  obtain ⟨n', hN', _⟩ := e4.keep N _ hN
  refine InvG_body e2 rfl rfl rfl (fun b n h => ⟨n, h, rfl⟩) (fun b n h => ⟨n, h, rfl⟩) ?_
  intro b n hb hlvb
  rcases Nat.lt_or_ge (g.lvl b) (L + 1) with h | h
  · have hlb : g.lvl b = L := by omega
    apply e3 b n hb hlb
    by_cases hp : g.par b = some N
    · right
      have hroot : t'.root_ ≠ some b := by
        rw [hrt1]; intro h'; cases h'; rw [hrt4] at hp; cases hp
      obtain ⟨q, mq, iq, k1, k2, k3, k4⟩ := e2.has_par b n hb hroot
        (by rintro ⟨_, h⟩; cases h)
      rw [hp] at k1; cases k1
      cases k2.inj e0
      exact ⟨iq, by omega, k4⟩
    · exact Or.inl hp
  · exact e2.par_field b n hb h (by rintro ⟨_, h⟩; cases h)

/-- The upward propagation of a split ends, and re-establishes the invariant. -/
theorem insert_internal_ok : ∀ (fuel : Nat) (g : Ghost) (t : btree_type) (L l r : Nat),
    InvG g t L (some (l, r)) none → t.nlevel_ - L < fuel →
    ∃ t' g', insert_internal fuel t (g.lo r) (some l) (some r) = .ok t' ∧
      InvG g' t' L none none ∧ Step L g t g' t' := by
  intro fuel
  induction fuel with
  | zero => intro g t L l r _ h; omega
  | succ fuel ih =>
    intro g t L l r hI hfuel
    obtain ⟨ln, rn, hl, hr, hlr, hlvr, hLl, hhil, hparr, hrootr, hmin, hnokid⟩ :=
      hI.pend_ok l r rfl
    rcases hpar : g.par l with _ | p
    · obtain ⟨t1, g1, h1, h2, h3⟩ := new_root_ok hI hpar
      exact ⟨t1, g1, h1 fuel, h2, h3⟩
    · have hne : 0 < t.nlevel_ := nlevel_pos hI hl
      obtain ⟨rt, rtn, hrt1, hrt2, hrt3, hrt4, _⟩ := hI.root1 hne
      have hlroot : t.root_ ≠ some l := by
        rw [hrt1]; intro h; cases h; rw [hrt4] at hpar; cases hpar
      obtain ⟨p', m, i0, q1, hp, _⟩ := hI.has_par l ln hl hlroot
        (by rintro ⟨x, h⟩; cases h; exact hlr rfl)
      rw [hpar] at q1; cases q1
      obtain ⟨m4, t1, g1, hcode, hLp, hm4nk, hlvp, hI1, hstep1, hlev1⟩ :=
        parent_insert_ok hI hpar hp
      rw [hcode fuel]
      by_cases hsplit : m4.nk_ = fanout - 1
      · have hns : m4.need_split = true := by
          simp [btnode_internal.need_split, hsplit]
        rw [if_pos hns]
        rw [if_pos hsplit] at hI1
        obtain ⟨x, t2, g2, N, hx, hsp, hxk, hI2, hstep2, hlev2, hlvN, hstale⟩ :=
          internal_split_ok hI1 hLp hsplit hlvp
        have hfuel2 : t2.nlevel_ - (L + 1) < fuel := by
          have := (hI1.lvl_le p _ hLp).2
          rw [hlev2]
          omega
        obtain ⟨t3, g3, hrec, hI3, hstep3⟩ := ih g2 t2 (L + 1) p N hI2 hfuel2
        obtain ⟨pn, rn2, _, hN2, _⟩ := hI2.pend_ok p N rfl
        obtain ⟨n3, hN3, hlvN3⟩ := hstep3.keep N _ hN2
        have hL1 : 1 ≤ L := by
          have := (hI.lvl_le l ln hl).1; omega
        obtain ⟨nn3, rfl⟩ : ∃ nn3, n3 = .internal nn3 := by
          cases n3 with
          | leaf l3 =>
            have := (hI3.leaf N l3 hN3).1
            omega
          | internal m3 => exact ⟨m3, rfl⟩
        obtain ⟨t4, hfix, hI4, hstep4, hlev4⟩ := fix_parents_ok hI3 hN3 (by omega)
          (fun c n hc hlv hp' => by
            obtain ⟨a1, a2, a3⟩ := hstep3.frame c n hc (by omega)
            rw [a2]
            exact hstale c n a1 (by omega) (by rw [← a2]; exact hp'))
        refine ⟨t4, g3, ?_, hI4, ?_⟩
        · simp only [hx, hsp, bind, Except.bind, hxk, hrec]
          exact hfix
        · exact ((hstep1.step_trans hstep2 (Or.inl hlev1)).step_trans (hstep3.weaken (Nat.le_succ L))
            (Or.inl (by rw [hlev2, hlev1]))).step_trans hstep4 (Or.inr hlev4)
      · have hns : ¬ m4.need_split = true := by
          simp [btnode_internal.need_split, hsplit]
        rw [if_neg hns]
        rw [if_neg hsplit] at hI1
        exact ⟨t1, g1, rfl, hI1, hstep1⟩

/-! ### The abstract operations on a list split in three -/

theorem abs_merge_append_left (k v hash : Nat) (pre rest : List PAIR)
    (h : ∀ x ∈ pre, x.key_ < k) :
    abs_merge k v hash (pre ++ rest) = pre ++ abs_merge k v hash rest := by
  induction pre with
  | nil => rfl
  | cons p ps ih =>
    have hp : p.key_ < k := h p (by simp)
    have h1 : ¬ k < p.key_ := by omega
    have h2 : ¬ k = p.key_ := by omega
    simp only [List.cons_append, abs_merge, h1, h2, if_false]
    exact congrArg (p :: ·) (ih (fun x hx => h x (by simp [hx])))

theorem abs_merge_append_right (k v hash : Nat) (mid post : List PAIR)
    (h : ∀ x ∈ post, k < x.key_) :
    abs_merge k v hash (mid ++ post) = abs_merge k v hash mid ++ post := by
  induction mid with
  | nil =>
    cases post with
    | nil => rfl
    | cons q qs =>
      have : k < q.key_ := h q (by simp)
      simp [abs_merge, this]
  | cons p ps ih =>
    simp only [List.cons_append, abs_merge]
    split_ifs
    · rfl
    · rfl
    · exact congrArg (p :: ·) ih

theorem abs_raw_append_left (q : PAIR) (pre rest : List PAIR)
    (h : ∀ x ∈ pre, x.key_ < q.key_) :
    abs_raw q (pre ++ rest) = pre ++ abs_raw q rest := by
  induction pre with
  | nil => rfl
  | cons p ps ih =>
    have hp : p.key_ < q.key_ := h p (by simp)
    simp only [List.cons_append, abs_raw, hp, if_true]
    exact congrArg (p :: ·) (ih (fun x hx => h x (by simp [hx])))

theorem abs_raw_append_right (q : PAIR) (mid post : List PAIR)
    (h : ∀ x ∈ post, q.key_ < x.key_) :
    abs_raw q (mid ++ post) = abs_raw q mid ++ post := by
  induction mid with
  | nil =>
    cases post with
    | nil => rfl
    | cons p ps =>
      have : q.key_ < p.key_ := h p (by simp)
      have h1 : ¬ p.key_ < q.key_ := by omega
      simp [abs_raw, h1]
  | cons p ps ih =>
    simp only [List.cons_append, abs_raw]
    split_ifs
    · exact congrArg (p :: ·) ih
    · rfl

/-! ### The order of the leaves along the chain -/

section
variable {g : Ghost} {t : btree_type} {L : Nat} {pend : Option (Nat × Nat)} {full : Option Nat}

theorem chain_after (hI : InvG g t L pend full) : ∀ (ys : List Nat) (b : Nat),
    (∀ x ∈ b :: ys, ∃ n, Live t x n) →
    (b :: ys).Chain' (fun p q => g.hi p = some (g.lo q)) →
    ∀ c ∈ ys, ∃ h, g.hi b = some h ∧ h ≤ g.lo c := by
  intro ys
  induction ys with
  | nil => intro b _ _ c hc; simp at hc
  | cons y ys ih =>
    intro b hlive hch c hc
    rw [List.chain'_cons] at hch
    rcases List.mem_cons.1 hc with rfl | hc
    · exact ⟨_, hch.1, le_refl _⟩
    · obtain ⟨h, h1, h2⟩ := ih y (fun x hx => hlive x (by simp [List.mem_cons.1 hx]))
        hch.2 c hc
      obtain ⟨n, hn⟩ := hlive y (by simp)
      have := hI.lohi y n hn
      rw [h1] at this
      simp only [Below] at this
      exact ⟨_, hch.1, by omega⟩

theorem chain_split_bounds (hI : InvG g t L pend full) {s1 s2 : List Nat} {a : Nat}
    (hch : g.chain = s1 ++ a :: s2) :
    (∀ b ∈ s1, ∃ h, g.hi b = some h ∧ h ≤ g.lo a) ∧
    (∀ c ∈ s2, ∃ h, g.hi a = some h ∧ h ≤ g.lo c) := by
  have hlive : ∀ x ∈ g.chain, ∃ n, Live t x n := fun x hx => by
    obtain ⟨l, hl⟩ := Linked_mem hI.chain_link x hx
    exact ⟨_, hl⟩
  have hadj := hI.chain_adj
  constructor
  · intro b hb
    obtain ⟨u, w, rfl⟩ := List.append_of_mem hb
    rw [hch, List.append_assoc, List.chain'_append] at hadj
    apply chain_after hI (w ++ a :: s2) b _ hadj.2.1 a (by simp)
    intro x hx
    apply hlive x
    rw [hch]
    simp only [List.mem_cons, List.mem_append] at hx ⊢
    tauto
  · rw [hch, List.chain'_append] at hadj
    apply chain_after hI s2 a _ hadj.2.1
    intro x hx
    apply hlive x
    rw [hch]
    simp only [List.mem_cons, List.mem_append] at hx ⊢
    tauto

theorem mem_content {chain : List Nat} {x : PAIR} (hx : x ∈ content t chain) :
    ∃ b ∈ chain, x ∈ live_at t b := by
  simpa [content, List.mem_flatMap] using hx

theorem mem_live_at (hI : InvG g t L pend full) {b : Nat} {x : PAIR}
    (hx : x ∈ live_at t b) : g.lo b ≤ x.key_ ∧ Below x.key_ (g.hi b) := by
  unfold live_at at hx
  rcases h : t.heap[b]? with _ | _ | n
  · rw [h] at hx; simp at hx
  · rw [h] at hx; simp at hx
  · cases n with
    | leaf l =>
      rw [h] at hx
      exact (hI.leaf b l h).2.2.2.2.2.2.2.1 x.key_ (List.mem_map_of_mem _ hx)
    | internal m => rw [h] at hx; simp at hx

/-- The leaf `a` whose key range contains `k` splits the entries in those before `a`, with
smaller keys, those of `a`, and those after `a`, with larger keys. -/
theorem content_split (hI : InvG g t L pend full) {a : Nat} {l : btnode_leaf}
    (ha : Live t a (.leaf l)) {k : Nat} (hlo : g.lo a ≤ k) (hhi : Below k (g.hi a)) :
    ∃ s1 s2, g.chain = s1 ++ a :: s2 ∧ a ∉ s1 ∧ a ∉ s2 ∧
      content t g.chain = content t s1 ++ l.live ++ content t s2 ∧
      (∀ x ∈ content t s1, x.key_ < k) ∧ (∀ x ∈ content t s2, k < x.key_) := by
  obtain ⟨s1, s2, hch⟩ := List.append_of_mem (hI.leaf a l ha).2.2.2.2.2.2.2.2
  have hnd := hI.chain_nodup
  rw [hch] at hnd
  have ha1 : a ∉ s1 := fun h => (List.nodup_append.1 hnd).2.2 h (List.mem_cons_self a s2)
  have ha2 : a ∉ s2 := (List.nodup_cons.1 (List.nodup_append.1 hnd).2.1).1
  obtain ⟨hb1, hb2⟩ := chain_split_bounds hI hch
  refine ⟨s1, s2, hch, ha1, ha2, ?_, ?_, ?_⟩
  · rw [hch]
    simp only [content, List.flatMap_append, List.flatMap_cons, List.append_assoc]
    rw [live_at_leaf ha]
  · intro x hx
    obtain ⟨b, hb, hxb⟩ := mem_content hx
    obtain ⟨h, h1, h2⟩ := hb1 b hb
    have := (mem_live_at hI hxb).2
    rw [h1] at this
    simp only [Below] at this
    omega
  · intro x hx
    obtain ⟨c, hc, hxc⟩ := mem_content hx
    obtain ⟨h, h1, h2⟩ := hb2 c hc
    have := (mem_live_at hI hxc).1
    rw [h1] at hhi
    simp only [Below] at hhi
    omega

end

section
variable {g : Ghost} {t : btree_type} {L : Nat} {full : Option Nat}

/-- The descent of `get_leaf` ends in the leaf whose key range contains the key. -/
theorem get_leaf_loop_ok (hI : InvG g t L none full) {k : Nat} : ∀ (n b : Nat) (nb : btnode_base),
    Live t b nb → g.lvl b = n + 1 → g.lo b ≤ k → Below k (g.hi b) →
    ∃ a l, get_leaf_loop t k n (some b) = .ok (some a) ∧ Live t a (.leaf l) ∧
      g.lo a ≤ k ∧ Below k (g.hi a) := by
  intro n
  induction n with
  | zero =>
    intro b nb hb hlv hlo hhi
    obtain ⟨l, rfl⟩ := lvl_one_leaf hI hb hlv
    exact ⟨b, l, rfl, hb, hlo, hhi⟩
  | succ n ih =>
    intro b nb hb hlv hlo hhi
    cases nb with
    | leaf l => have := (hI.leaf b l hb).1; omega
    | internal m =>
      obtain ⟨pos, h1, h2, h3, h4⟩ := ub_slot hI hb hlo hhi
      obtain ⟨hlen, _, hnk, _, _, hslots⟩ := hI.internal b m hb
      obtain ⟨c, cn, c1, c2, c3, c4, c5, c6⟩ := hslots pos h2
      have hf : fanout = 8 := rfl
      obtain ⟨x, hx⟩ : ∃ x, m.e_[pos]? = some x :=
        ⟨_, List.getElem?_eq_getElem (show pos < m.e_.length by omega)⟩
      have hxv : x.v_ = some c := by
        simp only [kid_at, kidL, hx] at c1; exact c1
      rw [hiE_none] at c6
      obtain ⟨a, l, e1, e2, e3, e4⟩ := ih c cn c2 (by omega) (by rw [c5]; exact h3)
        (by rw [c6]; exact h4)
      refine ⟨a, l, ?_, e2, e3, e4⟩
      rw [get_leaf_loop]
      simp only [hb.rd_internal, bind, Except.bind, btnode_internal.upper_bound, h1,
        aget_ok hx, pure, Except.pure, hxv]
      exact e1

theorem first_leaf_loop_ok (hI : InvG g t L none full) : ∀ (n b : Nat) (nb : btnode_base),
    Live t b nb → g.lvl b = n + 1 → g.lo b = 0 →
    ∃ a l, first_leaf_loop t n (some b) = .ok (some a) ∧ Live t a (.leaf l) ∧ g.lo a = 0 := by
  intro n
  induction n with
  | zero =>
    intro b nb hb hlv hlo
    obtain ⟨l, rfl⟩ := lvl_one_leaf hI hb hlv
    exact ⟨b, l, rfl, hb, hlo⟩
  | succ n ih =>
    intro b nb hb hlv hlo
    cases nb with
    | leaf l => have := (hI.leaf b l hb).1; omega
    | internal m =>
      obtain ⟨hlen, _, hnk, _, _, hslots⟩ := hI.internal b m hb
      obtain ⟨c, cn, c1, c2, c3, c4, c5, c6⟩ := hslots 0 (by omega)
      have hf : fanout = 8 := rfl
      obtain ⟨x, hx⟩ : ∃ x, m.e_[0]? = some x :=
        ⟨_, List.getElem?_eq_getElem (show 0 < m.e_.length by omega)⟩
      have hxv : x.v_ = some c := by
        simp only [kid_at, kidL, hx] at c1; exact c1
      obtain ⟨a, l, e1, e2, e3⟩ := ih c cn c2 (by omega) (by rw [c5]; simp [slotlo, hlo])
      refine ⟨a, l, ?_, e2, e3⟩
      rw [first_leaf_loop]
      simp only [hb.rd_internal, bind, Except.bind, aget_ok hx, hxv]
      exact e1

/-- `first_leaf` finds the head of the chain. -/
theorem first_leaf_ok (hI : InvG g t L none full) : first_leaf t = .ok g.chain.head? := by
  unfold first_leaf
  by_cases h0 : t.nlevel_ = 0
  · obtain ⟨_, h2, h3, _⟩ := hI.root0 h0
    rw [if_pos h2, h3]; rfl
  · obtain ⟨r, n, h1, h2, h3, h4, h5, h6⟩ := hI.root1 (by omega)
    obtain ⟨a, l, e1, e2, e3⟩ := first_leaf_loop_ok hI (t.nlevel_ - 1) r n h2 (by omega) h5
    obtain ⟨s1, s2, hch, _, _, hcont, _, _⟩ :=
      content_split hI e2 (show g.lo a ≤ g.lo a from le_refl _) (hI.lohi a _ e2)
    have hnk : t.nk_ ≠ 0 := by
      have h7 := hI.size_eq
      rw [hcont] at h7
      have := (hI.leaf a l e2).2.2.1
      have h8 := leaf_live_length (show l.nk_ ≤ l.e_.length by
        have := (hI.leaf a l e2).2.1
        have := (hI.leaf a l e2).2.2.2.1
        omega)
      simp only [List.length_append] at h7
      omega
    rw [if_neg hnk, h1, e1, hch]
    cases s1 with
    | nil => rfl
    | cons b s1 =>
      exfalso
      obtain ⟨hb1, _⟩ := chain_split_bounds hI hch
      obtain ⟨h, k1, k2⟩ := hb1 b (by simp)
      obtain ⟨lb, hlb⟩ := Linked_mem hI.chain_link b (by rw [hch]; simp)
      have := hI.lohi b _ hlb
      rw [k1] at this
      simp only [Below] at this
      omega

/-- `get_leaf` on a tree that is not empty. -/
theorem get_leaf_ok (hI : InvG g t L none full) (hne : t.nlevel_ ≠ 0) (k : Nat) :
    ∃ a l, get_leaf t k = .ok (t, some a) ∧ Live t a (.leaf l) ∧
      g.lo a ≤ k ∧ Below k (g.hi a) := by
  obtain ⟨r, n, h1, h2, h3, h4, h5, h6⟩ := hI.root1 (by omega)
  rw [hiE_none] at h6
  obtain ⟨a, l, e1, e2, e3, e4⟩ := @get_leaf_loop_ok g t L full hI k (t.nlevel_ - 1) r n h2
    (by omega) (by omega) (by rw [h6]; trivial)
  refine ⟨a, l, ?_, e2, e3, e4⟩
  unfold get_leaf
  rw [if_neg hne, h1]
  simp only [e1, bind, Except.bind, pure, Except.pure]

end

/-- The tail of the two insertions: split the leaf if it is full and propagate. -/
theorem split_if_needed_ok {g : Ghost} {ta : btree_type} {a : Nat} {l2 : btnode_leaf}
    (hI : InvG g ta 0 none (if l2.nk_ = fanout then some a else none))
    (ha : Live ta a (.leaf l2)) (fuel : Nat) (hfuel : ta.nlevel_ ≤ fuel) :
    ∃ t' g', split_if_needed fuel ta (some a) = .ok t' ∧ InvG g' t' 0 none none ∧
      content t' g'.chain = content ta g.chain ∧ t'.nk_ = ta.nk_ ∧ SameCnt ta t' ∧
      ta.nlevel_ ≤ t'.nlevel_ ∧ t'.nlevel_ ≤ ta.nlevel_ + 1 ∧
      (l2.nk_ ≠ fanout → t' = ta) := by
  by_cases hfull : l2.nk_ = fanout
  · rw [if_pos hfull] at hI
    obtain ⟨t2, g2, N, r2, x, hcode, hI2, hN, hx, hxk, hcont, hnk, hlev, hcnt⟩ :=
      leaf_split_ok hI ha hfull
    have hne : 0 < ta.nlevel_ := nlevel_pos hI ha
    obtain ⟨t', g', hrec, hI3, hstep⟩ := insert_internal_ok fuel g2 t2 1 a N hI2
      (by rw [hlev]; omega)
    refine ⟨t', g', ?_, ?_, ?_, by rw [hstep.nk, hnk], hcnt.same_trans hstep.cnt,
      by rw [← hlev]; exact hstep.lev.1, by rw [← hlev]; exact hstep.lev.2,
      fun h => absurd hfull h⟩
    · unfold split_if_needed
      simp only [ha.rd_leaf, bind, Except.bind, btnode_leaf.need_split, hfull, beq_self_eq_true,
        if_true, hcode, hN.rd_leaf, hx, hxk]
      exact hrec
    · refine InvG_body hI3 rfl rfl rfl (fun b n h => ⟨n, h, rfl⟩) (fun b n h => ⟨n, h, rfl⟩) ?_
      intro b n hb _
      exact hI3.par_field b n hb (hI3.lvl_le b n hb).1 (by rintro ⟨_, h⟩; cases h)
    · rw [hstep.chain, content_congr (fun b _ => hstep.live b), hcont]
  · rw [if_neg hfull] at hI
    refine ⟨ta, g, ?_, hI, rfl, rfl, SameCnt.same_refl _, le_refl _, Nat.le_succ _, fun _ => rfl⟩
    unfold split_if_needed
    simp [ha.rd_leaf, bind, Except.bind, btnode_leaf.need_split, hfull, pure, Except.pure]

/-- Putting a key at its lower-bound position keeps a sorted list sorted. -/
theorem sorted_insert (k : Nat) (ks : List Nat) (hs : ks.Pairwise (fun x y => x < y))
    (hk : k ∉ ks) :
    (ks.take (xsearch_lower_bound k ks).1 ++ [k] ++
      ks.drop (xsearch_lower_bound k ks).1).Pairwise (fun x y => x < y) := by
  obtain ⟨a1, a2, a3⟩ := tw_spec (fun x => decide (x < k)) ks
  simp only [xsearch_lower_bound]
  set pos := (ks.takeWhile (fun x => decide (x < k))).length with hpos
  have hlt : ∀ x ∈ ks.take pos, x < k := by
    intro x hx
    obtain ⟨j, hj⟩ := List.mem_iff_getElem?.1 hx
    rw [List.getElem?_take] at hj
    by_cases h : j < pos
    · rw [if_pos h] at hj
      simpa using a2 j x h hj
    · rw [if_neg h] at hj; cases hj
  have hgt : ∀ x ∈ ks.drop pos, k < x := by
    intro x hx
    have hxk : x ∈ ks := List.mem_of_mem_drop hx
    have hne : x ≠ k := fun e => hk (e ▸ hxk)
    obtain ⟨j, hj⟩ := List.mem_iff_getElem?.1 hx
    rw [List.getElem?_drop] at hj
    have hpl : pos < ks.length := by
      by_contra hc
      rw [List.getElem?_eq_none (by omega)] at hj; cases hj
    have h0 := a3 _ (List.getElem?_eq_getElem hpl)
    have h0' : k ≤ ks[pos] := by simpa using h0
    rcases Nat.eq_zero_or_pos j with rfl | hjp
    · rw [Nat.add_zero, List.getElem?_eq_getElem hpl] at hj
      cases hj
      omega
    · have hjl : pos + j < ks.length := by
        by_contra hc
        rw [List.getElem?_eq_none (by omega)] at hj; cases hj
      rw [List.getElem?_eq_getElem hjl] at hj
      cases hj
      have := (List.pairwise_iff_getElem.1 hs) pos (pos + j) hpl hjl (by omega)
      omega
  rw [List.append_assoc, List.pairwise_append]
  refine ⟨pairwise_take hs pos, ?_, ?_⟩
  · rw [List.singleton_append, List.pairwise_cons]
    exact ⟨hgt, pairwise_drop hs pos⟩
  · intro x hx y hy
    rcases List.mem_append.1 hy with h | h
    · simp only [List.mem_singleton] at h
      rw [h]; exact hlt x hx
    · have := hlt x hx; have := hgt y h; omega

theorem not_found_of_not_mem (k : Nat) (ks : List Nat) (hk : k ∉ ks) :
    (xsearch_lower_bound k ks).2 = false := by
  simp only [xsearch_lower_bound, decide_eq_false_iff_not]
  intro h
  exact hk (List.mem_iff_getElem?.2 ⟨_, h⟩)

theorem abs_merge_absent (k v hash : Nat) (es : List PAIR) (hk : k ∉ es.map PAIR.key_) :
    abs_merge k v hash es = abs_raw { key_ := k, hash := hash, vals := [v] } es := by
  rw [abs_merge_eq, abs_raw_eq, not_found_of_not_mem k _ hk]
  simp

set_option maxHeartbeats 1000000 in
/-- A new entry `q` goes into the leaf `a` found by the descent. -/
theorem leaf_put_ok {g : Ghost} {t ta : btree_type} {a : Nat} {l l2 : btnode_leaf} {q : PAIR}
    (hI : InvG g t 0 none none) (ha : Live t a (.leaf l))
    (hlo : g.lo a ≤ q.key_) (hhi : Below q.key_ (g.hi a))
    (hk : q.key_ ∉ l.live.map PAIR.key_)
    (hp : l2.parent_ = l.parent_) (hn : l2.next_ = l.next_) (hnk : l2.nk_ = l.nk_ + 1)
    (hlen : l2.e_.length = fanout)
    (hlive : l2.live = l.live.take (xsearch_lower_bound q.key_ (l.live.map PAIR.key_)).1 ++ [q]
      ++ l.live.drop (xsearch_lower_bound q.key_ (l.live.map PAIR.key_)).1)
    (hheap : ta.heap = t.heap.set a (some (.leaf l2))) (hroot : ta.root_ = t.root_)
    (hlev : ta.nlevel_ = t.nlevel_) (hsize : ta.nk_ = t.nk_ + 1)
    (fuel : Nat) (hfuel : t.nlevel_ ≤ fuel) :
    ∃ t' g', split_if_needed fuel ta (some a) = .ok t' ∧ InvG g' t' 0 none none ∧
      content t' g'.chain = abs_raw q (content t g.chain) ∧
      q.key_ ∉ (content t g.chain).map PAIR.key_ ∧ t'.nk_ = t.nk_ + 1 ∧ SameCnt ta t' ∧
      t.nlevel_ ≤ t'.nlevel_ ∧ t'.nlevel_ ≤ t.nlevel_ + 1 := by
  have hf : fanout = 8 := rfl
  obtain ⟨k1, k2, k3, k4, k5, k6, k7, k8, k9⟩ := hI.leaf a l ha
  have hnk7 : l.nk_ < fanout := by
    rcases Nat.lt_or_ge l.nk_ fanout with h | h
    · exact h
    · have := k5 (by omega); cases this
  obtain ⟨s1, s2, hch, ha1, ha2, hcont, hpre, hpost⟩ := content_split hI ha hlo hhi
  have hkeys : l2.live.map PAIR.key_ =
      (l.live.map PAIR.key_).take (xsearch_lower_bound q.key_ (l.live.map PAIR.key_)).1 ++
        [q.key_] ++
      (l.live.map PAIR.key_).drop (xsearch_lower_bound q.key_ (l.live.map PAIR.key_)).1 := by
    rw [hlive]; simp [List.map_take, List.map_drop]
  obtain ⟨hIa, hla, hlb⟩ := @leaf_update g t ta a l l2 hI ha hp hn hlen (by omega) (by omega)
    (fun h => by have := k6 h; omega)
    (by rw [hkeys]; exact sorted_insert _ _ k7 hk)
    (by
      intro x hx
      rw [hkeys] at hx
      simp only [List.mem_append, List.mem_singleton] at hx
      rcases hx with (h | h) | h
      · exact k8 x (List.mem_of_mem_take h)
      · rw [h]; exact ⟨hlo, hhi⟩
      · exact k8 x (List.mem_of_mem_drop h))
    hheap hroot hlev (by omega)
  have hLa : Live ta a (.leaf l2) := by
    unfold Live
    rw [hheap, List.getElem?_set_self ha.lt]
  obtain ⟨t', g', e1, e2, e3, e4, e5, e6, e7, _⟩ :=
    split_if_needed_ok hIa hLa fuel (by omega)
  have hnotin : q.key_ ∉ (content t g.chain).map PAIR.key_ := by
    rw [hcont]
    simp only [List.map_append, List.mem_append, not_or]
    refine ⟨⟨?_, hk⟩, ?_⟩
    · intro h
      obtain ⟨x, hx, hxk⟩ := List.mem_map.1 h
      have := hpre x hx; omega
    · intro h
      obtain ⟨x, hx, hxk⟩ := List.mem_map.1 h
      have := hpost x hx; omega
  refine ⟨t', g', e1, e2, ?_, hnotin, by omega, e5, by omega, by omega⟩
  rw [e3, hcont, List.append_assoc, abs_raw_append_left q _ _ hpre,
    abs_raw_append_right q _ _ hpost, abs_raw_eq, ← hlive, hch]
  simp only [content, List.flatMap_append, List.flatMap_cons, List.append_assoc]
  have c1 : List.flatMap s1 (live_at ta) = List.flatMap s1 (live_at t) :=
    content_congr (fun b hb => hlb b (fun e => ha1 (e ▸ hb)))
  have c2 : List.flatMap s2 (live_at ta) = List.flatMap s2 (live_at t) :=
    content_congr (fun b hb => hlb b (fun e => ha2 (e ▸ hb)))
  rw [c1, c2, hla]

/-- The tree after the first insertion: one root leaf with one entry. -/
theorem single_leaf_inv {t t' : btree_type} {l1 : btnode_leaf}
    (hdead : ∀ a n, ¬ Live t a n)
    (hheap : t'.heap = t.heap ++ [some (.leaf l1)]) (hroot : t'.root_ = some t.heap.length)
    (hlev : t'.nlevel_ = 1) (hsize : t'.nk_ = 1) (hp : l1.parent_ = none)
    (hn : l1.next_ = none) (hnk : l1.nk_ = 1) (hlen : l1.e_.length = fanout) :
    Rep t' l1.live := by
  have hf : fanout = 8 := rfl
  have hL : ∀ b n, Live t' b n ↔ (b = t.heap.length ∧ n = .leaf l1) := by
    intro b n
    have := Live_alloc_iff t b (.leaf l1) n
    simp only [Live, alloc] at this ⊢
    rw [hheap, this]
    constructor
    · rintro (h | h)
      · exact absurd h (hdead b n)
      · exact h
    · exact Or.inr
  have hN : Live t' t.heap.length (.leaf l1) := (hL _ _).2 ⟨rfl, rfl⟩
  refine ⟨Ghost.mk (fun _ => 1) (fun _ => 0) (fun _ => none) (fun _ => none) [t.heap.length],
    ?_, ?_⟩
  · constructor
    · intro h; rw [hlev] at h; cases h
    · intro _
      exact ⟨_, _, hroot, hN, hlev.symm, rfl, rfl, rfl⟩
    · intro b n _
      exact ⟨le_refl _, by rw [hlev]⟩
    · intro b n _; trivial
    · intro b n hb _ _
      obtain ⟨rfl, rfl⟩ := (hL b n).1 hb
      exact hp
    · intro b n hb hr _
      obtain ⟨rfl, rfl⟩ := (hL b n).1 hb
      exact absurd hroot hr
    · intro b lb hb
      obtain ⟨rfl, h⟩ := (hL b _).1 hb
      cases h
      refine ⟨rfl, hlen, by omega, by omega, fun h => by omega, fun h => absurd hroot h, ?_,
        fun k _ => ⟨Nat.zero_le _, trivial⟩, by simp⟩
      have hl1 : l1.live.length = 1 := by rw [leaf_live_length (by omega)]; exact hnk
      rcases hlv : l1.live with _ | ⟨x, _ | ⟨y, ys⟩⟩
      · simp
      · simp
      · rw [hlv] at hl1; simp at hl1
    · intro b m hb
      obtain ⟨_, h⟩ := (hL b _).1 hb
      cases h
    · simp
    · exact ⟨rfl, l1, hN, hn⟩
    · exact List.chain'_singleton _
    · intro b _; rfl
    · intro b _; rfl
    · show t'.nk_ = (content t' [t.heap.length]).length
      simp only [content, List.flatMap_cons, List.flatMap_nil, List.append_nil]
      rw [live_at_leaf hN, leaf_live_length (by omega), hsize, hnk]
    · intro l r h; cases h
  · show content t' [t.heap.length] = l1.live
    simp only [content, List.flatMap_cons, List.flatMap_nil, List.append_nil]
    exact live_at_leaf hN

theorem Rep.size {t : btree_type} {es : List PAIR} (h : Rep t es) : t.nk_ = es.length := by
  obtain ⟨g, hI, rfl⟩ := h
  exact hI.size_eq

theorem Rep.empty {t : btree_type} {es : List PAIR} (h : Rep t es) (h0 : t.nlevel_ = 0) :
    es = [] ∧ t.root_ = none ∧ t.nk_ = 0 ∧ ∀ a n, ¬ Live t a n := by
  obtain ⟨g, hI, rfl⟩ := h
  obtain ⟨a1, a2, a3, a4⟩ := hI.root0 h0
  refine ⟨?_, a1, a2, a4⟩
  rw [a3]; rfl

theorem take_set_of_lt {α : Type} (e : List α) (pos nk : Nat) (x : α) (h : pos < nk) :
    (e.set pos x).take nk = (e.take nk).set pos x := by
  apply List.ext_getElem?
  intro n
  simp only [List.getElem?_take, List.getElem?_set, List.length_take]
  by_cases h1 : pos = n
  · subst h1
    simp only [if_true, h]
    by_cases h2 : pos < e.length
    · simp [h2]; omega
    · simp [h2]
  · simp [h1]

theorem new_leaf_dead (t : btree_type) : ¬ ∃ n, Live t t.heap.length n := by
  rintro ⟨n, h⟩; have := h.lt; omega

theorem leaf_lower_bound_ok (l : btnode_leaf) (k : Nat) (h : l.nk_ ≤ l.e_.length) :
    l.lower_bound k = .ok (xsearch_lower_bound k (l.live.map PAIR.key_)) := by
  simp [btnode_leaf.lower_bound, h, btnode_leaf.live]

theorem set_middle {α : Type} (l : List α) (pos : Nat) (x q : α) (h : pos ≤ l.length) :
    (l.take pos ++ [x] ++ l.drop pos).set pos q = l.take pos ++ [q] ++ l.drop pos := by
  have h1 : (l.take pos).length = pos := by simp [h]
  rw [List.append_assoc, List.set_append, if_neg (by omega), h1, Nat.sub_self]
  simp

theorem getElem?_middle {α : Type} (l : List α) (pos : Nat) (x : α) (h : pos ≤ l.length) :
    (l.take pos ++ [x] ++ l.drop pos)[pos]? = some x := by
  have h1 : (l.take pos).length = pos := by simp [h]
  rw [List.append_assoc, List.getElem?_append_right (by omega), h1, Nat.sub_self]
  simp

theorem map_set_self (ks : List PAIR) (pos : Nat) (p p' : PAIR) (h : ks[pos]? = some p)
    (hk : p'.key_ = p.key_) : (ks.set pos p').map PAIR.key_ = ks.map PAIR.key_ := by
  apply List.ext_getElem?
  intro n
  simp only [List.getElem?_map, List.getElem?_set]
  by_cases h1 : pos = n
  · subst h1
    rw [h]
    have : pos < ks.length := by
      by_contra hc
      rw [List.getElem?_eq_none (by omega)] at h; cases h
    simp [this, hk]
  · simp [h1]

theorem leaf_merge_ok {s : btree_type} {a pos : Nat} {l : btnode_leaf} {p : PAIR}
    (h : Live s a (.leaf l)) (hp : l.e_[pos]? = some p) (v : Nat) :
    leaf_merge s (some a) pos v = .ok
      { wr s (some a) (.leaf { l with e_ := l.e_.set pos (p.map_value_insert v) }) with
        n_merge := s.n_merge + 1 } := by
  have hlt : pos < l.e_.length := by
    by_contra hc
    rw [List.getElem?_eq_none (by omega)] at hp; cases hp
  simp only [leaf_merge, h.rd_leaf, bind, Except.bind, aget_ok hp, aset, hlt, if_true, pure,
    Except.pure]

theorem ok_bind {α β : Type} (a : α) (f : α → Except Fault β) :
    (Except.ok a >>= f) = f a := rfl

theorem finish_insert {fuel : Nat} {S ta t' : btree_type} {a : Option Nat} {r : Nat}
    (h : split_if_needed fuel ta a = .ok t') (hS : S = ta) :
    (split_if_needed fuel S a >>= fun t => (pure (t, r) : Except Fault (btree_type × Nat)))
      = .ok (t', r) := by
  rw [hS, h]; rfl

set_option maxHeartbeats 2000000 in
/-- `map_insert_sorted_copy_on_new` refines the merge into a sorted list. -/
theorem merge_ok {t : btree_type} {es : List PAIR} (hR : Rep t es) (fuel : Nat)
    (hfuel : t.nlevel_ ≤ fuel) (k v keylen hash : Nat) :
    ∃ t', map_insert_sorted_copy_on_new fuel t k v keylen hash =
        .ok (t', if k ∈ es.map PAIR.key_ then 0 else 1) ∧
      Rep t' (abs_merge k v hash es) ∧
      t'.n_key_copy = t.n_key_copy + (if k ∈ es.map PAIR.key_ then 0 else 1) ∧
      t'.n_merge = t.n_merge + 1 ∧ t'.n_reset = t.n_reset ∧
      t.nlevel_ ≤ t'.nlevel_ ∧ t'.nlevel_ ≤ t.nlevel_ + 1 := by
  have hf : fanout = 8 := rfl
  by_cases h0 : t.nlevel_ = 0
  · -- the first insertion
    obtain ⟨rfl, _, _, hdead⟩ := hR.empty h0
    obtain ⟨l1, i1, i2, i3, i4, i5, i6⟩ := leaf_insert_ok btnode_leaf.new 0 k hash rfl
      (by decide) (le_refl _)
    have hl1 : l1.e_[0]? = some { key_ := k, hash := hash, vals := [] } := by
      have : l1.live[0]? = some { key_ := k, hash := hash, vals := [] } := by
        rw [i6]; rfl
      rw [btnode_leaf.live, List.getElem?_take_of_lt (by rw [i4]; decide)] at this
      exact this
    set l2 : btnode_leaf :=
      { l1 with e_ := l1.e_.set 0 { key_ := k, hash := hash, vals := [v] } } with hl2
    set t' : btree_type :=
      { heap := t.heap ++ [some (.leaf l2)], nk_ := 1, nlevel_ := 1,
        root_ := some t.heap.length, n_key_copy := t.n_key_copy + 1,
        n_merge := t.n_merge + 1, n_reset := t.n_reset } with ht'
    have hl2live : l2.live = [{ key_ := k, hash := hash, vals := [v] }] := by
      have h1 : l2.live = l1.live.set 0 { key_ := k, hash := hash, vals := [v] } :=
        take_set_of_lt l1.e_ 0 l1.nk_ _ (by rw [i4]; decide)
      rw [h1, i6]; rfl
    have hRep : Rep t' l2.live :=
      single_leaf_inv hdead rfl rfl rfl rfl i2 i3 i4 (by simp [hl2, i5])
    refine ⟨t', ?_, by rw [hl2live] at hRep; exact hRep, by simp [ht'], rfl, rfl,
      by rw [h0]; exact Nat.zero_le _, by rw [h0]⟩
    have setN : ∀ (x y : Option btnode_base),
        (t.heap ++ [x]).set t.heap.length y = t.heap ++ [y] := by
      intro x y
      rw [List.set_append, if_neg (by omega), Nat.sub_self]
      rfl
    have rdN : ∀ (s : btree_type) (x : btnode_leaf), s.heap = t.heap ++ [some (.leaf x)] →
        rd_leaf s (some t.heap.length) = .ok x := by
      intro s x hs
      apply Live.rd_leaf
      unfold Live
      rw [hs, List.getElem?_append_right (le_refl _), Nat.sub_self]
      rfl
    have hsp : split_if_needed fuel t' (some t.heap.length) = .ok t' := by
      unfold split_if_needed
      rw [rdN t' l2 rfl]
      have hns : l2.need_split = false := by
        have h1 : l1.nk_ = 1 := i4
        simp [btnode_leaf.need_split, hl2, h1, hf]
      simp only [bind, Except.bind, hns, Bool.false_eq_true, if_false]
      rfl
    unfold map_insert_sorted_copy_on_new get_leaf
    simp only [h0, if_true, alloc, ok_bind]
    rw [rdN _ btnode_leaf.new (by rfl)]
    simp only [ok_bind, leaf_lower_bound_ok btnode_leaf.new k (by decide)]
    have hlb : xsearch_lower_bound k (btnode_leaf.new.live.map PAIR.key_) = (0, false) := rfl
    simp only [hlb, Bool.not_false, if_true, key_copy, i1, ok_bind]
    rw [show (pure _ : Except Fault btree_type) = Except.ok _ from rfl, ok_bind,
      leaf_merge_ok (by unfold Live; simp only [wr]; rw [setN]; simp) hl1, ok_bind]
    have hnot : k ∉ List.map PAIR.key_ [] := by simp
    simp only [if_neg hnot, Bool.false_eq_true, if_false]
    apply finish_insert hsp
    simp only [ht', wr, btree_type.mk.injEq, and_true, true_and, setN, PAIR.map_value_insert,
      List.nil_append, hl2]
  · obtain ⟨g, hI, rfl⟩ := hR
    obtain ⟨a, l, hget, ha, hlo, hhi⟩ := get_leaf_ok hI h0 k
    obtain ⟨k1, k2, k3, k4, k5, k6, k7, k8, k9⟩ := hI.leaf a l ha
    have hnk7 : l.nk_ < fanout := by
      rcases Nat.lt_or_ge l.nk_ fanout with h | h
      · exact h
      · have := k5 (by omega); cases this
    obtain ⟨s1, s2, hch, ha1, ha2, hcont, hpre, hpost⟩ := content_split hI ha hlo hhi
    have hmem : k ∈ (content t g.chain).map PAIR.key_ ↔ k ∈ l.live.map PAIR.key_ := by
      rw [hcont]
      simp only [List.map_append, List.mem_append]
      constructor
      · rintro ((h | h) | h)
        · obtain ⟨x, hx, hxk⟩ := List.mem_map.1 h
          have := hpre x hx; omega
        · exact h
        · obtain ⟨x, hx, hxk⟩ := List.mem_map.1 h
          have := hpost x hx; omega
      · intro h; exact Or.inl (Or.inr h)
    have hlbk := leaf_lower_bound_ok l k (by omega)
    set pos := (xsearch_lower_bound k (l.live.map PAIR.key_)).1 with hpos
    have hposle : pos ≤ l.nk_ := by
      have := lb_pos_le k (l.live.map PAIR.key_)
      rw [List.length_map, leaf_live_length (by omega)] at this
      exact this
    by_cases hk : k ∈ l.live.map PAIR.key_
    · -- the key is there: merge
      have hfound : (xsearch_lower_bound k (l.live.map PAIR.key_)).2 = true :=
        (lb_found_iff k _ k7).2 hk
      have hkp : (l.live.map PAIR.key_)[pos]? = some k := by
        have := hfound
        simp only [xsearch_lower_bound, decide_eq_true_eq] at this
        exact this
      obtain ⟨p, hp1, hp2⟩ : ∃ p, l.live[pos]? = some p ∧ p.key_ = k := by
        rw [List.getElem?_map] at hkp
        rcases h : l.live[pos]? with _ | p
        · rw [h] at hkp; cases hkp
        · rw [h] at hkp; exact ⟨p, rfl, by simpa using hkp⟩
      have hposlt : pos < l.nk_ := by
        by_contra hc
        rw [List.getElem?_eq_none (by rw [leaf_live_length (by omega)]; omega)] at hp1
        cases hp1
      have hpe : l.e_[pos]? = some p := by
        rw [btnode_leaf.live, List.getElem?_take_of_lt hposlt] at hp1; exact hp1
      set l' : btnode_leaf := { l with e_ := l.e_.set pos (p.map_value_insert v) } with hl'
      have hl'live : l'.live = l.live.set pos (p.map_value_insert v) :=
        take_set_of_lt l.e_ pos l.nk_ _ hposlt
      have hkeys : l'.live.map PAIR.key_ = l.live.map PAIR.key_ := by
        rw [hl'live]; exact map_set_self _ _ p _ hp1 rfl
      set t1 : btree_type := { wr t (some a) (.leaf l') with n_merge := t.n_merge + 1 }
        with ht1
      obtain ⟨hIa, hla, hlb⟩ := @leaf_update g t t1 a l l' hI ha rfl rfl
        (by simp [hl', k2]) k3 k4 k6 (by rw [hkeys]; exact k7) (by rw [hkeys]; exact k8)
        rfl rfl rfl rfl
      have hLa : Live t1 a (.leaf l') := by
        unfold Live
        show (t.heap.set a (some (.leaf l')))[a]? = _
        rw [List.getElem?_set_self ha.lt]
      obtain ⟨t', g', e1, e2, e3, e4, e5, e6, e7, e8⟩ :=
        split_if_needed_ok hIa hLa fuel (by exact hfuel)
      have ht'eq : t' = t1 := e8 (by show l.nk_ ≠ fanout; omega)
      subst ht'eq
      refine ⟨t1, ?_, ⟨g', e2, ?_⟩, ?_, rfl, rfl, le_refl _, Nat.le_succ _⟩
      · unfold map_insert_sorted_copy_on_new
        simp only [hget, ok_bind, ha.rd_leaf, hlbk, hfound, Bool.not_true,
          Bool.false_eq_true, if_false]
        rw [show (pure t : Except Fault btree_type) = Except.ok t from rfl, ok_bind,
          leaf_merge_ok ha hpe, ok_bind]
        simp only [if_pos (hmem.2 hk), if_true]
        exact finish_insert e1 rfl
      · rw [e3, hcont, List.append_assoc, abs_merge_append_left k v hash _ _ hpre,
          abs_merge_append_right k v hash _ _ hpost, abs_merge_eq, if_pos hfound, hp1, hch]
        simp only [content, List.flatMap_append, List.flatMap_cons, List.append_assoc]
        have c1 : List.flatMap s1 (live_at t1) = List.flatMap s1 (live_at t) :=
          content_congr (fun b hb => hlb b (fun e => ha1 (e ▸ hb)))
        have c2 : List.flatMap s2 (live_at t1) = List.flatMap s2 (live_at t) :=
          content_congr (fun b hb => hlb b (fun e => ha2 (e ▸ hb)))
        rw [c1, c2, hla, hl'live]
      · rw [if_pos (hmem.2 hk)]; rfl
    · -- the key is new: insert, then merge
      have hfound : (xsearch_lower_bound k (l.live.map PAIR.key_)).2 = false :=
        not_found_of_not_mem k _ hk
      obtain ⟨l1, i1, i2, i3, i4, i5, i6⟩ := leaf_insert_ok l pos k hash k2 hnk7 hposle
      have hposlive : pos ≤ l.live.length := by rw [leaf_live_length (by omega)]; exact hposle
      have hl1 : l1.e_[pos]? = some { key_ := k, hash := hash, vals := [] } := by
        have : l1.live[pos]? = some { key_ := k, hash := hash, vals := [] } := by
          rw [i6]; exact getElem?_middle _ _ _ hposlive
        rw [btnode_leaf.live, List.getElem?_take_of_lt (by omega)] at this
        exact this
      set q : PAIR := { key_ := k, hash := hash, vals := [v] } with hq
      set l2 : btnode_leaf := { l1 with e_ := l1.e_.set pos q } with hl2
      have hl2live : l2.live = l.live.take pos ++ [q] ++ l.live.drop pos := by
        have h1 : l2.live = l1.live.set pos q :=
          take_set_of_lt l1.e_ pos l1.nk_ _ (by omega)
        rw [h1, i6]; exact set_middle _ _ _ _ hposlive
      set ta : btree_type :=
        { heap := t.heap.set a (some (.leaf l2)), nk_ := t.nk_ + 1, nlevel_ := t.nlevel_,
          root_ := t.root_, n_key_copy := t.n_key_copy + 1, n_merge := t.n_merge + 1,
          n_reset := t.n_reset } with hta
      obtain ⟨t', g', e1, e2, e3, e4, e5, e6, e7, e8⟩ :=
        @leaf_put_ok g t ta a l l2 q hI ha hlo hhi hk i2 i3 i4 (by simp [hl2, i5]) hl2live
          rfl rfl rfl rfl fuel hfuel
      refine ⟨t', ?_, ⟨g', e2, ?_⟩, ?_, ?_, ?_, e7, e8⟩
      · unfold map_insert_sorted_copy_on_new
        simp only [hget, ok_bind, ha.rd_leaf, hlbk, hfound, Bool.not_false, if_true,
          key_copy, i1]
        rw [show (pure _ : Except Fault btree_type) = Except.ok _ from rfl, ok_bind,
          leaf_merge_ok (by unfold Live; exact List.getElem?_set_self ha.lt) hl1, ok_bind]
        simp only [if_neg (fun h => hk (hmem.1 h)), Bool.false_eq_true, if_false]
        apply finish_insert e1
        simp only [hta, wr, btree_type.mk.injEq, and_true, true_and, List.set_set,
          PAIR.map_value_insert, List.nil_append, hl2, hq]
      · rw [e3, abs_merge_absent k v hash _ e4]
      · rw [if_neg (fun h => hk (hmem.1 h)), e6.1]
      · rw [e6.2.1]
      · rw [e6.2.2]

theorem finish_raw {fuel : Nat} {S ta t' : btree_type} {a : Option Nat}
    (h : split_if_needed fuel ta a = .ok t') (hS : S = ta) :
    split_if_needed fuel S a = .ok t' := by
  rw [hS, h]

set_option maxHeartbeats 2000000 in
/-- `map_insert_sorted_new_and_raw` aborts on a key that is present and refines the sorted
insertion otherwise. -/
theorem raw_ok {t : btree_type} {es : List PAIR} (hR : Rep t es) (fuel : Nat)
    (hfuel : t.nlevel_ ≤ fuel) (p : PAIR) :
    (p.key_ ∈ es.map PAIR.key_ →
      map_insert_sorted_new_and_raw fuel t p = .error .assert_fail) ∧
    (p.key_ ∉ es.map PAIR.key_ →
      ∃ t', map_insert_sorted_new_and_raw fuel t p = .ok t' ∧ Rep t' (abs_raw p es) ∧
        SameCnt t t' ∧ t.nlevel_ ≤ t'.nlevel_ ∧ t'.nlevel_ ≤ t.nlevel_ + 1) := by
  have hf : fanout = 8 := rfl
  by_cases h0 : t.nlevel_ = 0
  · obtain ⟨rfl, _, _, hdead⟩ := hR.empty h0
    refine ⟨fun h => by simp at h, fun _ => ?_⟩
    obtain ⟨l1, i1, i2, i3, i4, i5, i6⟩ := leaf_insert_ok btnode_leaf.new 0 p.key_ 0 rfl
      (by decide) (le_refl _)
    set l2 : btnode_leaf := { l1 with e_ := l1.e_.set 0 p } with hl2
    set t' : btree_type :=
      { heap := t.heap ++ [some (.leaf l2)], nk_ := 1, nlevel_ := 1,
        root_ := some t.heap.length, n_key_copy := t.n_key_copy,
        n_merge := t.n_merge, n_reset := t.n_reset } with ht'
    have hl2live : l2.live = [p] := by
      have h1 : l2.live = l1.live.set 0 p :=
        take_set_of_lt l1.e_ 0 l1.nk_ _ (by rw [i4]; decide)
      rw [h1, i6]; rfl
    have hRep : Rep t' l2.live :=
      single_leaf_inv hdead rfl rfl rfl rfl i2 i3 i4 (by simp [hl2, i5])
    refine ⟨t', ?_, by rw [hl2live] at hRep; exact hRep, ⟨rfl, rfl, rfl⟩,
      by rw [h0]; exact Nat.zero_le _, by rw [h0]⟩
    have setN : ∀ (x y : Option btnode_base),
        (t.heap ++ [x]).set t.heap.length y = t.heap ++ [y] := by
      intro x y
      rw [List.set_append, if_neg (by omega), Nat.sub_self]
      rfl
    have rdN : ∀ (s : btree_type) (x : btnode_leaf), s.heap = t.heap ++ [some (.leaf x)] →
        rd_leaf s (some t.heap.length) = .ok x := by
      intro s x hs
      apply Live.rd_leaf
      unfold Live
      rw [hs, List.getElem?_append_right (le_refl _), Nat.sub_self]
      rfl
    have hsp : split_if_needed fuel t' (some t.heap.length) = .ok t' := by
      unfold split_if_needed
      rw [rdN t' l2 rfl]
      have hns : l2.need_split = false := by
        have h1 : l1.nk_ = 1 := i4
        simp [btnode_leaf.need_split, hl2, h1, hf]
      simp only [bind, Except.bind, hns, Bool.false_eq_true, if_false]
      rfl
    unfold map_insert_sorted_new_and_raw get_leaf
    simp only [h0, if_true, alloc, ok_bind]
    rw [rdN _ btnode_leaf.new (by rfl)]
    simp only [ok_bind, leaf_lower_bound_ok btnode_leaf.new p.key_ (by decide)]
    have hlb : xsearch_lower_bound p.key_ (btnode_leaf.new.live.map PAIR.key_) = (0, false) :=
      rfl
    simp only [hlb, Bool.false_eq_true, if_false, i1, ok_bind]
    rw [rdN _ l1 (by simp only [wr]; exact setN _ _)]
    simp only [ok_bind, aset, show 0 < l1.e_.length by omega, if_true]
    apply finish_raw hsp
    simp only [ht', wr, btree_type.mk.injEq, and_true, true_and, setN, hl2]
  · obtain ⟨g, hI, rfl⟩ := hR
    obtain ⟨a, l, hget, ha, hlo, hhi⟩ := get_leaf_ok hI h0 p.key_
    obtain ⟨k1, k2, k3, k4, k5, k6, k7, k8, k9⟩ := hI.leaf a l ha
    have hnk7 : l.nk_ < fanout := by
      rcases Nat.lt_or_ge l.nk_ fanout with h | h
      · exact h
      · have := k5 (by omega); cases this
    obtain ⟨s1, s2, hch, ha1, ha2, hcont, hpre, hpost⟩ := content_split hI ha hlo hhi
    have hmem : p.key_ ∈ (content t g.chain).map PAIR.key_ ↔ p.key_ ∈ l.live.map PAIR.key_ := by
      rw [hcont]
      simp only [List.map_append, List.mem_append]
      constructor
      · rintro ((h | h) | h)
        · obtain ⟨x, hx, hxk⟩ := List.mem_map.1 h
          have := hpre x hx; omega
        · exact h
        · obtain ⟨x, hx, hxk⟩ := List.mem_map.1 h
          have := hpost x hx; omega
      · intro h; exact Or.inl (Or.inr h)
    have hlbk := leaf_lower_bound_ok l p.key_ (by omega)
    set pos := (xsearch_lower_bound p.key_ (l.live.map PAIR.key_)).1 with hpos
    have hposle : pos ≤ l.nk_ := by
      have := lb_pos_le p.key_ (l.live.map PAIR.key_)
      rw [List.length_map, leaf_live_length (by omega)] at this
      exact this
    constructor
    · intro hk
      have hfound : (xsearch_lower_bound p.key_ (l.live.map PAIR.key_)).2 = true :=
        (lb_found_iff p.key_ _ k7).2 (hmem.1 hk)
      unfold map_insert_sorted_new_and_raw
      simp only [hget, ok_bind, ha.rd_leaf, hlbk, hfound, if_true]
    · intro hk'
      have hk : p.key_ ∉ l.live.map PAIR.key_ := fun h => hk' (hmem.2 h)
      have hfound : (xsearch_lower_bound p.key_ (l.live.map PAIR.key_)).2 = false :=
        not_found_of_not_mem p.key_ _ hk
      obtain ⟨l1, i1, i2, i3, i4, i5, i6⟩ := leaf_insert_ok l pos p.key_ 0 k2 hnk7 hposle
      have hposlive : pos ≤ l.live.length := by rw [leaf_live_length (by omega)]; exact hposle
      set l2 : btnode_leaf := { l1 with e_ := l1.e_.set pos p } with hl2
      have hl2live : l2.live = l.live.take pos ++ [p] ++ l.live.drop pos := by
        have h1 : l2.live = l1.live.set pos p :=
          take_set_of_lt l1.e_ pos l1.nk_ _ (by omega)
        rw [h1, i6]; exact set_middle _ _ _ _ hposlive
      set ta : btree_type :=
        { heap := t.heap.set a (some (.leaf l2)), nk_ := t.nk_ + 1, nlevel_ := t.nlevel_,
          root_ := t.root_, n_key_copy := t.n_key_copy, n_merge := t.n_merge,
          n_reset := t.n_reset } with hta
      obtain ⟨t', g', e1, e2, e3, e4, e5, e6, e7, e8⟩ :=
        @leaf_put_ok g t ta a l l2 p hI ha hlo hhi hk i2 i3 i4 (by simp [hl2, i5]) hl2live
          rfl rfl rfl rfl fuel hfuel
      refine ⟨t', ?_, ⟨g', e2, e3⟩, ⟨e6.1, e6.2.1, e6.2.2⟩, e7, e8⟩
      unfold map_insert_sorted_new_and_raw
      simp only [hget, ok_bind, ha.rd_leaf, hlbk, hfound, Bool.false_eq_true, if_false, i1]
      rw [Live.rd_leaf (show Live _ a (.leaf l1) by
        unfold Live; exact List.getElem?_set_self ha.lt)]
      simp only [ok_bind, aset, show pos < l1.e_.length by omega, if_true]
      apply finish_raw e1
      simp only [hta, wr, btree_type.mk.injEq, and_true, true_and, List.set_set, hl2]

/-! ### Walking the leaf chain -/

theorem pure_bind_ex {α β : Type} (a : α) (f : α → Except Fault β) :
    ((pure a : Except Fault α) >>= f) = f a := rfl

theorem walk_step {t : btree_type} {a i : Nat} {l : btnode_leaf} {p : PAIR}
    (ha : Live t a (.leaf l)) (hp : l.e_[i]? = some p) (fuel : Nat) (acc : List PAIR) :
    walk_loop t (fuel + 1) { c_ := some a, i_ := i } acc =
      walk_loop t fuel (if i + 1 = l.nk_ then { c_ := l.next_, i_ := 0 }
        else { c_ := some a, i_ := i + 1 }) (acc ++ [p]) := by
  rw [walk_loop]
  have hne : (iterator.mk (some a) i).ne t.end_ = true := by
    simp [iterator.ne, iterator.eq, btree_type.end_]
  simp only [hne, if_true, iterator.deref, iterator.incr, ha.rd_leaf, ok_bind, aget_ok hp]
  split_ifs <;> rfl

theorem walk_end (t : btree_type) (fuel i : Nat) (acc : List PAIR) :
    walk_loop t (fuel + 1) { c_ := none, i_ := i } acc = .ok acc := by
  rw [walk_loop]
  have hne : (iterator.mk none i).ne t.end_ = false := by
    simp [iterator.ne, iterator.eq, btree_type.end_]
  simp only [hne, Bool.false_eq_true, if_false]
  rfl

/-- Walking through the rest of one leaf from index `i`. -/
theorem walk_leaf {t : btree_type} {a : Nat} {l : btnode_leaf} (ha : Live t a (.leaf l))
    (hnk : l.nk_ ≤ l.e_.length) : ∀ (k i fuel : Nat) (acc : List PAIR), k + i + 1 = l.nk_ →
    walk_loop t (fuel + (k + 1)) { c_ := some a, i_ := i } acc =
      walk_loop t fuel { c_ := l.next_, i_ := 0 } (acc ++ l.live.drop i) := by
  intro k
  induction k with
  | zero =>
    intro i fuel acc hk
    have hi : i < l.e_.length := by omega
    rw [walk_step ha (List.getElem?_eq_getElem hi), if_pos (by omega)]
    congr 1
    have : l.live.drop i = [l.e_[i]] := by
      apply List.ext_getElem?
      intro n
      simp only [btnode_leaf.live, List.getElem?_drop, List.getElem?_take]
      rcases Nat.eq_zero_or_pos n with rfl | hn
      · simp [show i < l.nk_ by omega, List.getElem?_eq_getElem hi]
      · rw [if_neg (by omega)]
        simp
        omega
    rw [this]
  | succ k ih =>
    intro i fuel acc hk
    have hi : i < l.e_.length := by omega
    rw [show fuel + (k + 1 + 1) = (fuel + (k + 1)) + 1 by omega,
      walk_step ha (List.getElem?_eq_getElem hi), if_neg (by omega), ih (i + 1) fuel _ (by omega)]
    congr 1
    rw [List.append_assoc]
    congr 1
    have : l.live.drop i = l.e_[i] :: l.live.drop (i + 1) := by
      have hlt : i < l.live.length := by rw [leaf_live_length hnk]; omega
      rw [List.drop_eq_getElem_cons hlt]
      simp [btnode_leaf.live]
    rw [this]; rfl

/-- Walking the chain from the start of a leaf. -/
theorem walk_chain {t : btree_type} : ∀ (cs : List Nat) (p : Option Nat), Linked t p cs →
    (∀ b ∈ cs, ∀ l, Live t b (.leaf l) → 1 ≤ l.nk_ ∧ l.nk_ ≤ l.e_.length) →
    ∀ (fuel : Nat) (acc : List PAIR), (content t cs).length < fuel →
    walk_loop t fuel { c_ := p, i_ := 0 } acc = .ok (acc ++ content t cs) := by
  intro cs
  induction cs with
  | nil =>
    intro p hl _ fuel acc hf
    have hp : p = none := hl
    subst hp
    obtain ⟨f, rfl⟩ : ∃ f, fuel = f + 1 := ⟨fuel - 1, by omega⟩
    rw [walk_end]
    simp [content]
  | cons a cs ih =>
    intro p hl hnk fuel acc hf
    obtain ⟨hp, l, ha, hrest⟩ := hl
    subst hp
    obtain ⟨h1, h2⟩ := hnk a (by simp) l ha
    have hc : content t (a :: cs) = l.live ++ content t cs := by
      simp only [content, List.flatMap_cons]
      rw [live_at_leaf ha]
    rw [hc, List.length_append, leaf_live_length h2] at hf
    obtain ⟨f, rfl⟩ : ∃ f, fuel = f + (l.nk_ - 1 + 1) := ⟨fuel - l.nk_, by omega⟩
    rw [walk_leaf ha h2 (l.nk_ - 1) 0 f acc (by omega),
      ih l.next_ hrest (fun b hb => hnk b (by simp [hb])) f _ (by omega), hc]
    simp

theorem nvalue_of_walk {t : btree_type} : ∀ (fuel : Nat) (it : iterator) (n : Nat)
    (acc es : List PAIR), walk_loop t fuel it acc = .ok es →
    ∃ rest, es = acc ++ rest ∧ nvalue_loop t fuel it n = .ok (n + (rest.map PAIR.size).sum) := by
  intro fuel
  induction fuel with
  | zero => intro it n acc es h; simp [walk_loop] at h
  | succ fuel ih =>
    intro it n acc es h
    rw [walk_loop] at h
    rw [nvalue_loop]
    by_cases hne : it.ne t.end_ = true
    · simp only [hne, if_true] at h ⊢
      rcases hd : it.deref t with e | p
      · rw [hd] at h; cases h
      · rw [hd] at h
        simp only [ok_bind] at h ⊢
        rcases hi : it.incr t with e | it'
        · rw [hi] at h; cases h
        · rw [hi] at h
          simp only [ok_bind] at h ⊢
          obtain ⟨rest, h1, h2⟩ := ih it' (n + p.size) (acc ++ [p]) es h
          refine ⟨p :: rest, by rw [h1]; simp, ?_⟩
          rw [h2]
          simp [Nat.add_assoc]
    · simp only [hne, if_false] at h ⊢
      cases h
      exact ⟨[], by simp, by simp [pure, Except.pure]⟩

/-- A full walk of a tree that represents `es` visits exactly `es`. -/
theorem walk_ok {t : btree_type} {es : List PAIR} (hR : Rep t es) (fuel : Nat)
    (hfuel : es.length < fuel) : walk fuel t = .ok es := by
  obtain ⟨g, hI, rfl⟩ := hR
  unfold walk btree_type.begin
  rw [first_leaf_ok hI]
  simp only [ok_bind, pure_bind_ex]
  have := walk_chain g.chain _ hI.chain_link (fun b _ l hb => by
    obtain ⟨_, k2, k3, k4, _⟩ := hI.leaf b l hb
    exact ⟨k3, by omega⟩) fuel [] hfuel
  simpa using this

theorem nvalue_ok {t : btree_type} {es : List PAIR} (hR : Rep t es) (fuel : Nat)
    (hfuel : es.length < fuel) : test_get_nvalue fuel t = .ok (es.map PAIR.size).sum := by
  have hw := walk_ok hR fuel hfuel
  obtain ⟨g, hI, rfl⟩ := hR
  unfold walk btree_type.begin at hw
  unfold test_get_nvalue btree_type.begin
  rw [first_leaf_ok hI] at hw ⊢
  simp only [ok_bind, pure_bind_ex] at hw ⊢
  obtain ⟨rest, h1, h2⟩ := nvalue_of_walk fuel _ 0 [] _ hw
  rw [h2]
  simp at h1
  rw [h1]; simp

/-! ### `copy_traverse` -/

theorem Cleared.nil (t : btree_type) : Cleared [] t t :=
  ⟨rfl, rfl, rfl, SameCnt.same_refl t, fun b => by simp⟩

theorem copy_step_none (clear : Bool) (fuel : Nat) (t : btree_type) (dst : List PAIR)
    (n : Nat) : copy_loop clear (fuel + 1) t none dst n = .ok (t, dst, n) := by
  rw [copy_loop]

theorem blit_chunk (done junk : List PAIR) (l : btnode_leaf) (h1 : l.nk_ ≤ l.e_.length)
    (h2 : l.nk_ ≤ junk.length) :
    blit (done ++ junk) done.length l.e_ 0 l.nk_ = .ok ((done ++ l.live) ++ junk.drop l.nk_) := by
  rw [blit_ok _ _ _ _ _ (by omega) (by simp; omega)]
  congr 1
  simp [btnode_leaf.live, List.take_append_eq_append_take, List.drop_append_eq_append_drop]

set_option maxHeartbeats 1000000 in
/-- The loop of `copy_traverse` writes the entries of the chain, in order, behind what is
already there. -/
theorem copy_chain (clear : Bool) : ∀ (cs : List Nat) (p : Option Nat) (t0 : btree_type),
    Linked t0 p cs → cs.Nodup →
    (∀ b ∈ cs, ∀ l, Live t0 b (.leaf l) → l.nk_ ≤ l.e_.length) →
    ∀ (fuel : Nat) (done junk : List PAIR), cs.length < fuel →
    (content t0 cs).length ≤ junk.length →
    ∃ t', copy_loop clear fuel t0 p (done ++ junk) done.length =
        .ok (t', done ++ content t0 cs ++ junk.drop (content t0 cs).length,
          done.length + (content t0 cs).length) ∧
      (clear = false → t' = t0) ∧ (clear = true → Cleared cs t0 t') := by
  intro cs
  induction cs with
  | nil =>
    intro p t0 hl _ _ fuel done junk hf _
    have hp : p = none := hl
    subst hp
    obtain ⟨f, rfl⟩ : ∃ f, fuel = f + 1 := ⟨fuel - 1, by omega⟩
    refine ⟨t0, ?_, fun _ => rfl, fun _ => Cleared.nil t0⟩
    rw [copy_step_none]
    simp [content]
  | cons a cs ih =>
    intro p t0 hl hnd hlen fuel done junk hf hj
    obtain ⟨hp, l, ha, hrest⟩ := hl
    subst hp
    obtain ⟨f, rfl⟩ : ∃ f, fuel = f + 1 := ⟨fuel - 1, by omega⟩
    have h2 := hlen a (by simp) l ha
    have hc : content t0 (a :: cs) = l.live ++ content t0 cs := by
      simp only [content, List.flatMap_cons]
      rw [live_at_leaf ha]
    rw [hc, List.length_append, leaf_live_length h2] at hj
    have hacs : a ∉ cs := (List.nodup_cons.1 hnd).1
    set t1 : btree_type := if clear = true then wr t0 (some a) (.leaf { l with nk_ := 0 }) else t0
      with ht1
    have hcell : ∀ b, t1.heap[b]? =
        if clear = true ∧ b = a then clear_cell t0.heap[b]? else t0.heap[b]? := by
      intro b
      rw [ht1]
      by_cases hc' : clear = true
      · simp only [hc', if_true, wr, true_and]
        by_cases hb : b = a
        · subst hb
          rw [List.getElem?_set_self ha.lt, if_pos rfl, ha]; rfl
        · rw [List.getElem?_set_ne (fun e => hb e.symm), if_neg hb]
      · simp [hc']
    have hoth : ∀ b, b ≠ a → t1.heap[b]? = t0.heap[b]? := fun b hb => by
      rw [hcell b, if_neg (fun h => hb h.2)]
    obtain ⟨l', ha1, hn1⟩ : ∃ l', Live t1 a (.leaf l') ∧ l'.next_ = l.next_ := by
      by_cases hc' : clear = true
      · refine ⟨{ l with nk_ := 0 }, ?_, rfl⟩
        unfold Live
        rw [hcell a, if_pos ⟨hc', rfl⟩, ha]; rfl
      · refine ⟨l, ?_, rfl⟩
        unfold Live
        rw [hcell a, if_neg (fun h => hc' h.1)]; exact ha
    have hlink1 : Linked t1 l.next_ cs := by
      apply Linked_congr _ hrest
      intro b hb lb hlb
      refine ⟨lb, ?_, rfl⟩
      unfold Live
      rw [hoth b (fun e => hacs (e ▸ hb))]; exact hlb
    have hcont1 : content t1 cs = content t0 cs :=
      content_congr (fun b hb => live_at_congr_heap (hoth b (fun e => hacs (e ▸ hb))))
    obtain ⟨t', e1, e2, e3⟩ := ih l.next_ t1 hlink1 (List.nodup_cons.1 hnd).2
      (fun b hb lb hlb => hlen b (by simp [hb]) lb (by
        unfold Live at hlb ⊢
        rw [← hoth b (fun e => hacs (e ▸ hb))]; exact hlb))
      f (done ++ l.live) (junk.drop l.nk_) (by simp at hf; omega)
      (by rw [hcont1, List.length_drop]; omega)
    refine ⟨t', ?_, ?_, ?_⟩
    · rw [copy_loop]
      simp only [ha.rd_leaf, ok_bind, blit_chunk done junk l h2 (by omega)]
      rw [show (if clear = true then wr t0 (some a) (.leaf { l with nk_ := 0 }) else t0) = t1
        from rfl, ha1.rd_leaf]
      simp only [ok_bind, hn1]
      have hlen' : (done ++ l.live).length = done.length + l.nk_ := by
        rw [List.length_append, leaf_live_length h2]
      rw [← hlen', e1, hcont1, hc]
      simp only [List.append_assoc, List.drop_drop, List.length_append, leaf_live_length h2,
        Nat.add_assoc]
    · intro hc'
      rw [e2 hc', ht1]
      simp [hc']
    · intro hc'
      obtain ⟨c1, c2, c3, c4, c5⟩ := e3 hc'
      have hf1 : t1 = wr t0 (some a) (.leaf { l with nk_ := 0 }) := by
        rw [ht1]; simp [hc']
      refine ⟨by rw [c1, hf1]; rfl, by rw [c2, hf1]; rfl, by rw [c3, hf1]; rfl, ?_, ?_⟩
      · refine (SameCnt.same_trans ?_ c4)
        rw [hf1]; exact ⟨rfl, rfl, rfl⟩
      · intro b
        rw [c5 b]
        by_cases hb : b = a
        · subst hb
          rw [if_neg hacs, hcell b, if_pos ⟨hc', rfl⟩, if_pos (by simp)]
        · rw [hoth b hb]
          simp [hb]

theorem chain_length_le {g : Ghost} {t : btree_type} (hI : InvG g t 0 none none) :
    g.chain.length ≤ (content t g.chain).length := by
  have hlive : ∀ b ∈ g.chain, 1 ≤ (live_at t b).length := by
    intro b hb
    obtain ⟨l, hl⟩ := Linked_mem hI.chain_link b hb
    obtain ⟨_, k2, k3, k4, _⟩ := hI.leaf b l hl
    have hf : fanout = 8 := rfl
    rw [live_at_leaf hl, leaf_live_length (by omega)]; exact k3
  generalize g.chain = cs at hlive
  induction cs with
  | nil => simp
  | cons a cs ih =>
    have h1 := hlive a (by simp)
    have h2 := ih (fun b hb => hlive b (by simp [hb]))
    simp only [content, List.flatMap_cons, List.length_append, List.length_cons] at h2 ⊢
    omega

/-- `copy_traverse` into an empty destination. -/
theorem copy_traverse_ok {t : btree_type} {es : List PAIR} (hR : Rep t es) (clear : Bool)
    (fuel : Nat) (hfuel : es.length < fuel) :
    ∃ t' g, copy_traverse fuel t [] clear = .ok (t', es, es.length) ∧
      InvG g t 0 none none ∧ content t g.chain = es ∧
      (clear = false → t' = t) ∧ (clear = true → Cleared g.chain t t') := by
  obtain ⟨g, hI, rfl⟩ := hR
  unfold copy_traverse
  simp only [List.length_nil, ne_eq, not_true_eq_false, if_false]
  by_cases h0 : t.nlevel_ = 0
  · obtain ⟨a1, a2, a3, a4⟩ := hI.root0 h0
    refine ⟨t, g, ?_, hI, rfl, fun _ => rfl, fun _ => ?_⟩
    · rw [if_pos h0, a3]; rfl
    · rw [a3]; exact Cleared.nil t
  · rw [if_neg h0, first_leaf_ok hI]
    simp only [ok_bind, xarray_resize, btree_type.size, List.take_nil, List.nil_append,
      List.length_nil, Nat.sub_zero]
    have hf : fanout = 8 := rfl
    obtain ⟨t', e1, e2, e3⟩ := copy_chain clear g.chain _ t hI.chain_link hI.chain_nodup
      (fun b _ l hb => by
        obtain ⟨_, k2, k3, k4, _⟩ := hI.leaf b l hb
        omega)
      fuel [] (List.replicate t.nk_ PAIR.fresh)
      (by have := chain_length_le hI; omega)
      (by rw [List.length_replicate, hI.size_eq])
    refine ⟨t', g, ?_, hI, rfl, e2, e3⟩
    simp only [List.nil_append, List.length_nil, Nat.zero_add] at e1
    rw [e1]
    simp only [ok_bind]
    have hnk : t'.nk_ = t.nk_ := by
      cases clear with
      | false => rw [e2 rfl]
      | true => exact (e3 rfl).1
    rw [hnk, if_pos hI.size_eq.symm]
    have : List.drop (content t g.chain).length (List.replicate t.nk_ PAIR.fresh) = [] := by
      apply List.drop_eq_nil_of_le
      rw [List.length_replicate, hI.size_eq]
    rw [this]
    simp [pure, Except.pure]

/-! ### Subtrees -/

section
variable {g : Ghost} {t : btree_type}

theorem par_spec (hI : InvG g t 0 none none) {x p : Nat} {n : btnode_base}
    (hx : Live t x n) (hp : g.par x = some p) :
    ∃ m i, Live t p (.internal m) ∧ i ≤ m.nk_ ∧ kid_at m i = some x ∧
      g.lvl x + 1 = g.lvl p := by
  have hnr : t.root_ ≠ some x := by
    intro hr
    obtain ⟨r, rn, r1, _, _, r4, _⟩ := hI.root1 (nlevel_pos hI hx)
    rw [r1] at hr
    have hrx : r = x := Option.some.inj hr
    rw [hrx, hp] at r4
    cases r4
  obtain ⟨p', m, i, h1, h2, h3, h4⟩ := hI.has_par x n hx hnr (by rintro ⟨l, hl⟩; cases hl)
  rw [hp] at h1
  have hpp : p = p' := Option.some.inj h1
  subst hpp
  obtain ⟨c, cn, c1, c2, c3, c4, _⟩ := (hI.internal p m h2).2.2.2.2.2 i h3
  rw [h4] at c1
  have hxc : x = c := Option.some.inj c1
  subst hxc
  exact ⟨m, i, h2, h3, h4, c4⟩

theorem anc_succ (d b : Nat) : anc g (d + 1) b = (g.par b).bind (anc g d) := by
  induction d with
  | zero =>
    simp only [anc, Option.some_bind]
    cases g.par b <;> rfl
  | succ d ih =>
    rw [anc, ih]
    cases g.par b with
    | none => rfl
    | some p => simp only [Option.some_bind]; rw [anc]

theorem anc_live (hI : InvG g t 0 none none) : ∀ (d : Nat) {a b : Nat} {n : btnode_base},
    Live t b n → anc g d b = some a → ∃ n', Live t a n' ∧ g.lvl a = g.lvl b + d
  | 0, a, b, n, hb, h => by
    have hab : b = a := Option.some.inj h
    subst hab
    exact ⟨n, hb, rfl⟩
  | d + 1, a, b, n, hb, h => by
    rw [anc] at h
    rcases hx : anc g d b with _ | x
    · rw [hx] at h; cases h
    · rw [hx, Option.some_bind] at h
      obtain ⟨nx, hxl, hxlvl⟩ := anc_live hI d hb hx
      obtain ⟨m, i, h1, h2, h3, h4⟩ := par_spec hI hxl h
      exact ⟨_, h1, by omega⟩

theorem InSub_self {a : Nat} {n : btnode_base} (ha : Live t a n) : InSub g t a a :=
  ⟨⟨n, ha⟩, 0, rfl⟩

theorem InSub_internal (hI : InvG g t 0 none none) {a : Nat} {m : btnode_internal}
    (ha : Live t a (.internal m)) (b : Nat) :
    InSub g t a b ↔ b = a ∨ ∃ i c, i ≤ m.nk_ ∧ kid_at m i = some c ∧ InSub g t c b := by
  constructor
  · rintro ⟨⟨n, hb⟩, d, hd⟩
    cases d with
    | zero => left; exact Option.some.inj hd
    | succ d =>
      right
      rw [anc] at hd
      rcases hx : anc g d b with _ | x
      · rw [hx] at hd; cases hd
      · rw [hx, Option.some_bind] at hd
        obtain ⟨nx, hxl, _⟩ := anc_live hI d hb hx
        obtain ⟨m', i, h1, h2, h3, _⟩ := par_spec hI hxl hd
        have hm : m' = m := by
          have := h1.inj ha
          injection this
        subst hm
        exact ⟨i, x, h2, h3, ⟨n, hb⟩, d, hx⟩
  · rintro (rfl | ⟨i, c, hi, hc, ⟨hb, d, hd⟩⟩)
    · exact InSub_self ha
    · refine ⟨hb, d + 1, ?_⟩
      obtain ⟨c', cn, c1, _, c3, _⟩ := (hI.internal a m ha).2.2.2.2.2 i hi
      rw [hc] at c1
      have hcc : c = c' := Option.some.inj c1
      subst hcc
      rw [anc, hd, Option.some_bind, c3]

theorem InSub_leaf (hI : InvG g t 0 none none) {a : Nat} {l : btnode_leaf}
    (ha : Live t a (.leaf l)) {b : Nat} (h : InSub g t a b) : b = a := by
  obtain ⟨⟨n, hb⟩, d, hd⟩ := h
  cases d with
  | zero => exact Option.some.inj hd
  | succ d =>
    rw [anc] at hd
    rcases hx : anc g d b with _ | x
    · rw [hx] at hd; cases hd
    · rw [hx, Option.some_bind] at hd
      obtain ⟨nx, hxl, _⟩ := anc_live hI d hb hx
      obtain ⟨m', i, h1, _⟩ := par_spec hI hxl hd
      have := h1.inj ha
      cases this

theorem InSub_lvl (hI : InvG g t 0 none none) {a b : Nat} (h : InSub g t a b) :
    g.lvl b ≤ g.lvl a := by
  obtain ⟨⟨n, hb⟩, d, hd⟩ := h
  obtain ⟨_, _, h2⟩ := anc_live hI d hb hd
  omega

theorem InSub_disj (hI : InvG g t 0 none none) {a : Nat} {m : btnode_internal}
    (ha : Live t a (.internal m)) {i j ci cj b : Nat} (hi : i ≤ m.nk_) (hj : j ≤ m.nk_)
    (hci : kid_at m i = some ci) (hcj : kid_at m j = some cj)
    (h1 : InSub g t ci b) (h2 : InSub g t cj b) : i = j := by
  obtain ⟨⟨n, hb⟩, d, hd⟩ := h1
  obtain ⟨_, d', hd'⟩ := h2
  obtain ⟨_, _, e1⟩ := anc_live hI d hb hd
  obtain ⟨_, _, e2⟩ := anc_live hI d' hb hd'
  obtain ⟨c, _, c1, _, _, c4, _⟩ := (hI.internal a m ha).2.2.2.2.2 i hi
  obtain ⟨c', _, c1', _, _, c4', _⟩ := (hI.internal a m ha).2.2.2.2.2 j hj
  rw [hci] at c1
  rw [hcj] at c1'
  have hc : ci = c := Option.some.inj c1
  have hc' : cj = c' := Option.some.inj c1'
  subst hc
  subst hc'
  have hdd : d = d' := by omega
  subst hdd
  rw [hd] at hd'
  apply kid_inj hI ha hi hj
  rw [hci, hcj, Option.some.inj hd']

theorem not_InSub_kid (hI : InvG g t 0 none none) {a : Nat} {m : btnode_internal}
    (ha : Live t a (.internal m)) {i ci : Nat} (hi : i ≤ m.nk_)
    (hci : kid_at m i = some ci) : ¬ InSub g t ci a := by
  intro h
  have h1 := InSub_lvl hI h
  obtain ⟨c, _, c1, _, _, c4, _⟩ := (hI.internal a m ha).2.2.2.2.2 i hi
  rw [hci] at c1
  have hc : ci = c := Option.some.inj c1
  subst hc
  omega

theorem InSub_root (hI : InvG g t 0 none none) {r : Nat} (hr : t.root_ = some r) :
    ∀ (k b : Nat) (n : btnode_base), Live t b n → t.nlevel_ - g.lvl b = k → InSub g t r b := by
  intro k
  induction k with
  | zero =>
    intro b n hb hk
    by_cases hbr : t.root_ = some b
    · rw [hr] at hbr
      rw [Option.some.inj hbr]
      exact InSub_self hb
    · exfalso
      obtain ⟨p, m, i, h1, h2, h3, h4⟩ := hI.has_par b n hb hbr (by rintro ⟨l, hl⟩; cases hl)
      obtain ⟨_, _, _, e⟩ := par_spec hI hb h1
      have := (hI.lvl_le p _ h2).2
      omega
  | succ k ih =>
    intro b n hb hk
    by_cases hbr : t.root_ = some b
    · rw [hr] at hbr
      rw [Option.some.inj hbr]
      exact InSub_self hb
    · obtain ⟨p, m, i, h1, h2, h3, h4⟩ := hI.has_par b n hb hbr (by rintro ⟨l, hl⟩; cases hl)
      obtain ⟨_, _, _, e⟩ := par_spec hI hb h1
      obtain ⟨_, d, hd⟩ := ih p _ h2 (by omega)
      refine ⟨⟨n, hb⟩, d + 1, ?_⟩
      rw [anc_succ, h1, Option.some_bind, hd]

end

/-! ### Deleting nodes -/

theorem Deleted.none (z : Prop) (s : btree_type) : Deleted (fun _ => False) z s s :=
  ⟨rfl, rfl, rfl, rfl, rfl, le_refl _, fun _ => rfl, fun _ => ⟨fun h => h.elim, fun _ => rfl⟩⟩

theorem Deleted.comp {P Q R : Nat → Prop} {z : Prop} {s s1 s2 : btree_type}
    (h1 : Deleted P z s s1) (h2 : Deleted Q z s1 s2) (hR : ∀ b, R b ↔ P b ∨ Q b) :
    Deleted R z s s2 := by
  obtain ⟨a1, a2, a3, a4, a5, a6, a7, a8⟩ := h1
  obtain ⟨b1, b2, b3, b4, b5, b6, b7, b8⟩ := h2
  refine ⟨by rw [b1, a1], by rw [b2, a2], by rw [b3, a3], by rw [b4, a4], by rw [b5, a5],
    le_trans a6 b6, fun hz => by rw [b7 hz, a7 hz], fun b => ⟨?_, ?_⟩⟩
  · intro hb
    by_cases hq : Q b
    · exact (b8 b).1 hq
    · rw [(b8 b).2 hq]
      exact (a8 b).1 (((hR b).1 hb).resolve_right hq)
  · intro hb
    have hp : ¬ P b := fun h => hb ((hR b).2 (Or.inl h))
    have hq : ¬ Q b := fun h => hb ((hR b).2 (Or.inr h))
    rw [(b8 b).2 hq, (a8 b).2 hp]

theorem Deleted.congr {P R : Nat → Prop} {z : Prop} {s s1 : btree_type}
    (h1 : Deleted P z s s1) (hR : ∀ b, R b ↔ P b) : Deleted R z s s1 :=
  Deleted.comp h1 (Deleted.none z s1) (fun b => by rw [hR b]; simp)

theorem delete_node_ok {s : btree_type} {a : Nat} {n : btnode_base} (z : Prop)
    (ha : Live s a n) (hz : z → ∀ l, n = .leaf l → l.nk_ = 0) :
    ∃ s', delete_node s (some a) = .ok s' ∧ Deleted (fun b => b = a) z s s' := by
  have hset : ∀ b : Nat, (b = a → (s.heap.set a none)[b]? = some none) ∧
      (¬ b = a → (s.heap.set a none)[b]? = s.heap[b]?) := by
    intro b
    constructor
    · intro hb
      rw [hb, List.getElem?_set_self ha.lt]
    · intro hb
      rw [List.getElem?_set_ne (fun e => hb e.symm)]
  cases n with
  | leaf l =>
    refine ⟨{ s with heap := s.heap.set a none, n_reset := s.n_reset + l.nk_ }, ?_,
      rfl, rfl, rfl, rfl, rfl, Nat.le_add_right _ _, ?_, hset⟩
    · simp only [delete_node, ha.rd, ok_bind]
      rfl
    · intro h
      simp [hz h l rfl]
  | internal m =>
    refine ⟨{ s with heap := s.heap.set a none, n_reset := s.n_reset + 0 }, ?_,
      rfl, rfl, rfl, rfl, rfl, Nat.le_add_right _ _, fun _ => rfl, hset⟩
    simp only [delete_node, ha.rd, ok_bind]
    rfl

/-! ### `delete_level` and `shallow_free` -/

section
variable {g : Ghost} {t c : btree_type}

theorem Rep.of_dead {t : btree_type} (h1 : t.nlevel_ = 0) (h2 : t.root_ = none)
    (h3 : t.nk_ = 0) (h4 : ∀ a n, ¬ Live t a n) : Rep t [] := by
  refine ⟨Ghost.mk (fun _ => 0) (fun _ => 0) (fun _ => none) (fun _ => none) [], ?_, rfl⟩
  exact {
    root0 := fun _ => ⟨h2, h3, rfl, h4⟩
    root1 := fun h => by omega
    lvl_le := fun a n h => (h4 a n h).elim
    lohi := fun a n h => (h4 a n h).elim
    par_field := fun a n h => (h4 a n h).elim
    has_par := fun a n h => (h4 a n h).elim
    leaf := fun a l h => (h4 a _ h).elim
    internal := fun a m h => (h4 a _ h).elim
    chain_nodup := List.nodup_nil
    chain_link := rfl
    chain_adj := List.chain'_nil
    chain_first := fun a h => by cases h
    chain_last := fun a h => by cases h
    size_eq := by rw [h3]; rfl
    pend_ok := fun l r h => by cases h }

set_option maxHeartbeats 1000000 in
/-- The loop of `delete_level` over the children of an internal node. -/
theorem delete_children_ok (hI : InvG g t 0 none none) (hS : Shape t c) {a : Nat}
    {m : btnode_internal} (ha : Live t a (.internal m))
    (rec : btree_type → Option Nat → Except Fault btree_type) (z : Prop)
    (hrec : ∀ (i ci : Nat) (s : btree_type), i ≤ m.nk_ → kid_at m i = some ci →
      (∀ b, InSub g t ci b → s.heap[b]? = c.heap[b]?) →
      ∃ s', rec s (some ci) = .ok s' ∧ Deleted (InSub g t ci) z s s')
    (s0 : btree_type) (hs0 : ∀ b, InSub g t a b → s0.heap[b]? = c.heap[b]?) :
    ∀ (k i n : Nat) (s : btree_type), i + k = m.nk_ + 1 → k < n →
      Deleted (fun b => ∃ j cj, j < i ∧ kid_at m j = some cj ∧ InSub g t cj b) z s0 s →
      ∃ s', delete_children rec (some a) (g.lvl a) n i s = .ok s' ∧
        Deleted (fun b => ∃ j cj, j ≤ m.nk_ ∧ kid_at m j = some cj ∧ InSub g t cj b)
          z s0 s' := by
  have hlv := internal_lvl hI ha
  have hf : fanout = 8 := rfl
  obtain ⟨i1, i2, i3, _, _, i6⟩ := hI.internal a m ha
  have hlive : ∀ (i : Nat) (s : btree_type), i ≤ m.nk_ + 1 →
      Deleted (fun b => ∃ j cj, j < i ∧ kid_at m j = some cj ∧ InSub g t cj b) z s0 s →
      Live s a (.internal m) := by
    intro i s _ hD
    unfold Live
    rw [(hD.2.2.2.2.2.2.2 a).2 ?_, hs0 a (InSub_self ha)]
    · exact hS.2.2.1 a m ha
    · rintro ⟨j, cj, hj, hcj, hin⟩
      exact not_InSub_kid hI ha (by omega) hcj hin
  intro k
  induction k with
  | zero =>
    intro i n s hik hn hD
    obtain ⟨n', rfl⟩ : ∃ n', n = n' + 1 := ⟨n - 1, by omega⟩
    have hsa := hlive i s (by omega) hD
    refine ⟨s, ?_, hD.congr (fun b => ?_)⟩
    · rw [delete_children, if_pos (by omega)]
      simp only [hsa.rd, ok_bind]
      rw [if_neg (by show ¬ i ≤ m.nk_; omega)]
      rfl
    · constructor
      · rintro ⟨j, cj, h1, h2, h3⟩
        exact ⟨j, cj, by omega, h2, h3⟩
      · rintro ⟨j, cj, h1, h2, h3⟩
        exact ⟨j, cj, by omega, h2, h3⟩
  | succ k ih =>
    intro i n s hik hn hD
    obtain ⟨n', rfl⟩ : ∃ n', n = n' + 1 := ⟨n - 1, by omega⟩
    have hsa := hlive i s (by omega) hD
    have hi : i ≤ m.nk_ := by omega
    obtain ⟨ci, cn, c1, c2, c3, c4, _⟩ := i6 i hi
    have hil : i < m.e_.length := by omega
    have hx : (m.e_[i]).v_ = some ci := by
      rw [← kidL_getElem m.e_ i hil]; exact c1
    obtain ⟨s1, e1, hD1⟩ := hrec i ci s hi c1 (by
      intro b hb
      rw [(hD.2.2.2.2.2.2.2 b).2 ?_, hs0 b ((InSub_internal hI ha b).2 (Or.inr ⟨i, ci, hi, c1, hb⟩))]
      rintro ⟨j, cj, hj, hcj, hin⟩
      have := InSub_disj hI ha hi (by omega) c1 hcj hb hin
      omega)
    have hD2 : Deleted (fun b => ∃ j cj, j < i + 1 ∧ kid_at m j = some cj ∧ InSub g t cj b)
        z s0 s1 := by
      refine hD.comp hD1 (fun b => ?_)
      constructor
      · rintro ⟨j, cj, h1, h2, h3⟩
        by_cases hji : j = i
        · subst hji
          rw [c1] at h2
          rw [Option.some.inj h2]
          exact Or.inr h3
        · exact Or.inl ⟨j, cj, by omega, h2, h3⟩
      · rintro (⟨j, cj, h1, h2, h3⟩ | h)
        · exact ⟨j, cj, by omega, h2, h3⟩
        · exact ⟨i, ci, by omega, c1, h⟩
    obtain ⟨s2, e2, hD3⟩ := ih (i + 1) n' s1 (by omega) (by omega) hD2
    refine ⟨s2, ?_, hD3⟩
    rw [delete_children, if_pos (by omega)]
    simp only [hsa.rd, ok_bind]
    rw [if_pos (by show i ≤ m.nk_; exact hi)]
    simp only [hsa.rd_internal, ok_bind, aget_lt m.e_ i hil, hx, e1]
    exact e2

set_option maxHeartbeats 1000000 in
/-- With fuel for the level of the node, `delete_level` returns and has deleted exactly
the nodes of the subtree. -/
theorem delete_level_ok (hI : InvG g t 0 none none) (hS : Shape t c) (z : Prop)
    (hz : z → ∀ b l, Live c b (.leaf l) → l.nk_ = 0) :
    ∀ (fuel a : Nat) (n : btnode_base) (s : btree_type), Live t a n → g.lvl a ≤ fuel →
      (∀ b, InSub g t a b → s.heap[b]? = c.heap[b]?) →
      ∃ s', delete_level fuel s (some a) (g.lvl a) = .ok s' ∧
        Deleted (InSub g t a) z s s' := by
  intro fuel
  induction fuel with
  | zero =>
    intro a n s ha hl _
    have := (hI.lvl_le a n ha).1
    omega
  | succ fuel ih =>
    intro a n s ha hl hs
    rw [delete_level]
    cases n with
    | leaf l =>
      have h1 : g.lvl a = 1 := (hI.leaf a l ha).1
      obtain ⟨l', hl'⟩ := hS.2.2.2.1 a l ha
      have hsa : Live s a (.leaf l') := by
        unfold Live
        rw [hs a (InSub_self ha)]; exact hl'
      obtain ⟨s', e1, hD⟩ := delete_node_ok z hsa (fun h l0 e => by
        cases e
        exact hz h a l' hl')
      refine ⟨s', ?_, hD.congr (fun b => ?_)⟩
      · rw [delete_children, if_neg (by omega)]
        exact e1
      · constructor
        · exact fun h => InSub_leaf hI ha h
        · rintro rfl
          exact InSub_self ha
    | internal m =>
      obtain ⟨i1, i2, i3, _, _, i6⟩ := hI.internal a m ha
      have hf : fanout = 8 := rfl
      obtain ⟨s1, e1, hD1⟩ := delete_children_ok hI hS ha
        (fun s x => delete_level fuel s x (g.lvl a - 1)) z
        (fun i ci s' hi hci hs' => by
          obtain ⟨c', cn, c1, c2, c3, c4, _⟩ := i6 i hi
          rw [hci] at c1
          have hcc : ci = c' := Option.some.inj c1
          subst hcc
          have hlc : g.lvl a - 1 = g.lvl ci := by omega
          show ∃ s'', delete_level fuel s' (some ci) (g.lvl a - 1) = .ok s'' ∧ _
          rw [hlc]
          exact ih ci cn s' c2 (by omega) hs')
        s hs (m.nk_ + 1) 0 (fanout + 1) s (by omega) (by omega)
        ((Deleted.none z s).congr (fun b => by
          constructor
          · rintro ⟨j, cj, h, _⟩
            omega
          · exact fun h => h.elim))
      have hsa : Live s1 a (.internal m) := by
        unfold Live
        rw [(hD1.2.2.2.2.2.2.2 a).2 ?_, hs a (InSub_self ha)]
        · exact hS.2.2.1 a m ha
        · rintro ⟨j, cj, hj, hcj, hin⟩
          exact not_InSub_kid hI ha hj hcj hin
      obtain ⟨s2, e2, hD2⟩ := delete_node_ok z hsa (fun _ l0 e => by cases e)
      refine ⟨s2, ?_, hD1.comp hD2 (fun b => ?_)⟩
      · rw [e1]
        exact e2
      · rw [InSub_internal hI ha b]
        constructor
        · rintro (h | ⟨i, ci, h1, h2, h3⟩)
          · exact Or.inr h
          · exact Or.inl ⟨i, ci, h1, h2, h3⟩
        · rintro (⟨i, ci, h1, h2, h3⟩ | h)
          · exact Or.inr ⟨i, ci, h1, h2, h3⟩
          · exact Or.inl h

/-- With fuel for the height, `shallow_free` returns, has deleted every node and has
reset the tree to the empty state. -/
theorem shallow_free_ok (hI : InvG g t 0 none none) (hS : Shape t c) (z : Prop)
    (hz : z → ∀ b l, Live c b (.leaf l) → l.nk_ = 0) (fuel : Nat)
    (hfuel : t.nlevel_ ≤ fuel) :
    ∃ s', shallow_free fuel c = .ok s' ∧ s'.nk_ = 0 ∧ s'.nlevel_ = 0 ∧ s'.root_ = none ∧
      (∀ a n, ¬ Live s' a n) ∧ s'.n_key_copy = c.n_key_copy ∧ s'.n_merge = c.n_merge ∧
      c.n_reset ≤ s'.n_reset ∧ (z → s'.n_reset = c.n_reset) := by
  unfold shallow_free
  by_cases h0 : t.nlevel_ = 0
  · rw [if_pos (by rw [hS.1]; exact h0)]
    obtain ⟨a1, a2, a3, a4⟩ := hI.root0 h0
    have hdead : ∀ a n, ¬ Live c a n := by
      intro a n h
      obtain ⟨n', hn'⟩ := hS.2.2.2.2.1 a n h
      exact a4 a n' hn'
    have hr : c.root_ = none := by rw [hS.2.1]; exact a1
    have hl : c.nlevel_ = 0 := by rw [hS.1]; exact h0
    refine ⟨c, rfl, ?_, hl, hr, hdead, rfl, rfl, le_refl _, fun _ => rfl⟩
    rw [hS.2.2.2.2.2]; exact a2
  · rw [if_neg (by rw [hS.1]; exact h0)]
    obtain ⟨r, rn, r1, r2, r3, _⟩ := hI.root1 (by omega)
    obtain ⟨s1, e1, hD⟩ := delete_level_ok hI hS z hz fuel r rn c r2 (by omega)
      (fun _ _ => rfl)
    rw [hS.2.1, r1, hS.1, ← r3, e1]
    refine ⟨s1.init, rfl, rfl, rfl, rfl, ?_, hD.2.2.2.1, hD.2.2.2.2.1, hD.2.2.2.2.2.1,
      hD.2.2.2.2.2.2.1⟩
    intro a n h
    have h' : s1.heap[a]? = some (some n) := h
    by_cases hin : InSub g t r a
    · rw [(hD.2.2.2.2.2.2.2 a).1 hin] at h'
      cases h'
    · rw [(hD.2.2.2.2.2.2.2 a).2 hin] at h'
      obtain ⟨n', hn'⟩ := hS.2.2.2.2.1 a n h'
      exact hin (InSub_root hI r1 _ a n' hn' rfl)

end

theorem Cleared.shape {g : Ghost} {t c : btree_type} (hI : InvG g t 0 none none)
    (hC : Cleared g.chain t c) :
    Shape t c ∧ ∀ b l, Live c b (.leaf l) → l.nk_ = 0 := by
  obtain ⟨c1, c2, c3, c4, c5⟩ := hC
  refine ⟨⟨c2, c3, ?_, ?_, ?_, c1⟩, ?_⟩
  · intro b m hb
    unfold Live at hb ⊢
    rw [c5 b, hb]
    by_cases h : b ∈ g.chain
    · rw [if_pos h]; rfl
    · rw [if_neg h]
  · intro b l hb
    have hb' : t.heap[b]? = some (some (.leaf l)) := hb
    unfold Live
    rw [c5 b, hb']
    by_cases h : b ∈ g.chain
    · rw [if_pos h]; exact ⟨_, rfl⟩
    · rw [if_neg h]; exact ⟨_, rfl⟩
  · intro b n hb
    have hb' : c.heap[b]? = some (some n) := hb
    rw [c5 b] at hb'
    unfold Live
    by_cases h : b ∈ g.chain
    · rw [if_pos h] at hb'
      rcases hc : t.heap[b]? with _ | _ | n'
      · rw [hc] at hb'; cases hb'
      · rw [hc] at hb'; cases hb'
      · exact ⟨n', rfl⟩
    · rw [if_neg h] at hb'
      exact ⟨n, hb'⟩
  · intro b l hb
    have hb' : c.heap[b]? = some (some (.leaf l)) := hb
    rw [c5 b] at hb'
    by_cases h : b ∈ g.chain
    · rw [if_pos h] at hb'
      rcases hc : t.heap[b]? with _ | _ | n'
      · rw [hc] at hb'; cases hb'
      · rw [hc] at hb'; cases hb'
      · rw [hc] at hb'
        cases n' with
        | leaf l0 =>
          simp only [clear_cell, Option.some.injEq, btnode_base.leaf.injEq] at hb'
          rw [← hb']
        | internal m0 =>
          simp only [clear_cell, Option.some.injEq] at hb'
          cases hb'
    · rw [if_neg h] at hb'
      exact absurd (hI.leaf b l hb').2.2.2.2.2.2.2.2 h

/-- `transfer` into an empty destination: the entries in order, and the tree is empty
afterwards, every node deleted and no `reset()` run. -/
theorem transfer_ok {t : btree_type} {es : List PAIR} (hR : Rep t es) (fuel : Nat)
    (hfuel : es.length < fuel) (hlev : t.nlevel_ ≤ fuel) :
    ∃ t', transfer fuel t [] = .ok (t', es, es.length) ∧ t'.nk_ = 0 ∧ t'.nlevel_ = 0 ∧
      t'.root_ = none ∧ (∀ a n, ¬ Live t' a n) ∧ SameCnt t t' := by
  obtain ⟨c, g, e1, hI, _, _, hC⟩ := copy_traverse_ok hR true fuel hfuel
  have hC' := hC rfl
  obtain ⟨hS, hz⟩ := Cleared.shape hI hC'
  obtain ⟨s', e2, f1, f2, f3, f4, f5, f6, _, f8⟩ :=
    shallow_free_ok hI hS True (fun _ => hz) fuel hlev
  refine ⟨s', ?_, f1, f2, f3, f4, ?_⟩
  · unfold transfer
    rw [e1]
    simp only [ok_bind]
    rw [e2]
    rfl
  · obtain ⟨k1, k2, k3⟩ := hC'.2.2.2.1
    exact ⟨by rw [f5, k1], by rw [f6, k2], by rw [f8 trivial, k3]⟩

/-! ### The sorted association list -/

theorem mem_keys_abs_merge (k v hash : Nat) (x : Nat) : ∀ es : List PAIR,
    x ∈ (abs_merge k v hash es).map PAIR.key_ ↔ x = k ∨ x ∈ es.map PAIR.key_
  | [] => by simp [abs_merge]
  | p :: ps => by
    have ih := mem_keys_abs_merge k v hash x ps
    unfold abs_merge
    by_cases h1 : k < p.key_
    · rw [if_pos h1]
      simp
    · rw [if_neg h1]
      by_cases h2 : k = p.key_
      · rw [if_pos h2]
        simp only [List.map_cons, List.mem_cons, PAIR.map_value_insert]
        rw [h2]
        tauto
      · rw [if_neg h2]
        simp only [List.map_cons, List.mem_cons, ih]
        tauto

theorem sorted_abs_merge (k v hash : Nat) : ∀ es : List PAIR,
    (es.map PAIR.key_).Pairwise (fun x y => x < y) →
    ((abs_merge k v hash es).map PAIR.key_).Pairwise (fun x y => x < y)
  | [], _ => by simp [abs_merge]
  | p :: ps, hs => by
    have ih := sorted_abs_merge k v hash ps
    rw [List.map_cons, List.pairwise_cons] at hs
    unfold abs_merge
    by_cases h1 : k < p.key_
    · rw [if_pos h1]
      simp only [List.map_cons, List.pairwise_cons, List.mem_cons]
      refine ⟨?_, hs⟩
      rintro y (rfl | hy)
      · exact h1
      · exact lt_trans h1 (hs.1 y hy)
    · rw [if_neg h1]
      by_cases h2 : k = p.key_
      · rw [if_pos h2]
        simp only [List.map_cons, List.pairwise_cons, PAIR.map_value_insert]
        exact hs
      · rw [if_neg h2]
        simp only [List.map_cons, List.pairwise_cons]
        refine ⟨?_, ih hs.2⟩
        intro y hy
        rcases (mem_keys_abs_merge k v hash y ps).1 hy with rfl | hy'
        · omega
        · exact hs.1 y hy'

theorem mem_abs_raw (q x : PAIR) : ∀ es : List PAIR, x ∈ abs_raw q es ↔ x = q ∨ x ∈ es
  | [] => by simp [abs_raw]
  | p :: ps => by
    have ih := mem_abs_raw q x ps
    unfold abs_raw
    by_cases h1 : p.key_ < q.key_
    · rw [if_pos h1]
      simp only [List.mem_cons, ih]
      tauto
    · rw [if_neg h1]
      simp

theorem mem_keys_abs_raw (q : PAIR) (x : Nat) (es : List PAIR) :
    x ∈ (abs_raw q es).map PAIR.key_ ↔ x = q.key_ ∨ x ∈ es.map PAIR.key_ := by
  simp only [List.mem_map, mem_abs_raw]
  constructor
  · rintro ⟨p, rfl | hp, rfl⟩
    · exact Or.inl rfl
    · exact Or.inr ⟨p, hp, rfl⟩
  · rintro (rfl | ⟨p, hp, rfl⟩)
    · exact ⟨q, Or.inl rfl, rfl⟩
    · exact ⟨p, Or.inr hp, rfl⟩

theorem sorted_abs_raw (q : PAIR) : ∀ es : List PAIR,
    (es.map PAIR.key_).Pairwise (fun x y => x < y) → q.key_ ∉ es.map PAIR.key_ →
    ((abs_raw q es).map PAIR.key_).Pairwise (fun x y => x < y)
  | [], _, _ => by simp [abs_raw]
  | p :: ps, hs, hq => by
    have ih := sorted_abs_raw q ps
    rw [List.map_cons, List.pairwise_cons] at hs
    rw [List.map_cons, List.mem_cons, not_or] at hq
    unfold abs_raw
    by_cases h1 : p.key_ < q.key_
    · rw [if_pos h1]
      simp only [List.map_cons, List.pairwise_cons]
      refine ⟨?_, ih hs.2 hq.2⟩
      intro y hy
      rcases (mem_keys_abs_raw q y ps).1 hy with rfl | hy'
      · exact h1
      · exact hs.1 y hy'
    · rw [if_neg h1]
      simp only [List.map_cons, List.pairwise_cons, List.mem_cons]
      have h2 : q.key_ < p.key_ := by
        have := hq.1
        omega
      refine ⟨?_, hs⟩
      rintro y (rfl | hy)
      · exact h2
      · exact lt_trans h2 (hs.1 y hy)

theorem length_abs_raw (q : PAIR) : ∀ es : List PAIR, (abs_raw q es).length = es.length + 1
  | [] => rfl
  | p :: ps => by
    unfold abs_raw
    by_cases h1 : p.key_ < q.key_
    · rw [if_pos h1, List.length_cons, length_abs_raw q ps, List.length_cons]
    · rw [if_neg h1]
      rfl

theorem keys_abs_merge_present (k v hash : Nat) : ∀ es : List PAIR,
    (es.map PAIR.key_).Pairwise (fun x y => x < y) → k ∈ es.map PAIR.key_ →
    (abs_merge k v hash es).map PAIR.key_ = es.map PAIR.key_
  | [], _, hk => by simp at hk
  | p :: ps, hs, hk => by
    rw [List.map_cons, List.pairwise_cons] at hs
    rw [List.map_cons, List.mem_cons] at hk
    unfold abs_merge
    by_cases h1 : k < p.key_
    · exfalso
      rcases hk with rfl | hk
      · omega
      · have := hs.1 k hk
        omega
    · rw [if_neg h1]
      by_cases h2 : k = p.key_
      · rw [if_pos h2]
        rfl
      · rw [if_neg h2, List.map_cons, List.map_cons,
          keys_abs_merge_present k v hash ps hs.2 (hk.resolve_left h2)]

theorem length_abs_merge (k v hash : Nat) (es : List PAIR)
    (hs : (es.map PAIR.key_).Pairwise (fun x y => x < y)) :
    (abs_merge k v hash es).length =
      es.length + (if k ∈ es.map PAIR.key_ then 0 else 1) := by
  by_cases hk : k ∈ es.map PAIR.key_
  · rw [if_pos hk]
    have := congrArg List.length (keys_abs_merge_present k v hash es hs hk)
    simpa using this
  · rw [if_neg hk, abs_merge_absent k v hash es hk, length_abs_raw]

theorem sum_size_abs_merge (k v hash : Nat) : ∀ es : List PAIR,
    ((abs_merge k v hash es).map PAIR.size).sum = (es.map PAIR.size).sum + 1
  | [] => rfl
  | p :: ps => by
    unfold abs_merge
    by_cases h1 : k < p.key_
    · rw [if_pos h1]
      simp [PAIR.size]
      omega
    · rw [if_neg h1]
      by_cases h2 : k = p.key_
      · rw [if_pos h2]
        simp [PAIR.size, PAIR.map_value_insert]
        omega
      · rw [if_neg h2, List.map_cons, List.sum_cons, sum_size_abs_merge k v hash ps,
          List.map_cons, List.sum_cons]
        omega

/-- Where an entry of the list after a merge call comes from. -/
theorem mem_abs_merge (k v hash : Nat) (x : PAIR) : ∀ es : List PAIR,
    (es.map PAIR.key_).Pairwise (fun x y => x < y) → x ∈ abs_merge k v hash es →
    (x ∈ es ∧ x.key_ ≠ k) ∨
    (k ∉ es.map PAIR.key_ ∧ x = { key_ := k, hash := hash, vals := [v] }) ∨
    (∃ q ∈ es, q.key_ = k ∧ x = q.map_value_insert v)
  | [], _, hx => by
    right; left
    simp only [abs_merge, List.mem_singleton] at hx
    exact ⟨by simp, hx⟩
  | p :: ps, hs, hx => by
    rw [List.map_cons, List.pairwise_cons] at hs
    unfold abs_merge at hx
    by_cases h1 : k < p.key_
    · rw [if_pos h1, List.mem_cons] at hx
      have hk : k ∉ (p :: ps).map PAIR.key_ := by
        rw [List.map_cons, List.mem_cons, not_or]
        refine ⟨by omega, fun h => ?_⟩
        have := hs.1 k h
        omega
      rcases hx with rfl | hx
      · exact Or.inr (Or.inl ⟨hk, rfl⟩)
      · left
        refine ⟨hx, fun h => hk ?_⟩
        rw [← h]
        exact List.mem_map_of_mem _ hx
    · rw [if_neg h1] at hx
      by_cases h2 : k = p.key_
      · rw [if_pos h2, List.mem_cons] at hx
        rcases hx with rfl | hx
        · exact Or.inr (Or.inr ⟨p, List.mem_cons_self _ _, h2.symm, rfl⟩)
        · left
          refine ⟨List.mem_cons_of_mem _ hx, fun h => ?_⟩
          have := hs.1 x.key_ (List.mem_map_of_mem _ hx)
          omega
      · rw [if_neg h2, List.mem_cons] at hx
        rcases hx with rfl | hx
        · left
          exact ⟨List.mem_cons_self _ _, fun h => h2 h.symm⟩
        · rcases mem_abs_merge k v hash x ps hs.2 hx with ⟨a1, a2⟩ | ⟨a1, a2⟩ | ⟨q, a1, a2, a3⟩
          · exact Or.inl ⟨List.mem_cons_of_mem _ a1, a2⟩
          · right; left
            refine ⟨?_, a2⟩
            rw [List.map_cons, List.mem_cons, not_or]
            exact ⟨h2, a1⟩
          · exact Or.inr (Or.inr ⟨q, List.mem_cons_of_mem _ a1, a2, a3⟩)

theorem contributions_append (k : Nat) (l : List (Nat × Nat × Nat × Nat))
    (c : Nat × Nat × Nat × Nat) :
    contributions k (l ++ [c]) = contributions k l ++ (if c.1 = k then [c.2.1] else []) := by
  unfold contributions
  rw [List.filter_append, List.map_append]
  congr 1
  by_cases h : c.1 = k
  · simp [h]
  · simp [h]

theorem contributions_nil_of_not_mem (k : Nat) (l : List (Nat × Nat × Nat × Nat))
    (h : k ∉ l.map (fun c => c.1)) : contributions k l = [] := by
  unfold contributions
  rw [List.map_eq_nil_iff, List.filter_eq_nil_iff]
  intro c hc hk
  apply h
  rw [List.mem_map]
  exact ⟨c, hc, by simpa using hk⟩

theorem merge_calls_append (l : List (Nat × Nat × Nat × Nat)) (c : Nat × Nat × Nat × Nat) :
    merge_calls (l ++ [c]) = merge_calls l ++ [Call.merge c.1 c.2.1 c.2.2.1 c.2.2.2] := by
  simp [merge_calls]

theorem abs_calls_append (es : List PAIR) (cs : List Call) (c : Call) :
    abs_calls es (cs ++ [c]) = abs_call (abs_calls es cs) c := by
  simp [abs_calls, List.foldl_append]

/-- The sorted list after a sequence of merge calls: sorted keys, the keys passed, each
entry with the contributions passed for its key in call order, and as many contributions
in all as calls. -/
theorem abs_merge_calls (l : List (Nat × Nat × Nat × Nat)) :
    ((abs_calls [] (merge_calls l)).map PAIR.key_).Pairwise (fun x y => x < y) ∧
    (∀ k, k ∈ (abs_calls [] (merge_calls l)).map PAIR.key_ ↔ k ∈ l.map (fun c => c.1)) ∧
    (∀ p ∈ abs_calls [] (merge_calls l), p.vals = contributions p.key_ l) ∧
    ((abs_calls [] (merge_calls l)).map PAIR.size).sum = l.length ∧
    (abs_calls [] (merge_calls l)).length ≤ l.length := by
  induction l using List.reverseRecOn with
  | nil => simp [merge_calls, abs_calls, contributions]
  | append_singleton l c ih =>
    obtain ⟨h1, h2, h3, h4, h5⟩ := ih
    rw [merge_calls_append, abs_calls_append]
    simp only [abs_call]
    set es := abs_calls [] (merge_calls l) with hes
    refine ⟨sorted_abs_merge _ _ _ es h1, ?_, ?_, ?_, ?_⟩
    · intro k
      rw [mem_keys_abs_merge, h2 k, List.map_append, List.mem_append]
      simp only [List.map_cons, List.map_nil, List.mem_singleton]
      tauto
    · intro p hp
      rw [contributions_append]
      rcases mem_abs_merge _ _ _ p es h1 hp with ⟨a1, a2⟩ | ⟨a1, a2⟩ | ⟨q, a1, a2, a3⟩
      · rw [if_neg (fun h => a2 h.symm), List.append_nil]
        exact h3 p a1
      · rw [a2]
        simp only [if_true]
        rw [contributions_nil_of_not_mem _ l (fun h => a1 ((h2 _).2 h))]
        rfl
      · rw [a3]
        simp only [PAIR.map_value_insert, a2, if_true]
        rw [h3 q a1, a2]
    · rw [sum_size_abs_merge, h4, List.length_append]
      rfl
    · rw [length_abs_merge _ _ _ es h1, List.length_append]
      simp only [List.length_singleton]
      split_ifs <;> omega

/-! ### Runs of calls -/

theorem Rep_init : Rep init [] :=
  Rep.of_dead rfl rfl rfl (fun a n h => by simp [Live, init] at h)

theorem Stored_iff {t : btree_type} {es : List PAIR} (hR : Rep t es) (p : PAIR) :
    Stored t p ↔ p ∈ es := by
  obtain ⟨g, hI, rfl⟩ := hR
  constructor
  · rintro ⟨a, l, ha, hp⟩
    have hmem := (hI.leaf a l ha).2.2.2.2.2.2.2.2
    simp only [content, List.mem_flatMap]
    exact ⟨a, hmem, by rw [live_at_leaf ha]; exact hp⟩
  · intro hp
    obtain ⟨b, hb, hx⟩ := mem_content hp
    obtain ⟨l, hl⟩ := Linked_mem hI.chain_link b hb
    rw [live_at_leaf hl] at hx
    exact ⟨b, l, hl, hx⟩

theorem HasKey_iff {t : btree_type} {es : List PAIR} (hR : Rep t es) (k : Nat) :
    HasKey t k ↔ k ∈ es.map PAIR.key_ := by
  simp only [HasKey, Stored_iff hR, List.mem_map]

theorem leaf_nonempty {t : btree_type} {es : List PAIR} (hR : Rep t es) (a : Nat)
    (l : btnode_leaf) (ha : Live t a (.leaf l)) : 1 ≤ l.nk_ := by
  obtain ⟨g, hI, rfl⟩ := hR
  exact (hI.leaf a l ha).2.2.1

theorem apply_merge_eq {fuel : Nat} {t t' : btree_type} {k v keylen hash r : Nat}
    (h : map_insert_sorted_copy_on_new fuel t k v keylen hash = .ok (t', r)) :
    apply_call fuel t (.merge k v keylen hash) = .ok t' := by
  simp only [apply_call, h, ok_bind]
  rfl

theorem run_cons_ok {fuel : Nat} {t t1 : btree_type} {c : Call} (cs : List Call)
    (h : apply_call fuel t c = .ok t1) :
    run_calls fuel t (c :: cs) = run_calls fuel t1 cs := by
  simp only [run_calls, h, ok_bind]

theorem run_cons_error {fuel : Nat} {t : btree_type} {c : Call} {e : Fault} (cs : List Call)
    (h : apply_call fuel t c = .error e) :
    run_calls fuel t (c :: cs) = .error e := by
  simp only [run_calls, h]
  rfl

/-- A run of calls that returns ends in a tree for the sorted list the calls build. -/
theorem run_calls_ok : ∀ (cs : List Call) (t : btree_type) (es : List PAIR) (fuel : Nat)
    (t' : btree_type), Rep t es → (es.map PAIR.key_).Pairwise (fun x y => x < y) →
    t.nlevel_ + cs.length ≤ fuel → run_calls fuel t cs = .ok t' →
    Rep t' (abs_calls es cs) ∧
      ((abs_calls es cs).map PAIR.key_).Pairwise (fun x y => x < y) ∧
      t'.nlevel_ ≤ t.nlevel_ + cs.length
  | [], t, es, fuel, t', hR, hs, _, h => by
    have ht : t = t' := by
      simp only [run_calls, Except.ok.injEq] at h
      exact h
    subst ht
    exact ⟨hR, hs, le_refl _⟩
  | c :: cs, t, es, fuel, t', hR, hs, hf, h => by
    rw [List.length_cons] at hf
    cases c with
    | merge k v keylen hash =>
      obtain ⟨t1, e1, hR1, _, _, _, _, hl⟩ := merge_ok hR fuel (by omega) k v keylen hash
      rw [run_cons_ok cs (apply_merge_eq e1)] at h
      obtain ⟨a1, a2, a3⟩ := run_calls_ok cs t1 _ fuel t' hR1 (sorted_abs_merge k v hash es hs)
        (by omega) h
      refine ⟨a1, a2, ?_⟩
      rw [List.length_cons]
      omega
    | raw p =>
      obtain ⟨r1, r2⟩ := raw_ok hR fuel (by omega) p
      by_cases hk : p.key_ ∈ es.map PAIR.key_
      · rw [run_cons_error cs (show apply_call fuel t (.raw p) = .error .assert_fail from
          r1 hk)] at h
        cases h
      · obtain ⟨t1, e1, hR1, _, _, hl⟩ := r2 hk
        rw [run_cons_ok cs (show apply_call fuel t (.raw p) = .ok t1 from e1)] at h
        obtain ⟨a1, a2, a3⟩ := run_calls_ok cs t1 _ fuel t' hR1 (sorted_abs_raw p es hs hk)
          (by omega) h
        refine ⟨a1, a2, ?_⟩
        rw [List.length_cons]
        omega

/-- A run of merge calls returns. -/
theorem run_merge_ok : ∀ (l : List (Nat × Nat × Nat × Nat)) (t : btree_type) (es : List PAIR)
    (fuel : Nat), Rep t es → t.nlevel_ + l.length ≤ fuel →
    ∃ t', run_calls fuel t (merge_calls l) = .ok t' ∧ t'.n_merge = t.n_merge + l.length ∧
      t'.n_reset = t.n_reset
  | [], t, es, fuel, _, _ => ⟨t, rfl, rfl, rfl⟩
  | c :: l, t, es, fuel, hR, hf => by
    rw [List.length_cons] at hf
    obtain ⟨t1, e1, hR1, _, a1, a2, _, hl⟩ := merge_ok hR fuel (by omega) c.1 c.2.1 c.2.2.1 c.2.2.2
    obtain ⟨t', e2, b1, b2⟩ := run_merge_ok l t1 _ fuel hR1 (by omega)
    refine ⟨t', ?_, ?_, ?_⟩
    · show run_calls fuel t (Call.merge c.1 c.2.1 c.2.2.1 c.2.2.2 :: merge_calls l) = _
      rw [run_cons_ok _ (apply_merge_eq e1)]
      exact e2
    · rw [b1, a1, List.length_cons]
      omega
    · rw [b2, a2]

/-- The tree after a sequence of merge calls on the initial tree. -/
theorem merge_run (l : List (Nat × Nat × Nat × Nat)) (fuel : Nat) (hfuel : l.length < fuel) :
    ∃ t, run_calls fuel init (merge_calls l) = .ok t ∧
      Rep t (abs_calls [] (merge_calls l)) ∧ t.n_merge = l.length ∧ t.n_reset = 0 := by
  have hlen : (merge_calls l).length = l.length := by simp [merge_calls]
  obtain ⟨t, e, a1, a2⟩ := run_merge_ok l init [] fuel Rep_init
    (by show 0 + l.length ≤ fuel; omega)
  obtain ⟨b1, _, _⟩ := run_calls_ok (merge_calls l) init [] fuel t Rep_init (by simp)
    (by rw [hlen]; show 0 + l.length ≤ fuel; omega) e
  refine ⟨t, e, b1, ?_, a2⟩
  rw [a1]
  show 0 + l.length = l.length
  omega

/-- A reachable tree represents a list with strictly increasing keys. -/
theorem Reachable.rep {t : btree_type} (h : Reachable t) :
    ∃ es, Rep t es ∧ (es.map PAIR.key_).Pairwise (fun x y => x < y) := by
  obtain ⟨cs, fuel, hf, hrun⟩ := h
  obtain ⟨a1, a2, _⟩ := run_calls_ok cs init [] fuel t Rep_init (by simp)
    (by show 0 + cs.length ≤ fuel; omega) hrun
  exact ⟨_, a1, a2⟩

theorem foldl_map_value_insert (vs : List Nat) : ∀ p : PAIR,
    vs.foldl PAIR.map_value_insert p = { p with vals := p.vals ++ vs } := by
  induction vs with
  | nil => intro p; simp
  | cons v vs ih =>
    intro p
    rw [List.foldl_cons, ih]
    simp [PAIR.map_value_insert]

theorem keys_eq_sort {ks l : List Nat} (hs : ks.Pairwise (fun x y => x < y))
    (hm : ∀ k, k ∈ ks ↔ k ∈ l) : ks = l.toFinset.sort (fun x y => x ≤ y) := by
  have hnd : ks.Nodup := hs.imp (fun h => Nat.ne_of_lt h)
  have h1 : ks.Perm (l.toFinset.sort (fun x y => x ≤ y)) := by
    rw [List.perm_ext_iff_of_nodup hnd (Finset.sort_nodup _ _)]
    intro a
    rw [Finset.mem_sort, List.mem_toFinset, hm a]
  have h2 : ks.Sorted (fun x y => x ≤ y) := hs.imp (fun h => Nat.le_of_lt h)
  exact List.eq_of_perm_of_sorted h1 h2 (Finset.sort_sorted _ _)

theorem length_eq_dedup {ks l : List Nat} (hs : ks.Pairwise (fun x y => x < y))
    (hm : ∀ k, k ∈ ks ↔ k ∈ l) : ks.length = l.dedup.length := by
  have hnd : ks.Nodup := hs.imp (fun h => Nat.ne_of_lt h)
  apply List.Perm.length_eq
  rw [List.perm_ext_iff_of_nodup hnd (List.nodup_dedup l)]
  intro a
  rw [List.mem_dedup, hm a]

/-! ## Properties of the public operations -/

/-- C1: after any finite sequence of `map_insert_sorted_copy_on_new` calls on a tree
after `init()` (keys in any order, repeats allowed), the run returns, and walking an
iterator from `begin()` to `end()` visits exactly the live entries of the leaves, with
strictly increasing keys; so no key is in two leaf entries. -/
theorem iteration_strictly_increasing (l : List (Nat × Nat × Nat × Nat)) (fuel : Nat)
    (hfuel : l.length < fuel) :
    ∃ t es, run_calls fuel init (merge_calls l) = .ok t ∧ walk fuel t = .ok es ∧
      (es.map PAIR.key_).Pairwise (fun x y => x < y) ∧ (es.map PAIR.key_).Nodup ∧
      ∀ p, Stored t p ↔ p ∈ es := by
  obtain ⟨t, e, hR, _, _⟩ := merge_run l fuel hfuel
  obtain ⟨h1, _, _, _, h5⟩ := abs_merge_calls l
  refine ⟨t, _, e, walk_ok hR fuel (by omega), h1, h1.imp (fun h => Nat.ne_of_lt h),
    Stored_iff hR⟩

theorem iteration_strictly_increasing_witness :
    sample_merges.length < 5 ∧
    ∃ t es, run_calls 5 init (merge_calls sample_merges) = .ok t ∧ walk 5 t = .ok es ∧
      (es.map PAIR.key_).Pairwise (fun x y => x < y) ∧ (es.map PAIR.key_).Nodup ∧
      ∀ p, Stored t p ↔ p ∈ es :=
  ⟨by decide, iteration_strictly_increasing sample_merges 5 (by decide)⟩

/-- C2: after any sequence of `map_insert_sorted_copy_on_new` calls on a freshly
initialised tree, the keys met by iterating `begin()..end()` are exactly the keys passed
to the calls: none is lost, no other appears, and the iteration is the sorted list of the
distinct keys passed. -/
theorem iterated_keys_are_inserted_keys (l : List (Nat × Nat × Nat × Nat)) (fuel : Nat)
    (hfuel : l.length < fuel) :
    ∃ t es, run_calls fuel init (merge_calls l) = .ok t ∧ walk fuel t = .ok es ∧
      (∀ k, k ∈ es.map PAIR.key_ ↔ k ∈ l.map (fun c => c.1)) ∧
      es.map PAIR.key_ = (l.map (fun c => c.1)).toFinset.sort (fun x y => x ≤ y) := by
  obtain ⟨t, e, hR, _, _⟩ := merge_run l fuel hfuel
  obtain ⟨h1, h2, _, _, h5⟩ := abs_merge_calls l
  exact ⟨t, _, e, walk_ok hR fuel (by omega), h2, keys_eq_sort h1 h2⟩

theorem iterated_keys_are_inserted_keys_witness :
    split_merges.length < 11 ∧
    ∃ t es, run_calls 11 init (merge_calls split_merges) = .ok t ∧ walk 11 t = .ok es ∧
      (∀ k, k ∈ es.map PAIR.key_ ↔ k ∈ split_merges.map (fun c => c.1)) ∧
      es.map PAIR.key_ =
        (split_merges.map (fun c => c.1)).toFinset.sort (fun x y => x ≤ y) :=
  ⟨by decide, iterated_keys_are_inserted_keys split_merges 11 (by decide)⟩

/-- C3: on a tree reachable by insertions, `map_insert_sorted_copy_on_new(k, v, keylen,
hash)` returns, and its result is nonzero iff no leaf of the tree held an entry with key
`k`; when it is nonzero `size()` grows by one and `key_copy` runs once, when it is zero
`size()` is unchanged, `key_copy` does not run and the stored keys are the same. -/
theorem insert_reports_new_key (t : btree_type) (hR : Reachable t) (k v keylen hash : Nat)
    (fuel : Nat) (hfuel : t.nlevel_ ≤ fuel) :
    ∃ t' r, map_insert_sorted_copy_on_new fuel t k v keylen hash = .ok (t', r) ∧
      (r ≠ 0 ↔ ¬ HasKey t k) ∧
      (r ≠ 0 → t'.size = t.size + 1 ∧ t'.n_key_copy = t.n_key_copy + 1) ∧
      (r = 0 → t'.size = t.size ∧ t'.n_key_copy = t.n_key_copy ∧
        ∀ k', HasKey t' k' ↔ HasKey t k') := by
  obtain ⟨es, hRep, hs⟩ := hR.rep
  obtain ⟨t', e, hR', hkc, _, _, _, _⟩ := merge_ok hRep fuel hfuel k v keylen hash
  have hlen := length_abs_merge k v hash es hs
  have hsz : t'.size = (abs_merge k v hash es).length := hR'.size
  have hsz0 : t.size = es.length := hRep.size
  refine ⟨t', _, e, ?_, ?_, ?_⟩
  · rw [HasKey_iff hRep]
    by_cases hk : k ∈ es.map PAIR.key_
    · simp [hk]
    · simp [hk]
  · intro hr
    by_cases hk : k ∈ es.map PAIR.key_
    · rw [if_pos hk] at hr
      exact absurd rfl hr
    · rw [if_neg hk] at hlen hkc
      exact ⟨by rw [hsz, hsz0, hlen], hkc⟩
  · intro hr
    by_cases hk : k ∈ es.map PAIR.key_
    · rw [if_pos hk] at hlen hkc
      refine ⟨by rw [hsz, hsz0, hlen, Nat.add_zero], hkc, fun k' => ?_⟩
      rw [HasKey_iff hRep, HasKey_iff hR', keys_abs_merge_present k v hash es hs hk]
    · rw [if_neg hk] at hr
      cases hr

theorem insert_reports_new_key_witness :
    Reachable (tree_of (merge_calls split_merges)) ∧
    (tree_of (merge_calls split_merges)).nlevel_ ≤ 2 ∧
    ∃ t' r, map_insert_sorted_copy_on_new 2 (tree_of (merge_calls split_merges)) 4 41 1 0 =
        .ok (t', r) ∧
      (r ≠ 0 ↔ ¬ HasKey (tree_of (merge_calls split_merges)) 4) ∧
      (r ≠ 0 → t'.size = (tree_of (merge_calls split_merges)).size + 1 ∧
        t'.n_key_copy = (tree_of (merge_calls split_merges)).n_key_copy + 1) ∧
      (r = 0 → t'.size = (tree_of (merge_calls split_merges)).size ∧
        t'.n_key_copy = (tree_of (merge_calls split_merges)).n_key_copy ∧
        ∀ k', HasKey t' k' ↔ HasKey (tree_of (merge_calls split_merges)) k') :=
  ⟨⟨merge_calls split_merges, 11, by decide, rfl⟩, by decide,
    insert_reports_new_key (tree_of (merge_calls split_merges))
      ⟨merge_calls split_merges, 11, by decide, rfl⟩ 4 41 1 0 2 (by decide)⟩

/-- C4: on a tree reachable by insertions (merge-or-insert or raw), advancing an iterator
from `begin()` until it equals `end()` returns without reaching `assert(0)`, visits
`size()` entries, and no leaf of the tree is empty. -/
theorem size_is_walk_length (t : btree_type) (hR : Reachable t) (fuel : Nat)
    (hfuel : t.size < fuel) :
    ∃ es, walk fuel t = .ok es ∧ t.size = es.length ∧
      ∀ a l, Live t a (.leaf l) → 1 ≤ l.nk_ := by
  obtain ⟨es, hRep, _⟩ := hR.rep
  have hsz : t.size = es.length := hRep.size
  exact ⟨es, walk_ok hRep fuel (by omega), hsz, leaf_nonempty hRep⟩

theorem size_is_walk_length_witness :
    Reachable (tree_of (merge_calls split_merges)) ∧
    (tree_of (merge_calls split_merges)).size < 11 ∧
    ∃ es, walk 11 (tree_of (merge_calls split_merges)) = .ok es ∧
      (tree_of (merge_calls split_merges)).size = es.length ∧
      ∀ a l, Live (tree_of (merge_calls split_merges)) a (.leaf l) → 1 ≤ l.nk_ :=
  ⟨⟨merge_calls split_merges, 11, by decide, rfl⟩, by decide,
    size_is_walk_length (tree_of (merge_calls split_merges))
      ⟨merge_calls split_merges, 11, by decide, rfl⟩ 11 (by decide)⟩

/-- C5, as amended: after a sequence of `map_insert_sorted_copy_on_new` calls on the
initial tree, `test_get_nvalue()` returns the number of calls (every call merges one
contribution), while `size()` is the number of distinct keys passed; so `size()` is at
most `test_get_nvalue()`, and they are equal exactly when no key was passed twice. -/
theorem nvalue_counts_calls (l : List (Nat × Nat × Nat × Nat)) (fuel : Nat)
    (hfuel : l.length < fuel) :
    ∃ t, run_calls fuel init (merge_calls l) = .ok t ∧
      test_get_nvalue fuel t = .ok l.length ∧
      t.size = (l.map (fun c => c.1)).dedup.length ∧ t.size ≤ l.length ∧
      (t.size = l.length ↔ (l.map (fun c => c.1)).Nodup) := by
  obtain ⟨t, e, hR, _, _⟩ := merge_run l fuel hfuel
  obtain ⟨h1, h2, _, h4, h5⟩ := abs_merge_calls l
  have hsz : t.size = (abs_calls [] (merge_calls l)).length := hR.size
  have hd := length_eq_dedup h1 h2
  rw [List.length_map] at hd
  have hnv := nvalue_ok hR fuel (by omega)
  rw [h4] at hnv
  refine ⟨t, e, hnv, by rw [hsz, hd], by rw [hsz]; exact h5, ?_⟩
  rw [hsz, hd]
  constructor
  · intro h
    have hsub : (l.map (fun c => c.1)).dedup.Sublist (l.map (fun c => c.1)) :=
      List.dedup_sublist _
    have heq := hsub.eq_of_length (by rw [h, List.length_map])
    rw [← heq]
    exact List.nodup_dedup _
  · intro h
    rw [h.dedup, List.length_map]

theorem nvalue_counts_calls_witness :
    sample_merges.length < 5 ∧
    ∃ t, run_calls 5 init (merge_calls sample_merges) = .ok t ∧
      test_get_nvalue 5 t = .ok sample_merges.length ∧
      t.size = (sample_merges.map (fun c => c.1)).dedup.length ∧
      t.size ≤ sample_merges.length ∧
      (t.size = sample_merges.length ↔ (sample_merges.map (fun c => c.1)).Nodup) :=
  ⟨by decide, nvalue_counts_calls sample_merges 5 (by decide)⟩

/-- C5, the counterexample: two calls with the same key leave a tree whose `size()` is 1
while `test_get_nvalue()` returns 2. -/
theorem size_differs_from_nvalue :
    ∃ t, run_calls 3 init (merge_calls [(1, 10, 1, 7), (1, 20, 1, 7)]) = .ok t ∧
      t.size = 1 ∧ test_get_nvalue 3 t = .ok 2 :=
  ⟨_, rfl, rfl, rfl⟩

theorem copy_ok {t : btree_type} {es : List PAIR} (hR : Rep t es) (fuel : Nat)
    (hfuel : es.length < fuel) : copy fuel t [] = .ok (t, es, es.length) := by
  obtain ⟨t', g, e, _, _, h, _⟩ := copy_traverse_ok hR false fuel hfuel
  rw [h rfl] at e
  exact e

theorem copy_traverse_nonempty (fuel : Nat) (t : btree_type) (dst : List PAIR)
    (clear : Bool) (h : dst ≠ []) : copy_traverse fuel t dst clear = .error .assert_fail := by
  unfold copy_traverse
  rw [if_pos (by
    intro h0
    exact h (List.length_eq_zero.1 h0))]

theorem transfer_nonempty (fuel : Nat) (t : btree_type) (dst : List PAIR) (h : dst ≠ []) :
    transfer fuel t dst = .error .assert_fail := by
  unfold transfer
  rw [copy_traverse_nonempty fuel t dst true h]
  rfl

theorem begin_of_empty {t : btree_type} (h : t.nk_ = 0) : t.begin = .ok t.end_ := by
  unfold btree_type.begin first_leaf
  rw [if_pos h]
  rfl

/-- C6: after any sequence of `map_insert_sorted_copy_on_new` calls on an initialised
tree, every key passed has an entry, and the entry stored for a key is what the merge
hook `map_value_insert` makes of a freshly initialised pair when applied once per call
with that key, with the contributions of those calls in call order. -/
theorem entry_merges_contributions (l : List (Nat × Nat × Nat × Nat)) (fuel : Nat)
    (hfuel : l.length < fuel) :
    ∃ t es, run_calls fuel init (merge_calls l) = .ok t ∧ walk fuel t = .ok es ∧
      (∀ p, Stored t p ↔ p ∈ es) ∧
      (∀ c ∈ l, ∃ p ∈ es, p.key_ = c.1) ∧
      ∀ p ∈ es, p = (contributions p.key_ l).foldl PAIR.map_value_insert
        { p.init with key_ := p.key_, hash := p.hash } := by
  obtain ⟨t, e, hR, _, _⟩ := merge_run l fuel hfuel
  obtain ⟨h1, h2, h3, _, h5⟩ := abs_merge_calls l
  refine ⟨t, _, e, walk_ok hR fuel (by omega), Stored_iff hR, ?_, ?_⟩
  · intro c hc
    have := (h2 c.1).2 (List.mem_map_of_mem _ hc)
    obtain ⟨p, hp, hk⟩ := List.mem_map.1 this
    exact ⟨p, hp, hk⟩
  · intro p hp
    rw [foldl_map_value_insert, ← h3 p hp]
    simp [PAIR.init]

theorem entry_merges_contributions_witness :
    sample_merges.length < 5 ∧
    ∃ t es, run_calls 5 init (merge_calls sample_merges) = .ok t ∧ walk 5 t = .ok es ∧
      (∀ p, Stored t p ↔ p ∈ es) ∧
      (∀ c ∈ sample_merges, ∃ p ∈ es, p.key_ = c.1) ∧
      ∀ p ∈ es, p = (contributions p.key_ sample_merges).foldl PAIR.map_value_insert
        { p.init with key_ := p.key_, hash := p.hash } :=
  ⟨by decide, entry_merges_contributions sample_merges 5 (by decide)⟩

/-- C7: on a tree reachable by insertions, `copy(dst)` with an empty `dst` returns
`size()`, leaves in `dst` exactly the entries an iterator visits from `begin()` to
`end()`, position by position and in ascending key order, and leaves the tree as it
was. -/
theorem copy_snapshot (t : btree_type) (hR : Reachable t) (fuel : Nat)
    (hfuel : t.size < fuel) :
    ∃ es, walk fuel t = .ok es ∧ copy fuel t [] = .ok (t, es, t.size) ∧
      es.length = t.size ∧ (es.map PAIR.key_).Pairwise (fun x y => x < y) := by
  obtain ⟨es, hRep, hs⟩ := hR.rep
  have hsz : t.size = es.length := hRep.size
  refine ⟨es, walk_ok hRep fuel (by omega), ?_, hsz.symm, hs⟩
  rw [hsz]
  exact copy_ok hRep fuel (by omega)

theorem copy_snapshot_witness :
    Reachable (tree_of (merge_calls split_merges)) ∧
    (tree_of (merge_calls split_merges)).size < 11 ∧
    ∃ es, walk 11 (tree_of (merge_calls split_merges)) = .ok es ∧
      copy 11 (tree_of (merge_calls split_merges)) [] =
        .ok (tree_of (merge_calls split_merges), es,
          (tree_of (merge_calls split_merges)).size) ∧
      es.length = (tree_of (merge_calls split_merges)).size ∧
      (es.map PAIR.key_).Pairwise (fun x y => x < y) :=
  ⟨⟨merge_calls split_merges, 11, by decide, rfl⟩, by decide,
    copy_snapshot (tree_of (merge_calls split_merges))
      ⟨merge_calls split_merges, 11, by decide, rfl⟩ 11 (by decide)⟩

/-- C8: on a tree reachable by insertions, `transfer(dst)` with an empty `dst` returns
`size()` and leaves in `dst` exactly the entries the tree iterated before the call, in
ascending key order; afterwards the tree is empty: `size() == 0`, height 0, no root,
`begin() == end()`, and no node is left. -/
theorem transfer_empties_tree (t : btree_type) (hR : Reachable t) (fuel : Nat)
    (hfuel : t.size < fuel) (hlev : t.nlevel_ ≤ fuel) :
    ∃ es t', walk fuel t = .ok es ∧ transfer fuel t [] = .ok (t', es, t.size) ∧
      es.length = t.size ∧ (es.map PAIR.key_).Pairwise (fun x y => x < y) ∧
      t'.size = 0 ∧ t'.nlevel_ = 0 ∧ t'.root_ = none ∧ t'.begin = .ok t'.end_ ∧
      (t'.begin.map fun i => i.eq t'.end_) = .ok true ∧ ∀ a n, ¬ Live t' a n := by
  obtain ⟨es, hRep, hs⟩ := hR.rep
  have hsz : t.size = es.length := hRep.size
  obtain ⟨t', e, f1, f2, f3, f4, _⟩ := transfer_ok hRep fuel (by omega) hlev
  refine ⟨es, t', walk_ok hRep fuel (by omega), by rw [hsz]; exact e, hsz.symm, hs, f1, f2,
    f3, begin_of_empty f1, ?_, f4⟩
  rw [begin_of_empty f1]
  rfl

theorem transfer_empties_tree_witness :
    Reachable (tree_of (merge_calls split_merges)) ∧
    (tree_of (merge_calls split_merges)).size < 11 ∧
    (tree_of (merge_calls split_merges)).nlevel_ ≤ 11 ∧
    ∃ es t', walk 11 (tree_of (merge_calls split_merges)) = .ok es ∧
      transfer 11 (tree_of (merge_calls split_merges)) [] =
        .ok (t', es, (tree_of (merge_calls split_merges)).size) ∧
      es.length = (tree_of (merge_calls split_merges)).size ∧
      (es.map PAIR.key_).Pairwise (fun x y => x < y) ∧
      t'.size = 0 ∧ t'.nlevel_ = 0 ∧ t'.root_ = none ∧ t'.begin = .ok t'.end_ ∧
      (t'.begin.map fun i => i.eq t'.end_) = .ok true ∧ ∀ a n, ¬ Live t' a n :=
  ⟨⟨merge_calls split_merges, 11, by decide, rfl⟩, by decide, by decide,
    transfer_empties_tree (tree_of (merge_calls split_merges))
      ⟨merge_calls split_merges, 11, by decide, rfl⟩ 11 (by decide) (by decide)⟩

/-- C9: on a tree reachable by insertions, `map_insert_sorted_new_and_raw(p)` fails its
assertion when some leaf holds an entry with the key of `p`; when none does it returns,
the entries of the tree are then the old ones and `*p` itself, iterated in ascending key
order, `size()` has grown by one, and neither `key_copy` nor the merge hook has run. -/
theorem raw_insert_asserts_new_key (t : btree_type) (hR : Reachable t) (p : PAIR)
    (fuel : Nat) (hfuel : t.nlevel_ ≤ fuel) :
    (HasKey t p.key_ → map_insert_sorted_new_and_raw fuel t p = .error .assert_fail) ∧
    (¬ HasKey t p.key_ →
      ∃ t' es, map_insert_sorted_new_and_raw fuel t p = .ok t' ∧
        walk (t.size + 2) t' = .ok es ∧
        (es.map PAIR.key_).Pairwise (fun x y => x < y) ∧
        (∀ q, q ∈ es ↔ q = p ∨ Stored t q) ∧ (∀ q, Stored t' q ↔ q ∈ es) ∧
        t'.size = t.size + 1 ∧ t'.n_key_copy = t.n_key_copy ∧ t'.n_merge = t.n_merge) := by
  obtain ⟨es, hRep, hs⟩ := hR.rep
  have hsz : t.size = es.length := hRep.size
  obtain ⟨r1, r2⟩ := raw_ok hRep fuel hfuel p
  rw [HasKey_iff hRep]
  refine ⟨r1, fun hk => ?_⟩
  obtain ⟨t', e, hR', hc, _, _⟩ := r2 hk
  have hsz' : t'.size = (abs_raw p es).length := hR'.size
  refine ⟨t', abs_raw p es, e, walk_ok hR' _ (by rw [length_abs_raw, hsz]; omega),
    sorted_abs_raw p es hs hk, fun q => ?_, Stored_iff hR', ?_, hc.1, hc.2.1⟩
  · rw [mem_abs_raw, Stored_iff hRep]
  · rw [hsz', length_abs_raw, hsz]

theorem raw_insert_asserts_new_key_witness :
    Reachable (tree_of (merge_calls split_merges)) ∧
    (tree_of (merge_calls split_merges)).nlevel_ ≤ 2 ∧
    ((HasKey (tree_of (merge_calls split_merges)) 11 →
      map_insert_sorted_new_and_raw 2 (tree_of (merge_calls split_merges))
        { key_ := 11, hash := 3, vals := [1, 2] } = .error .assert_fail) ∧
    (¬ HasKey (tree_of (merge_calls split_merges)) 11 →
      ∃ t' es, map_insert_sorted_new_and_raw 2 (tree_of (merge_calls split_merges))
          { key_ := 11, hash := 3, vals := [1, 2] } = .ok t' ∧
        walk ((tree_of (merge_calls split_merges)).size + 2) t' = .ok es ∧
        (es.map PAIR.key_).Pairwise (fun x y => x < y) ∧
        (∀ q, q ∈ es ↔ q = { key_ := 11, hash := 3, vals := [1, 2] } ∨
          Stored (tree_of (merge_calls split_merges)) q) ∧
        (∀ q, Stored t' q ↔ q ∈ es) ∧
        t'.size = (tree_of (merge_calls split_merges)).size + 1 ∧
        t'.n_key_copy = (tree_of (merge_calls split_merges)).n_key_copy ∧
        t'.n_merge = (tree_of (merge_calls split_merges)).n_merge)) :=
  ⟨⟨merge_calls split_merges, 11, by decide, rfl⟩, by decide,
    raw_insert_asserts_new_key (tree_of (merge_calls split_merges))
      ⟨merge_calls split_merges, 11, by decide, rfl⟩
      { key_ := 11, hash := 3, vals := [1, 2] } 2 (by decide)⟩

/-- C10: on a tree reachable by insertions (the empty tree too), `copy(dst)` and
`transfer(dst)` fail the first assertion when `dst` is not empty on entry, and return
when it is empty: then no assertion fails, the final check of the scanned count against
`nk_` included. -/
theorem extraction_aborts_iff_dst_nonempty (t : btree_type) (hR : Reachable t)
    (dst : List PAIR) (fuel : Nat) (hfuel : t.size < fuel) (hlev : t.nlevel_ ≤ fuel) :
    (dst ≠ [] → copy fuel t dst = .error .assert_fail ∧
      transfer fuel t dst = .error .assert_fail) ∧
    (dst = [] → (∃ r, copy fuel t dst = .ok r) ∧ ∃ r, transfer fuel t dst = .ok r) := by
  obtain ⟨es, hRep, _⟩ := hR.rep
  have hsz : t.size = es.length := hRep.size
  refine ⟨fun h => ⟨copy_traverse_nonempty fuel t dst false h, transfer_nonempty fuel t dst h⟩,
    fun h => ?_⟩
  subst h
  obtain ⟨t', e, _⟩ := transfer_ok hRep fuel (by omega) hlev
  exact ⟨⟨_, copy_ok hRep fuel (by omega)⟩, ⟨_, e⟩⟩

theorem extraction_aborts_iff_dst_nonempty_witness :
    Reachable (tree_of (merge_calls split_merges)) ∧
    (tree_of (merge_calls split_merges)).size < 11 ∧
    (tree_of (merge_calls split_merges)).nlevel_ ≤ 11 ∧
    (([PAIR.fresh] ≠ [] → copy 11 (tree_of (merge_calls split_merges)) [PAIR.fresh] =
        .error .assert_fail ∧
      transfer 11 (tree_of (merge_calls split_merges)) [PAIR.fresh] =
        .error .assert_fail) ∧
    ([PAIR.fresh] = [] →
      (∃ r, copy 11 (tree_of (merge_calls split_merges)) [PAIR.fresh] = .ok r) ∧
      ∃ r, transfer 11 (tree_of (merge_calls split_merges)) [PAIR.fresh] = .ok r)) :=
  ⟨⟨merge_calls split_merges, 11, by decide, rfl⟩, by decide, by decide,
    extraction_aborts_iff_dst_nonempty (tree_of (merge_calls split_merges))
      ⟨merge_calls split_merges, 11, by decide, rfl⟩ [PAIR.fresh] 11 (by decide)
      (by decide)⟩

/-! ### Runs of public operations -/

theorem Shape.same (t : btree_type) : Shape t t :=
  ⟨rfl, rfl, fun _ _ h => h, fun _ l h => ⟨l, h⟩, fun _ n h => ⟨n, h⟩, rfl⟩

theorem run_ops_cons_ok {fuel : Nat} {t t1 : btree_type} {o : Op} (os : List Op)
    (h : apply_op fuel t o = .ok t1) :
    run_ops fuel t (o :: os) = run_ops fuel t1 os := by
  simp only [run_ops, h, ok_bind]

theorem run_ops_cons_error {fuel : Nat} {t : btree_type} {o : Op} {e : Fault} (os : List Op)
    (h : apply_op fuel t o = .error e) :
    run_ops fuel t (o :: os) = .error e := by
  simp only [run_ops, h]
  rfl

/-- What one public operation does to a tree that represents a sorted list: it fails an
assertion (a raw insertion of a present key) or returns a tree that represents a sorted
list again, at most one entry longer and at most one level higher. -/
theorem apply_op_ok {t : btree_type} {es : List PAIR} (hR : Rep t es)
    (hs : (es.map PAIR.key_).Pairwise (fun x y => x < y)) (fuel : Nat)
    (hlev : t.nlevel_ ≤ fuel) (hlen : es.length < fuel) (o : Op) :
    apply_op fuel t o = .error .assert_fail ∨
    ∃ t' es', apply_op fuel t o = .ok t' ∧ Rep t' es' ∧
      (es'.map PAIR.key_).Pairwise (fun x y => x < y) ∧ es'.length ≤ es.length + 1 ∧
      t'.nlevel_ ≤ t.nlevel_ + 1 := by
  cases o with
  | insert c =>
    cases c with
    | merge k v keylen hash =>
      right
      obtain ⟨t1, e1, hR1, _, _, _, _, hl⟩ := merge_ok hR fuel hlev k v keylen hash
      refine ⟨t1, _, apply_merge_eq e1, hR1, sorted_abs_merge k v hash es hs, ?_, hl⟩
      rw [length_abs_merge k v hash es hs]
      split_ifs <;> omega
    | raw p =>
      obtain ⟨r1, r2⟩ := raw_ok hR fuel hlev p
      by_cases hk : p.key_ ∈ es.map PAIR.key_
      · left
        exact r1 hk
      · right
        obtain ⟨t1, e1, hR1, _, _, hl⟩ := r2 hk
        refine ⟨t1, _, e1, hR1, sorted_abs_raw p es hs hk, ?_, hl⟩
        rw [length_abs_raw]
  | copy =>
    right
    refine ⟨t, es, ?_, hR, hs, Nat.le_succ _, Nat.le_succ _⟩
    simp only [apply_op, copy_ok hR fuel hlen, ok_bind]
    rfl
  | transfer =>
    right
    obtain ⟨t', e, f1, f2, f3, f4, _⟩ := transfer_ok hR fuel hlen hlev
    refine ⟨t', [], ?_, Rep.of_dead f2 f3 f1 f4, by simp, by simp, by omega⟩
    simp only [apply_op, e, ok_bind]
    rfl
  | shallow_free =>
    right
    obtain ⟨g, hI, _⟩ := hR
    obtain ⟨t', e, f1, f2, f3, f4, _⟩ :=
      shallow_free_ok hI (Shape.same t) False (fun h => h.elim) fuel hlev
    exact ⟨t', [], e, Rep.of_dead f2 f3 f1 f4, by simp, by simp, by omega⟩

/-- A run of public operations that returns ends in a tree that represents a sorted
list. -/
theorem run_ops_ok : ∀ (os : List Op) (t : btree_type) (es : List PAIR) (fuel : Nat)
    (t' : btree_type), Rep t es → (es.map PAIR.key_).Pairwise (fun x y => x < y) →
    t.nlevel_ + os.length ≤ fuel → es.length + os.length < fuel →
    run_ops fuel t os = .ok t' →
    ∃ es', Rep t' es' ∧ (es'.map PAIR.key_).Pairwise (fun x y => x < y)
  | [], t, es, fuel, t', hR, hs, _, _, h => by
    have ht : t = t' := by
      simp only [run_ops, Except.ok.injEq] at h
      exact h
    subst ht
    exact ⟨es, hR, hs⟩
  | o :: os, t, es, fuel, t', hR, hs, hf, hl, h => by
    rw [List.length_cons] at hf hl
    rcases apply_op_ok hR hs fuel (by omega) (by omega) o with e | ⟨t1, es1, e, hR1, hs1, b1, b2⟩
    · rw [run_ops_cons_error os e] at h
      cases h
    · rw [run_ops_cons_ok os e] at h
      exact run_ops_ok os t1 es1 fuel t' hR1 hs1 (by omega) (by omega) h

theorem ReachableOps.ops_rep {t : btree_type} (h : ReachableOps t) :
    ∃ es, Rep t es ∧ (es.map PAIR.key_).Pairwise (fun x y => x < y) := by
  obtain ⟨os, fuel, hf, hrun⟩ := h
  exact run_ops_ok os init [] fuel t Rep_init (by simp)
    (by show 0 + os.length ≤ fuel; omega) (by show 0 + os.length < fuel; omega) hrun

theorem Reachable.ops {t : btree_type} (h : Reachable t) : ReachableOps t := by
  obtain ⟨cs, fuel, hf, hrun⟩ := h
  refine ⟨cs.map Op.insert, fuel, by simpa using hf, ?_⟩
  have : ∀ (cs : List Call) (s : btree_type),
      run_ops fuel s (cs.map Op.insert) = run_calls fuel s cs := by
    intro cs
    induction cs with
    | nil => intro s; rfl
    | cons c cs ih =>
      intro s
      simp only [List.map_cons, run_ops, run_calls, apply_op]
      cases apply_call fuel s c with
      | error e => rfl
      | ok s1 => exact ih s1
  rw [this]
  exact hrun

/-! ## Teardown, capacity and parent references -/

/-- After `transfer` into an empty destination every cell that held a node is freed. -/
theorem transfer_frees {t : btree_type} {es : List PAIR} (hR : Rep t es) (fuel : Nat)
    (hfuel : es.length < fuel) (hlev : t.nlevel_ ≤ fuel) :
    ∃ t' dst n, transfer fuel t [] = .ok (t', dst, n) ∧
      ∀ a nd, Live t a nd → t'.heap[a]? = some none := by
  obtain ⟨c, g, e1, hI, _, _, hC⟩ := copy_traverse_ok hR true fuel hfuel
  obtain ⟨hS, hz⟩ := Cleared.shape hI (hC rfl)
  by_cases h0 : t.nlevel_ = 0
  · obtain ⟨t', e, _⟩ := transfer_ok hR fuel hfuel hlev
    exact ⟨t', _, _, e, fun a nd h => ((hI.root0 h0).2.2.2 a nd h).elim⟩
  · obtain ⟨r, rn, r1, r2, r3, _⟩ := hI.root1 (by omega)
    obtain ⟨s1, e2, hD⟩ := delete_level_ok hI hS True (fun _ => hz) fuel r rn c r2 (by omega)
      (fun _ _ => rfl)
    refine ⟨s1.init, es, es.length, ?_, ?_⟩
    · unfold transfer
      rw [e1]
      simp only [ok_bind]
      unfold shallow_free
      rw [if_neg (by rw [hS.1]; exact h0), hS.2.1, r1, hS.1, ← r3, e2]
      rfl
    · intro a nd h
      exact (hD.2.2.2.2.2.2.2 a).1 (InSub_root hI r1 _ a nd h rfl)

/-- C11: `transfer(dst)` on a tree reachable by insertions, with an empty `dst`, returns
without a call of the pair reset hook (the count of `reset()` calls is unchanged), and
yet every node of the tree is deleted: the cell of every leaf and every internal node is
freed and no node is left. -/
theorem transfer_resets_no_entry (t : btree_type) (hR : Reachable t) (fuel : Nat)
    (hfuel : t.size < fuel) (hlev : t.nlevel_ ≤ fuel) :
    ∃ t' dst n, transfer fuel t [] = .ok (t', dst, n) ∧ t'.n_reset = t.n_reset ∧
      (∀ a nd, Live t a nd → t'.heap[a]? = some none) ∧ ∀ a nd, ¬ Live t' a nd := by
  obtain ⟨es, hRep, _⟩ := hR.rep
  have hsz : t.size = es.length := hRep.size
  obtain ⟨t', e, _, _, _, f4, f5⟩ := transfer_ok hRep fuel (by omega) hlev
  obtain ⟨t2, dst, n, e2, hfree⟩ := transfer_frees hRep fuel (by omega) hlev
  rw [e] at e2
  simp only [Except.ok.injEq, Prod.mk.injEq] at e2
  obtain ⟨rfl, _, _⟩ := e2
  exact ⟨t', _, _, e, f5.2.2, hfree, f4⟩

theorem transfer_resets_no_entry_witness :
    Reachable (tree_of (merge_calls split_merges)) ∧
    (tree_of (merge_calls split_merges)).size < 11 ∧
    (tree_of (merge_calls split_merges)).nlevel_ ≤ 11 ∧
    ∃ t' dst n, transfer 11 (tree_of (merge_calls split_merges)) [] = .ok (t', dst, n) ∧
      t'.n_reset = (tree_of (merge_calls split_merges)).n_reset ∧
      (∀ a nd, Live (tree_of (merge_calls split_merges)) a nd → t'.heap[a]? = some none) ∧
      ∀ a nd, ¬ Live t' a nd :=
  ⟨⟨merge_calls split_merges, 11, by decide, rfl⟩, by decide, by decide,
    transfer_resets_no_entry (tree_of (merge_calls split_merges))
      ⟨merge_calls split_merges, 11, by decide, rfl⟩ 11 (by decide) (by decide)⟩

/-- C12, the code at a tree with live entries: after insertions of the keys `3, 1, 2, 1`
the tree holds three entries and no `reset()` has run; `shallow_free()` then returns with
height 0, no root and `size() == 0`, but `~btnode_leaf` has run `reset()` on each of the
three live entries. -/
theorem shallow_free_resets_live_entries :
    ∃ t', shallow_free 2 (tree_of (merge_calls sample_merges)) = .ok t' ∧
      (tree_of (merge_calls sample_merges)).size = 3 ∧
      (tree_of (merge_calls sample_merges)).n_reset = 0 ∧ t'.n_reset = 3 ∧
      t'.nlevel_ = 0 ∧ t'.root_ = none ∧ t'.size = 0 :=
  ⟨_, rfl, rfl, rfl, rfl, rfl, rfl, rfl⟩

/-- C17: after any sequence of public operations no leaf holds 8 entries and no internal
node holds 7 keys (the arrays have 8 slots); and an insertion on such a tree never makes
an array access outside `0 .. 7`: `map_insert_sorted_copy_on_new` returns, and
`map_insert_sorted_new_and_raw` returns or fails its assertion. -/
theorem no_node_at_capacity (t : btree_type) (hR : ReachableOps t) :
    (∀ a l, Live t a (.leaf l) → l.nk_ ≤ 7 ∧ l.e_.length = 8) ∧
    (∀ a m, Live t a (.internal m) → m.nk_ ≤ 6 ∧ m.e_.length = 8) ∧
    (∀ fuel k v keylen hash, t.nlevel_ ≤ fuel →
      ∃ r, map_insert_sorted_copy_on_new fuel t k v keylen hash = .ok r) ∧
    (∀ fuel p, t.nlevel_ ≤ fuel →
      (∃ t', map_insert_sorted_new_and_raw fuel t p = .ok t') ∨
      map_insert_sorted_new_and_raw fuel t p = .error .assert_fail) := by
  obtain ⟨es, hRep, _⟩ := hR.ops_rep
  have hf : fanout = 8 := rfl
  refine ⟨?_, ?_, ?_, ?_⟩
  · intro a l ha
    obtain ⟨g, hI, _⟩ := hRep
    obtain ⟨_, k2, _, k4, k5, _⟩ := hI.leaf a l ha
    refine ⟨?_, by rw [k2, hf]⟩
    by_contra hc
    have := k5 (by omega)
    cases this
  · intro a m ha
    obtain ⟨g, hI, _⟩ := hRep
    obtain ⟨k1, _, k3, k4, _⟩ := hI.internal a m ha
    refine ⟨?_, by rw [k1, hf]⟩
    by_contra hc
    have := k4 (by omega)
    cases this
  · intro fuel k v keylen hash hfuel
    obtain ⟨t', e, _⟩ := merge_ok hRep fuel hfuel k v keylen hash
    exact ⟨_, e⟩
  · intro fuel p hfuel
    obtain ⟨r1, r2⟩ := raw_ok hRep fuel hfuel p
    by_cases hk : p.key_ ∈ es.map PAIR.key_
    · exact Or.inr (r1 hk)
    · obtain ⟨t', e, _⟩ := r2 hk
      exact Or.inl ⟨t', e⟩

set_option maxRecDepth 10000 in
theorem no_node_at_capacity_witness :
    ReachableOps (tree_of_ops sample_ops) ∧
    ((∀ a l, Live (tree_of_ops sample_ops) a (.leaf l) → l.nk_ ≤ 7 ∧ l.e_.length = 8) ∧
    (∀ a m, Live (tree_of_ops sample_ops) a (.internal m) → m.nk_ ≤ 6 ∧ m.e_.length = 8) ∧
    (∀ fuel k v keylen hash, (tree_of_ops sample_ops).nlevel_ ≤ fuel →
      ∃ r, map_insert_sorted_copy_on_new fuel (tree_of_ops sample_ops) k v keylen hash =
        .ok r) ∧
    (∀ fuel p, (tree_of_ops sample_ops).nlevel_ ≤ fuel →
      (∃ t', map_insert_sorted_new_and_raw fuel (tree_of_ops sample_ops) p = .ok t') ∨
      map_insert_sorted_new_and_raw fuel (tree_of_ops sample_ops) p =
        .error .assert_fail)) :=
  ⟨⟨sample_ops, 53, by decide, rfl⟩,
    no_node_at_capacity (tree_of_ops sample_ops) ⟨sample_ops, 53, by decide, rfl⟩⟩

/-- C19: after any sequence of insertions on an initialised tree (splits that cascade
through several levels and new roots included) the parent reference of the root is none,
and for every internal node `n` and every slot `i` with `0 <= i <= n.nk_` the slot holds
a child whose parent reference is `n`. -/
theorem parent_references_correct (t : btree_type) (hR : Reachable t) :
    (∀ r n, t.root_ = some r → Live t r n → n.parent_ = none) ∧
    ∀ a m i, Live t a (.internal m) → i ≤ m.nk_ →
      ∃ c n, kid_at m i = some c ∧ Live t c n ∧ n.parent_ = some a := by
  obtain ⟨es, ⟨g, hI, _⟩, _⟩ := hR.rep
  have hnp : ∀ a : Nat, ¬ IsPendRight none a := by
    rintro a ⟨l, hl⟩
    cases hl
  constructor
  · intro r n hr hn
    obtain ⟨r', n', r1, _, _, r4, _⟩ := hI.root1 (nlevel_pos hI hn)
    rw [hr] at r1
    rw [hI.par_field r n hn (Nat.zero_le _) (hnp r), Option.some.inj r1, r4]
  · intro a m i ha hi
    obtain ⟨c, cn, c1, c2, c3, _⟩ := (hI.internal a m ha).2.2.2.2.2 i hi
    exact ⟨c, cn, c1, c2, by rw [hI.par_field c cn c2 (Nat.zero_le _) (hnp c), c3]⟩

theorem parent_references_correct_witness :
    Reachable (tree_of deep_calls) ∧
    ((∀ r n, (tree_of deep_calls).root_ = some r → Live (tree_of deep_calls) r n →
      n.parent_ = none) ∧
    ∀ a m i, Live (tree_of deep_calls) a (.internal m) → i ≤ m.nk_ →
      ∃ c n, kid_at m i = some c ∧ Live (tree_of deep_calls) c n ∧ n.parent_ = some a) :=
  ⟨⟨deep_calls, 41, by decide, rfl⟩,
    parent_references_correct (tree_of deep_calls) ⟨deep_calls, 41, by decide, rfl⟩⟩

/-! ## Separators and levels -/

theorem mem_kids {t : btree_type} {a c : Nat} :
    c ∈ kids t a ↔ ∃ m i, Live t a (.internal m) ∧ i ≤ m.nk_ ∧ kid_at m i = some c := by
  unfold kids Live
  rcases h : t.heap[a]? with _ | _ | n
  · simp
  · simp
  · cases n with
    | leaf l => simp
    | internal m =>
      simp only [List.mem_filterMap, List.mem_range, Option.some.injEq,
        btnode_base.internal.injEq]
      constructor
      · rintro ⟨i, hi, hc⟩
        exact ⟨m, i, rfl, by omega, hc⟩
      · rintro ⟨m', i, rfl, hi, hc⟩
        exact ⟨i, by omega, hc⟩

section
variable {g : Ghost} {t : btree_type}

/-- A node reached by `d` child steps from `a` is a node whose `d`-th ancestor is `a`. -/
theorem nodes_at_anc (hI : InvG g t 0 none none) : ∀ (d a b : Nat) (n : btnode_base),
    Live t a n → b ∈ nodes_at t d a → (∃ nb, Live t b nb) ∧ anc g d b = some a
  | 0, a, b, n, ha, hb => by
    simp only [nodes_at, List.mem_singleton] at hb
    subst hb
    exact ⟨⟨n, ha⟩, rfl⟩
  | d + 1, a, b, n, ha, hb => by
    simp only [nodes_at, List.mem_flatMap] at hb
    obtain ⟨c, hc, hbc⟩ := hb
    obtain ⟨m, i, hm, hi, hk⟩ := mem_kids.1 hc
    obtain ⟨c', cn, c1, c2, c3, _⟩ := (hI.internal a m hm).2.2.2.2.2 i hi
    rw [hk] at c1
    have hcc : c = c' := Option.some.inj c1
    subst hcc
    obtain ⟨hl, ha'⟩ := nodes_at_anc hI d c b cn c2 hbc
    refine ⟨hl, ?_⟩
    rw [anc, ha', Option.some_bind, c3]

theorem anc_nodes_at (hI : InvG g t 0 none none) : ∀ (d a b : Nat) (n : btnode_base),
    Live t b n → anc g d b = some a → b ∈ nodes_at t d a
  | 0, a, b, n, _, h => by
    have hab : b = a := Option.some.inj h
    simp [nodes_at, hab]
  | d + 1, a, b, n, hb, h => by
    rw [anc] at h
    rcases hx : anc g d b with _ | x
    · rw [hx] at h; cases h
    · rw [hx, Option.some_bind] at h
      obtain ⟨nx, hxl, _⟩ := anc_live hI d hb hx
      obtain ⟨m, i, h1, h2, h3, _⟩ := par_spec hI hxl h
      simp only [nodes_at, List.mem_flatMap]
      exact ⟨x, mem_kids.2 ⟨m, i, h1, h2, h3⟩, anc_nodes_at hI d x b n hb hx⟩

/-- The key range of a node lies inside the key range of each of its ancestors. -/
theorem anc_range (hI : InvG g t 0 none none) : ∀ (d a b : Nat) (n : btnode_base),
    Live t b n → anc g d b = some a →
    g.lo a ≤ g.lo b ∧ ∀ k, Below k (g.hi b) → Below k (g.hi a)
  | 0, a, b, n, _, h => by
    have hab : b = a := Option.some.inj h
    subst hab
    exact ⟨le_refl _, fun _ h => h⟩
  | d + 1, a, b, n, hb, h => by
    rw [anc] at h
    rcases hx : anc g d b with _ | x
    · rw [hx] at h; cases h
    · rw [hx, Option.some_bind] at h
      obtain ⟨nx, hxl, _⟩ := anc_live hI d hb hx
      obtain ⟨m, i, h1, h2, h3, _⟩ := par_spec hI hxl h
      obtain ⟨c', cn, c1, c2, c3, c4, c5, c6⟩ := (hI.internal a m h1).2.2.2.2.2 i h2
      rw [h3] at c1
      have hcc : x = c' := Option.some.inj c1
      subst hcc
      obtain ⟨i1, i2⟩ := anc_range hI d x b n hb hx
      rw [hiE_none] at c6
      constructor
      · refine le_trans ?_ i1
        rw [c5]
        unfold slotlo
        by_cases h0 : i = 0
        · rw [if_pos h0]
        · rw [if_neg h0]
          exact le_of_lt (lo_lt_key hI h1 (by omega))
      · intro k hk
        have hk2 := i2 k hk
        rw [c6] at hk2
        unfold slothi at hk2
        by_cases h0 : i < m.nk_
        · rw [if_pos h0] at hk2
          exact Below_of_lt (le_of_lt hk2) (key_below_hi hI h1 h0)
        · rw [if_neg h0] at hk2
          exact hk2

/-- The keys in the subtree of child `i` of an internal node lie in the range of slot
`i`. -/
theorem subtree_keys_in_slot (hI : InvG g t 0 none none) {a : Nat} {m : btnode_internal}
    (ha : Live t a (.internal m)) {i c d b : Nat} {l : btnode_leaf} {p : PAIR}
    (hi : i ≤ m.nk_) (hc : kid_at m i = some c) (hb : b ∈ nodes_at t d c)
    (hl : Live t b (.leaf l)) (hp : p ∈ l.live) :
    slotlo g a m i ≤ p.key_ ∧ Below p.key_ (slothi g a m i) := by
  obtain ⟨c', cn, c1, c2, c3, c4, c5, c6⟩ := (hI.internal a m ha).2.2.2.2.2 i hi
  rw [hc] at c1
  have hcc : c = c' := Option.some.inj c1
  subst hcc
  obtain ⟨_, hanc⟩ := nodes_at_anc hI d c b cn c2 hb
  obtain ⟨r1, r2⟩ := anc_range hI d c b _ hl hanc
  obtain ⟨k1, k2⟩ := (hI.leaf b l hl).2.2.2.2.2.2.2.1 p.key_ (List.mem_map_of_mem _ hp)
  rw [hiE_none] at c6
  rw [← c5, ← c6]
  exact ⟨le_trans r1 k1, r2 _ k2⟩

end

/-- C15: after any sequence of insertions on an initialised tree, in every internal node
the separators at positions `0 .. nk_-1` are strictly ascending, and for the separator at
position `i` every key in the subtree of child `i` is less than it and every key in the
subtree of child `i+1` is greater than or equal to it. -/
theorem separators_bound_subtrees (t : btree_type) (hR : Reachable t) (a : Nat)
    (m : btnode_internal) (ha : Live t a (.internal m)) :
    (∀ i j, i < j → j < m.nk_ → key_at m i < key_at m j) ∧
    ∀ i, i < m.nk_ →
      (∀ c d b l p, kid_at m i = some c → b ∈ nodes_at t d c → Live t b (.leaf l) →
        p ∈ l.live → p.key_ < key_at m i) ∧
      (∀ c d b l p, kid_at m (i + 1) = some c → b ∈ nodes_at t d c → Live t b (.leaf l) →
        p ∈ l.live → key_at m i ≤ p.key_) := by
  obtain ⟨es, ⟨g, hI, _⟩, _⟩ := hR.rep
  refine ⟨fun i j hij hj => keys_mono hI ha hij hj, fun i hi => ⟨?_, ?_⟩⟩
  · intro c d b l p hc hb hl hp
    have h := (subtree_keys_in_slot hI ha (le_of_lt hi) hc hb hl hp).2
    unfold slothi at h
    rw [if_pos hi] at h
    exact h
  · intro c d b l p hc hb hl hp
    have h := (subtree_keys_in_slot hI ha (show i + 1 ≤ m.nk_ from hi) hc hb hl hp).1
    unfold slotlo at h
    rw [if_neg (Nat.succ_ne_zero i)] at h
    exact h

theorem separators_bound_subtrees_witness :
    Reachable (tree_of deep_calls) ∧ Live (tree_of deep_calls) 2 (.internal deep_left_node) ∧
    ((∀ i j, i < j → j < deep_left_node.nk_ →
      key_at deep_left_node i < key_at deep_left_node j) ∧
    ∀ i, i < deep_left_node.nk_ →
      (∀ c d b l p, kid_at deep_left_node i = some c → b ∈ nodes_at (tree_of deep_calls) d c →
        Live (tree_of deep_calls) b (.leaf l) → p ∈ l.live →
        p.key_ < key_at deep_left_node i) ∧
      (∀ c d b l p, kid_at deep_left_node (i + 1) = some c →
        b ∈ nodes_at (tree_of deep_calls) d c → Live (tree_of deep_calls) b (.leaf l) →
        p ∈ l.live → key_at deep_left_node i ≤ p.key_)) :=
  ⟨⟨deep_calls, 41, by decide, rfl⟩, rfl,
    separators_bound_subtrees (tree_of deep_calls) ⟨deep_calls, 41, by decide, rfl⟩ 2
      deep_left_node rfl⟩

section
variable {g : Ghost} {t : btree_type}

theorem exists_leaf (hI : InvG g t 0 none none) (h0 : 0 < t.nlevel_) :
    ∃ a l, Live t a (.leaf l) ∧ a ∈ g.chain ∧ 1 ≤ t.nk_ := by
  obtain ⟨a, l, _, hl, _⟩ := get_leaf_ok hI (by omega) 0
  have hmem := (hI.leaf a l hl).2.2.2.2.2.2.2.2
  refine ⟨a, l, hl, hmem, ?_⟩
  have h1 := chain_length_le hI
  have h2 : 0 < g.chain.length := List.length_pos_of_mem hmem
  rw [hI.size_eq]
  omega

/-- The level of a node reached from the root by `d` child steps. -/
theorem depth_level (hI : InvG g t 0 none none) {r d b : Nat} (hr : t.root_ = some r)
    (hb : b ∈ nodes_at t d r) :
    ∃ n, Live t b n ∧ g.lvl b + d = t.nlevel_ ∧ 1 ≤ g.lvl b := by
  have hpos : 0 < t.nlevel_ := by
    by_contra hc
    have := (hI.root0 (by omega)).1
    rw [hr] at this
    cases this
  obtain ⟨r', rn, r1, r2, r3, _⟩ := hI.root1 hpos
  rw [hr] at r1
  have hrr : r = r' := Option.some.inj r1
  subst hrr
  obtain ⟨⟨nb, hnb⟩, hanc⟩ := nodes_at_anc hI d r b rn r2 hb
  obtain ⟨_, _, hl⟩ := anc_live hI d hnb hanc
  exact ⟨nb, hnb, by omega, (hI.lvl_le b nb hnb).1⟩

end

/-- C16: after any sequence of public operations on an initialised tree, the height is 0
exactly when the tree is empty (no key, no root); and in a tree of height `h >= 1` a node
reached from the root by `d` child steps has `d < h` and is a leaf exactly when
`d = h - 1` (an internal node when `d < h - 1`), every leaf is reached by `h - 1` steps,
and the node that `get_leaf` and `first_leaf` take for a leaf after `h - 1` descents is a
leaf. -/
theorem leaves_at_same_depth (t : btree_type) (hR : ReachableOps t) :
    (t.nlevel_ = 0 ↔ t.size = 0) ∧ (t.nlevel_ = 0 ↔ t.root_ = none) ∧
    (∀ r d b, t.root_ = some r → b ∈ nodes_at t d r →
      d < t.nlevel_ ∧ ((∃ l, Live t b (.leaf l)) ↔ d + 1 = t.nlevel_) ∧
      ((∃ m, Live t b (.internal m)) ↔ d + 1 < t.nlevel_)) ∧
    (∀ b l, Live t b (.leaf l) →
      ∃ r, t.root_ = some r ∧ b ∈ nodes_at t (t.nlevel_ - 1) r) ∧
    (0 < t.nlevel_ →
      (∀ k, ∃ a l, get_leaf t k = .ok (t, some a) ∧ Live t a (.leaf l)) ∧
      ∃ a l, first_leaf t = .ok (some a) ∧ Live t a (.leaf l)) := by
  obtain ⟨es, ⟨g, hI, _⟩, _⟩ := hR.ops_rep
  refine ⟨?_, ?_, ?_, ?_, ?_⟩
  · constructor
    · intro h
      exact (hI.root0 h).2.1
    · intro h
      by_contra hc
      obtain ⟨_, _, _, _, h1⟩ := exists_leaf hI (by omega)
      have h2 : t.nk_ = 0 := h
      omega
  · constructor
    · intro h
      exact (hI.root0 h).1
    · intro h
      by_contra hc
      obtain ⟨r, _, r1, _⟩ := hI.root1 (by omega)
      rw [h] at r1
      cases r1
  · intro r d b hr hb
    obtain ⟨n, hn, hl, h1⟩ := depth_level hI hr hb
    refine ⟨by omega, ?_, ?_⟩
    · constructor
      · rintro ⟨l, hl'⟩
        have := (hI.leaf b l hl').1
        omega
      · intro hd
        obtain ⟨l, rfl⟩ := lvl_one_leaf hI hn (by omega)
        exact ⟨l, hn⟩
    · constructor
      · rintro ⟨m, hm⟩
        have := internal_lvl hI hm
        omega
      · intro hd
        cases n with
        | leaf l =>
          have := (hI.leaf b l hn).1
          omega
        | internal m => exact ⟨m, hn⟩
  · intro b l hb
    obtain ⟨r, rn, r1, r2, r3, _⟩ := hI.root1 (nlevel_pos hI hb)
    obtain ⟨_, d, hd⟩ := InSub_root hI r1 _ b _ hb rfl
    obtain ⟨_, _, hl⟩ := anc_live hI d hb hd
    have h1 := (hI.leaf b l hb).1
    have hdd : d = t.nlevel_ - 1 := by omega
    rw [← hdd]
    exact ⟨r, r1, anc_nodes_at hI d r b _ hb hd⟩
  · intro hpos
    constructor
    · intro k
      obtain ⟨a, l, e, hl, _⟩ := get_leaf_ok hI (by omega) k
      exact ⟨a, l, e, hl⟩
    · obtain ⟨a, l, hl, hmem, _⟩ := exists_leaf hI hpos
      rw [first_leaf_ok hI]
      rcases hch : g.chain with _ | ⟨c, cs⟩
      · rw [hch] at hmem
        cases hmem
      · obtain ⟨lc, hlc⟩ := Linked_mem hI.chain_link c (by rw [hch]; simp)
        exact ⟨c, lc, rfl, hlc⟩

set_option maxRecDepth 10000 in
theorem leaves_at_same_depth_witness :
    ReachableOps (tree_of_ops sample_ops) ∧
    (((tree_of_ops sample_ops).nlevel_ = 0 ↔ (tree_of_ops sample_ops).size = 0) ∧
    ((tree_of_ops sample_ops).nlevel_ = 0 ↔ (tree_of_ops sample_ops).root_ = none) ∧
    (∀ r d b, (tree_of_ops sample_ops).root_ = some r →
      b ∈ nodes_at (tree_of_ops sample_ops) d r →
      d < (tree_of_ops sample_ops).nlevel_ ∧
      ((∃ l, Live (tree_of_ops sample_ops) b (.leaf l)) ↔
        d + 1 = (tree_of_ops sample_ops).nlevel_) ∧
      ((∃ m, Live (tree_of_ops sample_ops) b (.internal m)) ↔
        d + 1 < (tree_of_ops sample_ops).nlevel_)) ∧
    (∀ b l, Live (tree_of_ops sample_ops) b (.leaf l) →
      ∃ r, (tree_of_ops sample_ops).root_ = some r ∧
        b ∈ nodes_at (tree_of_ops sample_ops) ((tree_of_ops sample_ops).nlevel_ - 1) r) ∧
    (0 < (tree_of_ops sample_ops).nlevel_ →
      (∀ k, ∃ a l, get_leaf (tree_of_ops sample_ops) k =
        .ok (tree_of_ops sample_ops, some a) ∧ Live (tree_of_ops sample_ops) a (.leaf l)) ∧
      ∃ a l, first_leaf (tree_of_ops sample_ops) = .ok (some a) ∧
        Live (tree_of_ops sample_ops) a (.leaf l))) :=
  ⟨⟨sample_ops, 53, by decide, rfl⟩,
    leaves_at_same_depth (tree_of_ops sample_ops) ⟨sample_ops, 53, by decide, rfl⟩⟩

/-! ## The split of an internal node -/

theorem list_eight {α : Type} (e : List α) (h : e.length = 8) :
    ∃ a0 a1 a2 a3 a4 a5 a6 a7, e = [a0, a1, a2, a3, a4, a5, a6, a7] := by
  rcases e with _ | ⟨a0, _ | ⟨a1, _ | ⟨a2, _ | ⟨a3, _ | ⟨a4, _ | ⟨a5, _ | ⟨a6, _ | ⟨a7, _ | ⟨a8, e⟩⟩⟩⟩⟩⟩⟩⟩⟩
  all_goals first
    | exact ⟨_, _, _, _, _, _, _, _, rfl⟩
    | (simp at h)

/-- `btnode_internal::split()` on a node with 7 keys and 8 children. -/
theorem internal_split_halves {t : btree_type} {p : Nat} {m : btnode_internal}
    (hp : Live t p (.internal m)) (hlen : m.e_.length = 8) (hnk : m.nk_ = 7) :
    ∃ t' N m1 m2, internal_split t (some p) = .ok (t', some N) ∧ N ≠ p ∧
      Live t' p (.internal m1) ∧ Live t' N (.internal m2) ∧
      (∀ b n, b ≠ p → b ≠ N → (Live t' b n ↔ Live t b n)) ∧
      m1.parent_ = m.parent_ ∧ m1.nk_ = 3 ∧ m2.nk_ = 3 ∧
      (∀ i, i < 3 → key_at m1 i = key_at m i ∧ key_at m2 i = key_at m (i + 4)) ∧
      (∀ i, i ≤ 3 → kid_at m1 i = kid_at m i ∧ kid_at m2 i = kid_at m (i + 4)) ∧
      m1.keys ++ [key_at m 3] ++ m2.keys = m.keys ∧
      m1.children ++ m2.children = m.children := by
  obtain ⟨a0, a1, a2, a3, a4, a5, a6, a7, he⟩ := list_eight m.e_ hlen
  have hpN : t.heap.length ≠ p := fun e => by
    have := hp.lt
    omega
  set m2 : btnode_internal := btnode_internal.mk none order
    [a4, a5, a6, a7, ⟨0, none⟩, ⟨0, none⟩, ⟨0, none⟩, ⟨0, none⟩] with hm2
  set m1 : btnode_internal := btnode_internal.mk m.parent_ order m.e_ with hm1
  refine ⟨wr (alloc t (.internal m2)).1 (some p) (.internal m1), t.heap.length, m1, m2,
      ?_, hpN, ?_, ?_, ?_, rfl, rfl, rfl, ?_, ?_, ?_, ?_⟩
  · have hb : blit btnode_internal.new.e_ 0 m.e_ (order + 1) (order + 1) =
        .ok [a4, a5, a6, a7, ⟨0, none⟩, ⟨0, none⟩, ⟨0, none⟩, ⟨0, none⟩] := by
      rw [he]
      rfl
    simp only [internal_split, hp.rd_internal, ok_bind, hb]
    rfl
  · rw [Live_wr_iff]
    left
    refine ⟨rfl, ?_, rfl⟩
    simp only [alloc, List.length_append, List.length_singleton]
    have := hp.lt
    omega
  · rw [Live_wr_iff]
    right
    exact ⟨hpN, (Live_alloc_iff _ _ _ _).2 (Or.inr ⟨rfl, rfl⟩)⟩
  · intro b n hbp hbN
    rw [Live_wr_iff]
    constructor
    · rintro (⟨h, _⟩ | ⟨_, h⟩)
      · exact absurd h hbp
      · rcases (Live_alloc_iff _ _ _ _).1 h with h1 | ⟨h1, _⟩
        · exact h1
        · exact absurd h1 hbN
    · intro h
      exact Or.inr ⟨hbp, (Live_alloc_iff _ _ _ _).2 (Or.inl h)⟩
  · intro i hi
    have hi' : i = 0 ∨ i = 1 ∨ i = 2 := by omega
    rcases hi' with rfl | rfl | rfl <;> simp [key_at, keyL, he, hm1, hm2]
  · intro i hi
    have hi' : i = 0 ∨ i = 1 ∨ i = 2 ∨ i = 3 := by omega
    rcases hi' with rfl | rfl | rfl | rfl <;> simp [kid_at, kidL, he, hm1, hm2]
  · simp [btnode_internal.keys, he, hnk, order, key_at, keyL, hm1, hm2]
  · simp [btnode_internal.children, he, hnk, order, hm1, hm2]

/-- The first half of `insert_internal` on a parent with 6 keys: the parent gets its
seventh key, and what follows is the split of the parent and the recursive call with the
key in slot `order`. -/
theorem insert_internal_full {s : btree_type} {l r p : Nat} {ln rn : btnode_base}
    {m6 : btnode_internal} (key : Nat) (hl : Live s l ln) (hlp : ln.parent_ = some p)
    (hp : Live s p (.internal m6)) (hlen : m6.e_.length = 8) (hnk : m6.nk_ = 6)
    (hr : Live s r rn) (hrp : r ≠ p) :
    ∃ s1 m7, Live s1 p (.internal m7) ∧ m7.nk_ = 7 ∧ m7.e_.length = 8 ∧
      ∀ fuel, insert_internal (fuel + 1) s key (some l) (some r) = (do
        let (t2, newparent) ← internal_split s1 (some p)
        let t3 ← insert_internal fuel t2 (key_at m7 3) (some p) newparent
        fix_parents newparent (fanout + 1) 0 t3) := by
  have hf : fanout = 8 := rfl
  have hle : m6.nk_ ≤ m6.e_.length := by omega
  have hub : m6.upper_bound_pos key =
      .ok (xsearch_upper_bound key ((m6.e_.take m6.nk_).map xpair.key_)) := by
    simp only [btnode_internal.upper_bound_pos, hle, if_true]
  have hik : xsearch_upper_bound key ((m6.e_.take m6.nk_).map xpair.key_) ≤ m6.nk_ := by
    have := (tw_spec (fun x => decide (x ≤ key)) ((m6.e_.take m6.nk_).map xpair.key_)).1
    rw [ikeys_length m6 hle] at this
    exact this
  obtain ⟨e1, e2, m3, hsk, hsc, har, hm3p, hm3nk, hm3len, _, _⟩ :=
    parent_insert_node m6 _ key (some r) (by rw [hlen, hf]) (by omega) hik
  set m4 : btnode_internal := { m3 with nk_ := m3.nk_ + 1 } with hm4
  set t0 := wr s (some p) (.internal m4) with ht0
  have hr0 : Live t0 r rn := (Live_wr_iff _ _ _ _ _).2 (Or.inr ⟨hrp, hr⟩)
  set t1 := wr t0 (some r) (rn.set_parent (some p)) with ht1
  have hsp : set_parent t0 (some r) (some p) = .ok t1 := set_parent_ok hr0 _
  have hp0 : Live t0 p (.internal m4) :=
    (Live_wr_iff _ _ _ _ _).2 (Or.inl ⟨rfl, hp.lt, rfl⟩)
  have hp1 : Live t1 p (.internal m4) :=
    (Live_wr_iff _ _ _ _ _).2 (Or.inr ⟨fun e => hrp e.symm, hp0⟩)
  have hm4nk : m4.nk_ = 7 := by
    show m3.nk_ + 1 = 7
    rw [hm3nk, hnk]
  have hm4len : m4.e_.length = 8 := by
    show m3.e_.length = 8
    rw [hm3len, hf]
  have hns : m4.need_split = true := by
    simp [btnode_internal.need_split, hm4, hm3nk, hnk, hf]
  obtain ⟨x, hx⟩ : ∃ x, m4.e_[order]? = some x :=
    ⟨_, List.getElem?_eq_getElem (show order < m4.e_.length by rw [hm4len]; decide)⟩
  have hxk : x.key_ = key_at m4 3 := by
    simp only [key_at, keyL]
    rw [show (3 : Nat) = order from rfl, hx]
  refine ⟨t1, m4, hp1, hm4nk, hm4len, fun fuel => ?_⟩
  rw [insert_internal]
  simp only [hl.rd, bind, Except.bind, hlp, hp.rd_internal, hub, hsk, hsc, har]
  rw [show wr s (some p) (.internal { m3 with nk_ := m3.nk_ + 1 }) = t0 from rfl, hsp]
  simp only [hp1.rd_internal, hns, if_true, aget_ok hx, hxk]

/-- C18: `split()` on an internal node with 7 keys `k0 .. k6` and 8 children `c0 .. c7`
leaves the node with the keys `k0, k1, k2` and the children `c0 .. c3` and returns a new
node with the keys `k4, k5, k6` and the children `c4 .. c7`: the keys of the halves with
`k3` between them, and the children of the halves, are those of the node before, in
order.  And when an insertion fills a parent to 7 keys, `insert_internal` splits it and
calls itself with exactly `k3`, the old node as left and the new node as right. -/
theorem internal_split_pushes_median (t : btree_type) (p : Nat) (m : btnode_internal)
    (hp : Live t p (.internal m)) (hlen : m.e_.length = 8) (hnk : m.nk_ = 7) :
    (∃ t' N m1 m2, internal_split t (some p) = .ok (t', some N) ∧ N ≠ p ∧
      Live t' p (.internal m1) ∧ Live t' N (.internal m2) ∧ m1.nk_ = 3 ∧ m2.nk_ = 3 ∧
      (∀ i, i < 3 → key_at m1 i = key_at m i ∧ key_at m2 i = key_at m (i + 4)) ∧
      (∀ i, i ≤ 3 → kid_at m1 i = kid_at m i ∧ kid_at m2 i = kid_at m (i + 4)) ∧
      m1.keys ++ [key_at m 3] ++ m2.keys = m.keys ∧
      m1.children ++ m2.children = m.children) ∧
    ∀ (s : btree_type) (key l r : Nat) (ln rn : btnode_base) (m6 : btnode_internal),
      Live s l ln → ln.parent_ = some p → Live s p (.internal m6) → m6.e_.length = 8 →
      m6.nk_ = 6 → Live s r rn → r ≠ p →
      ∃ s1 m7 s2 N m1 m2, Live s1 p (.internal m7) ∧ m7.nk_ = 7 ∧
        internal_split s1 (some p) = .ok (s2, some N) ∧
        Live s2 p (.internal m1) ∧ Live s2 N (.internal m2) ∧
        m1.keys ++ [key_at m7 3] ++ m2.keys = m7.keys ∧
        m1.children ++ m2.children = m7.children ∧
        ∀ fuel, insert_internal (fuel + 1) s key (some l) (some r) =
          (insert_internal fuel s2 (key_at m7 3) (some p) (some N) >>=
            fun t3 => fix_parents (some N) (fanout + 1) 0 t3) := by
  constructor
  · obtain ⟨t', N, m1, m2, h1, h2, h3, h4, _, _, h6, h7, h8, h9, h10, h11⟩ :=
      internal_split_halves hp hlen hnk
    exact ⟨t', N, m1, m2, h1, h2, h3, h4, h6, h7, h8, h9, h10, h11⟩
  · intro s key l r ln rn m6 hl hlp hp6 hlen6 hnk6 hr hrp
    obtain ⟨s1, m7, a1, a2, a3, a4⟩ := insert_internal_full key hl hlp hp6 hlen6 hnk6 hr hrp
    obtain ⟨s2, N, m1, m2, h1, _, h3, h4, _, _, _, _, _, _, h10, h11⟩ :=
      internal_split_halves a1 a3 a2
    refine ⟨s1, m7, s2, N, m1, m2, a1, a2, h1, h3, h4, h10, h11, fun fuel => ?_⟩
    rw [a4 fuel, h1]
    rfl

theorem internal_split_pushes_median_witness :
    Live full_node_state 0 (.internal full_node) ∧ full_node.e_.length = 8 ∧
    full_node.nk_ = 7 ∧
    ((∃ t' N m1 m2, internal_split full_node_state (some 0) = .ok (t', some N) ∧ N ≠ 0 ∧
      Live t' 0 (.internal m1) ∧ Live t' N (.internal m2) ∧ m1.nk_ = 3 ∧ m2.nk_ = 3 ∧
      (∀ i, i < 3 → key_at m1 i = key_at full_node i ∧
        key_at m2 i = key_at full_node (i + 4)) ∧
      (∀ i, i ≤ 3 → kid_at m1 i = kid_at full_node i ∧
        kid_at m2 i = kid_at full_node (i + 4)) ∧
      m1.keys ++ [key_at full_node 3] ++ m2.keys = full_node.keys ∧
      m1.children ++ m2.children = full_node.children) ∧
    ∀ (s : btree_type) (key l r : Nat) (ln rn : btnode_base) (m6 : btnode_internal),
      Live s l ln → ln.parent_ = some 0 → Live s 0 (.internal m6) → m6.e_.length = 8 →
      m6.nk_ = 6 → Live s r rn → r ≠ 0 →
      ∃ s1 m7 s2 N m1 m2, Live s1 0 (.internal m7) ∧ m7.nk_ = 7 ∧
        internal_split s1 (some 0) = .ok (s2, some N) ∧
        Live s2 0 (.internal m1) ∧ Live s2 N (.internal m2) ∧
        m1.keys ++ [key_at m7 3] ++ m2.keys = m7.keys ∧
        m1.children ++ m2.children = m7.children ∧
        ∀ fuel, insert_internal (fuel + 1) s key (some l) (some r) =
          (insert_internal fuel s2 (key_at m7 3) (some 0) (some N) >>=
            fun t3 => fix_parents (some N) (fanout + 1) 0 t3)) :=
  ⟨rfl, rfl, rfl, internal_split_pushes_median full_node_state 0 full_node rfl rfl rfl⟩

/-! ## Occupancy and height -/

theorem sum_map_flatMap {α β : Type} (f : α → List β) (w : β → Nat) : ∀ l : List α,
    ((l.flatMap f).map w).sum = (l.map fun x => ((f x).map w).sum).sum
  | [] => rfl
  | x :: l => by
    simp only [List.flatMap_cons, List.map_append, List.sum_append, List.map_cons,
      List.sum_cons, sum_map_flatMap f w l]

theorem le_sum_map {α : Type} (h : α → Nat) (w : Nat) : ∀ l : List α,
    (∀ x ∈ l, w ≤ h x) → l.length * w ≤ (l.map h).sum
  | [], _ => by simp
  | x :: l, hx => by
    have h1 := hx x (List.mem_cons_self _ _)
    have h2 := le_sum_map h w l (fun y hy => hx y (List.mem_cons_of_mem _ hy))
    simp only [List.length_cons, List.map_cons, List.sum_cons]
    rw [Nat.add_mul]
    omega

theorem sum_le_of_subset {l1 l2 : List Nat} (w : Nat → Nat) (h1 : l1.Nodup) (h2 : l2.Nodup)
    (hsub : ∀ x ∈ l1, x ∈ l2) : (l1.map w).sum ≤ (l2.map w).sum := by
  rw [← List.sum_toFinset w h1, ← List.sum_toFinset w h2]
  apply Finset.sum_le_sum_of_subset
  intro x hx
  rw [List.mem_toFinset] at hx ⊢
  exact hsub x hx

theorem content_length (t : btree_type) (chain : List Nat) :
    (content t chain).length = (chain.map fun b => (live_at t b).length).sum := by
  induction chain with
  | nil => rfl
  | cons a cs ih =>
    simp only [content, List.flatMap_cons, List.length_append, List.map_cons, List.sum_cons]
    rw [← ih]
    rfl

theorem filterMap_range_length (f : Nat → Option Nat) : ∀ n : Nat,
    (∀ i, i < n → (f i).isSome) → ((List.range n).filterMap f).length = n
  | 0, _ => rfl
  | n + 1, h => by
    rw [List.range_succ, List.filterMap_append, List.length_append,
      filterMap_range_length f n (fun i hi => h i (by omega))]
    obtain ⟨c, hc⟩ := Option.isSome_iff_exists.1 (h n (by omega))
    simp [List.filterMap, hc]

section
variable {g : Ghost} {t : btree_type}

theorem kids_internal {a : Nat} {m : btnode_internal} (ha : Live t a (.internal m)) :
    kids t a = (List.range (m.nk_ + 1)).filterMap (kid_at m) := by
  have ha' : t.heap[a]? = some (some (.internal m)) := ha
  unfold kids
  rw [ha']

theorem kids_length (hI : InvG g t 0 none none) {a : Nat} {m : btnode_internal}
    (ha : Live t a (.internal m)) : (kids t a).length = m.nk_ + 1 := by
  have ha' : t.heap[a]? = some (some (.internal m)) := ha
  unfold kids
  rw [ha']
  apply filterMap_range_length
  intro i hi
  obtain ⟨c, _, c1, _⟩ := (hI.internal a m ha).2.2.2.2.2 i (by omega)
  rw [c1]
  rfl

theorem kids_nodup (hI : InvG g t 0 none none) {a : Nat} {m : btnode_internal}
    (ha : Live t a (.internal m)) : (kids t a).Nodup := by
  rw [kids_internal ha]
  have hcongr : (List.range (m.nk_ + 1)).filterMap (kid_at m) =
      (List.range (m.nk_ + 1)).filterMap (fun i => if i ≤ m.nk_ then kid_at m i else none) := by
    apply List.filterMap_congr
    intro i hi
    rw [List.mem_range] at hi
    rw [if_pos (by omega)]
  rw [hcongr]
  apply List.Nodup.filterMap _ (List.nodup_range _)
  intro i j b hi hj
  by_cases h1 : i ≤ m.nk_
  · by_cases h2 : j ≤ m.nk_
    · rw [if_pos h1] at hi
      rw [if_pos h2] at hj
      apply kid_inj hI ha h1 h2
      rw [Option.mem_def] at hi hj
      rw [hi, hj]
    · rw [if_neg h2] at hj
      cases hj
  · rw [if_neg h1] at hi
    cases hi

theorem nodes_at_nodup (hI : InvG g t 0 none none) : ∀ (d a : Nat) (n : btnode_base),
    Live t a n → (nodes_at t d a).Nodup
  | 0, a, _, _ => by simp [nodes_at]
  | d + 1, a, n, ha => by
    simp only [nodes_at]
    cases n with
    | leaf l =>
      have ha' : t.heap[a]? = some (some (.leaf l)) := ha
      simp [kids, ha']
    | internal m =>
      rw [List.nodup_flatMap]
      constructor
      · intro c hc
        obtain ⟨m', i, hm, hi, hk⟩ := mem_kids.1 hc
        obtain ⟨c', cn, c1, c2, _⟩ := (hI.internal a m' hm).2.2.2.2.2 i hi
        rw [hk] at c1
        rw [Option.some.inj c1]
        exact nodes_at_nodup hI d c' cn c2
      · have hnd := kids_nodup hI ha
        refine List.Pairwise.imp_of_mem ?_ hnd
        intro c c' hc hc' hne
        obtain ⟨m1, i, hm1, hi, hk⟩ := mem_kids.1 hc
        obtain ⟨m2, j, hm2, hj, hk'⟩ := mem_kids.1 hc'
        obtain ⟨x, xn, x1, x2, _⟩ := (hI.internal a m1 hm1).2.2.2.2.2 i hi
        obtain ⟨y, yn, y1, y2, _⟩ := (hI.internal a m2 hm2).2.2.2.2.2 j hj
        rw [hk] at x1
        rw [hk'] at y1
        have hx : c = x := Option.some.inj x1
        have hy : c' = y := Option.some.inj y1
        subst hx
        subst hy
        show List.Disjoint _ _
        intro b hb hb'
        obtain ⟨_, e1⟩ := nodes_at_anc hI d c b xn x2 hb
        obtain ⟨_, e2⟩ := nodes_at_anc hI d c' b yn y2 hb'
        rw [e1] at e2
        exact hne (Option.some.inj e2)

/-- The entries below a node that is not the root: at least `4 ^ level`. -/
theorem entries_below (hI : InvG g t 0 none none) : ∀ (d a : Nat) (n : btnode_base),
    Live t a n → t.root_ ≠ some a → g.lvl a = d + 1 →
    4 ^ (d + 1) ≤ ((nodes_at t d a).map fun b => (live_at t b).length).sum
  | 0, a, n, ha, hroot, hlv => by
    obtain ⟨l, rfl⟩ := lvl_one_leaf hI ha hlv
    obtain ⟨_, k2, _, k4, _, k6, _⟩ := hI.leaf a l ha
    have ho : order = 3 := rfl
    have hf : fanout = 8 := rfl
    have := k6 hroot
    simp only [nodes_at, List.map_cons, List.map_nil, List.sum_cons, List.sum_nil]
    rw [live_at_leaf ha, leaf_live_length (by omega)]
    omega
  | d + 1, a, n, ha, hroot, hlv => by
    cases n with
    | leaf l =>
      have := (hI.leaf a l ha).1
      omega
    | internal m =>
      obtain ⟨_, _, _, _, k5, k6⟩ := hI.internal a m ha
      have ho : order = 3 := rfl
      have hmin := k5 hroot
      simp only [nodes_at]
      rw [sum_map_flatMap]
      have hb := le_sum_map (fun c => ((nodes_at t d c).map fun b => (live_at t b).length).sum)
        (4 ^ (d + 1)) (kids t a) (by
          intro c hc
          obtain ⟨m', i, hm, hi, hk⟩ := mem_kids.1 hc
          obtain ⟨c', cn, c1, c2, c3, c4, _⟩ := (hI.internal a m' hm).2.2.2.2.2 i hi
          rw [hk] at c1
          have hcc : c = c' := Option.some.inj c1
          subst hcc
          refine entries_below hI d c cn c2 ?_ (by omega)
          intro hr
          obtain ⟨r, _, r1, _, _, r4, _⟩ := hI.root1 (nlevel_pos hI ha)
          rw [r1] at hr
          rw [Option.some.inj hr, c3] at r4
          cases r4)
      rw [kids_length hI ha] at hb
      refine le_trans ?_ hb
      rw [pow_succ]
      have : 4 ≤ m.nk_ + 1 := by omega
      calc 4 ^ (d + 1) * 4 = 4 * 4 ^ (d + 1) := Nat.mul_comm _ _
        _ ≤ (m.nk_ + 1) * 4 ^ (d + 1) := Nat.mul_le_mul_right _ this

/-- A tree of height `h >= 2` holds at least `2 * 4 ^ (h - 1)` keys. -/
theorem size_lower_bound (hI : InvG g t 0 none none) (h2 : 2 ≤ t.nlevel_) :
    2 * 4 ^ (t.nlevel_ - 1) ≤ t.nk_ := by
  obtain ⟨r, rn, r1, r2, r3, r4, _⟩ := hI.root1 (by omega)
  obtain ⟨d, hd⟩ : ∃ d, t.nlevel_ = d + 2 := ⟨t.nlevel_ - 2, by omega⟩
  cases rn with
  | leaf l =>
    have := (hI.leaf r l r2).1
    omega
  | internal m =>
    obtain ⟨_, k2, _, _, _, k6⟩ := hI.internal r m r2
    have hsum : 2 * 4 ^ (d + 1) ≤
        ((nodes_at t (d + 1) r).map fun b => (live_at t b).length).sum := by
      simp only [nodes_at]
      rw [sum_map_flatMap]
      have hb := le_sum_map
        (fun c => ((nodes_at t d c).map fun b => (live_at t b).length).sum)
        (4 ^ (d + 1)) (kids t r) (by
          intro c hc
          obtain ⟨m', i, hm, hi, hk⟩ := mem_kids.1 hc
          obtain ⟨c', cn, c1, c2, c3, c4, _⟩ := (hI.internal r m' hm).2.2.2.2.2 i hi
          rw [hk] at c1
          have hcc : c = c' := Option.some.inj c1
          subst hcc
          refine entries_below hI d c cn c2 ?_ (by omega)
          intro hr
          rw [r1] at hr
          rw [Option.some.inj hr, c3] at r4
          cases r4)
      rw [kids_length hI r2] at hb
      refine le_trans ?_ hb
      exact Nat.mul_le_mul_right _ (by omega)
    have hle : ((nodes_at t (d + 1) r).map fun b => (live_at t b).length).sum ≤
        (g.chain.map fun b => (live_at t b).length).sum := by
      apply sum_le_of_subset _ (nodes_at_nodup hI (d + 1) r _ r2) hI.chain_nodup
      intro b hb
      obtain ⟨n, hn, hl, h1⟩ := depth_level hI r1 hb
      obtain ⟨l, rfl⟩ := lvl_one_leaf hI hn (by omega)
      exact (hI.leaf b l hn).2.2.2.2.2.2.2.2
    rw [hI.size_eq, content_length, hd]
    show 2 * 4 ^ (d + 1) ≤ _
    exact le_trans hsum hle

end

/-- C20: in a tree reachable from the empty tree by insertions every leaf that is not the
root holds at least 4 entries, every internal node that is not the root holds at least 3
keys, and an internal root holds at least 1 key; and a tree of height `h >= 2` has
`size() >= 2 * 4^(h-1)`: height 2 needs 8 keys, height 3 needs 32. -/
theorem minimum_occupancy (t : btree_type) (hR : Reachable t) :
    (∀ a l, Live t a (.leaf l) → t.root_ ≠ some a → 4 ≤ l.nk_) ∧
    (∀ a m, Live t a (.internal m) → t.root_ ≠ some a → 3 ≤ m.nk_) ∧
    (∀ a m, Live t a (.internal m) → 1 ≤ m.nk_) ∧
    (2 ≤ t.nlevel_ → 2 * 4 ^ (t.nlevel_ - 1) ≤ t.size) ∧
    (t.nlevel_ = 2 → 8 ≤ t.size) ∧ (t.nlevel_ = 3 → 32 ≤ t.size) := by
  obtain ⟨es, ⟨g, hI, _⟩, _⟩ := hR.rep
  have hb : 2 ≤ t.nlevel_ → 2 * 4 ^ (t.nlevel_ - 1) ≤ t.size := size_lower_bound hI
  refine ⟨?_, ?_, ?_, hb, ?_, ?_⟩
  · intro a l ha hroot
    exact (hI.leaf a l ha).2.2.2.2.2.1 hroot
  · intro a m ha hroot
    exact (hI.internal a m ha).2.2.2.2.1 hroot
  · intro a m ha
    exact (hI.internal a m ha).2.1
  · intro h
    have := hb (by omega)
    rw [h] at this
    exact this
  · intro h
    have := hb (by omega)
    rw [h] at this
    exact this

theorem minimum_occupancy_witness :
    Reachable (tree_of deep_calls) ∧
    ((∀ a l, Live (tree_of deep_calls) a (.leaf l) → (tree_of deep_calls).root_ ≠ some a →
      4 ≤ l.nk_) ∧
    (∀ a m, Live (tree_of deep_calls) a (.internal m) →
      (tree_of deep_calls).root_ ≠ some a → 3 ≤ m.nk_) ∧
    (∀ a m, Live (tree_of deep_calls) a (.internal m) → 1 ≤ m.nk_) ∧
    (2 ≤ (tree_of deep_calls).nlevel_ →
      2 * 4 ^ ((tree_of deep_calls).nlevel_ - 1) ≤ (tree_of deep_calls).size) ∧
    ((tree_of deep_calls).nlevel_ = 2 → 8 ≤ (tree_of deep_calls).size) ∧
    ((tree_of deep_calls).nlevel_ = 3 → 32 ≤ (tree_of deep_calls).size)) :=
  ⟨⟨deep_calls, 41, by decide, rfl⟩,
    minimum_occupancy (tree_of deep_calls) ⟨deep_calls, 41, by decide, rfl⟩⟩

/-! ## Twenty raw insertions in ascending order -/

theorem run_calls_append (fuel : Nat) : ∀ (cs cs' : List Call) (t : btree_type),
    run_calls fuel t (cs ++ cs') = (run_calls fuel t cs >>= fun s => run_calls fuel s cs')
  | [], cs', t => rfl
  | c :: cs, cs', t => by
    simp only [List.cons_append, run_calls]
    cases apply_call fuel t c with
    | error e => rfl
    | ok s => exact run_calls_append fuel cs cs' s

set_option maxRecDepth 100000 in
set_option maxHeartbeats 40000000 in
/-- One raw insertion of the next larger key takes each state of `asc_tree` to the
next. -/
theorem asc_step (p : Nat → PAIR)
    (h : ∀ i j, 1 ≤ i → i < j → j ≤ 20 → (p i).key_ < (p j).key_) :
    ∀ n, n < 20 → map_insert_sorted_new_and_raw 21 (asc_tree p n) (p (n + 1)) =
      .ok (asc_tree p (n + 1)) := by
  have hle : ∀ i j, 1 ≤ i → i < j → j ≤ 20 → (p i).key_ ≤ (p j).key_ :=
    fun i j h1 h2 h3 => Nat.le_of_lt (h i j h1 h2 h3)
  have hne : ∀ i j, 1 ≤ i → i < j → j ≤ 20 → ¬ (p i).key_ = (p j).key_ :=
    fun i j h1 h2 h3 => Nat.ne_of_lt (h i j h1 h2 h3)
  have hnl : ∀ i j, 1 ≤ i → i < j → j ≤ 20 → ¬ (p j).key_ < (p i).key_ :=
    fun i j h1 h2 h3 => Nat.lt_asymm (h i j h1 h2 h3)
  intro n hn
  interval_cases n <;>
  simp [asc_tree, leaf_cell, root_cell, map_insert_sorted_new_and_raw, get_leaf, get_leaf_loop,
    rd_internal, rd_leaf, rd,
    btnode_internal.upper_bound, btnode_internal.upper_bound_pos, btnode_leaf.lower_bound,
    xsearch_lower_bound, xsearch_upper_bound, btnode_leaf.insert, aget, aset, blit, wr, alloc,
    split_if_needed, btnode_leaf.need_split, btnode_internal.need_split, leaf_split,
    insert_internal, shift_keys, shift_children, btnode_internal.assign_right,
    btnode_internal.assign, set_parent, btnode_base.set_parent, btnode_base.parent_,
    btnode_leaf.new, btnode_internal.new, fanout, order, PAIR.init, PAIR.fresh, init,
    bind, Except.bind, pure, Except.pure, h, hle, hne, hnl]

theorem asc_run (p : Nat → PAIR)
    (h : ∀ i j, 1 ≤ i → i < j → j ≤ 20 → (p i).key_ < (p j).key_) :
    ∀ j, j ≤ 20 →
      run_calls 21 init ((List.range j).map fun i => Call.raw (p (i + 1))) =
        .ok (asc_tree p j) := by
  intro j
  induction j with
  | zero => intro _; rfl
  | succ j ih =>
    intro hj
    rw [List.range_succ, List.map_append, run_calls_append, ih (by omega)]
    simp only [ok_bind, List.map_cons, List.map_nil, run_calls, apply_call,
      asc_step p h j (by omega)]

theorem list_as_range (ps : List PAIR) :
    ps = (List.range ps.length).map fun i => ps.getD i PAIR.fresh := by
  apply List.ext_getElem
  · simp
  · intro i h1 h2
    simp [List.getD_eq_getElem?_getD, List.getElem?_eq_getElem h1]

theorem take_map_range {α : Type} (f : Nat → α) (n j : Nat) (hj : j ≤ n) :
    ((List.range n).map f).take j = (List.range j).map f := by
  apply List.ext_getElem
  · simp [hj]
  · intro i h1 h2
    simp

theorem asc_facts (p : Nat → PAIR) (j : Nat) (hj : j ≤ 20) :
    (asc_tree p j).size = j ∧
    (asc_tree p j).nlevel_ = (if j = 0 then 0 else if j < 8 then 1 else 2) ∧
    n_internal (asc_tree p j) = (if j < 8 then 0 else 1) := by
  interval_cases j <;> exact ⟨rfl, rfl, rfl⟩

set_option maxRecDepth 100000 in
set_option maxHeartbeats 4000000 in
/-- The tree after all twenty insertions. -/
theorem asc_final (p : Nat → PAIR) :
    walk 21 (asc_tree p 20) = .ok ((List.range 20).map fun i => p (i + 1)) ∧
    n_leaf (asc_tree p 20) = 5 ∧
    ∃ m, Live (asc_tree p 20) 2 (.internal m) ∧ m.nk_ = 4 ∧
      m.keys = [(p 5).key_, (p 9).key_, (p 13).key_, (p 17).key_] ∧
      ∀ i, i ≤ 4 → ∃ c l, kid_at m i = some c ∧ Live (asc_tree p 20) c (.leaf l) ∧
        l.nk_ = 4 ∧ l.live = (((List.range 20).map fun i => p (i + 1)).drop (4 * i)).take 4 := by
  refine ⟨?_, rfl, _, rfl, rfl, rfl, ?_⟩
  · simp [walk, walk_loop, btree_type.begin, first_leaf, first_leaf_loop, btree_type.end_,
      iterator.ne, iterator.eq, iterator.deref, iterator.incr, asc_tree, leaf_cell,
      root_cell, rd_leaf, rd_internal, rd, aget, fanout, order, bind, Except.bind, pure,
      Except.pure, List.range, List.range.loop]
  intro i hi
  interval_cases i <;> exact ⟨_, _, rfl, rfl, rfl, rfl⟩

/-- C14: for every strictly ascending list of 20 keys inserted in that order by
`map_insert_sorted_new_and_raw` into an empty tree, every insertion returns; the height
is 1 after the first seven insertions and 2 from the eighth on, and there is no internal
node before the eighth insertion and exactly one from then on (no `split()` of an
internal node ever makes a second); at the end iteration from `begin()` to `end()` gives
the 20 entries in order, and the root holds 4 separators, the 5th, 9th, 13th and 17th
key, over 5 leaves of 4 entries each. -/
theorem ascending_raw_insertions (ps : List PAIR) (hlen : ps.length = 20)
    (hs : (ps.map PAIR.key_).Pairwise (fun x y => x < y)) :
    (∀ j, j ≤ 20 → ∃ t, run_calls 21 init ((ps.take j).map Call.raw) = .ok t ∧
      t.size = j ∧ t.nlevel_ = (if j = 0 then 0 else if j < 8 then 1 else 2) ∧
      n_internal t = (if j < 8 then 0 else 1)) ∧
    ∃ t r m, run_calls 21 init (ps.map Call.raw) = .ok t ∧ walk 21 t = .ok ps ∧
      t.nlevel_ = 2 ∧ n_internal t = 1 ∧ n_leaf t = 5 ∧
      t.root_ = some r ∧ Live t r (.internal m) ∧ m.nk_ = 4 ∧
      m.keys = [4, 8, 12, 16].map (fun i => (ps.getD i PAIR.fresh).key_) ∧
      ∀ i, i ≤ 4 → ∃ c l, kid_at m i = some c ∧ Live t c (.leaf l) ∧ l.nk_ = 4 ∧
        l.live = (ps.drop (4 * i)).take 4 := by
  obtain ⟨p, hp⟩ : ∃ p : Nat → PAIR, p = fun i => ps.getD (i - 1) PAIR.fresh := ⟨_, rfl⟩
  have hps : ps = (List.range 20).map fun i => p (i + 1) := by
    have := list_as_range ps
    rw [hlen] at this
    rw [hp]
    simpa using this
  have h : ∀ i j, 1 ≤ i → i < j → j ≤ 20 → (p i).key_ < (p j).key_ := by
    intro i j h1 h2 h3
    rw [List.pairwise_iff_getElem] at hs
    have h4 := hs (i - 1) (j - 1) (by simp [hlen]; omega) (by simp [hlen]; omega) (by omega)
    simp only [List.getElem_map] at h4
    rw [hp]
    simp only [List.getD_eq_getElem?_getD]
    rw [List.getElem?_eq_getElem (show i - 1 < ps.length by omega),
      List.getElem?_eq_getElem (show j - 1 < ps.length by omega)]
    exact h4
  clear hp hs hlen
  subst hps
  constructor
  · intro j hj
    refine ⟨asc_tree p j, ?_, asc_facts p j hj⟩
    rw [take_map_range _ 20 j hj, List.map_map]
    exact asc_run p h j hj
  · obtain ⟨w1, w2, m, w3, w4, w5, w6⟩ := asc_final p
    refine ⟨asc_tree p 20, 2, m, ?_, w1, rfl, rfl, w2, rfl, w3, w4, ?_, w6⟩
    · rw [List.map_map]
      exact asc_run p h 20 (le_refl _)
    · rw [w5]
      rfl

theorem ascending_raw_insertions_witness :
    asc_pairs.length = 20 ∧ (asc_pairs.map PAIR.key_).Pairwise (fun x y => x < y) ∧
    ((∀ j, j ≤ 20 → ∃ t, run_calls 21 init ((asc_pairs.take j).map Call.raw) = .ok t ∧
      t.size = j ∧ t.nlevel_ = (if j = 0 then 0 else if j < 8 then 1 else 2) ∧
      n_internal t = (if j < 8 then 0 else 1)) ∧
    ∃ t r m, run_calls 21 init (asc_pairs.map Call.raw) = .ok t ∧ walk 21 t = .ok asc_pairs ∧
      t.nlevel_ = 2 ∧ n_internal t = 1 ∧ n_leaf t = 5 ∧
      t.root_ = some r ∧ Live t r (.internal m) ∧ m.nk_ = 4 ∧
      m.keys = [4, 8, 12, 16].map (fun i => (asc_pairs.getD i PAIR.fresh).key_) ∧
      ∀ i, i ≤ 4 → ∃ c l, kid_at m i = some c ∧ Live t c (.leaf l) ∧ l.nk_ = 4 ∧
        l.live = (asc_pairs.drop (4 * i)).take 4) :=
  ⟨rfl, by decide, ascending_raw_insertions asc_pairs rfl (by decide)⟩

/-! ## Eight insertions into one leaf -/

/-- `btnode_leaf::insert` on a leaf whose array is the live entries `es` followed by
`pad`: the array afterwards, slot by slot. -/
theorem leaf_insert_exact (par next : Option Nat) (es pad : List PAIR) (pos key hash : Nat)
    (hlen : es.length + pad.length = fanout) (hpad : pad ≠ []) (hpos : pos ≤ es.length) :
    (btnode_leaf.mk par es.length (es ++ pad) next).insert pos key hash =
      .ok (btnode_leaf.mk par (es.length + 1)
        (es.take pos ++ [{ key_ := key, hash := hash, vals := [] }] ++ es.drop pos ++
          pad.drop 1) next) := by
  have hf : fanout = 8 := rfl
  obtain ⟨x, pad', rfl⟩ : ∃ x pad', pad = x :: pad' := by
    cases pad with
    | nil => exact absurd rfl hpad
    | cons x pad' => exact ⟨x, pad', rfl⟩
  simp only [List.length_cons] at hlen
  by_cases hp : pos < es.length
  · have hb := blit_ok (es ++ x :: pad') (pos + 1) (es ++ x :: pad') pos (es.length - pos)
      (by simp; omega) (by simp; omega)
    have e1 : (es ++ x :: pad').take (pos + 1) = es.take (pos + 1) :=
      List.take_append_of_le_length (by omega)
    have e2 : ((es ++ x :: pad').drop pos).take (es.length - pos) = es.drop pos := by
      rw [List.drop_append_of_le_length (by omega), List.take_append_of_le_length (by simp),
        List.take_of_length_le (by simp)]
    have e3 : (es ++ x :: pad').drop (pos + 1 + (es.length - pos)) = pad' := by
      rw [show pos + 1 + (es.length - pos) = es.length + 1 by omega]
      simp
    rw [e1, e2, e3] at hb
    have hg : (es.take (pos + 1) ++ es.drop pos ++ pad')[pos]? = es[pos]? := by
      rw [List.append_assoc, List.getElem?_append_left (by simp; omega),
        List.getElem?_take_of_lt (by omega)]
    have hs : (es.take (pos + 1) ++ es.drop pos ++ pad').set pos
        { key_ := key, hash := hash, vals := [] } =
        es.take pos ++ [{ key_ := key, hash := hash, vals := [] }] ++ es.drop pos ++ pad' := by
      rw [List.append_assoc, List.set_append, if_pos (by simp; omega),
        take_succ_set es pos _ hp]
      simp
    simp only [btnode_leaf.insert, if_pos hp, hb, ok_bind, aget, hg,
      List.getElem?_eq_getElem hp, aset]
    rw [if_pos (by simp; omega)]
    simp only [ok_bind, PAIR.init, hs]
    rfl
  · have hpe : pos = es.length := by omega
    subst hpe
    have hg : (es ++ x :: pad')[es.length]? = some x := by
      rw [List.getElem?_append_right (le_refl _)]
      simp
    have hs : (es ++ x :: pad').set es.length { key_ := key, hash := hash, vals := [] } =
        es.take es.length ++ [{ key_ := key, hash := hash, vals := [] }] ++
          es.drop es.length ++ pad' := by
      rw [List.set_append, if_neg (by omega)]
      simp
    simp only [btnode_leaf.insert, if_neg hp, pure_bind_ex, aget, hg, ok_bind, aset]
    rw [if_pos (by simp)]
    simp only [ok_bind, PAIR.init, hs]
    rfl

theorem get_leaf_leaf_tree (es : List PAIR) (kc mg k : Nat) :
    get_leaf (leaf_tree es kc mg) k = .ok (leaf_tree es kc mg, some 0) := rfl

theorem get_leaf_init (k : Nat) : get_leaf init k = .ok (leaf_tree [] 0 0, some 0) := rfl

set_option maxHeartbeats 1000000 in
/-- A call with a new key on a tree that is one leaf: the entry goes to its sorted place
in the leaf, and what is left to do is `split_if_needed`. -/
theorem leaf_tree_put (es : List PAIR) (kc mg k v keylen hash fuel : Nat)
    (hk : k ∉ es.map PAIR.key_) (hlen : es.length ≤ 7) :
    ∀ t0, get_leaf t0 k = .ok (leaf_tree es kc mg, some 0) →
    map_insert_sorted_copy_on_new fuel t0 k v keylen hash =
      (split_if_needed fuel (leaf_tree (abs_merge k v hash es) (kc + 1) (mg + 1)) (some 0) >>=
        fun t => (pure (t, 1) : Except Fault (btree_type × Nat))) := by
  intro t0 hget
  have hf : fanout = 8 := rfl
  set pad := List.replicate (fanout - es.length) PAIR.fresh with hpad
  have hpadlen : pad.length = fanout - es.length := by simp [hpad]
  have hpadne : pad ≠ [] := by
    intro h
    rw [h] at hpadlen
    simp at hpadlen
    omega
  set L : btnode_leaf := btnode_leaf.mk none es.length (es ++ pad) none with hL
  have hlive0 : Live (leaf_tree es kc mg) 0 (.leaf L) := rfl
  have hLlive : L.live = es := by
    simp [btnode_leaf.live, hL]
  have hlb : L.lower_bound k =
      .ok ((xsearch_lower_bound k (es.map PAIR.key_)).1, false) := by
    rw [leaf_lower_bound_ok L k (by simp [hL]), hLlive]
    congr 1
    apply Prod.ext
    · rfl
    · exact not_found_of_not_mem k _ hk
  set pos := (xsearch_lower_bound k (es.map PAIR.key_)).1 with hposd
  have hpos : pos ≤ es.length := by
    have := lb_pos_le k (es.map PAIR.key_)
    rw [List.length_map] at this
    exact this
  have hins := leaf_insert_exact none none es pad pos k hash (by rw [hpadlen]; omega) hpadne hpos
  set e1 := es.take pos ++ [{ key_ := k, hash := hash, vals := [] }] ++ es.drop pos ++
    pad.drop 1 with he1
  have hg1 : e1[pos]? = some { key_ := k, hash := hash, vals := [] } := by
    rw [he1, List.getElem?_append_left (by simp; omega)]
    exact getElem?_middle es pos _ hpos
  have hset : e1.set pos (PAIR.map_value_insert { key_ := k, hash := hash, vals := [] } v) =
      abs_merge k v hash es ++ List.replicate (fanout - (es.length + 1)) PAIR.fresh := by
    rw [he1, List.set_append, if_pos (by simp; omega), set_middle es pos _ _ hpos,
      abs_merge_eq, not_found_of_not_mem k _ hk]
    simp only [Bool.false_eq_true, if_false]
    rw [hpad, List.drop_replicate]
    rfl
  have hlenm : (abs_merge k v hash es).length = es.length + 1 := by
    rw [abs_merge_absent k v hash es hk, length_abs_raw]
  set L1 : btnode_leaf := btnode_leaf.mk none (es.length + 1) e1 none with hL1
  set t2 : btree_type := ⟨[some (.leaf L1)], es.length + 1, 1, some 0, kc + 1, mg, 0⟩ with ht2
  have hlive2 : Live t2 0 (.leaf L1) := rfl
  have hmerge := @leaf_merge_ok t2 0 pos L1 _ hlive2 hg1 v
  have hS : ({ wr t2 (some 0) (.leaf (btnode_leaf.mk none (es.length + 1)
      (e1.set pos (PAIR.map_value_insert { key_ := k, hash := hash, vals := [] } v)) none))
      with n_merge := t2.n_merge + 1 } : btree_type) =
      leaf_tree (abs_merge k v hash es) (kc + 1) (mg + 1) := by
    simp only [leaf_tree, leaf_cell, hlenm, ht2, wr, hset, List.set_cons_zero]
  have key : ∀ S : btree_type, S = t2 →
      (leaf_merge S (some 0) pos v >>= fun t =>
        split_if_needed fuel t (some 0) >>= fun t =>
          (pure (t, if false = true then 0 else 1) : Except Fault (btree_type × Nat))) =
      (split_if_needed fuel (leaf_tree (abs_merge k v hash es) (kc + 1) (mg + 1)) (some 0) >>=
        fun t => (pure (t, 1) : Except Fault (btree_type × Nat))) := by
    intro S hSe
    rw [hSe, hmerge, ok_bind, ← hS]
    rfl
  unfold map_insert_sorted_copy_on_new
  rw [hget]
  simp only [ok_bind, hlive0.rd_leaf, hlb, Bool.not_false, if_true, key_copy, hins]
  rw [show (pure _ : Except Fault btree_type) = Except.ok _ from rfl, ok_bind]
  exact key _ rfl

theorem leaf_tree_keep (es : List PAIR) (kc mg fuel : Nat) (h : es.length < 8) :
    split_if_needed fuel (leaf_tree es kc mg) (some 0) = .ok (leaf_tree es kc mg) := by
  have hl : Live (leaf_tree es kc mg) 0 (.leaf (btnode_leaf.mk none es.length
      (es ++ List.replicate (fanout - es.length) PAIR.fresh) none)) := rfl
  unfold split_if_needed
  rw [hl.rd_leaf, ok_bind]
  have hns : (btnode_leaf.mk none es.length
      (es ++ List.replicate (fanout - es.length) PAIR.fresh) none).need_split = false := by
    simp [btnode_leaf.need_split, fanout, order]
    omega
  rw [hns]
  rfl

/-- The eighth entry fills the root leaf; `split_if_needed` splits it 4 + 4 and makes the
root. -/
theorem leaf_tree_split (es : List PAIR) (kc mg fuel : Nat) (h : es.length = 8) :
    split_if_needed (fuel + 1) (leaf_tree es kc mg) (some 0) = .ok (split_tree es kc mg) := by
  obtain ⟨a0, a1, a2, a3, a4, a5, a6, a7, rfl⟩ := list_eight es h
  rfl

theorem take_succ_snoc {α : Type} (l : List α) (j : Nat) (x : α) (h : l[j]? = some x) :
    l.take (j + 1) = l.take j ++ [x] := by
  rw [List.take_succ, h]
  rfl

theorem take_entries (l : List (Nat × Nat × Nat × Nat))
    (hnd : (l.map fun c => c.1).Nodup) (j : Nat) (hj : j ≤ l.length) :
    ((abs_calls [] (merge_calls (l.take j))).map PAIR.key_).Pairwise (fun x y => x < y) ∧
    (abs_calls [] (merge_calls (l.take j))).length = j ∧
    ∀ c, l[j]? = some c → c.1 ∉ (abs_calls [] (merge_calls (l.take j))).map PAIR.key_ := by
  obtain ⟨h1, h2, _, _, _⟩ := abs_merge_calls (l.take j)
  have hsub : ((l.take j).map fun c => c.1).Nodup := by
    rw [List.map_take]
    exact hnd.sublist (List.take_sublist _ _)
  refine ⟨h1, ?_, ?_⟩
  · have := length_eq_dedup h1 h2
    rw [List.length_map] at this
    rw [this, hsub.dedup, List.length_map, List.length_take, Nat.min_eq_left hj]
  · intro c hc hmem
    rw [h2] at hmem
    have h3 : ((l.take (j + 1)).map fun c => c.1).Nodup := by
      rw [List.map_take]
      exact hnd.sublist (List.take_sublist _ _)
    rw [take_succ_snoc l j c hc, List.map_append, List.nodup_append] at h3
    exact h3.2.2 hmem (by simp)

/-- The first seven calls with distinct keys leave one root leaf. -/
theorem leaf_run (l : List (Nat × Nat × Nat × Nat))
    (hnd : (l.map fun c => c.1).Nodup) (fuel : Nat) : ∀ j, j ≤ 7 → j ≤ l.length →
    ∃ t, run_calls fuel init (merge_calls (l.take j)) = .ok t ∧
      (∀ k, get_leaf t k =
        .ok (leaf_tree (abs_calls [] (merge_calls (l.take j))) j j, some 0)) ∧
      (1 ≤ j → t = leaf_tree (abs_calls [] (merge_calls (l.take j))) j j) := by
  intro j
  induction j with
  | zero =>
    intro _ _
    exact ⟨init, rfl, fun k => get_leaf_init k, fun h => absurd h (by omega)⟩
  | succ j ih =>
    intro h7 hl
    obtain ⟨t, hrun, hget, _⟩ := ih (by omega) (by omega)
    obtain ⟨c, hc⟩ : ∃ c, l[j]? = some c :=
      ⟨_, List.getElem?_eq_getElem (show j < l.length by omega)⟩
    obtain ⟨_, p2, p3⟩ := take_entries l hnd j (by omega)
    obtain ⟨_, q2, _⟩ := take_entries l hnd (j + 1) hl
    have hstep := leaf_tree_put (abs_calls [] (merge_calls (l.take j))) j j c.1 c.2.1 c.2.2.1
      c.2.2.2 fuel (p3 c hc) (by omega) t (hget c.1)
    rw [take_succ_snoc l j c hc, merge_calls_append, abs_calls_append] at q2 ⊢
    simp only [abs_call] at q2 ⊢
    rw [leaf_tree_keep _ _ _ _ (by rw [q2]; omega)] at hstep
    refine ⟨_, ?_, fun k => get_leaf_leaf_tree _ _ _ k, fun _ => rfl⟩
    rw [run_calls_append, hrun, ok_bind, run_cons_ok [] (apply_merge_eq hstep)]
    rfl

/-- C13: for any 8 distinct keys inserted one at a time, in any order, by
`map_insert_sorted_copy_on_new` into an empty tree: after each of the first 7 calls the
tree is one root leaf (height 1), and when the 8th call returns the tree has height 2: a
root with exactly one separator, the 5th smallest key, over a left leaf with the 4
smallest keys and a right leaf with the 4 largest, chained left -> right -> none. -/
theorem eight_keys_split_once (l : List (Nat × Nat × Nat × Nat)) (hlen : l.length = 8)
    (hnd : (l.map fun c => c.1).Nodup) :
    (∀ j, 1 ≤ j → j ≤ 7 → ∃ t r lf, run_calls 9 init (merge_calls (l.take j)) = .ok t ∧
      t.nlevel_ = 1 ∧ t.root_ = some r ∧ Live t r (.leaf lf) ∧ lf.nk_ = j ∧
      lf.parent_ = none ∧ lf.next_ = none ∧ n_leaf t = 1 ∧ n_internal t = 0) ∧
    ∃ t r m a b la lb, run_calls 9 init (merge_calls l) = .ok t ∧ t.nlevel_ = 2 ∧
      t.root_ = some r ∧ Live t r (.internal m) ∧ m.nk_ = 1 ∧
      m.keys = [((l.map fun c => c.1).toFinset.sort (fun x y => x ≤ y)).getD 4 0] ∧
      kid_at m 0 = some a ∧ kid_at m 1 = some b ∧
      Live t a (.leaf la) ∧ Live t b (.leaf lb) ∧
      la.live.map PAIR.key_ = ((l.map fun c => c.1).toFinset.sort (fun x y => x ≤ y)).take 4 ∧
      lb.live.map PAIR.key_ = ((l.map fun c => c.1).toFinset.sort (fun x y => x ≤ y)).drop 4 ∧
      la.next_ = some b ∧ lb.next_ = none ∧ n_leaf t = 2 ∧ n_internal t = 1 := by
  constructor
  · intro j h1 h7
    obtain ⟨t, hrun, _, ht⟩ := leaf_run l hnd 9 j h7 (by omega)
    obtain ⟨_, p2, _⟩ := take_entries l hnd j (by omega)
    rw [ht h1] at hrun
    refine ⟨_, 0, _, hrun, rfl, rfl, rfl, p2, rfl, rfl, rfl, rfl⟩
  · obtain ⟨t, hrun, hget, _⟩ := leaf_run l hnd 9 7 (le_refl _) (by omega)
    obtain ⟨c, hc⟩ : ∃ c, l[7]? = some c :=
      ⟨_, List.getElem?_eq_getElem (show 7 < l.length by omega)⟩
    obtain ⟨_, p2, p3⟩ := take_entries l hnd 7 (by omega)
    obtain ⟨q1, q2, _⟩ := take_entries l hnd 8 (by omega)
    obtain ⟨_, r2, _, _, _⟩ := abs_merge_calls l
    have hl8 : l.take 8 = l := List.take_of_length_le (by omega)
    have hstep := leaf_tree_put (abs_calls [] (merge_calls (l.take 7))) 7 7 c.1 c.2.1 c.2.2.1
      c.2.2.2 9 (p3 c hc) (by omega) t (hget c.1)
    have htake : l = l.take 7 ++ [c] := by
      rw [← take_succ_snoc l 7 c hc]
      exact hl8.symm
    rw [hl8] at q1 q2
    have hes : abs_merge c.1 c.2.1 c.2.2.2 (abs_calls [] (merge_calls (l.take 7))) =
        abs_calls [] (merge_calls l) := by
      conv_rhs => rw [htake, merge_calls_append, abs_calls_append]
      rfl
    rw [hes, leaf_tree_split _ _ _ 8 q2] at hstep
    have hfinal : run_calls 9 init (merge_calls l) =
        .ok (split_tree (abs_calls [] (merge_calls l)) 8 8) := by
      conv_lhs => rw [htake, merge_calls_append, run_calls_append, hrun, ok_bind]
      rw [run_cons_ok [] (apply_merge_eq hstep)]
      rfl
    have hkeys := keys_eq_sort q1 r2
    obtain ⟨a0, a1, a2, a3, a4, a5, a6, a7, he⟩ := list_eight _ q2
    rw [he] at hfinal hkeys
    refine ⟨_, 2, _, 0, 1, _, _, hfinal, rfl, rfl, rfl, rfl, ?_, rfl, rfl, rfl, rfl, ?_, ?_,
      rfl, rfl, rfl, rfl⟩
    · rw [← hkeys]
      rfl
    · rw [← hkeys]
      rfl
    · rw [← hkeys]
      rfl

theorem eight_keys_split_once_witness :
    eight_merges.length = 8 ∧ (eight_merges.map fun c => c.1).Nodup ∧
    ((∀ j, 1 ≤ j → j ≤ 7 → ∃ t r lf,
      run_calls 9 init (merge_calls (eight_merges.take j)) = .ok t ∧
      t.nlevel_ = 1 ∧ t.root_ = some r ∧ Live t r (.leaf lf) ∧ lf.nk_ = j ∧
      lf.parent_ = none ∧ lf.next_ = none ∧ n_leaf t = 1 ∧ n_internal t = 0) ∧
    ∃ t r m a b la lb, run_calls 9 init (merge_calls eight_merges) = .ok t ∧ t.nlevel_ = 2 ∧
      t.root_ = some r ∧ Live t r (.internal m) ∧ m.nk_ = 1 ∧
      m.keys =
        [((eight_merges.map fun c => c.1).toFinset.sort (fun x y => x ≤ y)).getD 4 0] ∧
      kid_at m 0 = some a ∧ kid_at m 1 = some b ∧
      Live t a (.leaf la) ∧ Live t b (.leaf lb) ∧
      la.live.map PAIR.key_ =
        ((eight_merges.map fun c => c.1).toFinset.sort (fun x y => x ≤ y)).take 4 ∧
      lb.live.map PAIR.key_ =
        ((eight_merges.map fun c => c.1).toFinset.sort (fun x y => x ≤ y)).drop 4 ∧
      la.next_ = some b ∧ lb.next_ = none ∧ n_leaf t = 2 ∧ n_internal t = 1) :=
  ⟨rfl, by decide, eight_keys_split_once eight_merges rfl (by decide)⟩

end Btree
